import Mathlib

/-!
TropoDB storage core: commit codec, L0 log manager and version-edit codec.

Shallow embedding of `db/tropodb/persistence/tropodb_committer.cc` and
`db/zns_impl/index/zns_version_edit.cc`.

Conventions.
* A byte is a natural number; a buffer or a string is a `List Byte`.
* `size_t`/`uint64_t` values are natural numbers.  Where a 32-bit or 64-bit
  wrap-around is part of what the code computes, it is written with an
  explicit `% 2 ^ 32` or `% 2 ^ 64`.
* A write outside an allocation is undefined behaviour in C++; the embedding
  returns `none` for it.
-/

namespace TropoDB

/-- One `char`. -/
abbrev Byte := Nat

/-! ## `util/crc32c.h` and `util/coding.h` -/

/-- Modelled from the spec: `kMaskDelta` of `util/crc32c.h`, which is not among
the sources; the constant of the LevelDB/RocksDB CRC masking. -/
def kMaskDelta : Nat := 0xa282ead8

/-- Modelled from the spec: the reflected CRC-32C (Castagnoli) polynomial. -/
def kCrc32cPoly : Nat := 0x82F63B78

/-- Modelled from the spec: one bit of the reflected CRC-32C shift register. -/
def crcBit (c : Nat) : Nat :=
  if c % 2 = 1 then (c / 2) ^^^ kCrc32cPoly else c / 2

/-- Modelled from the spec: one byte of CRC-32C, `table[(l ^ b) & 0xff] ^ (l >> 8)`
computed bit by bit. -/
def crcByte (l : Nat) (b : Byte) : Nat :=
  crcBit (crcBit (crcBit (crcBit (crcBit (crcBit (crcBit (crcBit (l ^^^ (b % 256)))))))))

namespace crc32c

/-- Modelled from the spec: `crc32c::Extend(init_crc, data, n)` of `util/crc32c.h`
(not among the sources): the CRC-32C of the concatenation of a string whose
CRC is `init_crc` with `data`. -/
def Extend (init_crc : Nat) (data : List Byte) : Nat :=
  (data.foldl crcByte (init_crc ^^^ 0xffffffff)) ^^^ 0xffffffff

/-- Modelled from the spec: `crc32c::Value(data, n) = Extend(0, data, n)`. -/
def Value (data : List Byte) : Nat := Extend 0 data

/-- Modelled from the spec: `crc32c::Mask`: rotate right by 15 bits and add
`kMaskDelta`, in 32-bit arithmetic. -/
def Mask (crc : Nat) : Nat :=
  (((crc >>> 15) ||| ((crc <<< 17) % 2 ^ 32)) + kMaskDelta) % 2 ^ 32

/-- Modelled from the spec: `crc32c::Unmask`, the inverse of `Mask`. -/
def Unmask (masked_crc : Nat) : Nat :=
  let rot := (masked_crc + 2 ^ 32 - kMaskDelta) % 2 ^ 32
  (rot >>> 17) ||| ((rot <<< 15) % 2 ^ 32)

end crc32c

/-- Modelled from the spec: `EncodeFixed32` of `util/coding.h` (not among the
sources): the four bytes of a 32-bit value, little-endian. -/
def EncodeFixed32 (v : Nat) : List Byte :=
  [v % 256, (v >>> 8) % 256, (v >>> 16) % 256, (v >>> 24) % 256]

/-- Modelled from the spec: `DecodeFixed32` of `util/coding.h`: the 32-bit
little-endian value of the first four bytes at `p`. -/
def DecodeFixed32 (p : List Byte) : Nat :=
  (p.getD 0 0 % 256) ||| ((p.getD 1 0 % 256) <<< 8) ||| ((p.getD 2 0 % 256) <<< 16)
    ||| ((p.getD 3 0 % 256) <<< 24)

/-! ## `tropodb_committer.h` -/

/-- Modelled from the spec: `kTropoHeaderSize`, the 8-byte record header
(`crc32c:4, len:3, type:1`); `tropodb_committer.h` is not among the sources. -/
def kTropoHeaderSize : Nat := 8

/-- Modelled from the spec: the record types `{Full, First, Middle, Last,
Invalid}` of `tropodb_committer.h` (not among the sources), with `kZeroType`
reserved as in the LevelDB log format this code derives from. -/
inductive TropoRecordType where
  | kZeroType
  | kFullType
  | kFirstType
  | kMiddleType
  | kLastType
  | kInvalid
  deriving DecidableEq, Repr

/-- Modelled from the spec: the numeric value of a record type,
`static_cast<uint32_t>(type)`, numbered as in the LevelDB log format. -/
def TropoRecordType.toNat : TropoRecordType → Nat
  | .kZeroType => 0
  | .kFullType => 1
  | .kFirstType => 2
  | .kMiddleType => 3
  | .kLastType => 4
  | .kInvalid => 5

/-- Modelled from the spec: `static_cast<TropoRecordType>(d)`.  A value that
names no enumerator takes the `default:` branch of every `switch`, as
`kInvalid` does. -/
def TropoRecordType.fromNat : Nat → TropoRecordType
  | 0 => .kZeroType
  | 1 => .kFullType
  | 2 => .kFirstType
  | 3 => .kMiddleType
  | 4 => .kLastType
  | _ => .kInvalid

/-- Modelled from the spec: `kTropoRecordTypeLast`, the numeric value of the
last record type that is not `kInvalid` (`kLastType`). -/
def kTropoRecordTypeLast : Nat := 4

/-- `InitTypeCrc`, the entries written inside the array:
`type_crc[i] = crc32c::Value(&t, 1)` with `t = static_cast<char>(i)`, for
`i = 0 .. kTropoRecordTypeLast`. -/
def InitTypeCrc : List Nat :=
  (List.range (kTropoRecordTypeLast + 1)).map (fun i => crc32c.Value [i % 256])

/-- The member `type_crc_[i]`. -/
def type_crc_ (i : Nat) : Nat := InitTypeCrc.getD i 0

/-! ## `TropoCommitter::SpaceNeeded` -/

/-- `TropoCommitter::SpaceNeeded(data_size)` for device block size `lba_size`
(the member `lba_size_`), in unbounded arithmetic: the value of the `size_t`
computation whenever that does not wrap (`SpaceNeeded64` is the computation
with the wrap). -/
def SpaceNeeded (lba_size data_size : Nat) : Nat :=
  let fragcount := data_size / lba_size + 1
  let size_needed := fragcount * kTropoHeaderSize + data_size
  ((size_needed + lba_size - 1) / lba_size) * lba_size

/-- `TropoCommitter::SpaceNeeded` in the 64-bit arithmetic of `size_t`: every
operation wraps modulo `2 ^ 64`. -/
def SpaceNeeded64 (lba_size data_size : Nat) : Nat :=
  let fragcount := (data_size / lba_size + 1) % 2 ^ 64
  let size_needed := ((fragcount * kTropoHeaderSize) % 2 ^ 64 + data_size) % 2 ^ 64
  ((((size_needed + lba_size) % 2 ^ 64 + 2 ^ 64 - 1) % 2 ^ 64 / lba_size) * lba_size) % 2 ^ 64

/-- Modelled from the spec: the contract formula for `space_needed`,
`ceil((ceil(n / lba_size) * kHeaderSize + n) / lba_size) * lba_size`. -/
def specSpaceNeeded (lba_size n : Nat) : Nat :=
  (((n ⌈/⌉ lba_size) * kTropoHeaderSize + n) ⌈/⌉ lba_size) * lba_size


/-! ## `TropoCommitter::CommitToCharArray` and `TropoCommitter::Commit` -/

/-- A bounds-checked write of `src` at offset `addr` of `buf`; `none` when the
write would leave the allocation. -/
def writeAt (buf : List Byte) (addr : Nat) (src : List Byte) : Option (List Byte) :=
  if addr + src.length ≤ buf.length then
    some (buf.take addr ++ src ++ buf.drop (addr + src.length))
  else none

/-- `memset(buf + addr, c, n)`. -/
def memset (buf : List Byte) (addr : Nat) (c : Byte) (n : Nat) : Option (List Byte) :=
  writeAt buf addr (List.replicate n c)

/-- `memcpy(buf + addr, src, src.size())`. -/
def memcpy (buf : List Byte) (addr : Nat) (src : List Byte) : Option (List Byte) :=
  writeAt buf addr src

/-- What one iteration of the encoder loop emits: the record's offset in the
output buffer (`frag_begin_addr`), its type, and the `fragment_length` payload
bytes at `ptr`. -/
structure Fragment where
  frag_begin_addr : Nat
  type : TropoRecordType
  body : List Byte
  deriving DecidableEq, Repr

/-- The writes of one iteration of the encoder loop
(`tropodb_committer.cc` lines 96-110, and again 164-178): zero one block, copy
the body behind the header, store the three length bytes, the type byte and the
masked CRC. -/
def writeFragment (lba_size : Nat) (fr : Fragment) (fragment : List Byte) :
    Option (List Byte) := do
  let fragment_length := fr.body.length
  let f ← memset fragment fr.frag_begin_addr 0 lba_size
  let f ← memcpy f (fr.frag_begin_addr + kTropoHeaderSize) fr.body
  let f ← writeAt f (fr.frag_begin_addr + 4) [fragment_length % 256]
  let f ← writeAt f (fr.frag_begin_addr + 5) [(fragment_length >>> 8) % 256]
  let f ← writeAt f (fr.frag_begin_addr + 6) [(fragment_length >>> 16) % 256]
  let f ← writeAt f (fr.frag_begin_addr + 7) [fr.type.toNat]
  let crc := crc32c.Mask (crc32c.Extend (type_crc_ fr.type.toNat) fr.body)
  writeAt f fr.frag_begin_addr (EncodeFixed32 crc)

/-- The `do { ... } while (s.ok() && left > 0)` loop of `CommitToCharArray` and
of `Commit` (`s` stays OK inside the loop).  `ptr` is the payload that is left,
so `left = ptr.length`.  The result lists the records emitted, one per
iteration, and gives the buffer, which is `none` once a write has left the
allocation.  The whole result is `none` when `fuel` iterations do not end the
loop. -/
def commitLoop (lba_size : Nat) :
    Nat → Option (List Byte) → Nat → List Byte → Bool →
      Option (List Fragment × Option (List Byte))
  | 0, _, _, _, _ => none
  | fuel + 1, fragment, walker, ptr, begin =>
    let left := ptr.length
    let avail := if lba_size > kTropoHeaderSize then lba_size - kTropoHeaderSize else 0
    let fragment_length := if left < avail then left else avail
    let end_ := left == fragment_length
    let type :=
      if begin && end_ then TropoRecordType.kFullType
      else if begin then TropoRecordType.kFirstType
      else if end_ then TropoRecordType.kLastType
      else TropoRecordType.kMiddleType
    let fr : Fragment := ⟨walker, type, ptr.take fragment_length⟩
    let fragment := fragment.bind (writeFragment lba_size fr)
    if left - fragment_length > 0 then
      (commitLoop lba_size fuel fragment (walker + (fragment_length + kTropoHeaderSize))
          (ptr.drop fragment_length) false).map (fun r => (fr :: r.1, r.2))
    else some ([fr], fragment)

/-- `TropoCommitter::CommitToCharArray(in, out)`: a buffer of
`SpaceNeeded(in.size())` bytes is allocated (its initial content is
indeterminate in C++ and is taken as zero) and filled by the loop.  The loop
consumes at least one payload byte per iteration whenever it ends at all, so
`in.size() + 1` iterations are enough fuel. -/
def CommitToCharArray (lba_size : Nat) (input : List Byte) :
    Option (List Fragment × Option (List Byte)) :=
  commitLoop lba_size (input.length + 1)
    (some (List.replicate (SpaceNeeded lba_size input.length) 0)) 0 input true


/-! ## The in-memory reader: `GetCommitReaderString`, `SeekCommitReaderString` -/

/-- `TropoDBConfig::deadbeef`, the placeholder string `"\xaf\xeb\xad\xde"`. -/
def deadbeef : List Byte := [0xaf, 0xeb, 0xad, 0xde]

/-- `TropoCommitReaderString` (declared in `tropodb_committer.h`): the cursor
fields are byte offsets into the string `in`, here `input`. -/
structure TropoCommitReaderString where
  commit_start : Nat
  commit_end : Nat
  commit_ptr : Nat
  input : List Byte
  scratch : List Byte
  deriving DecidableEq, Repr

/-- `TropoCommitter::GetCommitReaderString(in, reader)`. -/
def GetCommitReaderString (input : List Byte) : TropoCommitReaderString :=
  { commit_start := 0
    commit_end := input.length
    commit_ptr := 0
    input := input
    scratch := deadbeef }

/-- `static_cast<uint32_t>(header[7])` for a (signed) `char`: a byte with its top
bit set is sign-extended. -/
def charToUInt32 (b : Byte) : Nat :=
  if b % 256 < 128 then b % 256 else b % 256 + 0xffffff00

/-- The record type of the type byte of a header, lines 260-263 and 359-362:
`kInvalid` when `d > kTropoRecordTypeLast`, the enumerator numbered `d`
otherwise. -/
def typeOfByte (b : Byte) : TropoRecordType :=
  let d := charToUInt32 b
  if d > kTropoRecordTypeLast then TropoRecordType.kInvalid
  else TropoRecordType.fromNat d

/-- The two checks that turn a record type into `kInvalid`, lines 275-287 and
366-378: the claimed length does not fit in `to_read`, or the CRC over the
`1 + length` bytes from header offset 7 differs from the unmasked stored CRC.
`header` holds the bytes from the header on to the end of the buffer.  When
`7 + 1 + length` exceeds their number the code computes the CRC over bytes
outside the buffer (`seekStringReads` lists the offsets read); `actual_crc` is
then the CRC of the bytes that are there, and stands for the code only on
headers with `kTropoHeaderSize + length ≤ header.length`. -/
def checkedType (type : TropoRecordType) (header : List Byte) (length to_read : Nat) :
    TropoRecordType :=
  let type := if kTropoHeaderSize + length > to_read then TropoRecordType.kInvalid else type
  let expected_crc := crc32c.Unmask (DecodeFixed32 header)
  let actual_crc := crc32c.Value ((header.drop 7).take (1 + length))
  if actual_crc != expected_crc then TropoRecordType.kInvalid else type

/-- The record type the readers assign to a header. -/
def headerType (header : List Byte) (length to_read : Nat) : TropoRecordType :=
  checkedType (typeOfByte (header.getD 7 0)) header length to_read

/-- The 24-bit length of a header, `a | (b << 8) | (c << 16)`. -/
def headerLength (header : List Byte) : Nat :=
  let a := header.getD 4 0 % 256
  let b := header.getD 5 0 % 256
  let c := header.getD 6 0 % 256
  a ||| (b <<< 8) ||| (c <<< 16)

/-- The `while` loop of `SeekCommitReaderString`.  The result is the returned
`bool`, the output `*record`, and the reader; `none` when `fuel` iterations do
not end the loop. -/
def seekStringLoop (lba_size : Nat) :
    Nat → TropoCommitReaderString → Bool → Option (Bool × List Byte × TropoCommitReaderString)
  | 0, _, _ => none
  | fuel + 1, reader, in_fragmented_record =>
    if reader.commit_ptr < reader.commit_end ∧ reader.commit_ptr ≥ reader.commit_start then
      let to_read :=
        if reader.commit_end - reader.commit_ptr > lba_size then lba_size
        else reader.commit_end - reader.commit_ptr
      let header := reader.input.drop reader.commit_ptr
      let length := headerLength header
      let type := headerType header length to_read
      let reader := { reader with
        commit_ptr := reader.commit_ptr
          + ((length + kTropoHeaderSize + lba_size - 1) / lba_size) * lba_size }
      let body := (header.drop kTropoHeaderSize).take length
      match type with
      | .kFullType =>
        some (true, body, { reader with scratch := body })
      | .kFirstType =>
        seekStringLoop lba_size fuel { reader with scratch := body } true
      | .kMiddleType =>
        if !in_fragmented_record then
          seekStringLoop lba_size fuel reader in_fragmented_record
        else
          seekStringLoop lba_size fuel { reader with scratch := reader.scratch ++ body }
            in_fragmented_record
      | .kLastType =>
        if !in_fragmented_record then
          seekStringLoop lba_size fuel reader in_fragmented_record
        else
          some (true, reader.scratch ++ body,
            { reader with scratch := reader.scratch ++ body })
      | _ =>
        some (false, [], { reader with scratch := [] })
    else some (false, [], reader)

/-- `TropoCommitter::SeekCommitReaderString(reader, record)`: the returned
`bool`, the value of `*record` after the call (`record` before the call when
the call returns at once), and the reader.  Every iteration moves the cursor
forward by at least `lba_size` bytes, so `commit_end - commit_ptr + 1`
iterations are enough fuel when `lba_size > 0`. -/
def SeekCommitReaderString (lba_size : Nat) (reader : TropoCommitReaderString)
    (record : List Byte) : Option (Bool × List Byte × TropoCommitReaderString) :=
  if reader.commit_ptr ≥ reader.commit_end then some (false, record, reader)
  else
    seekStringLoop lba_size (reader.commit_end - reader.commit_ptr + 1)
      { reader with scratch := [] } false


/-! ## The layout the encoder produces -/

/-- The `lba_size` bytes that one iteration of the encoder loop leaves at
`frag_begin_addr`: the masked CRC, the three length bytes, the type byte, the
body and the zero fill. -/
def recordBytes (lba_size : Nat) (type : TropoRecordType) (body : List Byte) : List Byte :=
  EncodeFixed32 (crc32c.Mask (crc32c.Extend (type_crc_ type.toNat) body))
    ++ [body.length % 256, (body.length >>> 8) % 256, (body.length >>> 16) % 256, type.toNat]
    ++ body ++ List.replicate (lba_size - kTropoHeaderSize - body.length) 0


/-- The buffer after the writes of the records `recs` in order; `none` once a
write has left the allocation. -/
def writeRecords (lba_size : Nat) (recs : List Fragment) (fragment : Option (List Byte)) :
    Option (List Byte) :=
  recs.foldl (fun b fr => b.bind (writeFragment lba_size fr)) fragment

/-- The records of a payload `ptr` cut into pieces of `lba_size - 8` bytes from
offset `walker` on: the shape of what the encoder loop emits.  `begin` tells
whether the first piece is the first of the payload. -/
inductive Fragmented (lba_size : Nat) : Nat → Bool → List Byte → List Fragment → Prop
  | last (walker : Nat) (begin : Bool) (ptr : List Byte) :
      ptr.length ≤ lba_size - kTropoHeaderSize →
      Fragmented lba_size walker begin ptr
        [⟨walker, if begin then .kFullType else .kLastType, ptr⟩]
  | more (walker : Nat) (begin : Bool) (ptr : List Byte) (recs : List Fragment) :
      lba_size - kTropoHeaderSize < ptr.length →
      Fragmented lba_size (walker + lba_size) false
        (ptr.drop (lba_size - kTropoHeaderSize)) recs →
      Fragmented lba_size walker begin ptr
        (⟨walker, if begin then .kFirstType else .kMiddleType,
            ptr.take (lba_size - kTropoHeaderSize)⟩ :: recs)


/-- The bytes of the records `recs`, one block after the other. -/
def encodedBytes (lba_size : Nat) : List Fragment → List Byte
  | [] => []
  | fr :: recs => recordBytes lba_size fr.type fr.body ++ encodedBytes lba_size recs

/-- The type the encoder gives to record `k` of `count` records, the first of
which starts the payload iff `begin`. -/
def fragmentType (begin : Bool) (k count : Nat) : TropoRecordType :=
  if begin && k == 0 then (if count = 1 then .kFullType else .kFirstType)
  else if k + 1 = count then .kLastType else .kMiddleType


/-- The buffer `buf` with bit `k` of the byte at position `i` flipped. -/
def flipBit (buf : List Byte) (i k : Nat) : List Byte :=
  buf.set i (buf.getD i 0 ^^^ (1 <<< k))

/-- Position `i` of the encoded buffer lies in a byte that the CRC of a record
protects: one of the four stored CRC bytes, the type byte, or a payload byte
of the record `j` whose block contains `i`. -/
def crcProtected (lba_size : Nat) (recs : List Fragment) (i : Nat) : Prop :=
  ∃ j fr, recs[j]? = some fr ∧ j * lba_size ≤ i
    ∧ (i - j * lba_size < 4 ∨ i - j * lba_size = 7
      ∨ (kTropoHeaderSize ≤ i - j * lba_size
          ∧ i - j * lba_size < kTropoHeaderSize + fr.body.length))


/-! ## The zone log and the device reader -/

/-- The status kinds of `rocksdb::Status` that the core returns. -/
inductive Status where
  | OK
  | InvalidArgument
  | IOError
  | MemoryLimit
  | Corruption
  | NoSpace
  deriving DecidableEq, Repr

/-- Modelled from the spec: the zone log collaborator (`SZD::SZDLog`, not among
the sources), without wrap-around: the bytes of its LBA range from LBA 0 and
the write head, an LBA. -/
structure SZDLog where
  blocks : List Byte
  write_head : Nat
  deriving DecidableEq, Repr

/-- Modelled from the spec: `space_left(bytes)`: the log has room for `size`
bytes, rounded up to whole LBAs, at the write head. -/
def SZDLog.SpaceLeft (lba_size : Nat) (log : SZDLog) (size : Nat) : Bool :=
  decide ((log.write_head + (size + lba_size - 1) / lba_size) * lba_size ≤ log.blocks.length)

/-- Modelled from the spec: `append(data, len) → lbas_written`: appends the
first `size` bytes of `data` at the write head and advances the head by a
whole number of LBAs; `IOError` when the log has no room. -/
def SZDLog.Append (lba_size : Nat) (log : SZDLog) (data : List Byte) (size : Nat) :
    Status × Nat × SZDLog :=
  let lbas := (size + lba_size - 1) / lba_size
  if log.SpaceLeft lba_size size then
    match writeAt log.blocks (log.write_head * lba_size) (data.take size) with
    | some blocks => (Status.OK, lbas, { blocks := blocks, write_head := log.write_head + lbas })
    | none => (Status.IOError, 0, log)
  else (Status.IOError, 0, log)

/-- Modelled from the spec: `read(lba, buffer, offset, len, ...)`: the `size`
bytes of the log from LBA `lba` on, as they land in the read buffer. -/
def SZDLog.Read (lba_size : Nat) (log : SZDLog) (lba size : Nat) : List Byte :=
  (log.blocks.drop (lba * lba_size)).take size

/-- `TropoCommitter::Commit(data, lbas)`.  `ReallocBuffer`, `GetBuffer` and
`FreeBuffer` of the write buffer are taken to succeed.  The result lists the
records emitted by the loop and gives the returned status, `*lbas` and the log
after the append; the latter is `none` when a write of the loop has left the
`size_needed` bytes of the write buffer, and the whole result is `none` when
the loop does not end. -/
def Commit (lba_size : Nat) (keep_buffer : Bool) (log : SZDLog) (data : List Byte) :
    Option (List Fragment × Option (Status × Nat × SZDLog)) :=
  let fragcount := data.length / lba_size + 1
  let size_needed := fragcount * kTropoHeaderSize + data.length
  let size_needed := ((size_needed + lba_size - 1) / lba_size) * lba_size
  (commitLoop lba_size (data.length + 1) (some (List.replicate size_needed 0)) 0 data true).map
    (fun r =>
      (r.1, r.2.map (fun write_buffer =>
        let (s, lbas_iter, log) := log.Append lba_size write_buffer size_needed
        let lbas := 0 + lbas_iter
        let s := if !keep_buffer then Status.OK else s
        (s, lbas, log))))

/-- `TropoCommitReader` (declared in `tropodb_committer.h`): the cursor fields
are LBAs of the log. -/
structure TropoCommitReader where
  commit_start : Nat
  commit_end : Nat
  commit_ptr : Nat
  reader_nr : Nat
  scratch : List Byte
  deriving DecidableEq, Repr

/-- `TropoCommitter::GetCommitReader(reader_number, begin, end, reader)`; the
`ReallocBuffer(lba_size_)` of the read buffer is taken to succeed.  `reader` is
left as it was when the arguments are refused. -/
def GetCommitReader (number_of_readers : Nat) (reader_number begin_ end_ : Nat)
    (reader : TropoCommitReader) : Status × TropoCommitReader :=
  if begin_ ≥ end_ ∨ reader_number ≥ number_of_readers then (Status.InvalidArgument, reader)
  else
    (Status.OK,
      { commit_start := begin_
        commit_end := end_
        commit_ptr := begin_
        reader_nr := reader_number
        scratch := deadbeef })

/-- The `while` loop of `SeekCommitReader`.  The result is the returned `bool`,
the output `*record`, and the reader; `none` when `fuel` iterations do not end
the loop.  `to_read` is a `size_t`: the product wraps modulo `2 ^ 64`. -/
def seekLoop (lba_size : Nat) (log : SZDLog) :
    Nat → TropoCommitReader → Bool → Option (Bool × List Byte × TropoCommitReader)
  | 0, _, _ => none
  | fuel + 1, reader, in_fragmented_record =>
    if reader.commit_ptr < reader.commit_end ∧ reader.commit_ptr ≥ reader.commit_start then
      let to_read :=
        if (reader.commit_end - reader.commit_ptr) * lba_size % 2 ^ 64 > lba_size then lba_size
        else (reader.commit_end - reader.commit_ptr) * lba_size % 2 ^ 64
      let header := log.Read lba_size reader.commit_ptr lba_size
      let type := typeOfByte (header.getD 7 0)
      let length := headerLength header
      let header :=
        if length > lba_size ∧ length ≤ (to_read + 2 ^ 64 - kTropoHeaderSize) % 2 ^ 64 then
          log.Read lba_size reader.commit_ptr to_read
        else header
      let type := checkedType type header length to_read
      let reader := { reader with
        commit_ptr := reader.commit_ptr + (length + lba_size - 1) / lba_size }
      let body := (header.drop kTropoHeaderSize).take length
      match type with
      | .kFullType =>
        some (true, body, { reader with scratch := body })
      | .kFirstType =>
        seekLoop lba_size log fuel { reader with scratch := body } true
      | .kMiddleType =>
        if !in_fragmented_record then
          seekLoop lba_size log fuel reader in_fragmented_record
        else
          seekLoop lba_size log fuel { reader with scratch := reader.scratch ++ body }
            in_fragmented_record
      | .kLastType =>
        if !in_fragmented_record then
          seekLoop lba_size log fuel reader in_fragmented_record
        else
          some (true, reader.scratch ++ body,
            { reader with scratch := reader.scratch ++ body })
      | _ =>
        some (false, [], { reader with scratch := [] })
    else some (false, [], reader)

/-- `TropoCommitter::SeekCommitReader(reader, record)` with `buffer_size` the
`GetBufferSize()` of the reader's read buffer: the returned `bool`, the value
of `*record` after the call, and the reader; `none` when the loop does not end
within `fuel` iterations. -/
def SeekCommitReader (lba_size : Nat) (log : SZDLog) (buffer_size : Nat) (fuel : Nat)
    (reader : TropoCommitReader) (record : List Byte) :
    Option (Bool × List Byte × TropoCommitReader) :=
  if buffer_size == 0 then some (false, record, reader)
  else if reader.commit_ptr ≥ reader.commit_end then some (false, record, reader)
  else seekLoop lba_size log fuel { reader with scratch := [] } false


/-- The `to_read` of one iteration of `SeekCommitReader`; the product is a
`size_t`. -/
def deviceToRead (lba_size : Nat) (reader : TropoCommitReader) : Nat :=
  if (reader.commit_end - reader.commit_ptr) * lba_size % 2 ^ 64 > lba_size then lba_size
  else (reader.commit_end - reader.commit_ptr) * lba_size % 2 ^ 64

/-- The `length` that one iteration of `SeekCommitReader` parses at the cursor. -/
def deviceLength (lba_size : Nat) (log : SZDLog) (reader : TropoCommitReader) : Nat :=
  headerLength (log.Read lba_size reader.commit_ptr lba_size)

/-- The buffer `header` points to when one iteration of `SeekCommitReader`
validates the CRC: the block read at the cursor, or what the second read
returned. -/
def deviceHeader (lba_size : Nat) (log : SZDLog) (reader : TropoCommitReader) : List Byte :=
  if deviceLength lba_size log reader > lba_size
      ∧ deviceLength lba_size log reader
          ≤ (deviceToRead lba_size reader + 2 ^ 64 - kTropoHeaderSize) % 2 ^ 64 then
    log.Read lba_size reader.commit_ptr (deviceToRead lba_size reader)
  else log.Read lba_size reader.commit_ptr lba_size

/-- The record type one iteration of `SeekCommitReader` dispatches on. -/
def deviceType (lba_size : Nat) (log : SZDLog) (reader : TropoCommitReader) : TropoRecordType :=
  checkedType (typeOfByte ((log.Read lba_size reader.commit_ptr lba_size).getD 7 0))
    (deviceHeader lba_size log reader) (deviceLength lba_size log reader)
    (deviceToRead lba_size reader)


/-- `TropoCommitter::SpaceEnough(data)`: `log_->SpaceLeft(SpaceNeeded(data.size()))`. -/
def SpaceEnough (lba_size : Nat) (log : SZDLog) (data : List Byte) : Bool :=
  log.SpaceLeft lba_size (SpaceNeeded lba_size data.length)

/-- `TropoCommitter::SafeCommit(data, lbas)`: `Status::IOError("No space left")`
without touching the log or `*lbas` when `SpaceEnough` fails, `Commit`
otherwise.  `lbas` is the value of `*lbas` before the call. -/
def SafeCommit (lba_size : Nat) (keep_buffer : Bool) (log : SZDLog) (data : List Byte)
    (lbas : Nat) : Option (List Fragment × Option (Status × Nat × SZDLog)) :=
  if !SpaceEnough lba_size log data then some ([], some (Status.IOError, lbas, log))
  else Commit lba_size keep_buffer log data


/-! ## The L0 manager: tail reclamation -/

/-- A value of type `uint64_t`: sums are taken modulo `2 ^ 64`. -/
def u64 (x : Nat) : Nat := x % 2 ^ 64

/-- Modelled from the spec: the `L0` member of `SSZoneMetaData` (declared in
`tropodb_zonemetadata.h`, not among the sources): the LBA at which an L0 table
starts and the number of the L0 log (lane) that holds it. -/
structure L0Location where
  lba : Nat
  log_number : Nat
  deriving DecidableEq, Repr

/-- Modelled from the spec: the fields of `SSZoneMetaData` (declared in
`tropodb_zonemetadata.h`, not among the sources) that the L0 manager reads and
writes: the table number, the L0 location and the number of LBAs of the table. -/
structure SSZoneMetaData where
  number : Nat
  L0 : L0Location
  lba_count : Nat
  deriving DecidableEq, Repr

/-- The memory holding the `SSZoneMetaData` objects: a `SSZoneMetaData*` is a
natural number, and the heap gives the object each pointer points to. -/
abbrev MetaHeap := Nat → SSZoneMetaData

/-- The heap after the object at `p` has been overwritten with `m`. -/
def MetaHeap.store (heap : MetaHeap) (p : Nat) (m : SSZoneMetaData) : MetaHeap :=
  fun q => if q = p then m else heap q

/-- Modelled from the spec: what `TryInvalidateSSZones` asks of the circular
zone log (`SZD::SZDCircularLog`, not among the sources): `get_write_tail()`,
`wrapped_addr(x)`, the address arithmetic that wraps around the LBA range of
the log, and the status that `consume_tail(from_lba, to_lba)` reports. -/
structure SZDCircularLog where
  write_tail : Nat
  wrapped_addr : Nat → Nat
  ConsumeTail : Nat → Nat → Status

/-- The state in which the `for` loop of `TryInvalidateSSZones` is left:
`duplicate` says that the loop returned `Corruption` from inside. -/
structure InvalidateWalk where
  duplicate : Bool
  heap : MetaHeap
  blocks_to_delete : Nat
  upto : Nat

/-- The loop `for (; i < metas.size(); i++)` of `TryInvalidateSSZones`, over
the pointers `metas[i..]` that are still to be visited. -/
def invalidateLoop (zone_cap : Nat) (log : SZDCircularLog) (mock : Nat) :
    List Nat → MetaHeap → Nat → Nat → Nat → Nat → Nat → InvalidateWalk
  | [], heap, _, _, blocks_to_delete, upto, _ => ⟨false, heap, blocks_to_delete, upto⟩
  | m :: rest, heap, prev, blocks, blocks_to_delete, upto, i =>
    if (heap prev).number = (heap m).number then
      ⟨true, heap, blocks_to_delete, upto⟩
    else if log.wrapped_addr (u64 ((heap prev).L0.lba + (heap prev).lba_count))
        ≠ (heap m).L0.lba then
      ⟨false, heap, blocks_to_delete, upto⟩
    else
      let blocks := u64 (blocks + (heap m).lba_count)
      if zone_cap ≤ blocks then
        invalidateLoop zone_cap log mock rest
          (heap.store mock { heap mock with number := (heap m).number }) m 0
          (u64 (blocks_to_delete + blocks)) (i + 1) (i + 1)
      else
        invalidateLoop zone_cap log mock rest heap m blocks blocks_to_delete upto (i + 1)

/-- What a call of `TryInvalidateSSZones` leaves behind: the returned status,
the vector `remaining_metas`, the heap of meta objects, and the arguments of
the call of `ConsumeTail`, if one was made. -/
structure InvalidateResult where
  status : Status
  remaining_metas : List Nat
  heap : MetaHeap
  consume_tail : Option (Nat × Nat)

/-- `TropoL0SSTable::TryInvalidateSSZones(metas, remaining_metas)`.  The result
is `none` when the call divides by a `zone_cap_` of zero. -/
def TryInvalidateSSZones (zone_cap : Nat) (log : SZDCircularLog) (heap : MetaHeap)
    (metas remaining_metas : List Nat) : Option InvalidateResult :=
  match metas with
  | [] => some ⟨Status.Corruption, remaining_metas, heap, none⟩
  | prev :: rest =>
    let mock := prev
    if log.write_tail ≠ (heap prev).L0.lba then
      some ⟨Status.OK, remaining_metas ++ prev :: rest, heap, none⟩
    else if zone_cap = 0 then none
    else
      let blocks := (heap prev).L0.lba - ((heap prev).L0.lba / zone_cap) * zone_cap
      let blocks := u64 (blocks + (heap prev).lba_count)
      let walk := invalidateLoop zone_cap log mock rest heap prev blocks 0 0 1
      if walk.duplicate then
        some ⟨Status.Corruption, remaining_metas, walk.heap, none⟩
      else
        let blocks_to_delete := walk.blocks_to_delete
        let carved := decide (blocks_to_delete % zone_cap ≠ 0)
        let safe := (blocks_to_delete / zone_cap) * zone_cap
        let heap1 := if carved then
            (walk.heap.store mock
              { walk.heap mock with lba_count := blocks_to_delete - safe }) else walk.heap
        let blocks_to_delete := if carved then safe else blocks_to_delete
        let heap2 := if carved then
            heap1.store mock { heap1 mock with
              L0 := { (heap1 mock).L0 with
                lba := log.wrapped_addr (u64 (log.write_tail + blocks_to_delete)) } }
          else heap1
        let remaining_metas := if carved then remaining_metas ++ [mock] else remaining_metas
        let blocks_to_delete := (blocks_to_delete / zone_cap) * zone_cap
        let s := if 0 < blocks_to_delete then
            log.ConsumeTail log.write_tail (u64 (log.write_tail + blocks_to_delete))
          else Status.OK
        let consumed := if 0 < blocks_to_delete then
            some (log.write_tail, u64 (log.write_tail + blocks_to_delete)) else none
        some ⟨s, remaining_metas ++ (prev :: rest).drop walk.upto, heap2, consumed⟩

/-- The log of the tail-reclamation scenarios of the spec: the write tail is
`write_tail`, `wrapped_addr` wraps nothing, every `consume_tail` succeeds. -/
def scenarioLog (write_tail : Nat) : SZDCircularLog :=
  ⟨write_tail, fun x => x, fun _ _ => Status.OK⟩

/-- The tables of the tail-reclamation scenarios of the spec (`zone_cap = 64`,
L0 tables of `lba_count = 16` from `lba = 0` on): the table at pointer `p` has
number `p + 1` and starts at LBA `16 * p`. -/
def scenarioTables : MetaHeap := fun p => ⟨p + 1, ⟨16 * p, 0⟩, 16⟩

/-- The sum of the `lba_count` of the tables that `ptrs` point to. -/
def lbaCountSum (heap : MetaHeap) (ptrs : List Nat) : Nat :=
  (ptrs.map (fun p => (heap p).lba_count)).sum

/-- The two tests the loop of `TryInvalidateSSZones` makes on neighbours of the
victim list: table `b` carries another number than table `a`, and it starts at
the (wrapped) LBA at which `a` ends. -/
def Adjacent (log : SZDCircularLog) (heap : MetaHeap) (a b : Nat) : Prop :=
  (heap a).number ≠ (heap b).number
    ∧ log.wrapped_addr (u64 ((heap a).L0.lba + (heap a).lba_count)) = (heap b).L0.lba

/-- Heap `heap` is heap `heap0` up to the `number` of the object at `mock`. -/
def HeapSame (mock : Nat) (heap heap0 : MetaHeap) : Prop :=
  ∀ q, (heap q).L0 = (heap0 q).L0 ∧ (heap q).lba_count = (heap0 q).lba_count
    ∧ (q ≠ mock → heap q = heap0 q)


/-! ## The L0 manager: writing and reading tables, the reader pool -/

/-- `TropoDBConfig::number_of_concurrent_L0_readers`. -/
def number_of_concurrent_L0_readers : Nat := 4

/-- Modelled from the spec: the operations of the zone log collaborator
(`SZD::SZDCircularLog`, not among the sources) that `WriteSSTable` calls, on a
log state of type `σ`: `space_left(bytes)`, `get_write_head()`, and
`append(data, len)` with the status, the number of LBAs it reports through its
out-parameter (`none` when it leaves the out-parameter alone) and the log after
it. -/
structure L0LogOps (σ : Type) where
  SpaceLeft : σ → Nat → Bool
  GetWriteHead : σ → Nat
  Append : σ → List Byte → Nat → Status × Option Nat × σ

/-- `TropoL0SSTable::EnoughSpaceAvailable(slice)`. -/
def EnoughSpaceAvailable {σ : Type} (ops : L0LogOps σ) (log_ : σ) (slice : List Byte) : Bool :=
  ops.SpaceLeft log_ slice.length

/-- `TropoL0SSTable::WriteSSTable(content, meta)`: the returned status, the
object `*meta` after the call and the log after the call. -/
def WriteSSTable {σ : Type} (ops : L0LogOps σ) (log_ : σ) (content : List Byte)
    (meta : SSZoneMetaData) : Status × SSZoneMetaData × σ :=
  if !EnoughSpaceAvailable ops log_ content then
    (Status.IOError, meta, log_)
  else
    let meta := { meta with L0 := { meta.L0 with lba := ops.GetWriteHead log_ } }
    let (s, lbas, log_) := ops.Append log_ content content.length
    let meta := { meta with lba_count := lbas.getD meta.lba_count }
    (s, meta, log_)

/-- The scan of `request_read_queue`: the lowest `i` below
`number_of_concurrent_L0_readers` with `read_queue_[i] == 0`, and
`number_of_concurrent_L0_readers` when there is none. -/
def scanReadQueue (read_queue_ : List Nat) : Nat :=
  ((List.range number_of_concurrent_L0_readers).find?
    (fun i => read_queue_.getD i 0 == 0)).getD number_of_concurrent_L0_readers

/-- `TropoL0SSTable::request_read_queue()`, run under `mutex_`: the picked
reader and the counters after the call, or `none` when every counter is taken
and the caller waits on `cv_`. -/
def request_read_queue (read_queue_ : List Nat) : Option (Nat × List Nat) :=
  let picked_reader := scanReadQueue read_queue_
  if picked_reader ≥ number_of_concurrent_L0_readers then none
  else some (picked_reader,
    read_queue_.set picked_reader ((read_queue_.getD picked_reader 0 + 1) % 256))

/-- `TropoL0SSTable::release_read_queue(reader)`, run under `mutex_`: the
counters after the call, or `none` when the assertion fails. -/
def release_read_queue (read_queue_ : List Nat) (reader : Nat) : Option (List Nat) :=
  if reader < number_of_concurrent_L0_readers ∧ read_queue_.getD reader 0 ≠ 0 then
    some (read_queue_.set reader 0)
  else none

/-- What a call of `ReadSSTable` does: the status it returns (`none` when the
process exits), the reader it has requested from the pool, the device read it
has issued as (lba, size, reader), the slice `*sstable` and the counters of the
pool after the call. -/
structure ReadSSTableResult where
  status : Option Status
  readernr : Option Nat
  read : Option (Nat × Nat × Nat)
  sstable : List Byte
  read_queue_ : List Nat
  deriving DecidableEq, Repr

/-- `TropoL0SSTable::ReadSSTable(sstable, meta)`, with `Read lba size reader`
the status and the bytes of the ranged read of the log.  The result is `none`
when the call waits for a reader. -/
def ReadSSTable (min_zone_head_ max_zone_head_ lba_size_ : Nat)
    (Read : Nat → Nat → Nat → Status × List Byte) (read_queue_ : List Nat)
    (sstable : List Byte) (meta : SSZoneMetaData) : Option ReadSSTableResult :=
  if meta.L0.lba > max_zone_head_ ∨ meta.L0.lba < min_zone_head_
      ∨ meta.lba_count > u64 (max_zone_head_ + 2 ^ 64 - min_zone_head_) then
    some ⟨some Status.Corruption, none, none, sstable, read_queue_⟩
  else
    match request_read_queue read_queue_ with
    | none => none
    | some (readernr, read_queue_) =>
      let size := u64 (meta.lba_count * lba_size_)
      let (s, data) := Read meta.L0.lba size readernr
      match release_read_queue read_queue_ readernr with
      | none => none
      | some read_queue_ =>
        if s ≠ Status.OK then
          some ⟨none, some readernr, some (meta.L0.lba, size, readernr), data, read_queue_⟩
        else
          some ⟨some Status.OK, some readernr, some (meta.L0.lba, size, readernr), data,
            read_queue_⟩

/-- The loop `for (auto nmeta : metas) { nmeta.L0.log_number = parallel_number; }`
that ends `FlushMemTable`.  `auto nmeta` declares a copy of the element, and
the assignment goes to the copy: the result is the vector `metas` after the
loop and, next to it, the copies as the loop has left them. -/
def forceLogNumber (metas : List SSZoneMetaData) (parallel_number : Nat) :
    List SSZoneMetaData × List SSZoneMetaData :=
  (metas, metas.map (fun nmeta => { nmeta with L0 := { nmeta.L0 with log_number := parallel_number } }))

/-- The reader pool with the acquirers that hold a reader: `read_queue_` and,
as a ghost, the readers handed out by `request_read_queue` and not yet given
back, latest first.  A step is one call of `request_read_queue` that returns
or one call of `release_read_queue` by a holder of the reader. -/
inductive PoolReachable : List Nat → List Nat → Prop where
  | init : PoolReachable (List.replicate number_of_concurrent_L0_readers 0) []
  | request (read_queue_ held : List Nat) (reader : Nat) (read_queue2 : List Nat) :
      PoolReachable read_queue_ held →
      request_read_queue read_queue_ = some (reader, read_queue2) →
      PoolReachable read_queue2 (reader :: held)
  | release (read_queue_ held : List Nat) (reader : Nat) (read_queue2 : List Nat) :
      PoolReachable read_queue_ held → reader ∈ held →
      release_read_queue read_queue_ reader = some read_queue2 →
      PoolReachable read_queue2 (held.erase reader)


/-! ## The L0 manager: deferred flushes -/

/-- `TropoDBConfig::flushing_maximum_deferred_writes`. -/
def flushing_maximum_deferred_writes : Nat := 4

/-- Modelled from the spec: a sealed `TropoSSTableBuilder` (the class is not
among the sources), as far as the deferred flush sees it: the status its
`Flush()` returns and the meta its `GetMeta()` points to after the flush. -/
structure TropoSSTableBuilder where
  Flush : Status
  GetMeta : SSZoneMetaData
  deriving DecidableEq, Repr

/-- The fields of the mailbox `DeferredFlush` that `FlushSSTable`,
`FlushMemTable` and `DeferFlushWrite` share (the struct is declared in
`tropodb_l0_sstable.h`, not among the sources); a null pointer in
`deferred_builds_` is `none`, and `metas_` is the vector it points to. -/
structure DeferredFlush where
  deferred_builds_ : List (Option TropoSSTableBuilder)
  index_ : Nat
  last_ : Bool
  done_ : Bool
  metas_ : List SSZoneMetaData
  deriving DecidableEq, Repr

/-- The deferred branch of `TropoL0SSTable::FlushSSTable`, run under
`deferred_.mutex_` with `max` for `flushing_maximum_deferred_writes`: the
mailbox after the builder has been pushed, or `none` when the call waits on
`new_task_` instead. -/
def FlushSSTable (max : Nat) (deferred_ : DeferredFlush)
    (current_builder : TropoSSTableBuilder) : Option DeferredFlush :=
  if deferred_.deferred_builds_.length > deferred_.index_
      ∧ deferred_.deferred_builds_.length - deferred_.index_ > max then none
  else some { deferred_ with
    deferred_builds_ := deferred_.deferred_builds_ ++ [some current_builder] }

/-- Where the thread of `DeferFlushWrite` stands: at the top of its loop, in
`new_task_.Wait()`, with a task (the pointer read from
`deferred_builds_[index_]`), at a read of `deferred_builds_[index_]` past the
end of the vector, or returned. -/
inductive Worker where
  | top
  | waiting
  | task (current_builder : Option TropoSSTableBuilder)
  | outOfBounds
  | returned
  deriving DecidableEq, Repr

/-- The mailbox, the worker, whether a `SignalAll` has reached the waiting
worker, and, as a ghost, the builders pushed so far in the order of the
pushes. -/
structure FlushState where
  deferred_ : DeferredFlush
  worker : Worker
  signalled : Bool
  pushed : List TropoSSTableBuilder
  deriving DecidableEq, Repr

/-- The state in which `FlushMemTable` schedules `DeferFlushWrite`, with the
vector `metas` of the caller. -/
def FlushState.init (metas : List SSZoneMetaData) : FlushState :=
  ⟨⟨[], 0, false, false, metas⟩, Worker.top, false, []⟩

/-- The first critical section of the loop of `DeferFlushWrite`, entered at the
top of the loop: past the end of the mailbox the worker dies when `last_` is
set and waits otherwise; else it takes `deferred_builds_[index_]`. -/
def workerTop (s : FlushState) : FlushState :=
  if s.deferred_.index_ ≥ s.deferred_.deferred_builds_.length then
    if s.deferred_.last_ then
      { s with deferred_ := { s.deferred_ with done_ := true }, worker := Worker.returned }
    else { s with worker := Worker.waiting, signalled := false }
  else
    { s with worker := Worker.task (s.deferred_.deferred_builds_.getD s.deferred_.index_ none) }

/-- The worker returns from `new_task_.Wait()` and goes on, without a second
look at `index_`, to read `deferred_builds_[index_]`. -/
def workerWake (s : FlushState) : FlushState :=
  if s.deferred_.index_ < s.deferred_.deferred_builds_.length then
    { s with worker := Worker.task (s.deferred_.deferred_builds_.getD s.deferred_.index_ none) }
  else { s with worker := Worker.outOfBounds }

/-- The worker processes its task: the flush, and the critical section that
adds the meta, clears the entry of the mailbox, moves `index_` on and
signals.  (When `index_` lies past the end of the vector, after a read past its
end, the store `deferred_builds_[index_] = nullptr` falls outside the vector:
the vector is left as it is.) -/
def workerFinish (s : FlushState) (current_builder : Option TropoSSTableBuilder) :
    FlushState :=
  let st := match current_builder with
    | none => Status.Corruption
    | some b => b.Flush
  let deferred_ := match current_builder with
    | some b =>
      if st ≠ Status.OK then s.deferred_
      else { s.deferred_ with
        metas_ := s.deferred_.metas_ ++ [b.GetMeta],
        deferred_builds_ := s.deferred_.deferred_builds_.set s.deferred_.index_ none }
    | none => s.deferred_
  { s with deferred_ := { deferred_ with index_ := deferred_.index_ + 1 },
           worker := Worker.top }

/-- The steps of a deferred flush, with `max` for
`flushing_maximum_deferred_writes`: the producer pushes a builder
(`FlushSSTable` returns) or sets `last_` (the teardown of `FlushMemTable`),
both with `SignalAll`; the worker runs a critical section of
`DeferFlushWrite`, and leaves its wait only after a signal.  A read of
`deferred_builds_[index_]` past the end of the vector returns an indeterminate
pointer `value` (possibly null), and the worker goes on with it as its
task. -/
inductive FlushStep (max : Nat) : FlushState → FlushState → Prop where
  | push (s : FlushState) (b : TropoSSTableBuilder) (d : DeferredFlush) :
      FlushSSTable max s.deferred_ b = some d →
      FlushStep max s { s with deferred_ := d, signalled := true, pushed := s.pushed ++ [b] }
  | last (s : FlushState) :
      FlushStep max s { s with deferred_ := { s.deferred_ with last_ := true },
                               signalled := true }
  | top (s : FlushState) : s.worker = Worker.top → FlushStep max s (workerTop s)
  | wake (s : FlushState) : s.worker = Worker.waiting → s.signalled = true →
      FlushStep max s (workerWake s)
  | stray (s : FlushState) (value : Option TropoSSTableBuilder) :
      s.worker = Worker.outOfBounds →
      FlushStep max s { s with worker := Worker.task value }
  | finish (s : FlushState) (current_builder : Option TropoSSTableBuilder) :
      s.worker = Worker.task current_builder →
      FlushStep max s (workerFinish s current_builder)

/-- The states a deferred flush reaches from the start of `FlushMemTable`. -/
inductive FlushReachable (max : Nat) (metas : List SSZoneMetaData) : FlushState → Prop where
  | init : FlushReachable max metas (FlushState.init metas)
  | step (s t : FlushState) : FlushReachable max metas s → FlushStep max s t →
      FlushReachable max metas t

/-- One read of `deferred_builds_[index_]` by the worker: the index, whether it
lay inside the vector, and the pointer the read returned. -/
structure Take where
  index : Nat
  inside : Bool
  value : Option TropoSSTableBuilder
  deriving DecidableEq, Repr

/-- The read of `deferred_builds_[index_]` that the worker completes in a step
from `s` to `t`, if it completes one: in `t` it holds a task that it did not
hold in `s`.  The read was past the end of the vector when `s` is the state
`outOfBounds`. -/
def takeOf (s t : FlushState) : List Take :=
  match s.worker, t.worker with
  | Worker.task _, _ => []
  | Worker.outOfBounds, Worker.task value => [⟨s.deferred_.index_, false, value⟩]
  | _, Worker.task value => [⟨s.deferred_.index_, true, value⟩]
  | _, _ => []

/-- The runs of a deferred flush from the start of `FlushMemTable`: the state
reached and, as a ghost, the reads of `deferred_builds_[index_]` the worker has
made, in the order of the reads. -/
inductive FlushRun (max : Nat) (metas : List SSZoneMetaData) :
    FlushState → List Take → Prop where
  | init : FlushRun max metas (FlushState.init metas) []
  | step (s t : FlushState) (takes : List Take) : FlushRun max metas s takes →
      FlushStep max s t → FlushRun max metas t (takes ++ takeOf s t)

/-- The reads whose task the worker has processed: all reads but the one
whose task it holds. -/
def finishedTakes (s : FlushState) (takes : List Take) : List Take :=
  match s.worker with
  | Worker.task _ => takes.dropLast
  | _ => takes

namespace zns_impl

/-! ## The version edit codec (`db/zns_impl/index/zns_version_edit.cc`) -/

/-- Modelled from the spec: `ZnsConfig::level_count` (`db/zns_impl/config.h` is
not among the sources), with the value `TropoDBConfig::level_count` has. -/
def level_count : Nat := 6

/-- Modelled from the spec: the bytes of a LEB128 varint (`PutVarint32` and
`PutVarint64` of `util/coding.h`, not among the sources): seven bits a byte,
lowest first, the high bit set on every byte but the last; at most `fuel`
bytes. -/
def putVarint : Nat → Nat → List Byte
  | 0, _ => []
  | fuel + 1, v =>
    if v < 128 then [v] else (v % 128 + 128) :: putVarint fuel (v / 128)

/-- Modelled from the spec: `PutVarint32(dst, v)`, the bytes appended. -/
def PutVarint32 (v : Nat) : List Byte := putVarint 5 (v % 2 ^ 32)

/-- Modelled from the spec: `PutVarint64(dst, v)`, the bytes appended. -/
def PutVarint64 (v : Nat) : List Byte := putVarint 10 (v % 2 ^ 64)

/-- Modelled from the spec: the reader of a LEB128 varint of at most `fuel`
bytes: the value read so far is `result`, the next byte counts from bit
`shift`; `none` when the input ends inside the varint or the varint is
longer. -/
def getVarint : Nat → Nat → Nat → List Byte → Option (Nat × List Byte)
  | 0, _, _, _ => none
  | _ + 1, _, _, [] => none
  | fuel + 1, shift, result, byte :: input =>
    if 128 ≤ byte then
      getVarint fuel (shift + 7) (result + (byte % 128) * 2 ^ shift) input
    else some (result + byte * 2 ^ shift, input)

/-- Modelled from the spec: `GetVarint32(input, value)`: the value, a
`uint32_t`, and the input left; `none` for false. -/
def GetVarint32 (input : List Byte) : Option (Nat × List Byte) :=
  (getVarint 5 0 0 input).map (fun r => (r.1 % 2 ^ 32, r.2))

/-- Modelled from the spec: `GetVarint64(input, value)`. -/
def GetVarint64 (input : List Byte) : Option (Nat × List Byte) :=
  (getVarint 10 0 0 input).map (fun r => (r.1 % 2 ^ 64, r.2))

/-- Modelled from the spec: `PutFixed8(dst, v)`: a single byte. -/
def PutFixed8 (v : Nat) : List Byte := [v % 256]

/-- Modelled from the spec: `GetFixed8(input, value)`. -/
def GetFixed8 : List Byte → Option (Nat × List Byte)
  | [] => none
  | byte :: input => some (byte, input)

/-- Modelled from the spec: `PutLengthPrefixedSlice(dst, value)`: the length as
a varint32, then the bytes. -/
def PutLengthPrefixedSlice (value : List Byte) : List Byte :=
  PutVarint32 value.length ++ value

/-- Modelled from the spec: `GetLengthPrefixedSlice(input, result)`. -/
def GetLengthPrefixedSlice (input : List Byte) : Option (List Byte × List Byte) :=
  match GetVarint32 input with
  | some (len, input) =>
    if len ≤ input.length then some (input.take len, input.drop len) else none
  | none => none

/-- Modelled from the spec: an `InternalKey` (`db/dbformat.h`, not among the
sources) is the byte string `Encode()` returns and `DecodeFrom` takes. -/
abbrev InternalKey := List Byte

/-- Modelled from the spec: the closed set of tags of `ZnsVersionTag`
(`zns_version_edit.h` is not among the sources). -/
inductive ZnsVersionTag where
  | kComparator
  | kLastSequence
  | kNextSSTableNumber
  | kCompactPointer
  | kDeletedRange
  | kDeletedSSTable
  | kNewSSTable
  | kFragmentedData
  deriving DecidableEq, Repr

/-- The tags of the closed set. -/
def ZnsVersionTag.all : List ZnsVersionTag :=
  [.kComparator, .kLastSequence, .kNextSSTableNumber, .kCompactPointer, .kDeletedRange,
   .kDeletedSSTable, .kNewSSTable, .kFragmentedData]

/-- `static_cast<ZnsVersionTag>(tag)` followed by the `switch`: the tag of the
closed set with the number `t`, under the numbering `tag` of the enum, and
`none` for the `default` case. -/
def versionTag (tag : ZnsVersionTag → Nat) (t : Nat) : Option ZnsVersionTag :=
  ZnsVersionTag.all.find? (fun v => tag v = t)

/-- Modelled from the spec: the `L0` member of the `SSZoneMetaData` of
`db/zns_impl/table/zns_zonemetadata.h` (not among the sources). -/
structure L0Location where
  lba : Nat
  deriving DecidableEq, Repr

/-- Modelled from the spec: the `LN` member of `SSZoneMetaData`: the number of
regions and the two arrays of 8 entries. -/
structure LNLocation where
  lba_regions : Nat
  lbas : List Nat
  lba_region_sizes : List Nat
  deriving DecidableEq, Repr

/-- Modelled from the spec: the fields of `SSZoneMetaData` that the version
edit reads and writes. -/
structure SSZoneMetaData where
  number : Nat
  L0 : L0Location
  LN : LNLocation
  numbers : Nat
  lba_count : Nat
  smallest : InternalKey
  largest : InternalKey
  deriving DecidableEq, Repr

/-- A `SSZoneMetaData` as declared, before a field is assigned: the fields are
taken to be zero. -/
def SSZoneMetaData.fresh : SSZoneMetaData :=
  ⟨0, ⟨0⟩, ⟨0, List.replicate 8 0, List.replicate 8 0⟩, 0, 0, [], []⟩

/-- The fields of `ZnsVersionEdit`; the set `deleted_ss_` is the list of its
elements in the order of the first insertion. -/
structure ZnsVersionEdit where
  comparator_ : List Byte
  has_comparator_ : Bool
  last_sequence_ : Nat
  has_last_sequence_ : Bool
  ss_number : Nat
  has_next_ss_number : Bool
  compact_pointers_ : List (Nat × InternalKey)
  deleted_range_ : Nat × Nat
  has_deleted_range_ : Bool
  deleted_ss_ : List (Nat × Nat)
  deleted_ss_pers_ : List (Nat × SSZoneMetaData)
  new_ss_ : List (Nat × SSZoneMetaData)
  fragmented_data_ : List (Nat × List Byte)
  deriving DecidableEq, Repr

/-- `ZnsVersionEdit::Clear()`: the edit a constructor leaves. -/
def Clear : ZnsVersionEdit :=
  { comparator_ := [], has_comparator_ := false, last_sequence_ := 0,
    has_last_sequence_ := false, ss_number := 0, has_next_ss_number := false,
    compact_pointers_ := [], deleted_range_ := (0, 0), has_deleted_range_ := false,
    deleted_ss_ := [], deleted_ss_pers_ := [], new_ss_ := [], fragmented_data_ := [] }

/-- `ZnsVersionEdit::AddSSDefinition(level, meta)`. -/
def AddSSDefinition (e : ZnsVersionEdit) (level : Nat) (meta : SSZoneMetaData) :
    ZnsVersionEdit :=
  let f := SSZoneMetaData.fresh
  let f := { f with number := meta.number }
  let f := if level = 0 then { f with L0 := { lba := meta.L0.lba } }
    else { f with LN := {
      lba_regions := meta.LN.lba_regions,
      lbas := meta.LN.lbas.take meta.LN.lba_regions ++ f.LN.lbas.drop meta.LN.lba_regions,
      lba_region_sizes := meta.LN.lba_region_sizes.take meta.LN.lba_regions
        ++ f.LN.lba_region_sizes.drop meta.LN.lba_regions } }
  let f := { f with numbers := meta.numbers, lba_count := meta.lba_count,
                    smallest := meta.smallest, largest := meta.largest }
  { e with new_ss_ := e.new_ss_ ++ [(level, f)] }

/-- `ZnsVersionEdit::RemoveSSDefinition(level, meta)`. -/
def RemoveSSDefinition (e : ZnsVersionEdit) (level : Nat) (meta : SSZoneMetaData) :
    ZnsVersionEdit :=
  let e := if (level, meta.number) ∈ e.deleted_ss_ then e
    else { e with deleted_ss_ := e.deleted_ss_ ++ [(level, meta.number)] }
  if level ≠ 0 then { e with deleted_ss_pers_ := e.deleted_ss_pers_ ++ [(level, meta)] }
  else e

/-- The bytes of the regions of a table: the loop
`for (j = 0; j < m.LN.lba_regions; j++)` of `EncodeTo`. -/
def encodeRegions (m : SSZoneMetaData) : List Byte :=
  ((List.range m.LN.lba_regions).map (fun j =>
    PutVarint64 (m.LN.lbas.getD j 0) ++ PutVarint64 (m.LN.lba_region_sizes.getD j 0))).flatten

/-- `ZnsVersionEdit::EncodeTo(dst)`: the bytes appended to `dst`, under the
numbering `tag` of the tags. -/
def EncodeTo (tag : ZnsVersionTag → Nat) (e : ZnsVersionEdit) : List Byte :=
  (if e.has_comparator_ then
      PutVarint32 (tag .kComparator) ++ PutLengthPrefixedSlice e.comparator_ else [])
  ++ (if e.has_last_sequence_ then
      PutVarint32 (tag .kLastSequence) ++ PutVarint64 e.last_sequence_ else [])
  ++ (if e.has_next_ss_number then
      PutVarint32 (tag .kNextSSTableNumber) ++ PutVarint64 e.ss_number else [])
  ++ (e.compact_pointers_.map (fun p =>
      PutVarint32 (tag .kCompactPointer) ++ PutFixed8 p.1 ++ PutLengthPrefixedSlice p.2)).flatten
  ++ (if e.has_deleted_range_ then
      PutVarint32 (tag .kDeletedRange) ++ PutVarint64 e.deleted_range_.1
        ++ PutVarint64 e.deleted_range_.2 else [])
  ++ (e.deleted_ss_pers_.map (fun del =>
      PutVarint32 (tag .kDeletedSSTable) ++ PutFixed8 del.1 ++ PutVarint64 del.2.number
        ++ PutFixed8 del.2.LN.lba_regions ++ encodeRegions del.2
        ++ PutVarint64 del.2.numbers ++ PutVarint64 del.2.lba_count
        ++ PutLengthPrefixedSlice del.2.smallest ++ PutLengthPrefixedSlice del.2.largest)).flatten
  ++ (e.new_ss_.map (fun n =>
      PutVarint32 (tag .kNewSSTable) ++ PutFixed8 n.1 ++ PutVarint64 n.2.number
        ++ (if n.1 = 0 then PutVarint64 n.2.L0.lba
            else PutFixed8 n.2.LN.lba_regions ++ encodeRegions n.2)
        ++ PutVarint64 n.2.numbers ++ PutVarint64 n.2.lba_count
        ++ PutLengthPrefixedSlice n.2.smallest ++ PutLengthPrefixedSlice n.2.largest)).flatten
  ++ (e.fragmented_data_.map (fun frag =>
      PutVarint32 (tag .kFragmentedData) ++ PutFixed8 frag.1
        ++ PutLengthPrefixedSlice frag.2)).flatten

/-- `GetInternalKey(input, dst)`. -/
def GetInternalKey (input : List Byte) : Option (InternalKey × List Byte) :=
  GetLengthPrefixedSlice input

/-- `GetLevel(input, level)`. -/
def GetLevel (input : List Byte) : Option (Nat × List Byte) :=
  match GetFixed8 input with
  | some (v, input) => if v < level_count then some (v, input) else none
  | none => none

/-- `DecodeL0(input, m)`: the object `*m` and the input after a call that
returns true, `none` for false. -/
def DecodeL0 (input : List Byte) (m : SSZoneMetaData) :
    Option (SSZoneMetaData × List Byte) :=
  match GetVarint64 input with
  | none => none
  | some (number, input) =>
  match GetVarint64 input with
  | none => none
  | some (lba, input) =>
  match GetVarint64 input with
  | none => none
  | some (numbers, input) =>
  match GetVarint64 input with
  | none => none
  | some (lba_count, input) =>
  match GetInternalKey input with
  | none => none
  | some (smallest, input) =>
  match GetInternalKey input with
  | none => none
  | some (largest, input) =>
    some ({ m with number := number, L0 := { lba := lba }, numbers := numbers,
                   lba_count := lba_count, smallest := smallest, largest := largest }, input)

/-- An assignment to entry `i` of an array of a meta: `none` when the array has
no entry `i`. -/
def assignEntry (array : List Nat) (i v : Nat) : Option (List Nat) :=
  if i < array.length then some (array.set i v) else none

/-- The loop `for (i = 0; i < m->LN.lba_regions; i++)` of `DecodeLN`, with
`count` rounds to go from index `i` on.  The outer `none` is a write past an
array of the meta, the inner `none` the return of false. -/
def decodeRegions : Nat → Nat → List Byte → SSZoneMetaData →
    Option (Option (SSZoneMetaData × List Byte))
  | 0, _, input, m => some (some (m, input))
  | count + 1, i, input, m =>
    match GetVarint64 input with
    | none => some none
    | some (lba, input) =>
      match assignEntry m.LN.lbas i lba with
      | none => none
      | some lbas =>
        match GetVarint64 input with
        | none => some none
        | some (size, input) =>
          match assignEntry m.LN.lba_region_sizes i size with
          | none => none
          | some lba_region_sizes =>
            decodeRegions count (i + 1) input
              { m with LN := { m.LN with lbas := lbas, lba_region_sizes := lba_region_sizes } }

/-- `DecodeLN(input, m)`.  The outer `none` is a write past an array of the
meta, the inner `none` the return of false. -/
def DecodeLN (input : List Byte) (m : SSZoneMetaData) :
    Option (Option (SSZoneMetaData × List Byte)) :=
  match GetVarint64 input with
  | none => some none
  | some (number, input) =>
  match GetFixed8 input with
  | none => some none
  | some (lba_regions, input) =>
    if ¬ lba_regions ≤ 8 then some none
    else
      match decodeRegions lba_regions 0 input
          { m with number := number, LN := { m.LN with lba_regions := lba_regions } } with
      | none => none
      | some none => some none
      | some (some (m, input)) =>
        match GetVarint64 input with
        | none => some none
        | some (numbers, input) =>
        match GetVarint64 input with
        | none => some none
        | some (lba_count, input) =>
        match GetInternalKey input with
        | none => some none
        | some (smallest, input) =>
        match GetInternalKey input with
        | none => some none
        | some (largest, input) =>
          some (some ({ m with numbers := numbers, lba_count := lba_count,
                               smallest := smallest, largest := largest }, input))

/-- `DecodeLevel(input, level, m)`. -/
def DecodeLevel (input : List Byte) (level : Nat) (m : SSZoneMetaData) :
    Option (Option (SSZoneMetaData × List Byte)) :=
  if level = 0 then some (DecodeL0 input m) else DecodeLN input m

/-- The edit under construction and the local `m` of `DecodeFrom`. -/
structure DecodeState where
  edit : ZnsVersionEdit
  m : SSZoneMetaData
  deriving DecidableEq, Repr

/-- One case of the `switch` of `DecodeFrom`: the state and the input after
it, or the message `msg` it sets.  `none` is a write past an array of `m`. -/
def decodeCase (versiontag : ZnsVersionTag) (input : List Byte) (st : DecodeState) :
    Option (Except String (DecodeState × List Byte)) :=
  match versiontag with
  | .kComparator =>
    match GetLengthPrefixedSlice input with
    | some (str, input) =>
      some (.ok ({ st with edit := { st.edit with
        comparator_ := str, has_comparator_ := true } }, input))
    | none => some (.error "comparator name")
  | .kLastSequence =>
    match GetVarint64 input with
    | some (v, input) =>
      some (.ok ({ st with edit := { st.edit with
        last_sequence_ := v, has_last_sequence_ := true } }, input))
    | none => some (.error "last sequence number")
  | .kNextSSTableNumber =>
    match GetVarint64 input with
    | some (v, input) =>
      some (.ok ({ st with edit := { st.edit with
        ss_number := v, has_next_ss_number := true } }, input))
    | none => some (.error "next ss number")
  | .kDeletedRange =>
    match GetVarint64 input with
    | some (number, input) =>
      match GetVarint64 input with
      | some (number_second, input) =>
        some (.ok ({ st with edit := { st.edit with
          deleted_range_ := (number, number_second), has_deleted_range_ := true } }, input))
      | none => some (.error "deleted sstable range")
    | none => some (.error "deleted sstable range")
  | .kDeletedSSTable =>
    match GetLevel input with
    | some (level, input) =>
      match DecodeLevel input level st.m with
      | none => none
      | some (some (m, input)) =>
        some (.ok ({ edit := { st.edit with
          deleted_ss_pers_ := st.edit.deleted_ss_pers_ ++ [(level, m)] }, m := m }, input))
      | some none => some (.error "deleted sstable entry")
    | none => some (.error "deleted sstable entry")
  | .kNewSSTable =>
    match GetLevel input with
    | some (level, input) =>
      match DecodeLevel input level st.m with
      | none => none
      | some (some (m, input)) =>
        some (.ok ({ edit := { st.edit with
          new_ss_ := st.edit.new_ss_ ++ [(level, m)] }, m := m }, input))
      | some none => some (.error "new sstable entry")
    | none => some (.error "new sstable entry")
  | .kCompactPointer =>
    match GetLevel input with
    | some (level, input) =>
      match GetInternalKey input with
      | some (key, input) =>
        some (.ok ({ st with edit := { st.edit with
          compact_pointers_ := st.edit.compact_pointers_ ++ [(level, key)] } }, input))
      | none => some (.error "compaction pointer")
    | none => some (.error "compaction pointer")
  | .kFragmentedData =>
    match GetLevel input with
    | some (level, input) =>
      match GetLengthPrefixedSlice input with
      | some (frag, input) =>
        some (.ok ({ st with edit := { st.edit with
          fragmented_data_ := st.edit.fragmented_data_ ++ [(level, frag)] } }, input))
      | none => some (.error "fragmented log")
    | none => some (.error "fragmented log")

/-- The loop `while (msg == nullptr && GetVarint32(&input, &tag))` of
`DecodeFrom`, for at most `fuel` rounds: `msg`, the state and the input it ends
with.  `none` is a write past an array of `m`, or the end of the fuel. -/
def decodeLoop (tag : ZnsVersionTag → Nat) :
    Nat → List Byte → DecodeState → Option (Option String × DecodeState × List Byte)
  | 0, _, _ => none
  | fuel + 1, input, st =>
    match GetVarint32 input with
    | none => some (none, st, input)
    | some (t, input) =>
      match versionTag tag t with
      | none => some (some "unknown or unsupported tag", st, input)
      | some versiontag =>
        match decodeCase versiontag input st with
        | none => none
        | some (.error msg) => some (some msg, st, input)
        | some (.ok (st, input)) => decodeLoop tag fuel input st

/-- `ZnsVersionEdit::DecodeFrom(src)` on the edit `e`: the status, the message
of a `Corruption("VersionEdit", msg)` and the edit after the call.  `none` is a
write past an array of the local `m`. -/
def DecodeFrom (tag : ZnsVersionTag → Nat) (e : ZnsVersionEdit) (src : List Byte) :
    Option (Status × Option String × ZnsVersionEdit) :=
  match decodeLoop tag (src.length + 1) src ⟨e, SSZoneMetaData.fresh⟩ with
  | none => none
  | some (msg, st, input) =>
    let msg := if msg = none ∧ input ≠ [] then some "invalid tag" else msg
    if msg ≠ none then some (Status.Corruption, msg, st.edit)
    else some (Status.OK, none, st.edit)

/-- Modelled from the spec: a numbering of the tags, for the examples (the
values of the enum are in `zns_version_edit.h`, not among the sources): the
tags in the order in which the spec lists them, from 1 on. -/
def ZnsVersionTag.number : ZnsVersionTag → Nat
  | .kComparator => 1
  | .kLastSequence => 2
  | .kNextSSTableNumber => 3
  | .kCompactPointer => 4
  | .kDeletedRange => 5
  | .kDeletedSSTable => 6
  | .kNewSSTable => 7
  | .kFragmentedData => 8

/-- A table for the examples: number 9, at LBA 77 when in L0, in the two
regions (100, 10) and (200, 300) when in a level above. -/
def exampleTable : SSZoneMetaData :=
  ⟨9, ⟨77⟩, ⟨2, [100, 200, 0, 0, 0, 0, 0, 0], [10, 300, 0, 0, 0, 0, 0, 0]⟩, 5, 310, [1, 2],
    [3, 4]⟩

/-- An edit for the examples: a comparator name, a last sequence, a compact
pointer, the example table added at level 1 and at level 0 and removed from
level 2, and fragmented data. -/
def exampleEdit : ZnsVersionEdit :=
  RemoveSSDefinition (AddSSDefinition (AddSSDefinition
    { Clear with comparator_ := [65, 66], has_comparator_ := true, last_sequence_ := 1000,
                 has_last_sequence_ := true, compact_pointers_ := [(3, [7, 7])],
                 fragmented_data_ := [(0, [1, 2, 3])] } 1 exampleTable) 0 exampleTable)
    2 exampleTable

/-- The arrays of the `LN` member have their 8 entries. -/
def ArraysOk (m : SSZoneMetaData) : Prop :=
  m.LN.lbas.length = 8 ∧ m.LN.lba_region_sizes.length = 8

/-- Tables `a` and `b` agree in the fields a table of level `level` uses: the
number, the entry count, `lba_count` and the two keys, with `L0.lba` at level 0
and with the region count and the regions below it at the other levels. -/
def SameTable (level : Nat) (a b : SSZoneMetaData) : Prop :=
  a.number = b.number ∧ a.numbers = b.numbers ∧ a.lba_count = b.lba_count
    ∧ a.smallest = b.smallest ∧ a.largest = b.largest
    ∧ (level = 0 → a.L0.lba = b.L0.lba)
    ∧ (level ≠ 0 → a.LN.lba_regions = b.LN.lba_regions
        ∧ ∀ j, j < b.LN.lba_regions →
            a.LN.lbas.getD j 0 = b.LN.lbas.getD j 0
              ∧ a.LN.lba_region_sizes.getD j 0 = b.LN.lba_region_sizes.getD j 0)

/-- The fields a table of level `level` uses fit their types: 64 bits for the
integers, a length below `2^32` for the keys, at most 8 regions. -/
def TableFits (level : Nat) (m : SSZoneMetaData) : Prop :=
  m.number < 2 ^ 64 ∧ m.numbers < 2 ^ 64 ∧ m.lba_count < 2 ^ 64
    ∧ m.smallest.length < 2 ^ 32 ∧ m.largest.length < 2 ^ 32
    ∧ (level = 0 → m.L0.lba < 2 ^ 64)
    ∧ (level ≠ 0 → m.LN.lba_regions ≤ 8
        ∧ ∀ j, j < m.LN.lba_regions →
            m.LN.lbas.getD j 0 < 2 ^ 64 ∧ m.LN.lba_region_sizes.getD j 0 < 2 ^ 64)

/-- The edit `e` is one the setters build from a cleared edit, with values
that fit their types: a field without its `has_` flag is as `Clear` leaves it,
integers have 64 bits, strings a length below `2^32`, every level is below
`level_count`, the tables fit, and `deleted_ss_pers_` holds no table of level 0
(`RemoveSSDefinition` adds none). -/
def WellFormed (e : ZnsVersionEdit) : Prop :=
  (e.has_comparator_ = false → e.comparator_ = []) ∧ e.comparator_.length < 2 ^ 32
    ∧ (e.has_last_sequence_ = false → e.last_sequence_ = 0) ∧ e.last_sequence_ < 2 ^ 64
    ∧ (e.has_next_ss_number = false → e.ss_number = 0) ∧ e.ss_number < 2 ^ 64
    ∧ (e.has_deleted_range_ = false → e.deleted_range_ = (0, 0))
    ∧ e.deleted_range_.1 < 2 ^ 64 ∧ e.deleted_range_.2 < 2 ^ 64
    ∧ (∀ p ∈ e.compact_pointers_, p.1 < level_count ∧ p.2.length < 2 ^ 32)
    ∧ (∀ d ∈ e.deleted_ss_pers_, d.1 < level_count ∧ d.1 ≠ 0 ∧ TableFits d.1 d.2)
    ∧ (∀ n ∈ e.new_ss_, n.1 < level_count ∧ TableFits n.1 n.2)
    ∧ (∀ f ∈ e.fragmented_data_, f.1 < level_count ∧ f.2.length < 2 ^ 32)

/-- Lists of tables with their levels that agree entry by entry: the same
level, and tables that agree in the fields the level uses. -/
def SameTables (a b : List (Nat × SSZoneMetaData)) : Prop :=
  List.Forall₂ (fun x y => x.1 = y.1 ∧ SameTable y.1 x.2 y.2) a b

/-- The edit `d` is the edit `e` up to the set `deleted_ss_`, which is empty
in `d`, with tables that agree in the fields their level uses. -/
def SameEdit (d e : ZnsVersionEdit) : Prop :=
  d.comparator_ = e.comparator_ ∧ d.has_comparator_ = e.has_comparator_
    ∧ d.last_sequence_ = e.last_sequence_ ∧ d.has_last_sequence_ = e.has_last_sequence_
    ∧ d.ss_number = e.ss_number ∧ d.has_next_ss_number = e.has_next_ss_number
    ∧ d.compact_pointers_ = e.compact_pointers_
    ∧ d.deleted_range_ = e.deleted_range_ ∧ d.has_deleted_range_ = e.has_deleted_range_
    ∧ d.deleted_ss_ = []
    ∧ SameTables d.deleted_ss_pers_ e.deleted_ss_pers_
    ∧ SameTables d.new_ss_ e.new_ss_
    ∧ d.fragmented_data_ = e.fragmented_data_

/-- The tables of a state of `DecodeFrom` hold at most 8 regions, and the
arrays of its local `m` have their 8 entries. -/
def DecodeInv (st : DecodeState) : Prop :=
  ArraysOk st.m ∧ st.m.LN.lba_regions ≤ 8
    ∧ (∀ t ∈ st.edit.new_ss_, t.2.LN.lba_regions ≤ 8)
    ∧ (∀ t ∈ st.edit.deleted_ss_pers_, t.2.LN.lba_regions ≤ 8)

end zns_impl
namespace zns_impl

/-! ## The format of a version edit, in the words of the spec

"Fields appear as `(tag_varint, payload)`, each tag drawn from a closed set.
Integers are LEB128 varints; single bytes use fixed encoding; byte strings are
length-prefixed.  `DeletedSSTable`/`NewSSTable` carry `level`, `number`,
location (L0: single LBA; LN: region count + `region_count` pairs of
`(lba, size)`, max 8), entry count, `lba_count`, and two length-prefixed
internal keys." -/

/-- The value of a byte string that is one LEB128 varint: every byte but the
last has its high bit set; `none` for any other byte string. -/
def leb128 : List Byte → Option Nat
  | [] => none
  | byte :: rest =>
    if 128 ≤ byte then (leb128 rest).map (fun v => byte % 128 + 128 * v)
    else if rest = [] then some byte else none

/-- The bytes are a varint of at most 5 bytes with the 32-bit value `v`. -/
def IsVarint32 (v : Nat) (bytes : List Byte) : Prop :=
  bytes.length ≤ 5 ∧ ∃ w, leb128 bytes = some w ∧ v = w % 2 ^ 32

/-- The bytes are a varint of at most 10 bytes (a 64-bit integer). -/
def IsVarint64 (bytes : List Byte) : Prop :=
  bytes.length ≤ 10 ∧ ∃ w, leb128 bytes = some w

/-- The bytes are a length-prefixed byte string: a varint32 and as many bytes
as it says. -/
def IsSlice (bytes : List Byte) : Prop :=
  ∃ len body, bytes = len ++ body ∧ IsVarint32 body.length len

/-- The bytes are `n` pairs `(lba, size)` of varint64. -/
def IsRegions : Nat → List Byte → Prop
  | 0, bytes => bytes = []
  | n + 1, bytes =>
    ∃ lba size rest, bytes = lba ++ (size ++ rest) ∧ IsVarint64 lba ∧ IsVarint64 size
      ∧ IsRegions n rest

/-- The bytes of a table of level 0: number, LBA, entry count, `lba_count` and
two keys. -/
def IsL0Table (bytes : List Byte) : Prop :=
  ∃ number lba numbers lba_count smallest largest,
    bytes = number ++ (lba ++ (numbers ++ (lba_count ++ (smallest ++ largest))))
      ∧ IsVarint64 number ∧ IsVarint64 lba ∧ IsVarint64 numbers ∧ IsVarint64 lba_count
      ∧ IsSlice smallest ∧ IsSlice largest

/-- The bytes of a table of a level above 0: number, a region count of at most
8 in one byte, the regions, entry count, `lba_count` and two keys. -/
def IsLNTable (bytes : List Byte) : Prop :=
  ∃ number lba_regions regions numbers lba_count smallest largest,
    bytes = number ++ (lba_regions :: (regions ++ (numbers ++ (lba_count
        ++ (smallest ++ largest)))))
      ∧ IsVarint64 number ∧ lba_regions ≤ 8 ∧ IsRegions lba_regions regions
      ∧ IsVarint64 numbers ∧ IsVarint64 lba_count ∧ IsSlice smallest ∧ IsSlice largest

/-- The bytes of a table with its level, a byte below `level_count`. -/
def IsTableEntry (bytes : List Byte) : Prop :=
  ∃ level table, bytes = level :: table ∧ level < level_count
    ∧ (if level = 0 then IsL0Table table else IsLNTable table)

/-- The bytes are a complete payload of a field with the tag `versiontag`. -/
def IsPayload (versiontag : ZnsVersionTag) (bytes : List Byte) : Prop :=
  match versiontag with
  | .kComparator => IsSlice bytes
  | .kLastSequence => IsVarint64 bytes
  | .kNextSSTableNumber => IsVarint64 bytes
  | .kDeletedRange => ∃ first second, bytes = first ++ second ∧ IsVarint64 first
      ∧ IsVarint64 second
  | .kDeletedSSTable => IsTableEntry bytes
  | .kNewSSTable => IsTableEntry bytes
  | .kCompactPointer => ∃ level key, bytes = level :: key ∧ level < level_count ∧ IsSlice key
  | .kFragmentedData => ∃ level frag, bytes = level :: frag ∧ level < level_count
      ∧ IsSlice frag

/-- The bytes are one complete field: the varint of a tag of the closed set,
under the numbering `tag`, and a complete payload for that tag. -/
def IsField (tag : ZnsVersionTag → Nat) (bytes : List Byte) : Prop :=
  ∃ versiontag t payload, bytes = t ++ payload ∧ IsVarint32 (tag versiontag) t
    ∧ IsPayload versiontag payload

/-- The bytes are a sequence of complete fields. -/
inductive IsEdit (tag : ZnsVersionTag → Nat) : List Byte → Prop where
  | nil : IsEdit tag []
  | cons (field rest : List Byte) : IsField tag field → IsEdit tag rest →
      IsEdit tag (field ++ rest)

end zns_impl

/-! ## `InitTypeCrc`: the stores of the loop -/

/-- The loop of `InitTypeCrc` over an array `type_crc` of `size` entries
(`size` is `type_crc.size()`): the index and the value of every store
`type_crc[i] = crc32c::Value(&t, 1)` with `t = static_cast<char>(i)`, in the
order of the stores, for `i = 0` up to and including `size`
(`i <= type_crc.size()`). -/
def InitTypeCrcStores (size : Nat) : List (Nat × Nat) :=
  (List.range (size + 1)).map (fun i => (i, crc32c.Value [i % 256]))

/-! ## `SeekCommitReaderString`: the bytes read -/

/-- The offsets of the string `in` that one iteration of the loop of
`SeekCommitReaderString` reads before it dispatches on the record type, at the
cursor of `reader`: `header[4]` to `header[7]` (lines 356-359), the four bytes
of `DecodeFixed32(header)` (line 371), and the `1 + length` bytes from
`header + 7` that `crc32c::Value(header + 7, 1 + length)` is given (line 372),
whatever the outcome of the test `kTropoHeaderSize + length > to_read`. -/
def seekStringReads (reader : TropoCommitReaderString) : List Nat :=
  let header := reader.input.drop reader.commit_ptr
  let length := headerLength header
  ([4, 5, 6, 7] ++ [0, 1, 2, 3] ++ (List.range (1 + length)).map (fun k => 7 + k)).map
    (fun k => reader.commit_ptr + k)

/-! ## Tail reclamation: the LBAs handed to `ConsumeTail` -/

/-- The number of LBAs a call of `TryInvalidateSSZones` hands to
`ConsumeTail(from, to)`: `to - from`, and 0 when it does not call
`ConsumeTail`. -/
def InvalidateResult.consumedLbas (r : InvalidateResult) : Nat :=
  match r.consume_tail with
  | some (from_lba, to_lba) => to_lba - from_lba
  | none => 0

namespace zns_impl

/-! ## `QPairFactory` (`db/zns_impl/qpair_factory.cc`) -/

/-- Modelled from the spec: the member `qpair_count_` of `QPairFactory`
(`qpair_factory.h` is not among the sources), as a signed counter.  (In an
unsigned type the decrement of 0 gives the largest value of the type.) -/
structure QPairFactory where
  qpair_count_ : Int
  deriving DecidableEq, Repr

/-- The constructor `QPairFactory::QPairFactory`: `qpair_count_(0)`. -/
def QPairFactory.create : QPairFactory := ⟨0⟩

/-- `QPairFactory::register_qpair(qpair)`, with `rc` the value that
`ZnsDevice::z_create_qpair` returns: the returned value and the factory. -/
def QPairFactory.register_qpair (f : QPairFactory) (rc : Int) : Int × QPairFactory :=
  (rc, if rc ≠ 0 then { f with qpair_count_ := f.qpair_count_ + 1 } else f)

/-- `QPairFactory::unregister_qpair(qpair)`, with `rc` the value that
`ZnsDevice::z_destroy_qpair` returns. -/
def QPairFactory.unregister_qpair (f : QPairFactory) (rc : Int) : Int × QPairFactory :=
  (rc, { f with qpair_count_ := f.qpair_count_ - 1 })

/-- The assertion of the destructor, `assert(qpair_count_ == 0)`. -/
def QPairFactory.destructorAssertion (f : QPairFactory) : Bool :=
  f.qpair_count_ == 0

/-! ## `ZNSSSTableManager::FindSSTableIndex` -/

/-- Modelled from the spec: `ExtractUserKey(internal_key)` of `db/dbformat.h`
(not among the sources): the internal key without its trailing eight bytes. -/
def ExtractUserKey (internal_key : List Byte) : List Byte :=
  internal_key.take (internal_key.length - 8)

/-- Modelled from the spec: `InternalKey::user_key()` of `db/dbformat.h`. -/
def user_key (k : InternalKey) : List Byte := ExtractUserKey k

/-- The `while` loop of `FindSSTableIndex`, with `cmp` for `cmp->Compare` and
the vector `ss` as the list of the metas its pointers point to; `mid` is a
`size_t`.  The result is `none` when `ss[mid]` lies outside the vector or the
loop does not end within `fuel` iterations. -/
def findSSTableLoop (cmp : List Byte → List Byte → Int) (ss : List SSZoneMetaData)
    (key : List Byte) : Nat → Nat → Nat → Option Nat
  | 0, _, _ => none
  | fuel + 1, left, right =>
    if left < right then
      let mid := u64 (left + right) / 2
      match ss[mid]? with
      | some m =>
        if cmp (user_key m.largest) (ExtractUserKey key) < 0 then
          findSSTableLoop cmp ss key fuel (mid + 1) right
        else findSSTableLoop cmp ss key fuel left mid
      | none => none
    else some right

/-- `ZNSSSTableManager::FindSSTableIndex(cmp, ss, key)`.  Every iteration
brings `left` and `right` closer, so `ss.size() + 1` iterations are enough
fuel. -/
def FindSSTableIndex (cmp : List Byte → List Byte → Int) (ss : List SSZoneMetaData)
    (key : List Byte) : Option Nat :=
  findSSTableLoop cmp ss key (ss.length + 1) 0 ss.length

/-! ## `ZNSSSTableManager::NewZNSSTableManager` -/

/-- The constants of `ZnsConfig` that `NewZNSSTableManager` reads
(`db/zns_impl/config.h` is not among the sources). -/
structure ZnsConfig where
  level_count : Nat
  L0_zones : Nat
  lower_concurrency : Nat
  min_ss_zone_count : Nat
  deriving DecidableEq, Repr

/-- Modelled from the spec: the values that `tropodb_config_default.h` gives
the four constants: `level_count = 6`, `L0_zones = 100`,
`lower_concurrency = 1`, `min_ss_zone_count = 5`. -/
def defaultConfig : ZnsConfig := ⟨6, 100, 1, 5⟩

/-- The loop `for (size_t i = 0; i < lower_concurrency; i++)` of
`NewZNSSTableManager`, with `n` iterations to go: the ranges it assigns and
`zone_head` after the loop. -/
def distributeL0 (zone_step : Nat) : Nat → Nat → List (Nat × Nat) × Nat
  | 0, zone_head => ([], zone_head)
  | n + 1, zone_head =>
    let r := distributeL0 zone_step n (u64 (zone_head + zone_step))
    ((zone_head, u64 (zone_head + zone_step)) :: r.1, r.2)

/-- `ZNSSSTableManager::NewZNSSTableManager(channel_factory, info, min_zone,
max_zone)` under the constants `cfg`; `channel_factory` says that the pointer
is not null.  The manager is given by the `ranges` handed to its constructor,
in zones: `some (some ranges)`; `some none` is the empty `optional`; `none`
stands for the division by a `lower_concurrency` of zero. -/
def NewZNSSTableManager (cfg : ZnsConfig) (channel_factory : Bool) (min_zone max_zone : Nat) :
    Option (Option (List (Nat × Nat))) :=
  let num_zones := u64 (max_zone + 2 ^ 64 - min_zone)
  if min_zone > max_zone ∨ num_zones < u64 (cfg.level_count * cfg.min_ss_zone_count)
      ∨ channel_factory = false then some none
  else if cfg.lower_concurrency = 0 then none
  else
    let zone_head := min_zone
    let zone_step := cfg.L0_zones
    let zone_step := if zone_step < cfg.min_ss_zone_count then cfg.min_ss_zone_count
      else zone_step
    let zone_step := zone_step / cfg.lower_concurrency
    let l0 := distributeL0 zone_step cfg.lower_concurrency zone_head
    let zone_head := l0.2
    let zone_step := u64 (max_zone + 2 ^ 64 - zone_head)
    let ranges := l0.1 ++ [(zone_head, u64 (zone_head + zone_step))]
    let zone_head := u64 (zone_head + zone_step)
    if zone_head ≠ max_zone then some none
    else some (some ranges)

/-! ## The iterators of `sstable_ln_iterator.cc` -/

/-- Modelled from the spec: the iterator over the entries of one table that
`zone_function_` returns (the table iterators are not among the sources): the
keys of the table in key order and a position; the iterator is valid when the
position names an entry. -/
structure DataIterator where
  entries : List Nat
  pos : Nat
  deriving DecidableEq, Repr

/-- `Valid()` of a table iterator. -/
def DataIterator.Valid (d : DataIterator) : Bool := decide (d.pos < d.entries.length)

/-- `key()` of a table iterator. -/
def DataIterator.key (d : DataIterator) : Option Nat := d.entries[d.pos]?

/-- `SeekToFirst()` of a table iterator. -/
def DataIterator.SeekToFirst (d : DataIterator) : DataIterator := { d with pos := 0 }

/-- `Next()` of a table iterator. -/
def DataIterator.Next (d : DataIterator) : DataIterator := { d with pos := d.pos + 1 }

/-- `LNZoneIterator`: the iterator over the vector `slist_` of metas. -/
structure LNZoneIterator where
  level_ : Nat
  slist_ : List SSZoneMetaData
  index_ : Nat
  deriving DecidableEq, Repr

/-- The constructor `LNZoneIterator::LNZoneIterator`: `index_(slist->size())`. -/
def LNZoneIterator.create (slist : List SSZoneMetaData) (level : Nat) : LNZoneIterator :=
  ⟨level, slist, slist.length⟩

/-- `LNZoneIterator::Valid()`. -/
def LNZoneIterator.Valid (z : LNZoneIterator) : Bool := decide (z.index_ < z.slist_.length)

/-- `LNZoneIterator::value()`, as the list of the fields it encodes into
`value_buf_`: the number of regions, the start and the size of every region,
`lba_count`, the level and the table number; empty when the iterator is not
valid. -/
def LNZoneIterator.value (z : LNZoneIterator) : List Nat :=
  match z.slist_[z.index_]? with
  | some m =>
    [m.LN.lba_regions]
      ++ ((List.range m.LN.lba_regions).map
          (fun i => [m.LN.lbas.getD i 0, m.LN.lba_region_sizes.getD i 0])).flatten
      ++ [m.lba_count, z.level_, m.number]
  | none => []

/-- `LNZoneIterator::SeekToFirst()`. -/
def LNZoneIterator.SeekToFirst (z : LNZoneIterator) : LNZoneIterator := { z with index_ := 0 }

/-- `LNZoneIterator::Next()`. -/
def LNZoneIterator.Next (z : LNZoneIterator) : LNZoneIterator :=
  { z with index_ := z.index_ + 1 }

/-- `LNZoneIterator::Prev()`. -/
def LNZoneIterator.Prev (z : LNZoneIterator) : LNZoneIterator :=
  { z with index_ := if z.index_ = 0 then z.slist_.length else z.index_ - 1 }

/-- `LNIterator`: the iterator over the metas, the iterator over the table at
hand (`none` is the null pointer in the wrapper `data_iter_`), and the handle
of that table. -/
structure LNIterator where
  index_iter_ : LNZoneIterator
  data_iter_ : Option DataIterator
  data_zone_handle_ : List Nat
  deriving DecidableEq, Repr

/-- The constructor `LNIterator::LNIterator`: `data_iter_(nullptr)`. -/
def LNIterator.create (ln_iterator : LNZoneIterator) : LNIterator :=
  ⟨ln_iterator, none, []⟩

/-- `LNIterator::Valid()`: `data_iter_.Valid()`, false on the null pointer. -/
def LNIterator.Valid (it : LNIterator) : Bool :=
  match it.data_iter_ with
  | some d => d.Valid
  | none => false

/-- `LNIterator::key()`; `none` when the iterator is not valid. -/
def LNIterator.key (it : LNIterator) : Option Nat :=
  it.data_iter_.bind DataIterator.key

/-- `LNIterator::InitDataZone()`, with `zone_function` giving the keys of the
table a handle names; a table iterator is returned unpositioned. -/
def LNIterator.InitDataZone (zone_function : List Nat → List Nat) (it : LNIterator) :
    LNIterator :=
  if !it.index_iter_.Valid then { it with data_iter_ := none }
  else
    let handle := it.index_iter_.value
    if it.data_iter_.isSome ∧ handle = it.data_zone_handle_ then it
    else
      { it with
        data_zone_handle_ := handle
        data_iter_ := some ⟨zone_function handle, (zone_function handle).length⟩ }

/-- The statement `if (data_iter_.iter() != nullptr) data_iter_.SeekToFirst();`. -/
def LNIterator.seekDataToFirst (it : LNIterator) : LNIterator :=
  { it with data_iter_ := it.data_iter_.map DataIterator.SeekToFirst }

/-- `LNIterator::SkipEmptyDataLbasForward()`; `none` when the loop does not
end within `fuel` iterations. -/
def LNIterator.SkipEmptyDataLbasForward (zone_function : List Nat → List Nat) :
    Nat → LNIterator → Option LNIterator
  | 0, _ => none
  | fuel + 1, it =>
    if it.data_iter_.isNone ∨ !it.Valid then
      if !it.index_iter_.Valid then some { it with data_iter_ := none }
      else
        LNIterator.SkipEmptyDataLbasForward zone_function fuel
          (LNIterator.seekDataToFirst
            (LNIterator.InitDataZone zone_function
              { it with index_iter_ := it.index_iter_.Next }))
    else some it

/-- `LNIterator::SkipEmptyDataLbasBackward()`; `none` when the loop does not
end within `fuel` iterations. -/
def LNIterator.SkipEmptyDataLbasBackward (zone_function : List Nat → List Nat) :
    Nat → LNIterator → Option LNIterator
  | 0, _ => none
  | fuel + 1, it =>
    if it.data_iter_.isNone ∨ !it.Valid then
      if !it.index_iter_.Valid then some { it with data_iter_ := none }
      else
        LNIterator.SkipEmptyDataLbasBackward zone_function fuel
          (LNIterator.seekDataToFirst
            (LNIterator.InitDataZone zone_function
              { it with index_iter_ := it.index_iter_.Prev }))
    else some it

/-- `LNIterator::SeekToFirst()`.  The loops of the iterator move `index_iter_`
in every iteration but the last, so `slist_.size() + 2` iterations are enough
fuel. -/
def LNIterator.SeekToFirst (zone_function : List Nat → List Nat) (it : LNIterator) :
    Option LNIterator :=
  LNIterator.SkipEmptyDataLbasForward zone_function (it.index_iter_.slist_.length + 2)
    (LNIterator.seekDataToFirst
      (LNIterator.InitDataZone zone_function
        { it with index_iter_ := it.index_iter_.SeekToFirst }))

/-- `LNIterator::Next()`; `none` when `assert(Valid())` fails. -/
def LNIterator.Next (zone_function : List Nat → List Nat) (it : LNIterator) :
    Option LNIterator :=
  if !it.Valid then none
  else
    LNIterator.SkipEmptyDataLbasForward zone_function (it.index_iter_.slist_.length + 2)
      { it with data_iter_ := it.data_iter_.map DataIterator.Next }

/-- `LNIterator::Prev()`; `none` when `assert(Valid())` fails. -/
def LNIterator.Prev (zone_function : List Nat → List Nat) (it : LNIterator) :
    Option LNIterator :=
  if !it.Valid then none
  else
    LNIterator.SkipEmptyDataLbasBackward zone_function (it.index_iter_.slist_.length + 2)
      { it with data_iter_ := it.data_iter_.map DataIterator.Next }

/-- The vector of metas of the iterator examples: two tables, with the numbers
1 and 2. -/
def exampleSlist : List SSZoneMetaData :=
  [⟨1, ⟨0⟩, ⟨1, [0], [4]⟩, 2, 4, [], []⟩, ⟨2, ⟨0⟩, ⟨1, [4], [4]⟩, 2, 4, [], []⟩]

/-- The `zone_function_` of the iterator examples: the table with the number
1 (the last field of the handle) holds the keys 10 and 20, the other table
holds the keys 30 and 40. -/
def exampleZoneFunction (handle : List Nat) : List Nat :=
  if handle.getLast? = some 1 then [10, 20] else [30, 40]

end zns_impl


/-! ## Arithmetic of `SpaceNeeded` -/

theorem SpaceNeeded_eq (lba_size n : Nat) :
    SpaceNeeded lba_size n
      = (((n / lba_size + 1) * 8 + n + lba_size - 1) / lba_size) * lba_size := rfl

theorem SpaceNeeded64_eq_SpaceNeeded (lba_size n : Nat) (hl : 0 < lba_size)
    (hov : (n / lba_size + 1) * 8 + n + lba_size - 1 < 2 ^ 64) :
    SpaceNeeded64 lba_size n = SpaceNeeded lba_size n := by
  have h1 : (n / lba_size + 1) % 2 ^ 64 = n / lba_size + 1 := Nat.mod_eq_of_lt (by omega)
  have h2 : ((n / lba_size + 1) * 8) % 2 ^ 64 = (n / lba_size + 1) * 8 :=
    Nat.mod_eq_of_lt (by omega)
  have h3 : ((n / lba_size + 1) * 8 + n) % 2 ^ 64 = (n / lba_size + 1) * 8 + n :=
    Nat.mod_eq_of_lt (by omega)
  have h4 : (((n / lba_size + 1) * 8 + n + lba_size) % 2 ^ 64 + 2 ^ 64 - 1) % 2 ^ 64
      = (n / lba_size + 1) * 8 + n + lba_size - 1 := by
    omega
  have h5 : ((n / lba_size + 1) * 8 + n + lba_size - 1) / lba_size * lba_size
      ≤ (n / lba_size + 1) * 8 + n + lba_size - 1 := Nat.div_mul_le_self _ _
  unfold SpaceNeeded64 SpaceNeeded
  simp only [kTropoHeaderSize, h1, h2, h3, h4]
  exact Nat.mod_eq_of_lt (by omega)

theorem SpaceNeeded_mod (lba_size n : Nat) : SpaceNeeded lba_size n % lba_size = 0 := by
  unfold SpaceNeeded
  exact Nat.mul_mod_left _ _

/-- Rounding `x` up to a multiple of `l` does not go below `x`. -/
theorem le_roundUp (x l : Nat) (hl : 0 < l) : x ≤ (x + l - 1) / l * l := by
  have h1 := Nat.div_add_mod (x + l - 1) l
  have h2 := Nat.mod_lt (x + l - 1) hl
  rw [Nat.mul_comm]
  generalize l * ((x + l - 1) / l) = q at *
  omega

theorem SpaceNeeded_ge (lba_size n : Nat) (hl : 0 < lba_size) :
    n + 8 ≤ SpaceNeeded lba_size n := by
  rw [SpaceNeeded_eq]
  have h := le_roundUp ((n / lba_size + 1) * 8 + n) lba_size hl
  refine Nat.le_trans ?_ h
  generalize n / lba_size = q
  omega

/-- C5 (counterexample): at `lba_size = 512` and `n = 0` the code returns one
block, 512, while the contract formula of the specification gives 0. -/
theorem SpaceNeeded_ne_spec_formula :
    SpaceNeeded64 512 0 = 512 ∧ SpaceNeeded 512 0 = 512 ∧ specSpaceNeeded 512 0 = 0 := by
  decide

/-- C5 (amended): for every payload length `n` and every `lba_size > 0` for
which the computation does not wrap the 64 bits of `size_t`
(`(floor(n / lba_size) + 1) * 8 + n + lba_size - 1 < 2 ^ 64`),
`SpaceNeeded(n) = ceil(((floor(n / lba_size) + 1) * 8 + n) / lba_size) * lba_size`:
the number of headers counted is `floor(n / lba_size) + 1`, not
`ceil(n / lba_size)`. -/
theorem SpaceNeeded_formula (lba_size n : Nat) (hl : 0 < lba_size)
    (hov : (n / lba_size + 1) * 8 + n + lba_size - 1 < 2 ^ 64) :
    SpaceNeeded64 lba_size n
      = (((n / lba_size + 1) * kTropoHeaderSize + n) ⌈/⌉ lba_size) * lba_size := by
  rw [SpaceNeeded64_eq_SpaceNeeded lba_size n hl hov, SpaceNeeded_eq,
    Nat.ceilDiv_eq_add_pred_div]
  rfl

theorem SpaceNeeded_formula_witness :
    0 < 512 ∧ (1500 / 512 + 1) * 8 + 1500 + 512 - 1 < 2 ^ 64
      ∧ SpaceNeeded64 512 1500
          = (((1500 / 512 + 1) * kTropoHeaderSize + 1500) ⌈/⌉ 512) * 512 :=
  ⟨by decide, by decide, SpaceNeeded_formula 512 1500 (by decide) (by decide)⟩

/-- C6: without 64-bit overflow, `SpaceNeeded(n)` as computed in `size_t`
arithmetic is a multiple of `lba_size` and at least `n + kTropoHeaderSize`. -/
theorem SpaceNeeded_multiple_and_lower_bound (lba_size n : Nat) (hl : 0 < lba_size)
    (hov : (n / lba_size + 1) * 8 + n + lba_size - 1 < 2 ^ 64) :
    SpaceNeeded64 lba_size n % lba_size = 0
      ∧ n + kTropoHeaderSize ≤ SpaceNeeded64 lba_size n := by
  rw [SpaceNeeded64_eq_SpaceNeeded lba_size n hl hov]
  exact ⟨SpaceNeeded_mod lba_size n, SpaceNeeded_ge lba_size n hl⟩

theorem SpaceNeeded_multiple_and_lower_bound_witness :
    SpaceNeeded64 512 1500 % 512 = 0 ∧ 1500 + kTropoHeaderSize ≤ SpaceNeeded64 512 1500 :=
  SpaceNeeded_multiple_and_lower_bound 512 1500 (by decide) (by decide)


/-! ## CRC-32C, masking and fixed-width coding -/

theorem xor_ffffffff_cancel (x : Nat) : (x ^^^ 0xffffffff) ^^^ 0xffffffff = x := by
  rw [Nat.xor_assoc, Nat.xor_self, Nat.xor_zero]

theorem crcBit_lt (c : Nat) (h : c < 2 ^ 32) : crcBit c < 2 ^ 32 := by
  unfold crcBit
  split
  · exact Nat.xor_lt_two_pow (by omega) (by decide)
  · omega

theorem crcByte_lt (l b : Nat) (h : l < 2 ^ 32) : crcByte l b < 2 ^ 32 := by
  unfold crcByte
  have h0 : l ^^^ (b % 256) < 2 ^ 32 :=
    Nat.xor_lt_two_pow h (by have := Nat.mod_lt b (by decide : 0 < 256); omega)
  exact crcBit_lt _ (crcBit_lt _ (crcBit_lt _ (crcBit_lt _ (crcBit_lt _ (crcBit_lt _
    (crcBit_lt _ (crcBit_lt _ h0)))))))

theorem foldl_crcByte_lt (data : List Byte) (l : Nat) (h : l < 2 ^ 32) :
    data.foldl crcByte l < 2 ^ 32 := by
  induction data generalizing l with
  | nil => simpa using h
  | cons b bs ih => exact ih _ (crcByte_lt l b h)

theorem Extend_lt (c : Nat) (data : List Byte) (h : c < 2 ^ 32) :
    crc32c.Extend c data < 2 ^ 32 := by
  unfold crc32c.Extend
  exact Nat.xor_lt_two_pow (foldl_crcByte_lt _ _ (Nat.xor_lt_two_pow h (by decide)))
    (by decide)

theorem Value_lt (data : List Byte) : crc32c.Value data < 2 ^ 32 :=
  Extend_lt 0 data (by decide)

/-- Extending the CRC of `xs` by `ys` gives the CRC of `xs ++ ys`. -/
theorem Extend_Value (xs ys : List Byte) :
    crc32c.Extend (crc32c.Value xs) ys = crc32c.Value (xs ++ ys) := by
  unfold crc32c.Value crc32c.Extend
  rw [xor_ffffffff_cancel, List.foldl_append]

theorem type_crc_eq (t : TropoRecordType) (ht : t ≠ .kInvalid) :
    type_crc_ t.toNat = crc32c.Value [t.toNat] := by
  cases t <;> first | rfl | exact absurd rfl ht


theorem testBit_of_lt {c n : Nat} (h : c < 2 ^ n) (j : Nat) (hj : n ≤ j) : c.testBit j = false :=
  Nat.testBit_lt_two_pow (Nat.lt_of_lt_of_le h (Nat.pow_le_pow_right (by decide) hj))

theorem testBit_mod_256 (x i : Nat) : (x % 256).testBit i = (decide (i < 8) && x.testBit i) :=
  Nat.testBit_mod_two_pow x 8 i

theorem testBit_mod_32 (x i : Nat) :
    (x % 4294967296).testBit i = (decide (i < 32) && x.testBit i) :=
  Nat.testBit_mod_two_pow x 32 i

theorem le32_roundtrip (v : Nat) (h : v < 2 ^ 32) :
    (v % 256) ||| (((v >>> 8) % 256) <<< 8) ||| (((v >>> 16) % 256) <<< 16)
      ||| (((v >>> 24) % 256) <<< 24) = v := by
  apply Nat.eq_of_testBit_eq
  intro i
  simp only [Nat.testBit_or, Nat.testBit_shiftLeft, Nat.testBit_shiftRight, testBit_mod_256]
  by_cases h1 : i < 8
  · simp [h1, show ¬ 8 ≤ i by omega, show ¬ 16 ≤ i by omega, show ¬ 24 ≤ i by omega]
  · by_cases h2 : i < 16
    · have : 8 + (i - 8) = i := by omega
      simp [h1, h2, this, show 8 ≤ i by omega, show i - 8 < 8 by omega, show ¬ 16 ≤ i by omega, show ¬ 24 ≤ i by omega]
    · by_cases h3 : i < 24
      · have : 16 + (i - 16) = i := by omega
        simp [h1, h2, h3, this, show 8 ≤ i by omega, show ¬ i - 8 < 8 by omega, show 16 ≤ i by omega, show ¬ 24 ≤ i by omega, show i - 16 < 8 by omega]
      · by_cases h4 : i < 32
        · have : 24 + (i - 24) = i := by omega
          simp [h1, h2, h3, h4, this, show 8 ≤ i by omega, show ¬ i - 8 < 8 by omega, show 16 ≤ i by omega, show 24 ≤ i by omega, show ¬ i - 16 < 8 by omega, show i - 24 < 8 by omega]
        · have := testBit_of_lt h i (by omega)
          simp [h1, this, show ¬ i - 8 < 8 by omega, show ¬ i - 16 < 8 by omega, show ¬ i - 24 < 8 by omega]


/-- Rotating a 32-bit word right by `a` bits and then left by `a` bits (with
`a + b = 32`) gives the word back. -/
theorem rot_inverse (c a b : Nat) (hab : a + b = 32) (h : c < 2 ^ 32) :
    ((((c >>> a) ||| ((c <<< b) % 2 ^ 32)) >>> b)
      ||| (((((c >>> a) ||| ((c <<< b) % 2 ^ 32)) <<< a)) % 2 ^ 32)) = c := by
  apply Nat.eq_of_testBit_eq
  intro i
  simp only [Nat.testBit_or, Nat.testBit_shiftLeft, Nat.testBit_shiftRight,
    Nat.testBit_mod_two_pow]
  by_cases h1 : i < a
  · have e1 : a + (b + i) = 32 + i := by omega
    have e2 : b + i - b = i := by omega
    have := testBit_of_lt h (32 + i) (by omega)
    simp [e1, e2, this, show b + i < 32 by omega, show ¬ a ≤ i by omega, h1]
  · by_cases h2 : i < 32
    · have e1 : a + (i - a) = i := by omega
      have := testBit_of_lt h (a + (b + i)) (by omega)
      simp [e1, this, h2, show a ≤ i by omega, show ¬ b + i < 32 by omega,
        show i - a < 32 by omega, show ¬ b ≤ i - a by omega]
    · have := testBit_of_lt h i (by omega)
      have := testBit_of_lt h (a + (b + i)) (by omega)
      simp [*]

theorem rot_lt (c a b : Nat) (h : c < 2 ^ 32) :
    (c >>> a) ||| ((c <<< b) % 2 ^ 32) < 2 ^ 32 := by
  apply Nat.or_lt_two_pow
  · rw [Nat.shiftRight_eq_div_pow]
    exact Nat.lt_of_le_of_lt (Nat.div_le_self _ _) h
  · exact Nat.mod_lt _ (by decide)

theorem Mask_lt (c : Nat) : crc32c.Mask c < 2 ^ 32 := Nat.mod_lt _ (by decide)

theorem Unmask_lt (m : Nat) : crc32c.Unmask m < 2 ^ 32 :=
  rot_lt _ 17 15 (Nat.mod_lt _ (by decide))

theorem Unmask_Mask (c : Nat) (h : c < 2 ^ 32) : crc32c.Unmask (crc32c.Mask c) = c := by
  have hr := rot_lt c 15 17 h
  have e : (crc32c.Mask c + 2 ^ 32 - kMaskDelta) % 2 ^ 32
      = (c >>> 15) ||| ((c <<< 17) % 2 ^ 32) := by
    unfold crc32c.Mask kMaskDelta
    generalize (c >>> 15) ||| ((c <<< 17) % 2 ^ 32) = r at hr ⊢
    omega
  unfold crc32c.Unmask
  simp only [e]
  exact rot_inverse c 15 17 (by decide) h

theorem Mask_Unmask (m : Nat) (h : m < 2 ^ 32) : crc32c.Mask (crc32c.Unmask m) = m := by
  have hr : (m + 2 ^ 32 - kMaskDelta) % 2 ^ 32 < 2 ^ 32 := Nat.mod_lt _ (by decide)
  unfold crc32c.Mask crc32c.Unmask
  simp only []
  rw [rot_inverse _ 17 15 (by decide) hr]
  unfold kMaskDelta
  omega

theorem Unmask_injective (m m' : Nat) (h : m < 2 ^ 32) (h' : m' < 2 ^ 32)
    (e : crc32c.Unmask m = crc32c.Unmask m') : m = m' := by
  rw [← Mask_Unmask m h, ← Mask_Unmask m' h', e]


theorem xor_cancel_right (a b c : Nat) (h : a ^^^ c = b ^^^ c) : a = b := by
  have := congrArg (fun x => x ^^^ c) h
  simpa [Nat.xor_assoc] using this

theorem xor_cancel_left (a b c : Nat) (h : c ^^^ a = c ^^^ b) : a = b := by
  rw [Nat.xor_comm c a, Nat.xor_comm c b] at h
  exact xor_cancel_right a b c h

theorem crcBit_injective (a b : Nat) (ha : a < 2 ^ 32) (hb : b < 2 ^ 32)
    (h : crcBit a = crcBit b) : a = b := by
  have top : ∀ x : Nat, x < 2 ^ 31 → 2 ^ 31 ≤ x ^^^ kCrc32cPoly := by
    intro x hx
    apply Nat.testBit_implies_ge
    rw [Nat.testBit_xor, Nat.testBit_lt_two_pow hx]
    decide
  unfold crcBit at h
  by_cases pa : a % 2 = 1 <;> by_cases pb : b % 2 = 1
  · rw [if_pos pa, if_pos pb] at h
    have := xor_cancel_right _ _ _ h
    omega
  · rw [if_pos pa, if_neg pb] at h
    have := top (a / 2) (by omega)
    omega
  · rw [if_neg pa, if_pos pb] at h
    have := top (b / 2) (by omega)
    omega
  · rw [if_neg pa, if_neg pb] at h
    omega

/-- The eight shift steps of one byte are injective on 32-bit states. -/
theorem crcBit8_injective (a b : Nat) (ha : a < 2 ^ 32) (hb : b < 2 ^ 32)
    (h : crcBit (crcBit (crcBit (crcBit (crcBit (crcBit (crcBit (crcBit a)))))))
      = crcBit (crcBit (crcBit (crcBit (crcBit (crcBit (crcBit (crcBit b)))))))) : a = b := by
  have l1 := crcBit_lt _ ha
  have l2 := crcBit_lt _ l1
  have l3 := crcBit_lt _ l2
  have l4 := crcBit_lt _ l3
  have l5 := crcBit_lt _ l4
  have l6 := crcBit_lt _ l5
  have l7 := crcBit_lt _ l6
  have r1 := crcBit_lt _ hb
  have r2 := crcBit_lt _ r1
  have r3 := crcBit_lt _ r2
  have r4 := crcBit_lt _ r3
  have r5 := crcBit_lt _ r4
  have r6 := crcBit_lt _ r5
  have r7 := crcBit_lt _ r6
  exact crcBit_injective _ _ ha hb (crcBit_injective _ _ l1 r1 (crcBit_injective _ _ l2 r2
    (crcBit_injective _ _ l3 r3 (crcBit_injective _ _ l4 r4 (crcBit_injective _ _ l5 r5
    (crcBit_injective _ _ l6 r6 (crcBit_injective _ _ l7 r7 h)))))))

theorem mod_256_lt_two_pow_32 (b : Nat) : b % 256 < 2 ^ 32 := by
  have := Nat.mod_lt b (by decide : 0 < 256)
  omega

theorem crcByte_injective_state (l l' b : Nat) (hl : l < 2 ^ 32) (hl' : l' < 2 ^ 32)
    (h : crcByte l b = crcByte l' b) : l = l' := by
  unfold crcByte at h
  have := crcBit8_injective _ _ (Nat.xor_lt_two_pow hl (mod_256_lt_two_pow_32 b))
    (Nat.xor_lt_two_pow hl' (mod_256_lt_two_pow_32 b)) h
  exact xor_cancel_right _ _ _ this

theorem crcByte_injective_byte (l b b' : Nat) (hl : l < 2 ^ 32)
    (h : crcByte l b = crcByte l b') : b % 256 = b' % 256 := by
  unfold crcByte at h
  have := crcBit8_injective _ _ (Nat.xor_lt_two_pow hl (mod_256_lt_two_pow_32 b))
    (Nat.xor_lt_two_pow hl (mod_256_lt_two_pow_32 b')) h
  exact xor_cancel_left _ _ _ this

theorem foldl_crcByte_injective (data : List Byte) (s s' : Nat) (hs : s < 2 ^ 32)
    (hs' : s' < 2 ^ 32) (h : data.foldl crcByte s = data.foldl crcByte s') : s = s' := by
  induction data generalizing s s' with
  | nil => simpa using h
  | cons b bs ih =>
    simp only [List.foldl_cons] at h
    exact crcByte_injective_state _ _ _ hs hs' (ih _ _ (crcByte_lt _ _ hs) (crcByte_lt _ _ hs') h)

/-- CRC-32C tells apart two strings that differ in one byte only. -/
theorem Value_single_byte (xs ys : List Byte) (b b' : Byte)
    (h : crc32c.Value (xs ++ b :: ys) = crc32c.Value (xs ++ b' :: ys)) :
    b % 256 = b' % 256 := by
  unfold crc32c.Value crc32c.Extend at h
  have h1 := xor_cancel_right _ _ _ h
  simp only [List.foldl_append, List.foldl_cons] at h1
  have hs : List.foldl crcByte (0 ^^^ 0xffffffff) xs < 2 ^ 32 :=
    foldl_crcByte_lt _ _ (by decide)
  have h2 := foldl_crcByte_injective ys _ _ (crcByte_lt _ _ hs) (crcByte_lt _ _ hs) h1
  exact crcByte_injective_byte _ _ _ hs h2


theorem writeAt_split (buf A old B new : List Byte) (addr : Nat)
    (hb : buf = A ++ old ++ B) (ha : addr = A.length) (hl : old.length = new.length) :
    writeAt buf addr new = some (A ++ new ++ B) := by
  subst hb ha
  unfold writeAt
  rw [if_pos (by simp [hl])]
  congr 1
  have e1 : List.take A.length (A ++ old ++ B) = A := by
    rw [List.append_assoc, List.take_left]
  have e2 : List.drop (A.length + new.length) (A ++ old ++ B) = B := by
    rw [← hl, ← List.length_append, List.drop_left]
  rw [e1, e2, List.append_assoc]

theorem writeAt_length (buf new out : List Byte) (addr : Nat)
    (h : writeAt buf addr new = some out) : out.length = buf.length := by
  unfold writeAt at h
  split at h
  · cases h
    simp
    omega
  · cases h

theorem writeAt_none (buf new : List Byte) (addr : Nat) (h : buf.length < addr + new.length) :
    writeAt buf addr new = none := by
  unfold writeAt
  rw [if_neg (by omega)]

theorem EncodeFixed32_length (v : Nat) : (EncodeFixed32 v).length = 4 := rfl

theorem recordBytes_length (lba_size : Nat) (t : TropoRecordType) (body : List Byte)
    (h : body.length + kTropoHeaderSize ≤ lba_size) :
    (recordBytes lba_size t body).length = lba_size := by
  unfold recordBytes kTropoHeaderSize at *
  simp [EncodeFixed32_length]
  omega

theorem writeFragment_eq (lba_size : Nat) (t : TropoRecordType) (body pre old post : List Byte)
    (ho : old.length = lba_size) (hb : body.length + kTropoHeaderSize ≤ lba_size) :
    writeFragment lba_size ⟨pre.length, t, body⟩ (pre ++ old ++ post)
      = some (pre ++ recordBytes lba_size t body ++ post) := by
  unfold kTropoHeaderSize at hb
  have hrep : List.replicate lba_size (0 : Byte)
      = [0, 0, 0, 0] ++ [0] ++ [0] ++ [0] ++ [0] ++ List.replicate body.length 0
          ++ List.replicate (lba_size - 8 - body.length) 0 := by
    have e : lba_size = 4 + 1 + 1 + 1 + 1 + body.length + (lba_size - 8 - body.length) := by
      omega
    conv_lhs => rw [e]
    simp only [List.replicate_add]
    rfl
  generalize hpad : List.replicate (lba_size - 8 - body.length) (0 : Byte) = pad at hrep
  have s1 : memset (pre ++ old ++ post) pre.length 0 lba_size
      = some (pre ++ List.replicate lba_size 0 ++ post) :=
    writeAt_split _ pre old post _ _ rfl rfl (by simp [ho])
  have s2 : memcpy (pre ++ List.replicate lba_size 0 ++ post) (pre.length + kTropoHeaderSize) body
      = some (pre ++ [0, 0, 0, 0, 0, 0, 0, 0] ++ body ++ (pad ++ post)) :=
    writeAt_split _ (pre ++ [0, 0, 0, 0, 0, 0, 0, 0]) (List.replicate body.length 0)
      (pad ++ post) _ _ (by rw [hrep]; simp) (by simp [kTropoHeaderSize]) (by simp)
  have s3 : ∀ x : Byte, writeAt (pre ++ [0, 0, 0, 0, 0, 0, 0, 0] ++ body ++ (pad ++ post))
      (pre.length + 4) [x] = some (pre ++ [0, 0, 0, 0, x, 0, 0, 0] ++ body ++ (pad ++ post)) :=
    fun x => (writeAt_split _ (pre ++ [0, 0, 0, 0]) [0] ([0, 0, 0] ++ body ++ (pad ++ post)) _ _
      (by simp) (by simp) (by simp)).trans (by simp)
  have s4 : ∀ x y : Byte, writeAt (pre ++ [0, 0, 0, 0, x, 0, 0, 0] ++ body ++ (pad ++ post))
      (pre.length + 5) [y] = some (pre ++ [0, 0, 0, 0, x, y, 0, 0] ++ body ++ (pad ++ post)) :=
    fun x y => (writeAt_split _ (pre ++ [0, 0, 0, 0, x]) [0] ([0, 0] ++ body ++ (pad ++ post)) _ _
      (by simp) (by simp) (by simp)).trans (by simp)
  have s5 : ∀ x y z : Byte, writeAt (pre ++ [0, 0, 0, 0, x, y, 0, 0] ++ body ++ (pad ++ post))
      (pre.length + 6) [z] = some (pre ++ [0, 0, 0, 0, x, y, z, 0] ++ body ++ (pad ++ post)) :=
    fun x y z => (writeAt_split _ (pre ++ [0, 0, 0, 0, x, y]) [0] ([0] ++ body ++ (pad ++ post))
      _ _ (by simp) (by simp) (by simp)).trans (by simp)
  have s6 : ∀ x y z w : Byte, writeAt (pre ++ [0, 0, 0, 0, x, y, z, 0] ++ body ++ (pad ++ post))
      (pre.length + 7) [w] = some (pre ++ [0, 0, 0, 0, x, y, z, w] ++ body ++ (pad ++ post)) :=
    fun x y z w => (writeAt_split _ (pre ++ [0, 0, 0, 0, x, y, z]) [0] (body ++ (pad ++ post))
      _ _ (by simp) (by simp) (by simp)).trans (by simp)
  have s7 : ∀ (x y z w v : Nat),
      writeAt (pre ++ [0, 0, 0, 0, x, y, z, w] ++ body ++ (pad ++ post)) pre.length
        (EncodeFixed32 v)
      = some (pre ++ EncodeFixed32 v ++ ([x, y, z, w] ++ body ++ (pad ++ post))) :=
    fun x y z w v => writeAt_split _ pre [0, 0, 0, 0] ([x, y, z, w] ++ body ++ (pad ++ post))
      _ _ (by simp) rfl (by simp [EncodeFixed32_length])
  unfold writeFragment
  simp only [s1, s2, s3, s4, s5, s6, s7, Option.bind_eq_bind, Option.some_bind]
  unfold recordBytes kTropoHeaderSize
  rw [hpad]
  simp

theorem writeFragment_length (lba_size : Nat) (fr : Fragment) (buf out : List Byte)
    (h : writeFragment lba_size fr buf = some out) : out.length = buf.length := by
  unfold writeFragment memset memcpy at h
  simp only [Option.bind_eq_bind, Option.bind_eq_some] at h
  obtain ⟨b1, h1, b2, h2, b3, h3, b4, h4, b5, h5, b6, h6, h7⟩ := h
  rw [writeAt_length _ _ _ _ h7, writeAt_length _ _ _ _ h6, writeAt_length _ _ _ _ h5,
    writeAt_length _ _ _ _ h4, writeAt_length _ _ _ _ h3, writeAt_length _ _ _ _ h2,
    writeAt_length _ _ _ _ h1]

theorem writeFragment_none (lba_size : Nat) (fr : Fragment) (buf : List Byte)
    (h : buf.length < fr.frag_begin_addr + lba_size) :
    writeFragment lba_size fr buf = none := by
  unfold writeFragment memset
  rw [writeAt_none _ _ _ (by simpa using h)]
  rfl


theorem commitLoop_spec (lba_size : Nat) (hl : kTropoHeaderSize < lba_size) :
    ∀ (fuel : Nat) (fragment : Option (List Byte)) (walker : Nat) (ptr : List Byte)
      (begin : Bool), ptr.length < fuel →
      ∃ recs, commitLoop lba_size fuel fragment walker ptr begin
          = some (recs, writeRecords lba_size recs fragment)
        ∧ Fragmented lba_size walker begin ptr recs := by
  intro fuel
  induction fuel with
  | zero => intro _ _ _ _ h; omega
  | succ fuel ih =>
    intro fragment walker ptr begin hf
    unfold commitLoop
    simp only [if_pos hl]
    by_cases hlast : ptr.length ≤ lba_size - kTropoHeaderSize
    · -- the last (or only) fragment
      have hfl : (if ptr.length < lba_size - kTropoHeaderSize then ptr.length
          else lba_size - kTropoHeaderSize) = ptr.length := by
        split <;> omega
      simp only [hfl, Nat.sub_self, Nat.lt_irrefl, if_false, beq_self_eq_true, Bool.and_true,
        List.take_length]
      refine ⟨_, rfl, ?_⟩
      have := @Fragmented.last lba_size walker begin ptr hlast
      cases begin <;> simpa using this
    · have hfl : (if ptr.length < lba_size - kTropoHeaderSize then ptr.length
          else lba_size - kTropoHeaderSize) = lba_size - kTropoHeaderSize := by
        split <;> omega
      have hne : (ptr.length == lba_size - kTropoHeaderSize) = false := by
        simp; omega
      have hpos : ptr.length - (lba_size - kTropoHeaderSize) > 0 := by omega
      have hw : walker + (lba_size - kTropoHeaderSize + kTropoHeaderSize) = walker + lba_size := by
        omega
      simp only [hfl, hne, Bool.and_false, if_pos hpos, hw]
      obtain ⟨recs, hrec, hfrag⟩ := ih
        (fragment.bind (writeFragment lba_size
          ⟨walker, if begin then .kFirstType else .kMiddleType,
            ptr.take (lba_size - kTropoHeaderSize)⟩))
        (walker + lba_size) (ptr.drop (lba_size - kTropoHeaderSize)) false
        (by simp; unfold kTropoHeaderSize at *; omega)
      refine ⟨⟨walker, if begin then .kFirstType else .kMiddleType,
            ptr.take (lba_size - kTropoHeaderSize)⟩ :: recs, ?_, ?_⟩
      · cases begin <;> simp_all [writeRecords]
      · exact Fragmented.more walker begin ptr recs (by omega) hfrag


theorem ceilDiv_le_one (n a : Nat) (h : n ≤ a) : n ⌈/⌉ a ≤ 1 := by
  rw [Nat.ceilDiv_eq_add_pred_div]
  rcases Nat.eq_zero_or_pos a with h0 | h0
  · subst h0; simp
  · rw [Nat.div_le_iff_le_mul_add_pred h0]
    omega

theorem ceilDiv_step (n a : Nat) (ha : 0 < a) (h : a < n) :
    n ⌈/⌉ a = (n - a) ⌈/⌉ a + 1 ∧ 1 ≤ (n - a) ⌈/⌉ a := by
  rw [Nat.ceilDiv_eq_add_pred_div, Nat.ceilDiv_eq_add_pred_div]
  have e : n + a - 1 = (n - a + a - 1) + a := by omega
  constructor
  · rw [e, Nat.add_div_right _ ha]
  · rw [Nat.le_div_iff_mul_le ha]
    omega

theorem Fragmented_ne_nil {lba_size walker : Nat} {begin : Bool} {ptr : List Byte}
    {recs : List Fragment} (h : Fragmented lba_size walker begin ptr recs) : recs ≠ [] := by
  cases h <;> simp

theorem Fragmented_length {lba_size walker : Nat} {begin : Bool} {ptr : List Byte}
    {recs : List Fragment} (h : Fragmented lba_size walker begin ptr recs)
    (hl : kTropoHeaderSize < lba_size) :
    recs.length = max 1 (ptr.length ⌈/⌉ (lba_size - kTropoHeaderSize)) := by
  induction h with
  | last walker begin ptr hp =>
    have := ceilDiv_le_one _ _ hp
    simp
    omega
  | more walker begin ptr recs hp _ ih =>
    have := ceilDiv_step ptr.length (lba_size - kTropoHeaderSize) (by omega) hp
    simp only [List.length_cons, ih, List.length_drop]
    omega

theorem Fragmented_get {lba_size walker : Nat} {begin : Bool} {ptr : List Byte}
    {recs : List Fragment} (h : Fragmented lba_size walker begin ptr recs) :
    ∀ (k : Nat) (fr : Fragment), recs[k]? = some fr →
      fr.frag_begin_addr = walker + k * lba_size
      ∧ fr.body = (ptr.drop (k * (lba_size - kTropoHeaderSize))).take
          (lba_size - kTropoHeaderSize)
      ∧ (k + 1 < recs.length → fr.body.length = lba_size - kTropoHeaderSize)
      ∧ fr.type = fragmentType begin k recs.length := by
  induction h with
  | last walker begin ptr hp =>
    intro k fr hk
    rcases k with _ | k
    · simp at hk
      subst hk
      refine ⟨by simp, by simp [List.take_of_length_le hp], by simp, ?_⟩
      cases begin <;> simp [fragmentType]
    · simp at hk
  | more walker begin ptr recs hp hrest ih =>
    intro k fr hk
    rcases k with _ | k
    · simp at hk
      subst hk
      have hne := Fragmented_ne_nil hrest
      have hlen : recs.length ≠ 0 := by
        intro h0; exact hne (List.length_eq_zero.mp h0)
      refine ⟨by simp, by simp, ?_, ?_⟩
      · intro _
        simp
        omega
      · cases begin <;> simp [fragmentType, hlen]
    · simp only [List.getElem?_cons_succ] at hk
      obtain ⟨h1, h2, h3, h4⟩ := ih k fr hk
      refine ⟨?_, ?_, ?_, ?_⟩
      · rw [h1, Nat.add_mul, Nat.one_mul]; omega
      · rw [h2, List.drop_drop]
        congr 2
        rw [Nat.add_mul, Nat.one_mul]; omega
      · intro hlt
        exact h3 (by simpa using hlt)
      · rw [h4]
        simp [fragmentType]

theorem writeRecords_none (lba_size : Nat) (recs : List Fragment) :
    writeRecords lba_size recs none = none := by
  induction recs with
  | nil => rfl
  | cons fr recs ih => simpa [writeRecords] using ih

theorem writeRecords_cons (lba_size : Nat) (fr : Fragment) (recs : List Fragment)
    (b : Option (List Byte)) :
    writeRecords lba_size (fr :: recs) b
      = writeRecords lba_size recs (b.bind (writeFragment lba_size fr)) := rfl

theorem Fragmented_body_le {lba_size walker : Nat} {begin : Bool} {ptr : List Byte}
    {recs : List Fragment} (h : Fragmented lba_size walker begin ptr recs) :
    ∀ fr ∈ recs, fr.body.length + kTropoHeaderSize ≤ lba_size
      ∨ (lba_size ≤ kTropoHeaderSize ∧ fr.body = []) := by
  induction h with
  | last walker begin ptr hp =>
    intro fr hfr
    simp at hfr
    subst hfr
    simp
    by_cases h : kTropoHeaderSize < lba_size
    · left; omega
    · right
      refine ⟨by omega, ?_⟩
      apply List.length_eq_zero.mp
      omega
  | more walker begin ptr recs hp _ ih =>
    intro fr hfr
    simp at hfr
    rcases hfr with hfr | hfr
    · subst hfr
      simp
      omega
    · exact ih fr hfr

theorem encodedBytes_length {lba_size walker : Nat} {begin : Bool} {ptr : List Byte}
    {recs : List Fragment} (h : Fragmented lba_size walker begin ptr recs)
    (hl : kTropoHeaderSize < lba_size) :
    (encodedBytes lba_size recs).length = recs.length * lba_size := by
  induction h with
  | last walker begin ptr hp =>
    simp [encodedBytes]
    exact recordBytes_length _ _ _ (by omega)
  | more walker begin ptr recs hp _ ih =>
    simp [encodedBytes, ih]
    rw [recordBytes_length _ _ _ (by simp; omega), Nat.add_mul]
    omega


/-- Inside the allocation, the writes of the records leave their bytes, block
after block, starting at the offset of the first one. -/
theorem writeRecords_eq {lba_size walker : Nat} {begin : Bool} {ptr : List Byte}
    {recs : List Fragment} (h : Fragmented lba_size walker begin ptr recs)
    (hl : kTropoHeaderSize < lba_size) :
    ∀ (pre old post : List Byte), walker = pre.length → old.length = recs.length * lba_size →
      writeRecords lba_size recs (some (pre ++ old ++ post))
        = some (pre ++ encodedBytes lba_size recs ++ post) := by
  induction h with
  | last walker begin ptr hp =>
    intro pre old post hw ho
    subst hw
    simp only [List.length_singleton, Nat.one_mul] at ho
    simp only [writeRecords, List.foldl_cons, List.foldl_nil, Option.some_bind, encodedBytes,
      List.append_nil]
    exact writeFragment_eq lba_size _ ptr pre old post ho (by omega)
  | more walker begin ptr recs hp hrest ih =>
    intro pre old post hw ho
    subst hw
    simp only [List.length_cons, Nat.add_mul, Nat.one_mul] at ho
    have hsplit : pre ++ old ++ post
        = pre ++ old.take lba_size ++ (old.drop lba_size ++ post) := by
      rw [List.append_assoc, List.append_assoc, ← List.append_assoc (old.take lba_size),
        List.take_append_drop]
    have hbody : (List.take (lba_size - kTropoHeaderSize) ptr).length + kTropoHeaderSize
        ≤ lba_size := by
      simp; omega
    rw [writeRecords_cons, Option.some_bind, hsplit,
      writeFragment_eq lba_size _ _ pre (old.take lba_size) _ (by simp; omega) hbody]
    have := ih (pre ++ recordBytes lba_size
        (if begin = true then TropoRecordType.kFirstType else TropoRecordType.kMiddleType)
        (List.take (lba_size - kTropoHeaderSize) ptr)) (old.drop lba_size) post
      (by simp [recordBytes_length _ _ _ hbody]) (by simp; omega)
    rw [← List.append_assoc, this]
    simp [encodedBytes, List.append_assoc]

/-- When the allocation ends before the last record does, a write leaves it. -/
theorem writeRecords_overflow {lba_size walker : Nat} {begin : Bool} {ptr : List Byte}
    {recs : List Fragment} (h : Fragmented lba_size walker begin ptr recs) :
    ∀ (buf : List Byte), buf.length < walker + recs.length * lba_size →
      writeRecords lba_size recs (some buf) = none := by
  induction h with
  | last walker begin ptr hp =>
    intro buf hb
    simp only [List.length_singleton, Nat.one_mul] at hb
    simp only [writeRecords, List.foldl_cons, List.foldl_nil, Option.some_bind]
    exact writeFragment_none _ _ _ hb
  | more walker begin ptr recs hp hrest ih =>
    intro buf hb
    simp only [List.length_cons, Nat.add_mul, Nat.one_mul] at hb
    rw [writeRecords_cons, Option.some_bind]
    cases hw : writeFragment lba_size
        ⟨walker, if begin = true then TropoRecordType.kFirstType
          else TropoRecordType.kMiddleType, List.take (lba_size - kTropoHeaderSize) ptr⟩ buf with
    | none => exact writeRecords_none _ _
    | some out =>
      apply ih
      rw [writeFragment_length _ _ _ _ hw]
      omega

/-- What `CommitToCharArray` returns for `lba_size > 8`: the loop ends, the
records are the fragmentation of the payload from offset 0, and the buffer is
what their writes leave in the `SpaceNeeded` bytes allocated. -/
theorem CommitToCharArray_eq (lba_size : Nat) (p : List Byte) (hl : kTropoHeaderSize < lba_size) :
    ∃ recs, CommitToCharArray lba_size p
        = some (recs, writeRecords lba_size recs
            (some (List.replicate (SpaceNeeded lba_size p.length) 0)))
      ∧ Fragmented lba_size 0 true p recs :=
  commitLoop_spec lba_size hl _ _ 0 p true (Nat.lt_succ_self _)


theorem le24_roundtrip (v : Nat) (h : v < 2 ^ 24) :
    (v % 256) ||| (((v >>> 8) % 256) <<< 8) ||| (((v >>> 16) % 256) <<< 16) = v := by
  apply Nat.eq_of_testBit_eq
  intro i
  simp only [Nat.testBit_or, Nat.testBit_shiftLeft, Nat.testBit_shiftRight, testBit_mod_256]
  by_cases h1 : i < 8
  · simp [h1, show ¬ 8 ≤ i by omega, show ¬ 16 ≤ i by omega]
  · by_cases h2 : i < 16
    · have : 8 + (i - 8) = i := by omega
      simp [h1, h2, this, show 8 ≤ i by omega, show i - 8 < 8 by omega,
        show ¬ 16 ≤ i by omega]
    · by_cases h3 : i < 24
      · have : 16 + (i - 16) = i := by omega
        simp [h1, h2, h3, this, show 8 ≤ i by omega, show ¬ i - 8 < 8 by omega,
          show 16 ≤ i by omega, show i - 16 < 8 by omega]
      · have := testBit_of_lt h i (by omega)
        simp [h1, this, show ¬ i - 8 < 8 by omega, show ¬ i - 16 < 8 by omega]

theorem mod_mod_256 (x : Nat) : x % 256 % 256 = x % 256 := Nat.mod_mod _ _

theorem DecodeFixed32_EncodeFixed32 (v : Nat) (rest : List Byte) (h : v < 2 ^ 32) :
    DecodeFixed32 (EncodeFixed32 v ++ rest) = v := by
  unfold DecodeFixed32 EncodeFixed32
  simp only [List.cons_append, List.nil_append, List.getD_cons_zero, List.getD_cons_succ,
    mod_mod_256]
  exact le32_roundtrip v h

theorem headerLength_recordBytes (lba_size : Nat) (t : TropoRecordType) (body rest : List Byte)
    (h : body.length < 2 ^ 24) :
    headerLength (recordBytes lba_size t body ++ rest) = body.length := by
  unfold headerLength recordBytes EncodeFixed32
  simp only [List.cons_append, List.append_assoc, List.getD_cons_zero, List.getD_cons_succ,
    List.nil_append, mod_mod_256]
  exact le24_roundtrip _ h

theorem body_recordBytes (lba_size : Nat) (t : TropoRecordType) (body rest : List Byte) :
    ((recordBytes lba_size t body ++ rest).drop kTropoHeaderSize).take body.length = body := by
  unfold recordBytes EncodeFixed32 kTropoHeaderSize
  simp

theorem crcInput_recordBytes (lba_size : Nat) (t : TropoRecordType) (body rest : List Byte) :
    ((recordBytes lba_size t body ++ rest).drop 7).take (1 + body.length)
      = t.toNat :: body := by
  unfold recordBytes EncodeFixed32
  simp [Nat.add_comm 1]

/-- The record types the encoder writes. -/
theorem fromNat_toNat (t : TropoRecordType) : TropoRecordType.fromNat t.toNat = t := by
  cases t <;> rfl

theorem headerType_recordBytes (lba_size : Nat) (t : TropoRecordType) (body rest : List Byte)
    (to_read : Nat) (ht : t = .kFullType ∨ t = .kFirstType ∨ t = .kMiddleType ∨ t = .kLastType)
    (hfit : kTropoHeaderSize + body.length ≤ to_read) :
    headerType (recordBytes lba_size t body ++ rest) body.length to_read = t := by
  have hne : t ≠ .kInvalid := by rcases ht with h | h | h | h <;> simp [h]
  have hcrc : crc32c.Unmask (DecodeFixed32 (recordBytes lba_size t body ++ rest))
      = crc32c.Value (t.toNat :: body) := by
    unfold recordBytes
    rw [List.append_assoc, List.append_assoc, List.append_assoc,
      DecodeFixed32_EncodeFixed32 _ _ (Mask_lt _), type_crc_eq t hne, Extend_Value,
      Unmask_Mask _ (Value_lt _)]
    rfl
  have h7 : (recordBytes lba_size t body ++ rest).getD 7 0 = t.toNat := by
    unfold recordBytes EncodeFixed32
    simp
  unfold headerType checkedType typeOfByte
  simp only [h7, hcrc, crcInput_recordBytes]
  have hd : charToUInt32 t.toNat = t.toNat := by
    rcases ht with h | h | h | h <;> subst h <;> rfl
  have hle : ¬ t.toNat > kTropoRecordTypeLast := by
    rcases ht with h | h | h | h <;> subst h <;> decide
  simp [hd, hle, fromNat_toNat t, Nat.not_lt.mpr hfit]


/-- A block that holds a header and at most `lba_size - 8` payload bytes moves
the cursor of the in-memory reader by one block. -/
theorem advance_one_block (lba_size len : Nat)
    (hb : len + kTropoHeaderSize ≤ lba_size) :
    (len + kTropoHeaderSize + lba_size - 1) / lba_size * lba_size = lba_size := by
  unfold kTropoHeaderSize at *
  have : (len + 8 + lba_size - 1) / lba_size = 1 := by
    apply Nat.div_eq_of_lt_le <;> omega
  rw [this, Nat.one_mul]

/-- One iteration of the in-memory reader on a record the encoder wrote. -/
theorem seekStringLoop_step (lba_size fuel : Nat) (r : TropoCommitReaderString) (inf : Bool)
    (t : TropoRecordType) (body rest : List Byte)
    (hl : kTropoHeaderSize < lba_size) (hb : body.length + kTropoHeaderSize ≤ lba_size)
    (h24 : body.length < 2 ^ 24)
    (hdr : r.input.drop r.commit_ptr = recordBytes lba_size t body ++ rest)
    (hend : r.commit_ptr + lba_size ≤ r.commit_end) (hstart : r.commit_start ≤ r.commit_ptr) :
    (t = .kFullType → seekStringLoop lba_size (fuel + 1) r inf
      = some (true, body, { r with commit_ptr := r.commit_ptr + lba_size, scratch := body }))
    ∧ (t = .kFirstType → seekStringLoop lba_size (fuel + 1) r inf
      = seekStringLoop lba_size fuel
          { r with commit_ptr := r.commit_ptr + lba_size, scratch := body } true)
    ∧ (t = .kMiddleType → inf = true → seekStringLoop lba_size (fuel + 1) r inf
      = seekStringLoop lba_size fuel
          { r with commit_ptr := r.commit_ptr + lba_size, scratch := r.scratch ++ body } true)
    ∧ (t = .kLastType → inf = true → seekStringLoop lba_size (fuel + 1) r inf
      = some (true, r.scratch ++ body,
          { r with commit_ptr := r.commit_ptr + lba_size, scratch := r.scratch ++ body })) := by
  have hto : (if r.commit_end - r.commit_ptr > lba_size then lba_size
      else r.commit_end - r.commit_ptr) = lba_size := by
    split <;> omega
  have hcond : r.commit_ptr < r.commit_end ∧ r.commit_ptr ≥ r.commit_start := by
    unfold kTropoHeaderSize at hl
    exact ⟨by omega, hstart⟩
  have hL := headerLength_recordBytes lba_size t body rest h24
  have hA := advance_one_block lba_size body.length hb
  have hB := body_recordBytes lba_size t body rest
  refine ⟨?_, ?_, ?_, ?_⟩
  · intro h
    subst h
    have hT := headerType_recordBytes lba_size .kFullType body rest lba_size (by simp) (by omega)
    rw [seekStringLoop, if_pos hcond]
    simp only [hto, hdr, hL, hT, hA, hB]
  · intro h
    subst h
    have hT := headerType_recordBytes lba_size .kFirstType body rest lba_size (by simp) (by omega)
    rw [seekStringLoop, if_pos hcond]
    simp only [hto, hdr, hL, hT, hA, hB]
  · intro h hi
    subst h hi
    have hT := headerType_recordBytes lba_size .kMiddleType body rest lba_size (by simp) (by omega)
    rw [seekStringLoop, if_pos hcond]
    simp only [hto, hdr, hL, hT, hA, hB]
    rfl
  · intro h hi
    subst h hi
    have hT := headerType_recordBytes lba_size .kLastType body rest lba_size (by simp) (by omega)
    rw [seekStringLoop, if_pos hcond]
    simp only [hto, hdr, hL, hT, hA, hB]
    rfl


theorem drop_of_eq_append (l pre x post : List Byte) (n : Nat) (h : l = pre ++ x ++ post)
    (hn : n = pre.length) : l.drop n = x ++ post := by
  subst h hn
  rw [List.append_assoc, List.drop_left]

/-- The in-memory reader on the records of one payload: it returns the payload
(behind what a preceding `First` has left in `scratch`). -/
theorem seekStringLoop_fragmented {lba_size walker : Nat} {begin : Bool} {ptr : List Byte}
    {recs : List Fragment} (h : Fragmented lba_size walker begin ptr recs)
    (hl : kTropoHeaderSize < lba_size) (h24 : lba_size - kTropoHeaderSize < 2 ^ 24) :
    ∀ (fuel : Nat) (r : TropoCommitReaderString) (inf : Bool) (pre post : List Byte),
      r.input = pre ++ encodedBytes lba_size recs ++ post → r.commit_ptr = pre.length →
      r.commit_start ≤ r.commit_ptr → pre.length + recs.length * lba_size ≤ r.commit_end →
      recs.length ≤ fuel → (begin = false → inf = true) →
      seekStringLoop lba_size fuel r inf
        = some (true, (if begin then [] else r.scratch) ++ ptr,
            { r with commit_ptr := pre.length + recs.length * lba_size,
                     scratch := (if begin then [] else r.scratch) ++ ptr }) := by
  induction h with
  | last walker begin ptr hp =>
    intro fuel r inf pre post hin hptr hstart hend hfuel hinf
    obtain ⟨fuel, rfl⟩ : ∃ f, fuel = f + 1 := ⟨fuel - 1, by simp at hfuel; omega⟩
    simp only [List.length_singleton, Nat.one_mul] at hend
    have hdr := drop_of_eq_append _ _ _ _ _ hin hptr
    simp only [encodedBytes, List.append_nil] at hdr
    have hstep := seekStringLoop_step lba_size fuel r inf _ ptr post hl (by omega) (by omega)
      hdr (by omega) hstart
    cases begin
    · have hi := hinf rfl
      rw [hstep.2.2.2 (by simp) hi]
      simp [hptr]
    · rw [hstep.1 (by simp)]
      simp [hptr]
  | more walker begin ptr recs hp hrest ih =>
    intro fuel r inf pre post hin hptr hstart hend hfuel hinf
    obtain ⟨fuel, rfl⟩ : ∃ f, fuel = f + 1 := ⟨fuel - 1, by simp at hfuel; omega⟩
    simp only [List.length_cons, Nat.add_mul, Nat.one_mul] at hend
    simp only [encodedBytes] at hin
    have hin' : r.input = pre ++ recordBytes lba_size
        (if begin = true then TropoRecordType.kFirstType else TropoRecordType.kMiddleType)
        (List.take (lba_size - kTropoHeaderSize) ptr) ++ (encodedBytes lba_size recs ++ post) := by
      rw [hin]; simp [List.append_assoc]
    have hdr := drop_of_eq_append _ _ _ _ _ hin' hptr
    have hbl : (List.take (lba_size - kTropoHeaderSize) ptr).length
        = lba_size - kTropoHeaderSize := by
      simp; omega
    have hstep := seekStringLoop_step lba_size fuel r inf _ _ _ hl (by omega) (by omega)
      hdr (by omega) hstart
    have hrl : ∀ t, (recordBytes lba_size t
        (List.take (lba_size - kTropoHeaderSize) ptr)).length = lba_size :=
      fun t => recordBytes_length lba_size t _ (by omega)
    have hcp : pre.length + lba_size + recs.length * lba_size
        = pre.length + (recs.length + 1) * lba_size := by
      rw [Nat.add_mul]; omega
    cases begin
    · have hi := hinf rfl
      rw [hstep.2.2.1 (by simp) hi]
      rw [ih fuel _ true (pre ++ recordBytes lba_size .kMiddleType
            (List.take (lba_size - kTropoHeaderSize) ptr)) post
          (by simp [hin, List.append_assoc]) (by simp [hptr, hrl])
          (by simp; omega) (by simp [hrl]; omega) (by simpa using hfuel) (fun _ => rfl)]
      simp only [List.length_append, hrl, hcp, List.length_cons, Bool.false_eq_true, if_false,
        List.append_assoc, List.take_append_drop]
    · rw [hstep.2.1 (by simp)]
      rw [ih fuel _ true (pre ++ recordBytes lba_size .kFirstType
            (List.take (lba_size - kTropoHeaderSize) ptr)) post
          (by simp [hin, List.append_assoc]) (by simp [hptr, hrl])
          (by simp; omega) (by simp [hrl]; omega) (by simpa using hfuel) (fun _ => rfl)]
      simp only [List.length_append, hrl, hcp, List.length_cons, Bool.false_eq_true, if_false,
        if_true, List.append_assoc, List.take_append_drop, List.nil_append]


/-- The allocation never exceeds the blocks of the records. -/
theorem SpaceNeeded_le (lba_size n k : Nat) (hl : kTropoHeaderSize < lba_size)
    (hk : k = max 1 (n ⌈/⌉ (lba_size - kTropoHeaderSize))) :
    SpaceNeeded lba_size n ≤ k * lba_size := by
  unfold kTropoHeaderSize at *
  have hc : n ≤ (n ⌈/⌉ (lba_size - 8)) * (lba_size - 8) := by
    rw [Nat.ceilDiv_eq_add_pred_div]
    exact le_roundUp n (lba_size - 8) (by omega)
  have hk1 : 1 ≤ k := by omega
  have hkc : n ⌈/⌉ (lba_size - 8) ≤ k := by omega
  have h2 : n ≤ k * (lba_size - 8) := Nat.le_trans hc (Nat.mul_le_mul_right _ hkc)
  have h3 : k * lba_size = k * (lba_size - 8) + k * 8 := by
    rw [← Nat.mul_add]; congr 1; omega
  have h1 : n / lba_size * lba_size ≤ n := Nat.div_mul_le_self _ _
  have h4 : n / lba_size < k := by
    by_contra hcon
    have := Nat.mul_le_mul_right lba_size (Nat.le_of_not_lt hcon)
    omega
  have hx : (n / lba_size + 1) * 8 + n ≤ k * lba_size := by omega
  rw [SpaceNeeded_eq]
  apply Nat.mul_le_mul_right
  rw [Nat.div_le_iff_le_mul_add_pred (by omega)]
  rw [Nat.mul_comm lba_size k]
  omega

theorem seekStringLoop_invalid (lba_size fuel : Nat) (r : TropoCommitReaderString) (inf : Bool)
    (hptr : r.commit_ptr < r.commit_end) (hstart : r.commit_start ≤ r.commit_ptr)
    (hcrc : crc32c.Value (((r.input.drop r.commit_ptr).drop 7).take
        (1 + headerLength (r.input.drop r.commit_ptr)))
      ≠ crc32c.Unmask (DecodeFixed32 (r.input.drop r.commit_ptr))) :
    ∃ r', seekStringLoop lba_size (fuel + 1) r inf = some (false, [], r') ∧ r'.scratch = [] := by
  rw [seekStringLoop, if_pos ⟨hptr, hstart⟩]
  have hT : ∀ to_read, headerType (r.input.drop r.commit_ptr)
      (headerLength (r.input.drop r.commit_ptr)) to_read = .kInvalid := by
    intro to_read
    unfold headerType checkedType
    dsimp only
    rw [if_pos (bne_iff_ne.mpr hcrc)]
  simp only [hT]
  exact ⟨_, rfl, rfl⟩

/-- The in-memory reader passes over the first `j` records of a payload that
has more than `j` records without returning. -/
theorem seekStringLoop_skip {lba_size walker : Nat} {begin : Bool} {ptr : List Byte}
    {recs : List Fragment} (h : Fragmented lba_size walker begin ptr recs)
    (hl : kTropoHeaderSize < lba_size) (h24 : lba_size - kTropoHeaderSize < 2 ^ 24) :
    ∀ (j fuel : Nat) (r : TropoCommitReaderString) (inf : Bool) (pre post : List Byte),
      j < recs.length →
      r.input = pre ++ encodedBytes lba_size (recs.take j) ++ post → r.commit_ptr = pre.length →
      r.commit_start ≤ r.commit_ptr → pre.length + j * lba_size ≤ r.commit_end →
      (begin = false → inf = true) →
      ∃ scr inf', seekStringLoop lba_size (j + fuel) r inf
        = seekStringLoop lba_size fuel
            { r with commit_ptr := pre.length + j * lba_size, scratch := scr } inf' := by
  have zero : ∀ (fuel : Nat) (r : TropoCommitReaderString) (inf : Bool) (pre : List Byte),
      r.commit_ptr = pre.length →
      ∃ scr inf', seekStringLoop lba_size (0 + fuel) r inf
        = seekStringLoop lba_size fuel
            { r with commit_ptr := pre.length + 0 * lba_size, scratch := scr } inf' := by
    intro fuel r inf pre hptr
    refine ⟨r.scratch, inf, ?_⟩
    rw [Nat.zero_add, Nat.zero_mul, Nat.add_zero, ← hptr]
  induction h with
  | last walker begin ptr hp =>
    intro j fuel r inf pre post hj hin hptr hstart hend hinf
    simp only [List.length_singleton] at hj
    obtain rfl : j = 0 := by omega
    exact zero fuel r inf pre hptr
  | more walker begin ptr recs hp hrest ih =>
    intro j fuel r inf pre post hj hin hptr hstart hend hinf
    rcases j with _ | j
    · exact zero fuel r inf pre hptr
    · simp only [List.length_cons, Nat.add_lt_add_iff_right] at hj
      simp only [List.take_succ_cons, encodedBytes] at hin
      have hin' : r.input = pre ++ recordBytes lba_size
          (if begin = true then TropoRecordType.kFirstType else TropoRecordType.kMiddleType)
          (List.take (lba_size - kTropoHeaderSize) ptr)
          ++ (encodedBytes lba_size (recs.take j) ++ post) := by
        rw [hin]; simp [List.append_assoc]
      have hdr := drop_of_eq_append _ _ _ _ _ hin' hptr
      have hbl : (List.take (lba_size - kTropoHeaderSize) ptr).length
          = lba_size - kTropoHeaderSize := by
        simp; omega
      have hfu : j + 1 + fuel = (j + fuel) + 1 := by omega
      have hend' : pre.length + lba_size + j * lba_size ≤ r.commit_end := by
        rw [Nat.add_mul] at hend; omega
      rw [hfu]
      have hstep := seekStringLoop_step lba_size (j + fuel) r inf _ _ _ hl (by omega) (by omega)
        hdr (by have := Nat.zero_le (j * lba_size); omega) hstart
      have hrl : ∀ t, (recordBytes lba_size t
          (List.take (lba_size - kTropoHeaderSize) ptr)).length = lba_size :=
        fun t => recordBytes_length lba_size t _ (by omega)
      have hcp : pre.length + lba_size + j * lba_size = pre.length + (j + 1) * lba_size := by
        rw [Nat.add_mul]; omega
      cases begin
      · have hi := hinf rfl
        rw [hstep.2.2.1 (by simp) hi]
        obtain ⟨scr, inf', he⟩ := ih j fuel
          { r with commit_ptr := r.commit_ptr + lba_size
                   scratch := r.scratch ++ List.take (lba_size - kTropoHeaderSize) ptr } true
          (pre ++ recordBytes lba_size .kMiddleType
            (List.take (lba_size - kTropoHeaderSize) ptr)) post hj
          (by simp [hin, List.append_assoc]) (by simp [hptr, hrl])
          (by simp; omega) (by simp [hrl]; omega) (fun _ => rfl)
        refine ⟨scr, inf', ?_⟩
        rw [he]
        simp only [List.length_append, hrl, hcp]
      · rw [hstep.2.1 (by simp)]
        obtain ⟨scr, inf', he⟩ := ih j fuel
          { r with commit_ptr := r.commit_ptr + lba_size
                   scratch := List.take (lba_size - kTropoHeaderSize) ptr } true
          (pre ++ recordBytes lba_size .kFirstType
            (List.take (lba_size - kTropoHeaderSize) ptr)) post hj
          (by simp [hin, List.append_assoc]) (by simp [hptr, hrl])
          (by simp; omega) (by simp [hrl]; omega) (fun _ => rfl)
        refine ⟨scr, inf', ?_⟩
        rw [he]
        simp only [List.length_append, hrl, hcp]


theorem encodedBytes_split (lba_size : Nat) (recs : List Fragment) :
    ∀ (k : Nat) (fr : Fragment), recs[k]? = some fr →
      encodedBytes lba_size recs
        = encodedBytes lba_size (recs.take k) ++ recordBytes lba_size fr.type fr.body
            ++ encodedBytes lba_size (recs.drop (k + 1)) := by
  induction recs with
  | nil => intro k fr hk; simp at hk
  | cons r recs ih =>
    intro k fr hk
    rcases k with _ | k
    · simp at hk
      subst hk
      simp [encodedBytes]
    · simp only [List.getElem?_cons_succ] at hk
      simp only [encodedBytes, List.take_succ_cons, List.drop_succ_cons, List.append_assoc]
      rw [ih k fr hk, List.append_assoc]

theorem encodedBytes_length_of_fit (lba_size : Nat) (recs : List Fragment)
    (h : ∀ fr ∈ recs, fr.body.length + kTropoHeaderSize ≤ lba_size) :
    (encodedBytes lba_size recs).length = recs.length * lba_size := by
  induction recs with
  | nil => simp [encodedBytes]
  | cons r recs ih =>
    simp only [encodedBytes, List.length_append, List.length_cons, Nat.add_mul, Nat.one_mul]
    rw [recordBytes_length _ _ _ (h r (by simp)), ih (fun fr hfr => h fr (by simp [hfr]))]
    omega

theorem Fragmented_fit {lba_size walker : Nat} {begin : Bool} {ptr : List Byte}
    {recs : List Fragment} (h : Fragmented lba_size walker begin ptr recs)
    (hl : kTropoHeaderSize < lba_size) :
    ∀ fr ∈ recs, fr.body.length + kTropoHeaderSize ≤ lba_size := by
  intro fr hfr
  rcases Fragmented_body_le h fr hfr with h1 | h1
  · exact h1
  · omega

theorem encodedBytes_take_length {lba_size walker : Nat} {begin : Bool} {ptr : List Byte}
    {recs : List Fragment} (h : Fragmented lba_size walker begin ptr recs)
    (hl : kTropoHeaderSize < lba_size) (k : Nat) (hk : k ≤ recs.length) :
    (encodedBytes lba_size (recs.take k)).length = k * lba_size := by
  rw [encodedBytes_length_of_fit _ _ (fun fr hfr => Fragmented_fit h hl fr (List.mem_of_mem_take hfr))]
  simp [Nat.min_eq_left hk]

/-- When `CommitToCharArray` stays inside its allocation, the buffer it
returns is the blocks of the records it emitted, and nothing else. -/
theorem CommitToCharArray_some (lba_size : Nat) (p : List Byte) (recs : List Fragment)
    (buf : List Byte) (hl : kTropoHeaderSize < lba_size)
    (h : CommitToCharArray lba_size p = some (recs, some buf)) :
    Fragmented lba_size 0 true p recs ∧ buf = encodedBytes lba_size recs
      ∧ buf.length = recs.length * lba_size
      ∧ SpaceNeeded lba_size p.length = recs.length * lba_size := by
  obtain ⟨recs', hrun, hfrag⟩ := CommitToCharArray_eq lba_size p hl
  rw [hrun] at h
  simp only [Option.some.injEq, Prod.mk.injEq] at h
  obtain ⟨h1, h2⟩ := h
  subst h1
  have hle := SpaceNeeded_le lba_size p.length recs'.length hl (Fragmented_length hfrag hl)
  have hge : recs'.length * lba_size ≤ SpaceNeeded lba_size p.length := by
    by_contra hcon
    rw [writeRecords_overflow hfrag _ (by simpa using Nat.lt_of_not_le hcon)] at h2
    cases h2
  have heq : SpaceNeeded lba_size p.length = recs'.length * lba_size := Nat.le_antisymm hle hge
  have hw := writeRecords_eq hfrag hl [] (List.replicate (SpaceNeeded lba_size p.length) 0) []
    rfl (by simp [heq])
  simp only [List.nil_append, List.append_nil] at hw
  rw [hw] at h2
  simp only [Option.some.injEq] at h2
  subst h2
  exact ⟨hfrag, rfl, by rw [encodedBytes_length hfrag hl], heq⟩

theorem seekStringLoop_end (lba_size fuel : Nat) (r : TropoCommitReaderString) (inf : Bool)
    (h : r.commit_end ≤ r.commit_ptr) :
    seekStringLoop lba_size (fuel + 1) r inf = some (false, [], r) := by
  rw [seekStringLoop, if_neg (by omega)]

/-- Round trip inside the allocation: when `CommitToCharArray` returns a
buffer, the first seek over it returns the payload and the second returns
false. -/
theorem roundtrip_of_in_bounds (lba_size : Nat) (p : List Byte) (recs : List Fragment)
    (buf record : List Byte) (hl : kTropoHeaderSize < lba_size)
    (h24 : lba_size - kTropoHeaderSize < 2 ^ 24)
    (h : CommitToCharArray lba_size p = some (recs, some buf)) :
    SeekCommitReaderString lba_size (GetCommitReaderString buf) record
        = some (true, p, { commit_start := 0, commit_end := buf.length, commit_ptr := buf.length,
                           input := buf, scratch := p })
      ∧ SeekCommitReaderString lba_size
          { commit_start := 0, commit_end := buf.length, commit_ptr := buf.length,
            input := buf, scratch := p } p
        = some (false, p, { commit_start := 0, commit_end := buf.length, commit_ptr := buf.length,
                            input := buf, scratch := p }) := by
  obtain ⟨hfrag, hbuf, hlen, _⟩ := CommitToCharArray_some lba_size p recs buf hl h
  have hne := Fragmented_ne_nil hfrag
  have hpos : 0 < recs.length := List.length_pos.mpr hne
  have hbpos : 0 < buf.length := by
    rw [hlen]; exact Nat.mul_pos hpos (by omega)
  have hfuel : recs.length ≤ buf.length - 0 + 1 := by
    rw [hlen]
    have : recs.length * 1 ≤ recs.length * lba_size := Nat.mul_le_mul_left _ (by omega)
    omega
  constructor
  · unfold SeekCommitReaderString GetCommitReaderString
    simp only [ge_iff_le, Nat.le_zero_eq]
    rw [if_neg (by omega)]
    have := seekStringLoop_fragmented hfrag hl h24 (buf.length - 0 + 1)
      { commit_start := 0, commit_end := buf.length, commit_ptr := 0, input := buf, scratch := [] }
      false [] [] (by simp [hbuf]) rfl (Nat.le_refl _) (by simp [hlen]) hfuel (by simp)
    rw [this]
    simp [hlen]
  · unfold SeekCommitReaderString
    simp


/-- The writes of the first `j` records, inside the allocation. -/
theorem writeRecords_take {lba_size walker : Nat} {begin : Bool} {ptr : List Byte}
    {recs : List Fragment} (h : Fragmented lba_size walker begin ptr recs)
    (hl : kTropoHeaderSize < lba_size) :
    ∀ (j : Nat) (pre old post : List Byte), j ≤ recs.length → walker = pre.length →
      old.length = j * lba_size →
      writeRecords lba_size (recs.take j) (some (pre ++ old ++ post))
        = some (pre ++ encodedBytes lba_size (recs.take j) ++ post) := by
  have zero : ∀ (rs : List Fragment) (pre old post : List Byte), old.length = 0 * lba_size →
      writeRecords lba_size (rs.take 0) (some (pre ++ old ++ post))
        = some (pre ++ encodedBytes lba_size (rs.take 0) ++ post) := by
    intro rs pre old post ho
    have : old = [] := List.length_eq_zero.mp (by simpa using ho)
    subst this
    simp [writeRecords, encodedBytes]
  induction h with
  | last walker begin ptr hp =>
    intro j pre old post hj hw ho
    rcases j with _ | j
    · exact zero _ pre old post ho
    · simp only [List.length_singleton] at hj
      obtain rfl : j = 0 := by omega
      simp only [Nat.zero_add, Nat.one_mul] at ho
      subst hw
      simp only [List.take_succ_cons, List.take_zero, writeRecords, List.foldl_cons,
        List.foldl_nil, Option.some_bind, encodedBytes, List.append_nil]
      exact writeFragment_eq lba_size _ ptr pre old post ho (by omega)
  | more walker begin ptr recs hp hrest ih =>
    intro j pre old post hj hw ho
    rcases j with _ | j
    · exact zero _ pre old post ho
    · subst hw
      simp only [List.length_cons, Nat.add_le_add_iff_right] at hj
      simp only [Nat.add_mul, Nat.one_mul] at ho
      have hsplit : pre ++ old ++ post
          = pre ++ old.take lba_size ++ (old.drop lba_size ++ post) := by
        rw [List.append_assoc, List.append_assoc, ← List.append_assoc (old.take lba_size),
          List.take_append_drop]
      have hbody : (List.take (lba_size - kTropoHeaderSize) ptr).length + kTropoHeaderSize
          ≤ lba_size := by
        simp; omega
      rw [List.take_succ_cons, writeRecords_cons, Option.some_bind, hsplit,
        writeFragment_eq lba_size _ _ pre (old.take lba_size) _ (by simp; omega) hbody]
      have := ih j (pre ++ recordBytes lba_size
          (if begin = true then TropoRecordType.kFirstType else TropoRecordType.kMiddleType)
          (List.take (lba_size - kTropoHeaderSize) ptr)) (old.drop lba_size) post hj
        (by simp [recordBytes_length _ _ _ hbody]) (by simp; omega)
      rw [← List.append_assoc, this]
      simp [encodedBytes, List.append_assoc]

theorem ceilDiv_32761 : max 1 (32761 ⌈/⌉ (512 - kTropoHeaderSize)) = 66 := by decide

theorem SpaceNeeded_32761 : SpaceNeeded 512 32761 = 33280 := by decide

/-- The run of the encoder loop on a payload of 32761 bytes at
`lba_size = 512`: 66 records, the writes of the first 65 fill the 33280 bytes
allocated, and the write of the last one leaves the allocation. -/
theorem overflow_512 (p : List Byte) (hp : p.length = 32761) :
    ∃ recs fr, commitLoop 512 (p.length + 1)
          (some (List.replicate (SpaceNeeded 512 p.length) 0)) 0 p true = some (recs, none)
      ∧ Fragmented 512 0 true p recs
      ∧ recs.length = 66
      ∧ writeRecords 512 (recs.take 65) (some (List.replicate 33280 0))
          = some (encodedBytes 512 (recs.take 65))
      ∧ (encodedBytes 512 (recs.take 65)).length = 33280
      ∧ recs[65]? = some fr ∧ fr.frag_begin_addr = 33280 ∧ fr.body.length = 1
      ∧ writeFragment 512 fr (encodedBytes 512 (recs.take 65)) = none := by
  have hl : kTropoHeaderSize < 512 := by decide
  obtain ⟨recs, hrun, hfrag⟩ := commitLoop_spec 512 hl (p.length + 1)
    (some (List.replicate (SpaceNeeded 512 p.length) 0)) 0 p true (Nat.lt_succ_self _)
  have hlen : recs.length = 66 := by
    rw [Fragmented_length hfrag hl, hp]; exact ceilDiv_32761
  have hover : writeRecords 512 recs (some (List.replicate (SpaceNeeded 512 p.length) 0))
      = none := by
    apply writeRecords_overflow hfrag
    rw [List.length_replicate, hp, SpaceNeeded_32761, hlen]
    omega
  have h65 : 65 < recs.length := by omega
  have hget : recs[65]? = some recs[65] := List.getElem?_eq_getElem h65
  obtain ⟨g1, g2, _, _⟩ := Fragmented_get hfrag 65 _ hget
  have htl := encodedBytes_take_length hfrag hl 65 (by omega)
  have hw := writeRecords_take hfrag hl 65 [] (List.replicate 33280 0) [] (by omega) rfl
    (List.length_replicate _ _)
  simp only [List.nil_append, List.append_nil] at hw
  refine ⟨recs, recs[65], ?_, hfrag, hlen, hw, by rw [htl], hget, by rw [g1], ?_, ?_⟩
  · rw [hrun, hover]
  · rw [g2]
    simp [hp, kTropoHeaderSize]
  · apply writeFragment_none
    rw [htl, g1]
    omega


theorem Fragmented_type {lba_size walker : Nat} {begin : Bool} {ptr : List Byte}
    {recs : List Fragment} (h : Fragmented lba_size walker begin ptr recs) :
    ∀ fr ∈ recs, fr.type = .kFullType ∨ fr.type = .kFirstType ∨ fr.type = .kMiddleType
      ∨ fr.type = .kLastType := by
  induction h with
  | last walker begin ptr hp =>
    intro fr hfr
    simp at hfr
    subst hfr
    cases begin <;> simp
  | more walker begin ptr recs hp _ ih =>
    intro fr hfr
    simp at hfr
    rcases hfr with hfr | hfr
    · subst hfr
      cases begin <;> simp
    · exact ih fr hfr

/-- The CRC stored in a record the encoder wrote, and the check of the readers
on it. -/
theorem record_crc_facts (lba_size : Nat) (t : TropoRecordType) (body rest : List Byte)
    (ht : t = .kFullType ∨ t = .kFirstType ∨ t = .kMiddleType ∨ t = .kLastType) :
    DecodeFixed32 (recordBytes lba_size t body ++ rest)
        = crc32c.Mask (crc32c.Value (t.toNat :: body))
      ∧ (body.length < 2 ^ 24 →
          crc32c.Unmask (DecodeFixed32 (recordBytes lba_size t body ++ rest))
            = crc32c.Value (((recordBytes lba_size t body ++ rest).drop 7).take
                (1 + headerLength (recordBytes lba_size t body ++ rest)))) := by
  have hne : t ≠ .kInvalid := by rcases ht with h | h | h | h <;> simp [h]
  have hdec : DecodeFixed32 (recordBytes lba_size t body ++ rest)
      = crc32c.Mask (crc32c.Value (t.toNat :: body)) := by
    unfold recordBytes
    rw [List.append_assoc, List.append_assoc, List.append_assoc,
      DecodeFixed32_EncodeFixed32 _ _ (Mask_lt _), type_crc_eq t hne, Extend_Value]
    rfl
  refine ⟨hdec, ?_⟩
  intro h24
  rw [hdec, Unmask_Mask _ (Value_lt _), headerLength_recordBytes _ _ _ _ h24,
    crcInput_recordBytes]

theorem writeFragment_some (lba_size : Nat) (fr : Fragment) (fragment after : List Byte)
    (hfit : fr.body.length + kTropoHeaderSize ≤ lba_size)
    (h : writeFragment lba_size fr fragment = some after) :
    after.drop fr.frag_begin_addr
      = recordBytes lba_size fr.type fr.body
          ++ fragment.drop (fr.frag_begin_addr + lba_size) := by
  have hb : fr.frag_begin_addr + lba_size ≤ fragment.length := by
    by_contra hcon
    rw [writeFragment_none _ _ _ (Nat.lt_of_not_le hcon)] at h
    cases h
  have hpre : (fragment.take fr.frag_begin_addr).length = fr.frag_begin_addr := by
    simp; omega
  have hdecomp : fragment = fragment.take fr.frag_begin_addr
      ++ (fragment.drop fr.frag_begin_addr).take lba_size
      ++ fragment.drop (fr.frag_begin_addr + lba_size) := by
    rw [List.append_assoc, ← List.drop_drop, List.take_append_drop, List.take_append_drop]
  have hw := writeFragment_eq lba_size fr.type fr.body (fragment.take fr.frag_begin_addr)
    ((fragment.drop fr.frag_begin_addr).take lba_size)
    (fragment.drop (fr.frag_begin_addr + lba_size)) (by simp; omega) hfit
  rw [hpre, ← hdecomp] at hw
  rw [h] at hw
  simp only [Option.some.injEq] at hw
  exact drop_of_eq_append _ _ _ _ _ hw hpre.symm


/-- What `CommitToCharArray` returns for `lba_size > 8`: the records are the
fragmentation of the payload, and the buffer holds their blocks when they fit
the `SpaceNeeded` bytes allocated. -/
theorem CommitToCharArray_out (lba_size : Nat) (p : List Byte)
    (hl : kTropoHeaderSize < lba_size) :
    ∃ recs, CommitToCharArray lba_size p
        = some (recs,
            if recs.length * lba_size ≤ SpaceNeeded lba_size p.length
              then some (encodedBytes lba_size recs) else none)
      ∧ Fragmented lba_size 0 true p recs := by
  obtain ⟨recs, hrun, hfrag⟩ := CommitToCharArray_eq lba_size p hl
  refine ⟨recs, ?_, hfrag⟩
  rw [hrun]
  have hle := SpaceNeeded_le lba_size p.length recs.length hl (Fragmented_length hfrag hl)
  by_cases hfit : recs.length * lba_size ≤ SpaceNeeded lba_size p.length
  · rw [if_pos hfit]
    have heq : SpaceNeeded lba_size p.length = recs.length * lba_size :=
      Nat.le_antisymm hle hfit
    have hw := writeRecords_eq hfrag hl []
      (List.replicate (SpaceNeeded lba_size p.length) 0) [] rfl
      (by rw [List.length_replicate, heq])
    simp only [List.nil_append, List.append_nil] at hw
    rw [hw]
  · rw [if_neg hfit]
    rw [writeRecords_overflow hfrag _ (by rw [List.length_replicate]; omega)]

/-- A payload of `2 ^ 24` bytes at `lba_size = 2 ^ 24 + 8`: one Full record in
one block, whose three length bytes hold 0. -/
theorem long_fragment_facts (p : List Byte) (hp : p.length = 2 ^ 24) :
    CommitToCharArray (2 ^ 24 + 8) p
        = some ([⟨0, TropoRecordType.kFullType, p⟩],
            some (recordBytes (2 ^ 24 + 8) TropoRecordType.kFullType p))
      ∧ DecodeFixed32 (recordBytes (2 ^ 24 + 8) TropoRecordType.kFullType p)
          = crc32c.Mask (crc32c.Value (TropoRecordType.kFullType.toNat :: p))
      ∧ headerLength (recordBytes (2 ^ 24 + 8) TropoRecordType.kFullType p) = 0
      ∧ ((recordBytes (2 ^ 24 + 8) TropoRecordType.kFullType p).drop 7).take 1
          = [TropoRecordType.kFullType.toNat] := by
  have hl : kTropoHeaderSize < 2 ^ 24 + 8 := by decide
  refine ⟨?_, ?_, ?_, ?_⟩
  · obtain ⟨recs, hrun, hfrag⟩ := CommitToCharArray_out (2 ^ 24 + 8) p hl
    cases hfrag with
    | last _ _ _ _ =>
      rw [hrun]
      have hsn : SpaceNeeded (2 ^ 24 + 8) p.length = 2 ^ 24 + 8 := by
        rw [hp]; decide
      have hfit : [(⟨0, if true = true then TropoRecordType.kFullType
            else TropoRecordType.kLastType, p⟩ : Fragment)].length * (2 ^ 24 + 8)
          ≤ SpaceNeeded (2 ^ 24 + 8) p.length := by
        rw [hsn, List.length_singleton, Nat.one_mul]
      rw [if_pos hfit]
      simp only [if_true, encodedBytes, List.append_nil]
    | more _ _ _ recs' hp' _ =>
      exfalso
      rw [hp] at hp'
      exact absurd hp' (by decide)
  · have := (record_crc_facts (2 ^ 24 + 8) TropoRecordType.kFullType p [] (Or.inl rfl)).1
    rw [List.append_nil] at this
    exact this
  · unfold headerLength recordBytes EncodeFixed32
    simp only [List.cons_append, List.append_assoc, List.getD_cons_zero, List.getD_cons_succ,
      List.nil_append, mod_mod_256]
    rw [hp]
    decide
  · unfold recordBytes EncodeFixed32
    simp

/-- Payloads that differ in their last byte have different CRCs. -/
theorem Value_last_byte (xs : List Byte) :
    ¬ (crc32c.Value (xs ++ [0]) = crc32c.Value (xs ++ [1])) := by
  intro h
  have := Value_single_byte xs [] 0 1 h
  exact absurd this (by decide)

/-- C8 (counterexample): `lba_size = 2 ^ 24 + 8` and a payload of `2 ^ 24`
bytes, all of them 0, or all of them 0 but the last, which is 1.  The encoder
writes one Full record of `2 ^ 24` payload bytes; this fragment length does not
fit the three length bytes, which hold 0.  The stored CRC is the masked CRC of
the type byte and the payload, but the check of the decoder takes the CRC of
the `1 + 0` bytes from header offset 7, the type byte alone: it fails on the
unmodified record, for at least one of the two payloads (their CRCs differ). -/
theorem long_fragment_fails_crc_check :
    ∃ b : Byte, (b = 0 ∨ b = 1)
      ∧ CommitToCharArray (2 ^ 24 + 8) (List.replicate (2 ^ 24 - 1) 0 ++ [b])
          = some ([⟨0, TropoRecordType.kFullType, List.replicate (2 ^ 24 - 1) 0 ++ [b]⟩],
              some (recordBytes (2 ^ 24 + 8) TropoRecordType.kFullType
                (List.replicate (2 ^ 24 - 1) 0 ++ [b])))
      ∧ DecodeFixed32 (recordBytes (2 ^ 24 + 8) TropoRecordType.kFullType
            (List.replicate (2 ^ 24 - 1) 0 ++ [b]))
          = crc32c.Mask (crc32c.Value (TropoRecordType.kFullType.toNat
              :: (List.replicate (2 ^ 24 - 1) 0 ++ [b])))
      ∧ headerLength (recordBytes (2 ^ 24 + 8) TropoRecordType.kFullType
            (List.replicate (2 ^ 24 - 1) 0 ++ [b])) = 0
      ∧ crc32c.Unmask (DecodeFixed32 (recordBytes (2 ^ 24 + 8) TropoRecordType.kFullType
            (List.replicate (2 ^ 24 - 1) 0 ++ [b])))
          ≠ crc32c.Value (((recordBytes (2 ^ 24 + 8) TropoRecordType.kFullType
                (List.replicate (2 ^ 24 - 1) 0 ++ [b])).drop 7).take
              (1 + headerLength (recordBytes (2 ^ 24 + 8) TropoRecordType.kFullType
                (List.replicate (2 ^ 24 - 1) 0 ++ [b])))) := by
  have hlen : ∀ b : Byte, (List.replicate (2 ^ 24 - 1) (0 : Byte) ++ [b]).length = 2 ^ 24 := by
    intro b
    rw [List.length_append, List.length_replicate, List.length_singleton]
    decide
  have key : ∀ b : Byte,
      crc32c.Value (TropoRecordType.kFullType.toNat :: (List.replicate (2 ^ 24 - 1) 0 ++ [b]))
        ≠ crc32c.Value [TropoRecordType.kFullType.toNat] →
      crc32c.Unmask (DecodeFixed32 (recordBytes (2 ^ 24 + 8) TropoRecordType.kFullType
            (List.replicate (2 ^ 24 - 1) 0 ++ [b])))
          ≠ crc32c.Value (((recordBytes (2 ^ 24 + 8) TropoRecordType.kFullType
                (List.replicate (2 ^ 24 - 1) 0 ++ [b])).drop 7).take
              (1 + headerLength (recordBytes (2 ^ 24 + 8) TropoRecordType.kFullType
                (List.replicate (2 ^ 24 - 1) 0 ++ [b])))) := by
    intro b hne
    obtain ⟨_, h2, h3, h4⟩ := long_fragment_facts _ (hlen b)
    rw [h2, h3, Nat.add_zero, h4, Unmask_Mask _ (Value_lt _)]
    exact hne
  by_cases hc : crc32c.Value
      (TropoRecordType.kFullType.toNat :: (List.replicate (2 ^ 24 - 1) 0 ++ [0]))
      = crc32c.Value [TropoRecordType.kFullType.toNat]
  · have hne : crc32c.Value
        (TropoRecordType.kFullType.toNat :: (List.replicate (2 ^ 24 - 1) 0 ++ [1]))
        ≠ crc32c.Value [TropoRecordType.kFullType.toNat] := by
      intro h1
      exact Value_last_byte (TropoRecordType.kFullType.toNat :: List.replicate (2 ^ 24 - 1) 0)
        (by rw [List.cons_append, List.cons_append, hc, h1])
    obtain ⟨g1, g2, g3, _⟩ := long_fragment_facts _ (hlen 1)
    exact ⟨1, Or.inr rfl, g1, g2, g3, key 1 hne⟩
  · obtain ⟨g1, g2, g3, _⟩ := long_fragment_facts _ (hlen 0)
    exact ⟨0, Or.inl rfl, g1, g2, g3, key 0 hc⟩

/-- C8: every record the encoder emits stores, little-endian in its first four
bytes, `mask(crc32c(type_byte ‖ payload))`; and when `lba_size - 8 < 2 ^ 24`,
so that every fragment length fits the three length bytes, the check of the
decoder, `unmask(stored) == crc32c` over the `1 + length` bytes from header
offset 7, succeeds on it.  This holds right after the writes of the record's
iteration and, when the encoder returns a buffer, for the block of record `k`
at offset `k * lba_size` of that buffer. -/
theorem stored_crc_is_masked_crc (lba_size : Nat) (p : List Byte) (recs : List Fragment)
    (out : Option (List Byte)) (k : Nat) (fr : Fragment)
    (hl : 8 < lba_size)
    (hrun : CommitToCharArray lba_size p = some (recs, out)) (hk : recs[k]? = some fr) :
    (∀ fragment after : List Byte, writeFragment lba_size fr fragment = some after →
        DecodeFixed32 (after.drop fr.frag_begin_addr)
            = crc32c.Mask (crc32c.Value (fr.type.toNat :: fr.body))
          ∧ (lba_size - 8 < 2 ^ 24 →
              crc32c.Unmask (DecodeFixed32 (after.drop fr.frag_begin_addr))
                = crc32c.Value (((after.drop fr.frag_begin_addr).drop 7).take
                    (1 + headerLength (after.drop fr.frag_begin_addr)))))
      ∧ (∀ buf : List Byte, out = some buf →
        DecodeFixed32 (buf.drop (k * lba_size))
            = crc32c.Mask (crc32c.Value (fr.type.toNat :: fr.body))
          ∧ (lba_size - 8 < 2 ^ 24 →
              crc32c.Unmask (DecodeFixed32 (buf.drop (k * lba_size)))
                = crc32c.Value (((buf.drop (k * lba_size)).drop 7).take
                    (1 + headerLength (buf.drop (k * lba_size)))))) := by
  have hl' : kTropoHeaderSize < lba_size := hl
  obtain ⟨recs', hrun', hfrag⟩ := CommitToCharArray_eq lba_size p hl'
  rw [hrun'] at hrun
  simp only [Option.some.injEq, Prod.mk.injEq] at hrun
  obtain ⟨h1, h2⟩ := hrun
  subst h1
  have hmem : fr ∈ recs' := List.getElem?_mem hk
  have hfit := Fragmented_fit hfrag hl' fr hmem
  have hty := Fragmented_type hfrag fr hmem
  have hb24 : lba_size - 8 < 2 ^ 24 → fr.body.length < 2 ^ 24 := by
    intro h24
    unfold kTropoHeaderSize at hfit; omega
  constructor
  · intro fragment after hw
    rw [writeFragment_some lba_size fr fragment after hfit hw]
    have := record_crc_facts lba_size fr.type fr.body
      (fragment.drop (fr.frag_begin_addr + lba_size)) hty
    exact ⟨this.1, fun h24 => this.2 (hb24 h24)⟩
  · intro buf hbuf
    subst hbuf
    have hsome : CommitToCharArray lba_size p = some (recs', some buf) := by
      rw [hrun', h2]
    obtain ⟨_, hb, _, _⟩ := CommitToCharArray_some lba_size p recs' buf hl' hsome
    have hklt : k < recs'.length := by
      rcases Nat.lt_or_ge k recs'.length with h | h
      · exact h
      · rw [List.getElem?_eq_none h] at hk; cases hk
    have hdrop : buf.drop (k * lba_size) = recordBytes lba_size fr.type fr.body
        ++ encodedBytes lba_size (recs'.drop (k + 1)) := by
      apply drop_of_eq_append _ (encodedBytes lba_size (recs'.take k))
      · rw [hb]; exact encodedBytes_split lba_size recs' k fr hk
      · rw [encodedBytes_take_length hfrag hl' k (by omega)]
    rw [hdrop]
    have := record_crc_facts lba_size fr.type fr.body
      (encodedBytes lba_size (recs'.drop (k + 1))) hty
    exact ⟨this.1, fun h24 => this.2 (hb24 h24)⟩

set_option maxRecDepth 1000000 in
theorem stored_crc_is_masked_crc_witness :
    (8 < 16
      ∧ CommitToCharArray 16 [0, 1, 2, 3, 4, 5, 6, 7, 8, 9]
        = some ([⟨0, .kFirstType, [0, 1, 2, 3, 4, 5, 6, 7]⟩, ⟨16, .kLastType, [8, 9]⟩],
            some [185, 139, 105, 27, 8, 0, 0, 2, 0, 1, 2, 3, 4, 5, 6, 7,
                  16, 33, 171, 224, 2, 0, 0, 4, 8, 9, 0, 0, 0, 0, 0, 0]))
      ∧ DecodeFixed32 [16, 33, 171, 224, 2, 0, 0, 4, 8, 9, 0, 0, 0, 0, 0, 0]
        = crc32c.Mask (crc32c.Value [4, 8, 9])
      ∧ crc32c.Unmask (DecodeFixed32 [16, 33, 171, 224, 2, 0, 0, 4, 8, 9, 0, 0, 0, 0, 0, 0])
        = crc32c.Value [4, 8, 9] :=
  have h := (stored_crc_is_masked_crc 16 [0, 1, 2, 3, 4, 5, 6, 7, 8, 9] _ _ 1
      ⟨16, .kLastType, [8, 9]⟩ (by decide)
      (by decide : CommitToCharArray 16 [0, 1, 2, 3, 4, 5, 6, 7, 8, 9]
        = some ([⟨0, .kFirstType, [0, 1, 2, 3, 4, 5, 6, 7]⟩, ⟨16, .kLastType, [8, 9]⟩],
            some [185, 139, 105, 27, 8, 0, 0, 2, 0, 1, 2, 3, 4, 5, 6, 7,
                  16, 33, 171, 224, 2, 0, 0, 4, 8, 9, 0, 0, 0, 0, 0, 0]))
      rfl).2 _ rfl
  ⟨⟨by decide, by decide⟩, h.1, h.2 (by decide)⟩


theorem flip_mod_ne (x k : Nat) (hk : k < 8) : (x ^^^ (1 <<< k)) % 256 ≠ x % 256 := by
  intro h
  have := congrArg (fun v => Nat.testBit v k) h
  simp only [testBit_mod_256, Nat.testBit_xor, hk, decide_True, Bool.true_and,
    Nat.shiftLeft_eq, Nat.one_mul, Nat.testBit_two_pow_self] at this
  cases hx : x.testBit k <;> simp [hx] at this

theorem le32_sum (a b c d : Nat) (ha : a < 256) (hb : b < 256) (hc : c < 256) (hd : d < 256) :
    a ||| (b <<< 8) ||| (c <<< 16) ||| (d <<< 24)
      = a + 256 * b + 65536 * c + 16777216 * d := by
  have hs : a + 256 * b + 65536 * c + 16777216 * d < 2 ^ 32 := by
    have : (2 : Nat) ^ 32 = 4294967296 := by decide
    omega
  have e0 : (a + 256 * b + 65536 * c + 16777216 * d) % 256 = a := by omega
  have e1 : (a + 256 * b + 65536 * c + 16777216 * d) / 2 ^ 8 % 256 = b := by
    have : (2 : Nat) ^ 8 = 256 := by decide
    rw [this]; omega
  have e2 : (a + 256 * b + 65536 * c + 16777216 * d) / 2 ^ 16 % 256 = c := by
    have : (2 : Nat) ^ 16 = 65536 := by decide
    rw [this]; omega
  have e3 : (a + 256 * b + 65536 * c + 16777216 * d) / 2 ^ 24 % 256 = d := by
    have : (2 : Nat) ^ 24 = 16777216 := by decide
    rw [this]; omega
  have h := le32_roundtrip _ hs
  simp only [Nat.shiftRight_eq_div_pow] at h
  rw [e0, e1, e2, e3] at h
  exact h

theorem DecodeFixed32_eq_sum (l : List Byte) :
    DecodeFixed32 l = l.getD 0 0 % 256 + 256 * (l.getD 1 0 % 256)
      + 65536 * (l.getD 2 0 % 256) + 16777216 * (l.getD 3 0 % 256) := by
  unfold DecodeFixed32
  exact le32_sum _ _ _ _ (Nat.mod_lt _ (by decide)) (Nat.mod_lt _ (by decide))
    (Nat.mod_lt _ (by decide)) (Nat.mod_lt _ (by decide))

theorem DecodeFixed32_lt (l : List Byte) : DecodeFixed32 l < 2 ^ 32 := by
  rw [DecodeFixed32_eq_sum]
  have ha := Nat.mod_lt (l.getD 0 0) (by decide : 0 < 256)
  have hb := Nat.mod_lt (l.getD 1 0) (by decide : 0 < 256)
  have hc := Nat.mod_lt (l.getD 2 0) (by decide : 0 < 256)
  have hd := Nat.mod_lt (l.getD 3 0) (by decide : 0 < 256)
  have : (2 : Nat) ^ 32 = 4294967296 := by decide
  generalize l.getD 0 0 % 256 = a at *
  generalize l.getD 1 0 % 256 = b at *
  generalize l.getD 2 0 % 256 = c at *
  generalize l.getD 3 0 % 256 = d at *
  omega

/-- Two headers whose stored CRC bytes differ (modulo 256) in one of the first
four positions decode to different CRC values. -/
theorem DecodeFixed32_ne (l l' : List Byte) (i : Nat) (hi : i < 4)
    (h : l.getD i 0 % 256 ≠ l'.getD i 0 % 256) : DecodeFixed32 l ≠ DecodeFixed32 l' := by
  rw [DecodeFixed32_eq_sum, DecodeFixed32_eq_sum]
  have ha := Nat.mod_lt (l.getD 0 0) (by decide : 0 < 256)
  have hb := Nat.mod_lt (l.getD 1 0) (by decide : 0 < 256)
  have hc := Nat.mod_lt (l.getD 2 0) (by decide : 0 < 256)
  have hd := Nat.mod_lt (l.getD 3 0) (by decide : 0 < 256)
  have ha' := Nat.mod_lt (l'.getD 0 0) (by decide : 0 < 256)
  have hb' := Nat.mod_lt (l'.getD 1 0) (by decide : 0 < 256)
  have hc' := Nat.mod_lt (l'.getD 2 0) (by decide : 0 < 256)
  have hd' := Nat.mod_lt (l'.getD 3 0) (by decide : 0 < 256)
  have hcase : i = 0 ∨ i = 1 ∨ i = 2 ∨ i = 3 := by omega
  have key : ∀ a b c d a' b' c' d' : Nat, a < 256 → b < 256 → c < 256 → d < 256 →
      a' < 256 → b' < 256 → c' < 256 → d' < 256 →
      (a ≠ a' ∨ b ≠ b' ∨ c ≠ c' ∨ d ≠ d') →
      a + 256 * b + 65536 * c + 16777216 * d ≠ a' + 256 * b' + 65536 * c' + 16777216 * d' := by
    intro a b c d a' b' c' d' _ _ _ _ _ _ _ _ hne
    omega
  apply key _ _ _ _ _ _ _ _ ha hb hc hd ha' hb' hc' hd'
  rcases hcase with rfl | rfl | rfl | rfl
  · exact Or.inl h
  · exact Or.inr (Or.inl h)
  · exact Or.inr (Or.inr (Or.inl h))
  · exact Or.inr (Or.inr (Or.inr h))


theorem getD_append_mid (A R B : List Byte) (off : Nat) (h : off < R.length) :
    (A ++ R ++ B).getD (A.length + off) 0 = R.getD off 0 := by
  simp only [List.getD_eq_getElem?_getD]
  rw [List.append_assoc, List.getElem?_append_right (by omega), Nat.add_sub_cancel_left,
    List.getElem?_append_left h]

theorem flipBit_append_mid (A R B : List Byte) (off k : Nat) (h : off < R.length) :
    flipBit (A ++ R ++ B) (A.length + off) k = A ++ flipBit R off k ++ B := by
  unfold flipBit
  rw [getD_append_mid A R B off h, List.append_assoc, List.set_append_right _ _ (by omega),
    Nat.add_sub_cancel_left, List.set_append_left _ _ h, List.append_assoc]

theorem flipBit_length (buf : List Byte) (i k : Nat) : (flipBit buf i k).length = buf.length := by
  unfold flipBit
  simp

theorem headerLength_crc4 (a b c d a' b' c' d' : Byte) (tail : List Byte) :
    headerLength (a' :: b' :: c' :: d' :: tail) = headerLength (a :: b :: c :: d :: tail) := rfl

theorem drop7_crc4 (a b c d a' b' c' d' : Byte) (tail : List Byte) :
    (a' :: b' :: c' :: d' :: tail).drop 7 = (a :: b :: c :: d :: tail).drop 7 := rfl

theorem flipBit_crc4 (a b c d : Byte) (tail : List Byte) (off k : Nat) (h : off < 4) :
    ∃ a' b' c' d' : Byte, flipBit (a :: b :: c :: d :: tail) off k = a' :: b' :: c' :: d' :: tail
      ∧ (a' :: b' :: c' :: d' :: tail).getD off 0
          = (a :: b :: c :: d :: tail).getD off 0 ^^^ (1 <<< k) := by
  have : off = 0 ∨ off = 1 ∨ off = 2 ∨ off = 3 := by omega
  rcases this with rfl | rfl | rfl | rfl
  · exact ⟨a ^^^ (1 <<< k), b, c, d, rfl, rfl⟩
  · exact ⟨a, b ^^^ (1 <<< k), c, d, rfl, rfl⟩
  · exact ⟨a, b, c ^^^ (1 <<< k), d, rfl, rfl⟩
  · exact ⟨a, b, c, d ^^^ (1 <<< k), rfl, rfl⟩

theorem recordBytes_cons (lba_size : Nat) (t : TropoRecordType) (body : List Byte) :
    ∃ a b c d : Byte, recordBytes lba_size t body
      = a :: b :: c :: d :: (body.length % 256) :: ((body.length >>> 8) % 256)
          :: ((body.length >>> 16) % 256) :: t.toNat
          :: (body ++ List.replicate (lba_size - kTropoHeaderSize - body.length) 0) :=
  ⟨crc32c.Mask (crc32c.Extend (type_crc_ t.toNat) body) % 256,
   (crc32c.Mask (crc32c.Extend (type_crc_ t.toNat) body) >>> 8) % 256,
   (crc32c.Mask (crc32c.Extend (type_crc_ t.toNat) body) >>> 16) % 256,
   (crc32c.Mask (crc32c.Extend (type_crc_ t.toNat) body) >>> 24) % 256,
   by unfold recordBytes EncodeFixed32
      simp only [List.cons_append, List.nil_append, List.append_assoc]⟩

/-- A record with one bit flipped in a stored CRC byte, in the type byte or in
a payload byte fails the CRC check of the readers. -/
theorem flipped_crc_mismatch (lba_size : Nat) (t : TropoRecordType) (body rest : List Byte)
    (off k : Nat)
    (ht : t = .kFullType ∨ t = .kFirstType ∨ t = .kMiddleType ∨ t = .kLastType)
    (h24 : body.length < 2 ^ 24) (hk : k < 8)
    (hoff : off < 4 ∨ off = 7
      ∨ (kTropoHeaderSize ≤ off ∧ off < kTropoHeaderSize + body.length)) :
    crc32c.Value (((flipBit (recordBytes lba_size t body) off k ++ rest).drop 7).take
        (1 + headerLength (flipBit (recordBytes lba_size t body) off k ++ rest)))
      ≠ crc32c.Unmask (DecodeFixed32 (flipBit (recordBytes lba_size t body) off k ++ rest)) := by
  obtain ⟨hdec, hchk⟩ := record_crc_facts lba_size t body rest ht
  have hchk := hchk h24
  have hL := headerLength_recordBytes lba_size t body rest h24
  have hI := crcInput_recordBytes lba_size t body rest
  rw [hL, hI] at hchk
  obtain ⟨a, b, c, d, hR⟩ := recordBytes_cons lba_size t body
  rw [hR] at hL hI hchk
  rw [hR]
  generalize List.replicate (lba_size - kTropoHeaderSize - body.length) (0 : Byte) = pad
    at hL hI hchk ⊢
  generalize hl0 : body.length % 256 = l0 at hL hI hchk ⊢
  generalize hl1 : (body.length >>> 8) % 256 = l1 at hL hI hchk ⊢
  generalize hl2 : (body.length >>> 16) % 256 = l2 at hL hI hchk ⊢
  rcases hoff with h4 | h7 | ⟨h8, hlt⟩
  · -- a stored CRC byte
    obtain ⟨a', b', c', d', hf, hg⟩ := flipBit_crc4 a b c d
      (l0 :: l1 :: l2 :: t.toNat :: (body ++ pad)) off k h4
    rw [hf]
    have e1 : headerLength (a' :: b' :: c' :: d' :: l0 :: l1 :: l2 :: t.toNat :: (body ++ pad)
        ++ rest) = body.length := hL
    have e2 : ((a' :: b' :: c' :: d' :: l0 :: l1 :: l2 :: t.toNat :: (body ++ pad)
        ++ rest).drop 7).take (1 + body.length) = t.toNat :: body := hI
    rw [e1, e2, ← hchk]
    intro he
    have hne : DecodeFixed32 (a' :: b' :: c' :: d' :: l0 :: l1 :: l2 :: t.toNat :: (body ++ pad)
          ++ rest)
        ≠ DecodeFixed32 (a :: b :: c :: d :: l0 :: l1 :: l2 :: t.toNat :: (body ++ pad)
          ++ rest) := by
      apply DecodeFixed32_ne _ _ off h4
      have g1 : (a' :: b' :: c' :: d' :: l0 :: l1 :: l2 :: t.toNat :: (body ++ pad)
          ++ rest).getD off 0
          = (a' :: b' :: c' :: d' :: l0 :: l1 :: l2 :: t.toNat :: (body ++ pad)).getD off 0 := by
        have : off = 0 ∨ off = 1 ∨ off = 2 ∨ off = 3 := by omega
        rcases this with rfl | rfl | rfl | rfl <;> rfl
      have g2 : (a :: b :: c :: d :: l0 :: l1 :: l2 :: t.toNat :: (body ++ pad)
          ++ rest).getD off 0
          = (a :: b :: c :: d :: l0 :: l1 :: l2 :: t.toNat :: (body ++ pad)).getD off 0 := by
        have : off = 0 ∨ off = 1 ∨ off = 2 ∨ off = 3 := by omega
        rcases this with rfl | rfl | rfl | rfl <;> rfl
      rw [g1, g2, hg]
      exact flip_mod_ne _ k hk
    exact hne (Unmask_injective _ _ (DecodeFixed32_lt _) (DecodeFixed32_lt _) he).symm
  · -- the type byte
    subst h7
    have hf : flipBit (a :: b :: c :: d :: l0 :: l1 :: l2 :: t.toNat :: (body ++ pad)) 7 k
        = a :: b :: c :: d :: l0 :: l1 :: l2 :: (t.toNat ^^^ (1 <<< k)) :: (body ++ pad) := rfl
    rw [hf]
    have e1 : headerLength (a :: b :: c :: d :: l0 :: l1 :: l2 :: (t.toNat ^^^ (1 <<< k))
        :: (body ++ pad) ++ rest) = body.length := hL
    have e2 : ((a :: b :: c :: d :: l0 :: l1 :: l2 :: (t.toNat ^^^ (1 <<< k))
        :: (body ++ pad) ++ rest).drop 7).take (1 + body.length)
        = (t.toNat ^^^ (1 <<< k)) :: body := by
      have hI' : List.take (1 + body.length) (t.toNat :: ((body ++ pad) ++ rest))
          = t.toNat :: body := hI
      rw [Nat.add_comm 1, List.take_succ_cons] at hI'
      have htake : List.take body.length ((body ++ pad) ++ rest) = body := by
        injection hI'
      show List.take (1 + body.length) ((t.toNat ^^^ (1 <<< k)) :: ((body ++ pad) ++ rest)) = _
      rw [Nat.add_comm 1, List.take_succ_cons, htake]
    have e3 : DecodeFixed32 (a :: b :: c :: d :: l0 :: l1 :: l2 :: (t.toNat ^^^ (1 <<< k))
        :: (body ++ pad) ++ rest)
        = DecodeFixed32 (a :: b :: c :: d :: l0 :: l1 :: l2 :: t.toNat :: (body ++ pad)
          ++ rest) := rfl
    rw [e1, e2, e3, hchk]
    intro he
    exact flip_mod_ne _ k hk (Value_single_byte [] body _ _ he)
  · -- a payload byte
    unfold kTropoHeaderSize at h8 hlt
    obtain ⟨i, rfl⟩ : ∃ i, off = 8 + i := ⟨off - 8, by omega⟩
    have hi : i < body.length := by omega
    have hf : flipBit (a :: b :: c :: d :: l0 :: l1 :: l2 :: t.toNat :: (body ++ pad)) (8 + i) k
        = a :: b :: c :: d :: l0 :: l1 :: l2 :: t.toNat :: (flipBit body i k ++ pad) := by
      have := flipBit_append_mid [a, b, c, d, l0, l1, l2, t.toNat] body pad i k hi
      simpa using this
    have hbl : (flipBit body i k).length = body.length := flipBit_length _ _ _
    rw [hf]
    have e1 : headerLength (a :: b :: c :: d :: l0 :: l1 :: l2 :: t.toNat
        :: (flipBit body i k ++ pad) ++ rest) = body.length := hL
    have e2 : ((a :: b :: c :: d :: l0 :: l1 :: l2 :: t.toNat
        :: (flipBit body i k ++ pad) ++ rest).drop 7).take (1 + body.length)
        = t.toNat :: flipBit body i k := by
      show List.take (1 + body.length) (t.toNat :: ((flipBit body i k ++ pad) ++ rest)) = _
      rw [Nat.add_comm 1, List.take_succ_cons, List.append_assoc, ← hbl, List.take_left]
    have e3 : DecodeFixed32 (a :: b :: c :: d :: l0 :: l1 :: l2 :: t.toNat
        :: (flipBit body i k ++ pad) ++ rest)
        = DecodeFixed32 (a :: b :: c :: d :: l0 :: l1 :: l2 :: t.toNat :: (body ++ pad)
          ++ rest) := rfl
    have hb1 : body = body.take i ++ body.getD i 0 :: body.drop (i + 1) := by
      rw [List.getD_eq_getElem?_getD, List.getElem?_eq_getElem hi]
      simp
    have hb2 : flipBit body i k
        = body.take i ++ (body.getD i 0 ^^^ (1 <<< k)) :: body.drop (i + 1) := by
      unfold flipBit
      rw [List.set_eq_take_append_cons_drop, if_pos hi]
    rw [e1, e2, e3, hchk, hb2]
    intro he
    have e4 : t.toNat :: body
        = (t.toNat :: body.take i) ++ body.getD i 0 :: body.drop (i + 1) := by
      rw [List.cons_append, ← hb1]
    rw [e4, ← List.cons_append] at he
    exact flip_mod_ne _ k hk
      (Value_single_byte (t.toNat :: body.take i) (body.drop (i + 1)) _ _ he)


/-- C4 (failing input): at `lba_size = 512` a payload of 32761 bytes gets
`SpaceNeeded = 33280` bytes (65 blocks), while the encoder loop emits 66
records; the last one is zeroed and written at offset 33280, one whole block
past the end of the buffer that `CommitToCharArray` allocated. -/
theorem SpaceNeeded_too_small_512 :
    SpaceNeeded 512 32761 = 33280
      ∧ ∃ recs fr, CommitToCharArray 512 (List.replicate 32761 0) = some (recs, none)
        ∧ recs.length = 66 ∧ recs[65]? = some fr ∧ fr.frag_begin_addr = 33280
        ∧ fr.body.length = 1
        ∧ SpaceNeeded 512 32761 < fr.frag_begin_addr + 512 := by
  obtain ⟨recs, fr, h1, _, h3, _, _, h6, h7, h8, _⟩ :=
    overflow_512 (List.replicate 32761 0) (List.length_replicate _ _)
  refine ⟨SpaceNeeded_32761, recs, fr, h1, h3, h6, h7, h8, ?_⟩
  rw [SpaceNeeded_32761, h7]
  decide

/-- C1 (failing input): framing a payload of 32761 bytes at `lba_size = 512`
does not produce a buffer: the 66th record is written past the 33280 bytes
allocated.  The 33280 bytes inside the allocation hold the first 65 records
(First, Middle, ...) and no Last record, and the first seek over them returns
false with an empty record instead of the payload. -/
theorem CommitToCharArray_roundtrip_fails_512 :
    ∃ recs fr r, CommitToCharArray 512 (List.replicate 32761 1) = some (recs, none)
      ∧ writeRecords 512 (recs.take 65) (some (List.replicate 33280 0))
          = some (encodedBytes 512 (recs.take 65))
      ∧ (encodedBytes 512 (recs.take 65)).length = SpaceNeeded 512 32761
      ∧ recs[65]? = some fr
      ∧ writeFragment 512 fr (encodedBytes 512 (recs.take 65)) = none
      ∧ SeekCommitReaderString 512 (GetCommitReaderString (encodedBytes 512 (recs.take 65))) []
          = some (false, [], r) := by
  have hl : kTropoHeaderSize < 512 := by decide
  obtain ⟨recs, fr, h1, hfrag, h3, h4, h5, h6, _, _, h9⟩ :=
    overflow_512 (List.replicate 32761 1) (List.length_replicate _ _)
  have hskip := seekStringLoop_skip hfrag hl (by decide) 65 33216
    { commit_start := 0, commit_end := (encodedBytes 512 (recs.take 65)).length, commit_ptr := 0,
      input := encodedBytes 512 (recs.take 65), scratch := [] } false [] []
    (by omega) (by simp) rfl (Nat.le_refl _) (by simp [h5]) (by simp)
  obtain ⟨scr, inf', he⟩ := hskip
  have hseek : ∃ r, SeekCommitReaderString 512
      (GetCommitReaderString (encodedBytes 512 (recs.take 65))) [] = some (false, [], r) := by
    unfold SeekCommitReaderString GetCommitReaderString
    simp only [ge_iff_le, Nat.le_zero_eq]
    rw [if_neg (by rw [h5]; decide)]
    have hf : (encodedBytes 512 (recs.take 65)).length - 0 + 1 = 65 + 33216 := by
      rw [h5]
    rw [hf, he]
    exact ⟨_, seekStringLoop_end 512 33215 _ inf' (by simp [h5])⟩
  obtain ⟨r, hr⟩ := hseek
  exact ⟨recs, fr, r, h1, h4, by rw [h5, SpaceNeeded_32761], h6, h9, hr⟩

/-- `Commit` runs the loop of `CommitToCharArray` on a write buffer of
`SpaceNeeded` bytes and appends the buffer. -/
theorem Commit_eq (lba_size : Nat) (keep_buffer : Bool) (log : SZDLog) (data : List Byte) :
    Commit lba_size keep_buffer log data
      = (CommitToCharArray lba_size data).map (fun r =>
          (r.1, r.2.map (fun write_buffer =>
            ((if !keep_buffer then Status.OK
                else (log.Append lba_size write_buffer (SpaceNeeded lba_size data.length)).1),
              0 + (log.Append lba_size write_buffer (SpaceNeeded lba_size data.length)).2.1,
              (log.Append lba_size write_buffer (SpaceNeeded lba_size data.length)).2.2)))) :=
  rfl

/-- C2 (failing input): `Commit` of a payload of 32761 bytes at
`lba_size = 512` resizes the write buffer to 33280 bytes and its loop emits 66
records, so the write of the last record leaves the write buffer, whatever the
log and the `keep_buffer` setting. -/
theorem Commit_overflow_512 (keep_buffer : Bool) (log : SZDLog) :
    ∃ recs fr, Commit 512 keep_buffer log (List.replicate 32761 1) = some (recs, none)
      ∧ recs.length = 66 ∧ recs[65]? = some fr ∧ fr.type = TropoRecordType.kLastType
      ∧ fr.frag_begin_addr = 33280 := by
  obtain ⟨recs, fr, h1, hfrag, h3, _, _, h6, h7, _, _⟩ :=
    overflow_512 (List.replicate 32761 1) (List.length_replicate _ _)
  refine ⟨recs, fr, ?_, h3, h6, ?_, h7⟩
  · rw [Commit_eq]
    unfold CommitToCharArray
    rw [h1]
    rfl
  · rw [(Fragmented_get hfrag 65 fr h6).2.2.2, h3]
    rfl


set_option maxRecDepth 1000000 in
/-- C9 (counterexample): two single-bit flips that the decoder does not turn
into end-of-iteration, at `lba_size = 16`.  Flipping bit 0 of byte 12, a byte of
the zero fill behind the 3-byte payload `[1, 2, 3]`, leaves the first seek
returning true with the payload.  Flipping bit 2 of byte 4, the low length
byte, in the encoding of the payload `[5, 125, 50, 200]` turns the length 4
into 0, the CRC of the type byte alone equals the stored CRC, and the first
seek returns true with the empty payload: a payload different from the one
encoded. -/
theorem single_bit_flip_undetected :
    CommitToCharArray 16 [1, 2, 3]
        = some ([⟨0, .kFullType, [1, 2, 3]⟩],
            some [197, 243, 184, 2, 3, 0, 0, 1, 1, 2, 3, 0, 0, 0, 0, 0])
      ∧ (SeekCommitReaderString 16 (GetCommitReaderString
            (flipBit [197, 243, 184, 2, 3, 0, 0, 1, 1, 2, 3, 0, 0, 0, 0, 0] 12 0)) []).map
          (fun x => (x.1, x.2.1)) = some (true, [1, 2, 3])
      ∧ CommitToCharArray 16 [5, 125, 50, 200]
        = some ([⟨0, .kFullType, [5, 125, 50, 200]⟩],
            some [5, 43, 40, 67, 4, 0, 0, 1, 5, 125, 50, 200, 0, 0, 0, 0])
      ∧ (SeekCommitReaderString 16 (GetCommitReaderString
            (flipBit [5, 43, 40, 67, 4, 0, 0, 1, 5, 125, 50, 200, 0, 0, 0, 0] 4 2)) []).map
          (fun x => (x.1, x.2.1)) = some (true, []) := by
  refine ⟨by decide, by decide, by decide, by decide⟩

/-- C9 (amended): for every payload whose encoding stays inside its buffer
(`lba_size > 8`, `lba_size - 8 < 2 ^ 24`), flipping one bit of a byte that the
CRC of a record protects - one of its four stored CRC bytes, its type byte or
one of its payload bytes - makes the first seek over the buffer return false
with an empty record (the reader stops at the record that holds the flipped
byte and what a preceding First record accumulated is discarded), so no
payload, right or wrong, is returned. -/
theorem single_bit_flip_detected (lba_size : Nat) (p : List Byte) (recs : List Fragment)
    (buf record : List Byte) (i k : Nat)
    (hl : 8 < lba_size) (h24 : lba_size - 8 < 2 ^ 24)
    (hrun : CommitToCharArray lba_size p = some (recs, some buf))
    (hk : k < 8) (hprot : crcProtected lba_size recs i) :
    ∃ r, SeekCommitReaderString lba_size (GetCommitReaderString (flipBit buf i k)) record
        = some (false, [], r) ∧ r.scratch = [] := by
  have hl' : kTropoHeaderSize < lba_size := hl
  obtain ⟨hfrag, hbuf, hlen, _⟩ := CommitToCharArray_some lba_size p recs buf hl' hrun
  obtain ⟨j, fr, hj, hji, hoff⟩ := hprot
  have hjlt : j < recs.length := by
    rcases Nat.lt_or_ge j recs.length with h | h
    · exact h
    · rw [List.getElem?_eq_none h] at hj; cases hj
  have hmem : fr ∈ recs := List.getElem?_mem hj
  have hfit := Fragmented_fit hfrag hl' fr hmem
  have hty := Fragmented_type hfrag fr hmem
  have hb24 : fr.body.length < 2 ^ 24 := by
    unfold kTropoHeaderSize at hfit; omega
  have htl := encodedBytes_take_length hfrag hl' j (by omega)
  have hrl := recordBytes_length lba_size fr.type fr.body hfit
  obtain ⟨off, rfl⟩ : ∃ off, i = j * lba_size + off := ⟨i - j * lba_size, by omega⟩
  simp only [Nat.add_sub_cancel_left] at hoff
  have hofflt : off < (recordBytes lba_size fr.type fr.body).length := by
    rw [hrl]; unfold kTropoHeaderSize at hoff hfit; omega
  have hflip : flipBit buf (j * lba_size + off) k
      = encodedBytes lba_size (recs.take j) ++ flipBit (recordBytes lba_size fr.type fr.body) off k
        ++ encodedBytes lba_size (recs.drop (j + 1)) := by
    rw [hbuf, encodedBytes_split lba_size recs j fr hj, ← htl]
    exact flipBit_append_mid _ _ _ off k hofflt
  have hflen : (flipBit buf (j * lba_size + off) k).length = recs.length * lba_size := by
    rw [flipBit_length, hlen]
  have hjl : (j + 1) * lba_size ≤ recs.length * lba_size := Nat.mul_le_mul_right _ hjlt
  have hjl' : j * lba_size + lba_size ≤ recs.length * lba_size := by
    rw [Nat.add_mul, Nat.one_mul] at hjl; exact hjl
  have hjle : j ≤ j * lba_size := by
    have : j * 1 ≤ j * lba_size := Nat.mul_le_mul_left _ (by omega)
    omega
  -- the reader passes over the records before record `j`
  obtain ⟨scr, inf', he⟩ := seekStringLoop_skip hfrag hl' h24 j
    (recs.length * lba_size - j + 1)
    { commit_start := 0, commit_end := (flipBit buf (j * lba_size + off) k).length,
      commit_ptr := 0, input := flipBit buf (j * lba_size + off) k, scratch := [] }
    false [] (flipBit (recordBytes lba_size fr.type fr.body) off k
        ++ encodedBytes lba_size (recs.drop (j + 1)))
    hjlt (by simp [hflip, List.append_assoc]) rfl (Nat.le_refl _)
    (by simp only [List.length_nil, Nat.zero_add, hflen]; omega) (by simp)
  have hfuel : (flipBit buf (j * lba_size + off) k).length - 0 + 1
      = j + (recs.length * lba_size - j + 1) := by
    rw [hflen]; omega
  have hdrop : (flipBit buf (j * lba_size + off) k).drop (j * lba_size)
      = flipBit (recordBytes lba_size fr.type fr.body) off k
        ++ encodedBytes lba_size (recs.drop (j + 1)) :=
    drop_of_eq_append _ _ _ _ _ hflip htl.symm
  -- and record `j` fails the CRC check
  obtain ⟨r, hr, hs⟩ := seekStringLoop_invalid lba_size (recs.length * lba_size - j)
    { commit_start := 0, commit_end := (flipBit buf (j * lba_size + off) k).length,
      commit_ptr := ([] : List Byte).length + j * lba_size,
      input := flipBit buf (j * lba_size + off) k, scratch := scr } inf'
    (by simp only [List.length_nil, Nat.zero_add, hflen]; omega) (Nat.zero_le _)
    (by
      simp only [List.length_nil, Nat.zero_add, hdrop]
      exact flipped_crc_mismatch lba_size fr.type fr.body _ off k hty hb24 hk hoff)
  refine ⟨r, ?_, hs⟩
  unfold SeekCommitReaderString GetCommitReaderString
  simp only [ge_iff_le, Nat.le_zero_eq]
  rw [if_neg (by rw [hflen]; omega), hfuel, he]
  exact hr

set_option maxRecDepth 1000000 in
theorem single_bit_flip_detected_witness :
    (8 < 16 ∧ 16 - 8 < 2 ^ 24
      ∧ CommitToCharArray 16 [1, 2, 3]
        = some ([⟨0, .kFullType, [1, 2, 3]⟩],
            some [197, 243, 184, 2, 3, 0, 0, 1, 1, 2, 3, 0, 0, 0, 0, 0])
      ∧ 0 < 8 ∧ crcProtected 16 [⟨0, .kFullType, [1, 2, 3]⟩] 9)
      ∧ ∃ r, SeekCommitReaderString 16 (GetCommitReaderString
            (flipBit [197, 243, 184, 2, 3, 0, 0, 1, 1, 2, 3, 0, 0, 0, 0, 0] 9 0)) []
          = some (false, [], r) ∧ r.scratch = [] :=
  have hp : crcProtected 16 [⟨0, .kFullType, [1, 2, 3]⟩] 9 :=
    ⟨0, ⟨0, .kFullType, [1, 2, 3]⟩, rfl, by decide, Or.inr (Or.inr ⟨by decide, by decide⟩)⟩
  ⟨⟨by decide, by decide, by decide, by decide, hp⟩,
    single_bit_flip_detected 16 [1, 2, 3] _ _ [] 9 0 (by decide) (by decide)
      (by decide : CommitToCharArray 16 [1, 2, 3]
        = some ([⟨0, .kFullType, [1, 2, 3]⟩],
            some [197, 243, 184, 2, 3, 0, 0, 1, 1, 2, 3, 0, 0, 0, 0, 0]))
      (by decide) hp⟩


/-- One iteration of `SeekCommitReader`, by the record type it dispatches on. -/
theorem seekLoop_succ (lba_size : Nat) (log : SZDLog) (fuel : Nat) (r : TropoCommitReader)
    (inf : Bool) (h : r.commit_ptr < r.commit_end ∧ r.commit_ptr ≥ r.commit_start) :
    seekLoop lba_size log (fuel + 1) r inf =
      (match deviceType lba_size log r with
      | .kFullType =>
        some (true, ((deviceHeader lba_size log r).drop kTropoHeaderSize).take
            (deviceLength lba_size log r),
          { r with commit_ptr := r.commit_ptr
                      + (deviceLength lba_size log r + lba_size - 1) / lba_size,
                   scratch := ((deviceHeader lba_size log r).drop kTropoHeaderSize).take
                      (deviceLength lba_size log r) })
      | .kFirstType =>
        seekLoop lba_size log fuel
          { r with commit_ptr := r.commit_ptr
                      + (deviceLength lba_size log r + lba_size - 1) / lba_size,
                   scratch := ((deviceHeader lba_size log r).drop kTropoHeaderSize).take
                      (deviceLength lba_size log r) } true
      | .kMiddleType =>
        if !inf then
          seekLoop lba_size log fuel
            { r with commit_ptr := r.commit_ptr
                        + (deviceLength lba_size log r + lba_size - 1) / lba_size } inf
        else
          seekLoop lba_size log fuel
            { r with commit_ptr := r.commit_ptr
                        + (deviceLength lba_size log r + lba_size - 1) / lba_size,
                     scratch := r.scratch
                        ++ ((deviceHeader lba_size log r).drop kTropoHeaderSize).take
                            (deviceLength lba_size log r) } inf
      | .kLastType =>
        if !inf then
          seekLoop lba_size log fuel
            { r with commit_ptr := r.commit_ptr
                        + (deviceLength lba_size log r + lba_size - 1) / lba_size } inf
        else
          some (true, r.scratch ++ ((deviceHeader lba_size log r).drop kTropoHeaderSize).take
              (deviceLength lba_size log r),
            { r with commit_ptr := r.commit_ptr
                        + (deviceLength lba_size log r + lba_size - 1) / lba_size,
                     scratch := r.scratch
                        ++ ((deviceHeader lba_size log r).drop kTropoHeaderSize).take
                            (deviceLength lba_size log r) })
      | _ =>
        some (false, [],
          { r with commit_ptr := r.commit_ptr
                      + (deviceLength lba_size log r + lba_size - 1) / lba_size,
                   scratch := [] })) := by
  rw [seekLoop, if_pos h]
  rfl


set_option maxRecDepth 1000000 in
/-- C11 (failing input): with `keep_buffer = false`, a commit of `[1, 2, 3]` at
`lba_size = 16` to a log without room: the append fails with `IOError` and
`Commit` returns OK, the status of `FreeBuffer`, which overwrites the status of
the append.  With `keep_buffer = true` the same commit returns the `IOError`. -/
theorem Commit_masks_append_failure :
    (SZDLog.Append 16 ⟨[], 0⟩ [197, 243, 184, 2, 3, 0, 0, 1, 1, 2, 3, 0, 0, 0, 0, 0] 16).1
        = Status.IOError
      ∧ Commit 16 false ⟨[], 0⟩ [1, 2, 3]
        = some ([⟨0, .kFullType, [1, 2, 3]⟩], some (Status.OK, 0, ⟨[], 0⟩))
      ∧ Commit 16 true ⟨[], 0⟩ [1, 2, 3]
        = some ([⟨0, .kFullType, [1, 2, 3]⟩], some (Status.IOError, 0, ⟨[], 0⟩)) := by
  refine ⟨by decide, by decide, by decide⟩

set_option maxRecDepth 1000000 in
/-- C12 (counterexample): on a log without room `SafeCommit` returns the
status kind `IOError` (`Status::IOError("No space left")`), not `NoSpace`. -/
theorem SafeCommit_no_space_is_IOError :
    SpaceEnough 16 ⟨[], 0⟩ [1, 2, 3] = false
      ∧ SafeCommit 16 false ⟨[], 0⟩ [1, 2, 3] 7 = some ([], some (Status.IOError, 7, ⟨[], 0⟩))
      ∧ Status.IOError ≠ Status.NoSpace := by
  refine ⟨by decide, by decide, by decide⟩

/-- C12 (amended): for every payload, `SafeCommit` fails with the `IOError`
status kind, performs no append and leaves the log and `*lbas` as they were
when the log does not have `SpaceNeeded(|payload|)` bytes left; otherwise its
result and effect are exactly those of `Commit` on the same payload. -/
theorem SafeCommit_spec (lba_size : Nat) (keep_buffer : Bool) (log : SZDLog)
    (data : List Byte) (lbas : Nat) :
    (log.SpaceLeft lba_size (SpaceNeeded lba_size data.length) = false →
        SafeCommit lba_size keep_buffer log data lbas
          = some ([], some (Status.IOError, lbas, log)))
      ∧ (log.SpaceLeft lba_size (SpaceNeeded lba_size data.length) = true →
        SafeCommit lba_size keep_buffer log data lbas
          = Commit lba_size keep_buffer log data) := by
  unfold SafeCommit SpaceEnough
  constructor
  · intro h
    simp [h]
  · intro h
    simp [h]

set_option maxRecDepth 1000000 in
theorem SafeCommit_spec_witness :
    SZDLog.SpaceLeft 16 ⟨[], 0⟩ (SpaceNeeded 16 [1, 2, 3].length) = false
      ∧ SafeCommit 16 true ⟨[], 0⟩ [1, 2, 3] 5 = some ([], some (Status.IOError, 5, ⟨[], 0⟩)) :=
  ⟨by decide, (SafeCommit_spec 16 true ⟨[], 0⟩ [1, 2, 3] 5).1 (by decide)⟩

set_option maxRecDepth 1000000 in
/-- C13 (failing input): the image of one block that encodes the empty payload
at `lba_size = 16`.  The in-memory reader returns the empty record once and
then false; the device reader returns the empty record, leaves its cursor at
LBA 0 (it advances by `ceil(0 / lba_size) = 0` LBAs) and returns the same
record again on the second call. -/
theorem readers_differ_on_empty_record :
    CommitToCharArray 16 []
        = some ([⟨0, .kFullType, []⟩],
            some [5, 43, 40, 67, 0, 0, 0, 1, 0, 0, 0, 0, 0, 0, 0, 0])
      ∧ SeekCommitReaderString 16
          (GetCommitReaderString [5, 43, 40, 67, 0, 0, 0, 1, 0, 0, 0, 0, 0, 0, 0, 0]) []
        = some (true, [], ⟨0, 16, 16, [5, 43, 40, 67, 0, 0, 0, 1, 0, 0, 0, 0, 0, 0, 0, 0], []⟩)
      ∧ SeekCommitReaderString 16
          ⟨0, 16, 16, [5, 43, 40, 67, 0, 0, 0, 1, 0, 0, 0, 0, 0, 0, 0, 0], []⟩ []
        = some (false, [],
            ⟨0, 16, 16, [5, 43, 40, 67, 0, 0, 0, 1, 0, 0, 0, 0, 0, 0, 0, 0], []⟩)
      ∧ SeekCommitReader 16 ⟨[5, 43, 40, 67, 0, 0, 0, 1, 0, 0, 0, 0, 0, 0, 0, 0], 1⟩ 16 10
          (GetCommitReader 1 0 0 1 ⟨0, 0, 0, 0, []⟩).2 []
        = some (true, [], ⟨0, 1, 0, 0, []⟩)
      ∧ SeekCommitReader 16 ⟨[5, 43, 40, 67, 0, 0, 0, 1, 0, 0, 0, 0, 0, 0, 0, 0], 1⟩ 16 10
          ⟨0, 1, 0, 0, []⟩ []
        = some (true, [], ⟨0, 1, 0, 0, []⟩) := by
  refine ⟨by decide, by decide, by decide, by decide, by decide⟩


/-! ## Tail reclamation -/

theorem u64_lt (x : Nat) : u64 x < 2 ^ 64 := Nat.mod_lt _ (by norm_num)

theorem u64_of_lt {x : Nat} (h : x < 2 ^ 64) : u64 x = x := Nat.mod_eq_of_lt h

theorem HeapSame_refl (mock : Nat) (heap : MetaHeap) : HeapSame mock heap heap :=
  fun _ => ⟨rfl, rfl, fun _ => rfl⟩

theorem HeapSame_store_number (mock : Nat) (heap heap0 : MetaHeap) (n : Nat)
    (h : HeapSame mock heap heap0) :
    HeapSame mock (heap.store mock { heap mock with number := n }) heap0 := by
  intro q
  by_cases hq : q = mock
  · subst hq
    simp only [MetaHeap.store, if_true]
    exact ⟨(h q).1, (h q).2.1, fun hne => absurd rfl hne⟩
  · simp only [MetaHeap.store, if_neg hq]
    exact h q

/-- The loop changes at most the `number` of the object at `mock`. -/
theorem invalidateLoop_heap (zone_cap : Nat) (log : SZDCircularLog) (mock : Nat)
    (heap0 : MetaHeap) :
    ∀ (rest : List Nat) (heap : MetaHeap) (prev blocks btd upto i : Nat),
      HeapSame mock heap heap0 →
      HeapSame mock (invalidateLoop zone_cap log mock rest heap prev blocks btd upto i).heap
        heap0 := by
  intro rest
  induction rest with
  | nil => intro heap prev blocks btd upto i h; exact h
  | cons m rest ih =>
    intro heap prev blocks btd upto i h
    unfold invalidateLoop
    split
    · exact h
    · split
      · exact h
      · simp only []
        split
        · exact ih _ _ _ _ _ _ (HeapSame_store_number mock heap heap0 _ h)
        · exact ih _ _ _ _ _ _ h

/-- The count `blocks_to_delete` with which the loop ends is a `uint64_t`. -/
theorem invalidateLoop_btd_lt (zone_cap : Nat) (log : SZDCircularLog) (mock : Nat) :
    ∀ (rest : List Nat) (heap : MetaHeap) (prev blocks btd upto i : Nat),
      btd < 2 ^ 64 →
      (invalidateLoop zone_cap log mock rest heap prev blocks btd upto i).blocks_to_delete
        < 2 ^ 64 := by
  intro rest
  induction rest with
  | nil => intro heap prev blocks btd upto i h; exact h
  | cons m rest ih =>
    intro heap prev blocks btd upto i h
    unfold invalidateLoop
    split
    · exact h
    · split
      · exact h
      · simp only []
        split
        · exact ih _ _ _ _ _ _ (u64_lt _)
        · exact ih _ _ _ _ _ _ h

/-- The loop ends with `upto` and `blocks_to_delete` as they were, or with
`upto` after a later victim and `blocks_to_delete` grown by the running count
and the `lba_count` of the victims walked up to there. -/
theorem invalidateLoop_sum (zone_cap : Nat) (log : SZDCircularLog) (mock : Nat)
    (heap0 : MetaHeap) :
    ∀ (rest : List Nat) (heap : MetaHeap) (prev blocks btd upto i : Nat),
      HeapSame mock heap heap0 →
      btd + blocks + lbaCountSum heap0 rest < 2 ^ 64 →
      ((invalidateLoop zone_cap log mock rest heap prev blocks btd upto i).upto = upto
        ∧ (invalidateLoop zone_cap log mock rest heap prev blocks btd upto i).blocks_to_delete
            = btd)
      ∨ ∃ k, 0 < k ∧ k ≤ rest.length
        ∧ (invalidateLoop zone_cap log mock rest heap prev blocks btd upto i).upto = i + k
        ∧ (invalidateLoop zone_cap log mock rest heap prev blocks btd upto i).blocks_to_delete
            = btd + blocks + lbaCountSum heap0 (rest.take k) := by
  intro rest
  induction rest with
  | nil => intro heap prev blocks btd upto i _ _; exact Or.inl ⟨rfl, rfl⟩
  | cons m rest ih =>
    intro heap prev blocks btd upto i h hlt
    have hm : (heap m).lba_count = (heap0 m).lba_count := (h m).2.1
    have hsum : lbaCountSum heap0 (m :: rest)
        = (heap0 m).lba_count + lbaCountSum heap0 rest := by
      simp [lbaCountSum]
    rw [hsum] at hlt
    have hb : u64 (blocks + (heap m).lba_count) = blocks + (heap0 m).lba_count := by
      rw [hm]; exact u64_of_lt (by omega)
    unfold invalidateLoop
    split
    · exact Or.inl ⟨rfl, rfl⟩
    · split
      · exact Or.inl ⟨rfl, rfl⟩
      · simp only []
        rw [hb]
        split
        · have hbtd : u64 (btd + (blocks + (heap0 m).lba_count))
              = btd + (blocks + (heap0 m).lba_count) := u64_of_lt (by omega)
          rw [hbtd]
          right
          rcases ih (heap.store mock { heap mock with number := (heap m).number }) m 0
              (btd + (blocks + (heap0 m).lba_count)) (i + 1) (i + 1)
              (HeapSame_store_number mock heap heap0 _ h) (by omega) with h1 | ⟨k, hk, hkl, h1, h2⟩
          · refine ⟨1, by omega, by simp, h1.1, ?_⟩
            rw [h1.2]
            simp [lbaCountSum]
            omega
          · refine ⟨k + 1, by omega, by simp; omega, by rw [h1]; omega, ?_⟩
            rw [h2]
            simp [lbaCountSum]
            omega
        · rcases ih heap m (blocks + (heap0 m).lba_count) btd upto (i + 1) h (by omega)
              with h1 | ⟨k, hk, hkl, h1, h2⟩
          · exact Or.inl h1
          · right
            refine ⟨k + 1, by omega, by simp; omega, by rw [h1]; omega, ?_⟩
            rw [h2]
            simp [lbaCountSum]
            omega


/-- A call whose first victim does not start at the write tail pushes the
input pointers and returns. -/
theorem TryInvalidateSSZones_off_tail (zone_cap : Nat) (log : SZDCircularLog)
    (heap : MetaHeap) (first : Nat) (rest remaining_metas : List Nat)
    (h : log.write_tail ≠ (heap first).L0.lba) :
    TryInvalidateSSZones zone_cap log heap (first :: rest) remaining_metas
      = some ⟨Status.OK, remaining_metas ++ first :: rest, heap, none⟩ := by
  simp only [TryInvalidateSSZones, if_pos h]

/-- C14: when the first victim does not start at the write tail of the log,
`TryInvalidateSSZones` returns OK, appends the input metas in input order to
`remaining_metas`, leaves every meta object as it was and calls no
`ConsumeTail`. -/
theorem TryInvalidateSSZones_not_at_tail (zone_cap : Nat) (log : SZDCircularLog)
    (heap : MetaHeap) (first : Nat) (rest remaining_metas : List Nat)
    (h : log.write_tail ≠ (heap first).L0.lba) :
    TryInvalidateSSZones zone_cap log heap (first :: rest) remaining_metas
      = some ⟨Status.OK, remaining_metas ++ first :: rest, heap, none⟩ := by
  simp only [TryInvalidateSSZones, if_pos h]

theorem TryInvalidateSSZones_not_at_tail_witness :
    (scenarioLog 0).write_tail ≠ (scenarioTables 2).L0.lba
      ∧ TryInvalidateSSZones 64 (scenarioLog 0) scenarioTables (2 :: [3, 4, 5]) [9]
        = some ⟨Status.OK, [9] ++ 2 :: [3, 4, 5], scenarioTables, none⟩ :=
  ⟨by decide, TryInvalidateSSZones_not_at_tail 64 (scenarioLog 0) scenarioTables 2 [3, 4, 5] [9]
    (by decide)⟩

/-- C16 (counterexample): in the scenario of the claim the four tables fill one
zone of 64 LBAs, and the call issues `consume_tail(0, 64)`, not
`consume_tail(0, 128)`. -/
theorem four_tables_consume_one_zone :
    (TryInvalidateSSZones 64 (scenarioLog 0) scenarioTables [0, 1, 2, 3] []).map
        (fun r => (r.status, r.remaining_metas, r.consume_tail))
      = some (Status.OK, [], some (0, 64))
    ∧ (TryInvalidateSSZones 64 (scenarioLog 0) scenarioTables [0, 1, 2, 3] []).map
        (fun r => r.consume_tail) ≠ some (some (0, 128)) := by
  refine ⟨by decide, by decide⟩

/-- C17 (counterexample): in the scenario of the claim the call returns the
three input metas, unchanged, and no synthetic remainder meta. -/
theorem three_tables_returned_as_they_are :
    (TryInvalidateSSZones 64 (scenarioLog 0) scenarioTables [0, 1, 2] []).map
        (fun r => (r.status, r.remaining_metas, r.consume_tail,
          r.remaining_metas.map r.heap))
      = some (Status.OK, [0, 1, 2], none,
          [⟨1, ⟨0, 0⟩, 16⟩, ⟨2, ⟨16, 0⟩, 16⟩, ⟨3, ⟨32, 0⟩, 16⟩]) := by
  decide

/-- C20 (failing input): one victim of 64 LBAs at the write tail 0, with
`zone_cap = 64`: the loop starts at the second victim, so the pass over the
zone boundary is never noticed; no `ConsumeTail` is called and the victim is
returned as live.  With a second victim behind it both zones are reset. -/
theorem single_victim_not_reclaimed :
    (TryInvalidateSSZones 64 (scenarioLog 0) (fun p => ⟨p + 1, ⟨64 * p, 0⟩, 64⟩) [0] []).map
        (fun r => (r.status, r.remaining_metas, r.consume_tail))
      = some (Status.OK, [0], none)
    ∧ (TryInvalidateSSZones 64 (scenarioLog 0) (fun p => ⟨p + 1, ⟨64 * p, 0⟩, 64⟩) [0, 1] []).map
        (fun r => (r.status, r.remaining_metas, r.consume_tail))
      = some (Status.OK, [], some (0, 128)) := by
  refine ⟨by decide, by decide⟩

/-- C19 (counterexample): three victims at the tail of which the first and the
third carry the same number 1: only neighbours are compared, and the call
returns OK and resets a zone. -/
theorem distant_duplicate_not_detected :
    (TryInvalidateSSZones 32 (scenarioLog 0)
        (fun p => ⟨if p = 1 then 2 else 1, ⟨16 * p, 0⟩, 16⟩) [0, 1, 2] []).map
        (fun r => (r.status, r.remaining_metas, r.consume_tail))
      = some (Status.OK, [2], some (0, 32)) := by
  decide

/-- C15 (counterexample): a write tail at LBA 16, inside a zone of 64 LBAs,
and two victims of 48 and 64 LBAs: both are deleted, no remainder meta is
returned, and the `lba_count` of the deleted metas sum to 112, which is not a
multiple of 64. -/
theorem deleted_sum_not_multiple_inside_zone :
    (TryInvalidateSSZones 64 (scenarioLog 16)
        (fun p => if p = 0 then ⟨1, ⟨16, 0⟩, 48⟩ else ⟨2, ⟨64, 0⟩, 64⟩) [0, 1] []).map
        (fun r => (r.status, r.remaining_metas, r.consume_tail))
      = some (Status.OK, [], some (16, 144))
    ∧ (lbaCountSum (fun p => if p = 0 then ⟨1, ⟨16, 0⟩, 48⟩ else ⟨2, ⟨64, 0⟩, 64⟩) [0, 1] - 0)
        % 64 ≠ 0 := by
  refine ⟨by decide, by decide⟩


theorem sub_div_mul (a z : Nat) : a - a / z * z = a % z := by
  have := Nat.div_add_mod a z
  rw [Nat.mul_comm] at this
  omega

theorem div_mul_div_mul (a z : Nat) (hz : z ≠ 0) : a / z * z / z * z = a / z * z := by
  rw [Nat.mul_div_cancel _ (Nat.pos_of_ne_zero hz)]

/-- The call of `TryInvalidateSSZones` on victims at the write tail, in terms
of the state in which its loop is left. -/
theorem TryInvalidateSSZones_at_tail (zone_cap : Nat) (log : SZDCircularLog)
    (heap : MetaHeap) (first : Nat) (rest remaining_metas : List Nat)
    (htail : log.write_tail = (heap first).L0.lba) (hz : zone_cap ≠ 0)
    (walk : InvalidateWalk)
    (hwalk : walk = invalidateLoop zone_cap log first rest heap first
      (u64 ((heap first).L0.lba % zone_cap + (heap first).lba_count)) 0 0 1) :
    TryInvalidateSSZones zone_cap log heap (first :: rest) remaining_metas
      = if walk.duplicate then
          some ⟨Status.Corruption, remaining_metas, walk.heap, none⟩
        else some
          ⟨if 0 < walk.blocks_to_delete / zone_cap * zone_cap then
              log.ConsumeTail log.write_tail
                (u64 (log.write_tail + walk.blocks_to_delete / zone_cap * zone_cap))
            else Status.OK,
           remaining_metas
              ++ (if walk.blocks_to_delete % zone_cap ≠ 0 then [first] else [])
              ++ (first :: rest).drop walk.upto,
           if walk.blocks_to_delete % zone_cap ≠ 0 then
              walk.heap.store first
                ⟨(walk.heap first).number,
                 ⟨log.wrapped_addr
                    (u64 (log.write_tail + walk.blocks_to_delete / zone_cap * zone_cap)),
                  (walk.heap first).L0.log_number⟩,
                 walk.blocks_to_delete % zone_cap⟩
            else walk.heap,
           if 0 < walk.blocks_to_delete / zone_cap * zone_cap then
              some (log.write_tail,
                u64 (log.write_tail + walk.blocks_to_delete / zone_cap * zone_cap))
            else none⟩ := by
  have hne : ¬ log.write_tail ≠ (heap first).L0.lba := fun h => h htail
  simp only [TryInvalidateSSZones, if_neg hne, if_neg hz, sub_div_mul, ← hwalk]
  cases hd : walk.duplicate
  · simp only [Bool.false_eq_true, if_false]
    by_cases hc : walk.blocks_to_delete % zone_cap ≠ 0
    · have hdec : decide (walk.blocks_to_delete % zone_cap ≠ 0) = true := decide_eq_true hc
      simp only [hdec, if_true, div_mul_div_mul _ _ hz, if_pos hc]
      congr 2
      funext q
      by_cases hq : q = first
      · subst hq; simp [MetaHeap.store]
      · simp [MetaHeap.store, hq]
    · have hdec : decide (walk.blocks_to_delete % zone_cap ≠ 0) = false := decide_eq_false hc
      simp only [hdec, Bool.false_eq_true, if_false, if_neg hc, List.append_nil]
  · simp only [if_true]


/-- C18: whenever `TryInvalidateSSZones` calls `ConsumeTail(from, to)`, `from`
is the write tail of the log and `to` is the write tail plus a positive multiple
of `zone_cap` (a sum of type `uint64_t`), so `to - from` is that positive
multiple of `zone_cap` unless the addresses wrap the 64 bits. -/
theorem consume_tail_precondition (zone_cap : Nat) (log : SZDCircularLog) (heap : MetaHeap)
    (metas remaining_metas : List Nat) (from_lba to_lba : Nat) (hz : 0 < zone_cap)
    (hc : (TryInvalidateSSZones zone_cap log heap metas remaining_metas).bind
      (fun r => r.consume_tail) = some (from_lba, to_lba)) :
    from_lba = log.write_tail
      ∧ ∃ k, 0 < k ∧ k * zone_cap < 2 ^ 64
        ∧ to_lba = u64 (log.write_tail + k * zone_cap)
        ∧ (log.write_tail + k * zone_cap < 2 ^ 64 →
            from_lba < to_lba ∧ to_lba - from_lba = k * zone_cap) := by
  cases metas with
  | nil => simp [TryInvalidateSSZones] at hc
  | cons first rest =>
    by_cases htail : log.write_tail = (heap first).L0.lba
    · rw [TryInvalidateSSZones_at_tail zone_cap log heap first rest remaining_metas htail
        (Nat.pos_iff_ne_zero.mp hz) _ rfl] at hc
      generalize hw : invalidateLoop zone_cap log first rest heap first
        (u64 ((heap first).L0.lba % zone_cap + (heap first).lba_count)) 0 0 1 = walk at hc
      have hlt : walk.blocks_to_delete < 2 ^ 64 := by
        rw [← hw]; exact invalidateLoop_btd_lt _ _ _ _ _ _ _ _ _ _ (by norm_num)
      cases hd : walk.duplicate
      · simp only [hd, Bool.false_eq_true, if_false, Option.some_bind] at hc
        by_cases hpos : 0 < walk.blocks_to_delete / zone_cap * zone_cap
        · simp only [if_pos hpos, Option.some.injEq, Prod.mk.injEq] at hc
          refine ⟨hc.1.symm, walk.blocks_to_delete / zone_cap, ?_, ?_, hc.2.symm, ?_⟩
          · exact Nat.pos_of_ne_zero (fun h0 => by rw [h0, Nat.zero_mul] at hpos; exact absurd hpos (by decide))
          · exact lt_of_le_of_lt (Nat.div_mul_le_self _ _) hlt
          · intro hno
            rw [← hc.1, ← hc.2, u64_of_lt hno]
            omega
        · simp only [if_neg hpos] at hc
          exact absurd hc (by simp)
      · simp only [hd, if_true, Option.some_bind] at hc
        exact absurd hc (by simp)
    · rw [TryInvalidateSSZones_off_tail zone_cap log heap first rest remaining_metas htail]
        at hc
      simp at hc

theorem consume_tail_precondition_witness :
    0 < 64
      ∧ (TryInvalidateSSZones 64 (scenarioLog 0) scenarioTables [0, 1, 2, 3] []).bind
          (fun r => r.consume_tail) = some (0, 64)
      ∧ (0 = (scenarioLog 0).write_tail
        ∧ ∃ k, 0 < k ∧ k * 64 < 2 ^ 64
          ∧ 64 = u64 ((scenarioLog 0).write_tail + k * 64)
          ∧ ((scenarioLog 0).write_tail + k * 64 < 2 ^ 64 → 0 < 64 ∧ 64 - 0 = k * 64)) :=
  ⟨by decide, by decide,
    consume_tail_precondition 64 (scenarioLog 0) scenarioTables [0, 1, 2, 3] [] 0 64
      (by decide) (by decide)⟩


theorem lbaCountSum_cons (heap : MetaHeap) (p : Nat) (ps : List Nat) :
    lbaCountSum heap (p :: ps) = (heap p).lba_count + lbaCountSum heap ps := by
  simp [lbaCountSum]

theorem lbaCountSum_take_le (heap : MetaHeap) (ps : List Nat) (k : Nat) :
    lbaCountSum heap (ps.take k) ≤ lbaCountSum heap ps := by
  induction ps generalizing k with
  | nil => simp [lbaCountSum]
  | cons p ps ih =>
    cases k with
    | zero => simp [lbaCountSum]
    | succ k =>
      rw [List.take_succ_cons, lbaCountSum_cons, lbaCountSum_cons]
      exact Nat.add_le_add_left (ih k) _

/-- The loop of `TryInvalidateSSZones` as the call starts it on victims at the
tail: it ends with `upto = 0` and nothing to delete, or with `upto` after a
later victim and `blocks_to_delete` the offset of the tail in its zone plus the
`lba_count` of the victims before `upto`. -/
theorem tail_walk_sum (zone_cap : Nat) (log : SZDCircularLog) (heap : MetaHeap)
    (first : Nat) (rest : List Nat) (walk : InvalidateWalk)
    (hwalk : walk = invalidateLoop zone_cap log first rest heap first
      (u64 ((heap first).L0.lba % zone_cap + (heap first).lba_count)) 0 0 1)
    (hno : (heap first).L0.lba % zone_cap + lbaCountSum heap (first :: rest) < 2 ^ 64) :
    walk.upto ≤ (first :: rest).length
      ∧ ((walk.upto = 0 ∧ walk.blocks_to_delete = 0)
        ∨ (0 < walk.upto ∧ walk.blocks_to_delete
            = (heap first).L0.lba % zone_cap
              + lbaCountSum heap ((first :: rest).take walk.upto))) := by
  rw [lbaCountSum_cons] at hno
  have hb : u64 ((heap first).L0.lba % zone_cap + (heap first).lba_count)
      = (heap first).L0.lba % zone_cap + (heap first).lba_count := u64_of_lt (by omega)
  have h := invalidateLoop_sum zone_cap log first heap rest heap first
    (u64 ((heap first).L0.lba % zone_cap + (heap first).lba_count)) 0 0 1
    (HeapSame_refl _ _) (by rw [hb]; omega)
  rw [← hwalk, hb] at h
  rcases h with ⟨h1, h2⟩ | ⟨k, hk, hkl, h1, h2⟩
  · exact ⟨by rw [h1]; exact Nat.zero_le _, Or.inl ⟨h1, h2⟩⟩
  · refine ⟨by rw [h1]; simp; omega, Or.inr ⟨by omega, ?_⟩⟩
    rw [h2, h1, Nat.add_comm 1 k, List.take_succ_cons, lbaCountSum_cons]
    omega


/-- The layout of `remaining_metas` after a call on victims at the tail that
returns OK, with `walk` the state in which the loop is left: `remaining_metas`
is what it was, followed by
the remainder meta (the object `metas[0]`) exactly when `blocks_to_delete` is no
multiple of `zone_cap`, followed by `metas[upto..]` in input order.  The
remainder meta has `lba_count = blocks_to_delete mod zone_cap` and
`lba = wrapped_addr(write_tail + blocks_to_delete` rounded down to a multiple of
`zone_cap)`; `upto` is 0, with nothing to delete, or `blocks_to_delete` counts
the LBAs from the start of the tail zone to the end of `metas[upto - 1]`. -/
theorem remaining_metas_layout (zone_cap : Nat) (log : SZDCircularLog) (heap : MetaHeap)
    (first : Nat) (rest remaining_metas : List Nat) (walk : InvalidateWalk)
    (htail : log.write_tail = (heap first).L0.lba)
    (hwalk : walk = invalidateLoop zone_cap log first rest heap first
      (u64 ((heap first).L0.lba % zone_cap + (heap first).lba_count)) 0 0 1)
    (hok : (TryInvalidateSSZones zone_cap log heap (first :: rest) remaining_metas).map
      (fun r => r.status) = some Status.OK) :
    ∃ r, TryInvalidateSSZones zone_cap log heap (first :: rest) remaining_metas = some r
      ∧ r.remaining_metas
          = remaining_metas ++ (if walk.blocks_to_delete % zone_cap ≠ 0 then [first] else [])
              ++ (first :: rest).drop walk.upto
      ∧ (walk.blocks_to_delete % zone_cap ≠ 0 →
          (r.heap first).lba_count = walk.blocks_to_delete % zone_cap
            ∧ (r.heap first).L0.lba = log.wrapped_addr
                (u64 (log.write_tail + walk.blocks_to_delete / zone_cap * zone_cap)))
      ∧ ((heap first).L0.lba % zone_cap + lbaCountSum heap (first :: rest) < 2 ^ 64 →
          walk.upto ≤ (first :: rest).length
            ∧ ((walk.upto = 0 ∧ walk.blocks_to_delete = 0)
              ∨ (0 < walk.upto ∧ walk.blocks_to_delete
                  = (heap first).L0.lba % zone_cap
                    + lbaCountSum heap ((first :: rest).take walk.upto)))) := by
  have hz : zone_cap ≠ 0 := by
    intro h0
    have hne : ¬ log.write_tail ≠ (heap first).L0.lba := fun h => h htail
    simp [TryInvalidateSSZones, hne, h0] at hok
  rw [TryInvalidateSSZones_at_tail zone_cap log heap first rest remaining_metas htail hz
    walk hwalk] at hok ⊢
  cases hd : walk.duplicate
  · simp only [Bool.false_eq_true, if_false]
    refine ⟨_, rfl, rfl, ?_, tail_walk_sum zone_cap log heap first rest walk hwalk⟩
    intro hc
    simp [if_pos hc, MetaHeap.store]
  · simp [hd] at hok

theorem remaining_metas_layout_witness :
    (scenarioLog 0).write_tail = ((fun p => ⟨p + 1, ⟨40 * p, 0⟩, 40⟩ : MetaHeap) 0).L0.lba
      ∧ (TryInvalidateSSZones 64 (scenarioLog 0) (fun p => ⟨p + 1, ⟨40 * p, 0⟩, 40⟩)
          (0 :: [1, 2, 3]) [9]).map (fun r => r.status) = some Status.OK
      ∧ ∃ r, TryInvalidateSSZones 64 (scenarioLog 0) (fun p => ⟨p + 1, ⟨40 * p, 0⟩, 40⟩)
          (0 :: [1, 2, 3]) [9] = some r
        ∧ r.remaining_metas = [9, 0]
        ∧ (r.heap 0).lba_count = 32 ∧ (r.heap 0).L0.lba = 128 := by
  refine ⟨by decide, by decide, ?_⟩
  obtain ⟨r, h1, h2, h3, -⟩ := remaining_metas_layout 64 (scenarioLog 0)
    (fun p => ⟨p + 1, ⟨40 * p, 0⟩, 40⟩) 0 [1, 2, 3] [9] _ (by decide) rfl (by decide)
  exact ⟨r, h1, by rw [h2]; decide, h3 (by decide)⟩

/-- C21 (failing input): `zone_cap = 64`, write tail 0, `remaining_metas`
holding the pointer 7, and one victim of 128 LBAs at LBA 0.  After the first
victim the accumulated block count is 128: it has reached `zone_cap` at index
0, and 128 is a multiple of `zone_cap`, so by the claim `upto` is 1 and nothing
is appended.  The test `blocks >= zone_cap_` is made in the loop that starts at
the second victim: `upto` and `blocks_to_delete` stay 0, the victim is appended
to `remaining_metas` and no `ConsumeTail` is called.  With a second victim of
16 LBAs behind it the count is tested at index 1: `upto` is 2, the two zones
are reset and the remainder meta (the object `metas[0]`, 16 LBAs at LBA 128)
is appended. -/
theorem first_victim_count_not_tested :
    (scenarioLog 0).write_tail = ((fun p => ⟨p + 1, ⟨128 * p, 0⟩, 128⟩ : MetaHeap) 0).L0.lba
      ∧ ((fun p => ⟨p + 1, ⟨128 * p, 0⟩, 128⟩ : MetaHeap) 0).L0.lba % 64
          + ((fun p => ⟨p + 1, ⟨128 * p, 0⟩, 128⟩ : MetaHeap) 0).lba_count = 128
      ∧ 64 ≤ 128 ∧ 128 % 64 = 0
      ∧ (invalidateLoop 64 (scenarioLog 0) 0 [] (fun p => ⟨p + 1, ⟨128 * p, 0⟩, 128⟩) 0
            128 0 0 1).upto = 0
      ∧ (invalidateLoop 64 (scenarioLog 0) 0 [] (fun p => ⟨p + 1, ⟨128 * p, 0⟩, 128⟩) 0
            128 0 0 1).blocks_to_delete = 0
      ∧ (TryInvalidateSSZones 64 (scenarioLog 0) (fun p => ⟨p + 1, ⟨128 * p, 0⟩, 128⟩)
            [0] [7]).map (fun r => (r.status, r.remaining_metas, r.consume_tail))
          = some (Status.OK, [7, 0], none)
      ∧ (TryInvalidateSSZones 64 (scenarioLog 0)
            (fun p => if p = 0 then ⟨1, ⟨0, 0⟩, 128⟩ else ⟨2, ⟨128, 0⟩, 16⟩)
            [0, 1] [7]).map
            (fun r => (r.status, r.remaining_metas, r.consume_tail, r.heap 0))
          = some (Status.OK, [7, 0], some (0, 128), ⟨2, ⟨128, 0⟩, 16⟩) := by
  refine ⟨by decide, by decide, by decide, by decide, by decide, by decide, by decide,
    by decide⟩


/-- C15 (amended): for a call that returns OK on a log whose write tail is a
multiple of `zone_cap`, with victims whose `lba_count` sum to less than `2^64`:
`remaining_metas` is what it was, then the remainder meta (the object
`metas[0]`) if there is one, then `metas[upto..]`; the `lba_count` of the
deleted metas `metas[0..upto)`, as they were at the call, minus the `lba_count`
of the remainder meta (0 if none) is a multiple of `zone_cap`. -/
theorem deleted_sum_congruence (zone_cap : Nat) (log : SZDCircularLog) (heap : MetaHeap)
    (metas remaining_metas : List Nat)
    (hal : log.write_tail % zone_cap = 0)
    (hno : lbaCountSum heap metas < 2 ^ 64)
    (hok : (TryInvalidateSSZones zone_cap log heap metas remaining_metas).map
      (fun r => r.status) = some Status.OK) :
    ∃ r upto rem, TryInvalidateSSZones zone_cap log heap metas remaining_metas = some r
      ∧ upto ≤ metas.length
      ∧ r.remaining_metas = remaining_metas ++ rem ++ metas.drop upto
      ∧ (rem = [] ∨ (0 < upto ∧ rem = metas.take 1))
      ∧ lbaCountSum r.heap rem ≤ lbaCountSum heap (metas.take upto)
      ∧ (lbaCountSum heap (metas.take upto) - lbaCountSum r.heap rem) % zone_cap = 0 := by
  cases metas with
  | nil => simp [TryInvalidateSSZones] at hok
  | cons first rest =>
    by_cases htail : log.write_tail = (heap first).L0.lba
    · have hz : zone_cap ≠ 0 := by
        intro h0
        have hne : ¬ log.write_tail ≠ (heap first).L0.lba := fun h => h htail
        simp [TryInvalidateSSZones, hne, h0] at hok
      have hoff : (heap first).L0.lba % zone_cap = 0 := by rw [← htail]; exact hal
      obtain ⟨hup, hsum⟩ := tail_walk_sum zone_cap log heap first rest _ rfl
        (by rw [hoff]; omega)
      rw [TryInvalidateSSZones_at_tail zone_cap log heap first rest remaining_metas htail hz
        _ rfl] at hok ⊢
      generalize invalidateLoop zone_cap log first rest heap first
        (u64 ((heap first).L0.lba % zone_cap + (heap first).lba_count)) 0 0 1 = walk
        at hok hup hsum ⊢
      rw [hoff, Nat.zero_add] at hsum
      cases hd : walk.duplicate
      · simp only [Bool.false_eq_true, if_false]
        by_cases hc : walk.blocks_to_delete % zone_cap ≠ 0
        · rcases hsum with ⟨_, h0⟩ | ⟨hpos, hs⟩
          · rw [h0] at hc; simp at hc
          · refine ⟨_, walk.upto, [first], rfl, hup, by simp only [if_pos hc], Or.inr ⟨hpos, rfl⟩,
              ?_, ?_⟩
            · simp only [if_pos hc, lbaCountSum, List.map_cons, List.map_nil, List.sum_cons,
                List.sum_nil, MetaHeap.store, if_true, Nat.add_zero]
              rw [← lbaCountSum, ← hs]
              exact Nat.mod_le _ _
            · simp only [if_pos hc, lbaCountSum, List.map_cons, List.map_nil, List.sum_cons,
                List.sum_nil, MetaHeap.store, if_true, Nat.add_zero]
              rw [← lbaCountSum, ← hs]
              have := Nat.div_add_mod walk.blocks_to_delete zone_cap
              have h2 : walk.blocks_to_delete - walk.blocks_to_delete % zone_cap
                  = zone_cap * (walk.blocks_to_delete / zone_cap) := by omega
              rw [h2]
              exact Nat.mul_mod_right _ _
        · have hc2 : walk.blocks_to_delete % zone_cap = 0 := by
            by_contra h; exact hc h
          refine ⟨_, walk.upto, [], rfl, hup, by simp only [if_neg hc], Or.inl rfl, ?_, ?_⟩
          · simp [lbaCountSum]
          · rcases hsum with ⟨h1, _⟩ | ⟨_, hs⟩
            · rw [h1]; simp [lbaCountSum]
            · rw [← hs]; simpa [lbaCountSum] using hc2
      · simp [hd] at hok
    · rw [TryInvalidateSSZones_off_tail zone_cap log heap first rest remaining_metas htail]
      exact ⟨_, 0, [], rfl, Nat.zero_le _, by simp, Or.inl rfl, by simp [lbaCountSum],
        by simp [lbaCountSum]⟩

theorem deleted_sum_congruence_witness :
    (scenarioLog 0).write_tail % 64 = 0
      ∧ lbaCountSum (fun p => ⟨p + 1, ⟨40 * p, 0⟩, 40⟩) [0, 1, 2, 3] < 2 ^ 64
      ∧ (TryInvalidateSSZones 64 (scenarioLog 0) (fun p => ⟨p + 1, ⟨40 * p, 0⟩, 40⟩)
          [0, 1, 2, 3] [9]).map (fun r => (r.status, r.remaining_metas, (r.heap 0).lba_count))
          = some (Status.OK, [9, 0], 32)
      ∧ ∃ r upto rem, TryInvalidateSSZones 64 (scenarioLog 0)
          (fun p => ⟨p + 1, ⟨40 * p, 0⟩, 40⟩) [0, 1, 2, 3] [9] = some r
        ∧ upto ≤ [0, 1, 2, 3].length
        ∧ r.remaining_metas = [9] ++ rem ++ [0, 1, 2, 3].drop upto
        ∧ (rem = [] ∨ (0 < upto ∧ rem = [0, 1, 2, 3].take 1))
        ∧ lbaCountSum r.heap rem
            ≤ lbaCountSum (fun p => ⟨p + 1, ⟨40 * p, 0⟩, 40⟩) ([0, 1, 2, 3].take upto)
        ∧ (lbaCountSum (fun p => ⟨p + 1, ⟨40 * p, 0⟩, 40⟩) ([0, 1, 2, 3].take upto)
            - lbaCountSum r.heap rem) % 64 = 0 :=
  ⟨by decide, by decide, by decide,
    deleted_sum_congruence 64 (scenarioLog 0) (fun p => ⟨p + 1, ⟨40 * p, 0⟩, 40⟩)
      [0, 1, 2, 3] [9] (by decide) (by decide) (by decide)⟩


/-- C16 (amended): with `zone_cap = 64` and the write tail at 0, the four
tables of 16 LBAs at LBA 0, 16, 32 and 48, neighbours carrying different
numbers, on a log that wraps none of these addresses: the call issues
`ConsumeTail(0, 64)`, returns its status and leaves `remaining_metas` as it
was. -/
theorem four_tables_scenario (log : SZDCircularLog) (heap : MetaHeap)
    (p0 p1 p2 p3 : Nat) (remaining_metas : List Nat)
    (hwt : log.write_tail = 0)
    (hw : log.wrapped_addr 16 = 16 ∧ log.wrapped_addr 32 = 32 ∧ log.wrapped_addr 48 = 48)
    (h0 : (heap p0).L0.lba = 0 ∧ (heap p0).lba_count = 16)
    (h1 : (heap p1).L0.lba = 16 ∧ (heap p1).lba_count = 16)
    (h2 : (heap p2).L0.lba = 32 ∧ (heap p2).lba_count = 16)
    (h3 : (heap p3).L0.lba = 48 ∧ (heap p3).lba_count = 16)
    (hn : (heap p0).number ≠ (heap p1).number ∧ (heap p1).number ≠ (heap p2).number
      ∧ (heap p2).number ≠ (heap p3).number) :
    ∃ r, TryInvalidateSSZones 64 log heap [p0, p1, p2, p3] remaining_metas = some r
      ∧ r.status = log.ConsumeTail 0 64
      ∧ r.consume_tail = some (0, 64)
      ∧ r.remaining_metas = remaining_metas := by
  obtain ⟨hw1, hw2, hw3⟩ := hw
  obtain ⟨hn1, hn2, hn3⟩ := hn
  have e16 : u64 (0 + 16) = 16 := by decide
  have e32 : u64 (16 + 16) = 32 := by decide
  have e48 : u64 (32 + 16) = 48 := by decide
  have e64 : u64 (48 + 16) = 64 := by decide
  have e0 : u64 (0 + 64) = 64 := by decide
  have hwalk : invalidateLoop 64 log p0 [p1, p2, p3] heap p0
      (u64 ((heap p0).L0.lba % 64 + (heap p0).lba_count)) 0 0 1
      = ⟨false, heap.store p0 { heap p0 with number := (heap p3).number }, 64, 4⟩ := by
    simp only [invalidateLoop, h0.1, h0.2, h1.1, h1.2, h2.1, h2.2, h3.1, h3.2, if_neg hn1,
      if_neg hn2, if_neg hn3, Nat.zero_mod, e16, e32, e48, e64, e0, hw1, hw2, hw3, ne_eq,
      not_true_eq_false, if_false]
    simp
  rw [TryInvalidateSSZones_at_tail 64 log heap p0 [p1, p2, p3] remaining_metas
    (by rw [hwt, h0.1]) (by decide) _ rfl, hwalk]
  refine ⟨_, rfl, ?_, ?_, ?_⟩
  · simp [hwt, u64]
  · simp [hwt, u64]
  · simp

theorem four_tables_scenario_witness :
    ∃ r, TryInvalidateSSZones 64 (scenarioLog 0) scenarioTables [0, 1, 2, 3] [] = some r
      ∧ r.status = (scenarioLog 0).ConsumeTail 0 64
      ∧ r.consume_tail = some (0, 64)
      ∧ r.remaining_metas = [] :=
  four_tables_scenario (scenarioLog 0) scenarioTables 0 1 2 3 [] (by decide) (by decide)
    (by decide) (by decide) (by decide) (by decide) (by decide)

/-- C17 (amended): with `zone_cap = 64` and the write tail at 0, the three
tables of 16 LBAs at LBA 0, 16 and 32 (48 LBAs in all), neighbours carrying
different numbers: the call resets no zone, returns OK and appends the three
input metas to `remaining_metas`, each as it was. -/
theorem three_tables_scenario (log : SZDCircularLog) (heap : MetaHeap)
    (p0 p1 p2 : Nat) (remaining_metas : List Nat)
    (hwt : log.write_tail = 0)
    (h0 : (heap p0).L0.lba = 0 ∧ (heap p0).lba_count = 16)
    (h1 : (heap p1).L0.lba = 16 ∧ (heap p1).lba_count = 16)
    (h2 : (heap p2).L0.lba = 32 ∧ (heap p2).lba_count = 16)
    (hn : (heap p0).number ≠ (heap p1).number ∧ (heap p1).number ≠ (heap p2).number) :
    TryInvalidateSSZones 64 log heap [p0, p1, p2] remaining_metas
      = some ⟨Status.OK, remaining_metas ++ [p0, p1, p2], heap, none⟩ := by
  obtain ⟨hn1, hn2⟩ := hn
  have e16 : u64 (0 + 16) = 16 := by decide
  have e32 : u64 (16 + 16) = 32 := by decide
  have e48 : u64 (32 + 16) = 48 := by decide
  have hwalk : invalidateLoop 64 log p0 [p1, p2] heap p0
      (u64 ((heap p0).L0.lba % 64 + (heap p0).lba_count)) 0 0 1
      = ⟨false, heap, 0, 0⟩ := by
    simp only [invalidateLoop, h0.1, h0.2, h1.1, h1.2, h2.1, h2.2, if_neg hn1,
      if_neg hn2, Nat.zero_mod, e16, e32, e48]
    split_ifs <;> first | rfl | omega
  rw [TryInvalidateSSZones_at_tail 64 log heap p0 [p1, p2] remaining_metas
    (by rw [hwt, h0.1]) (by decide) _ rfl, hwalk]
  simp

theorem three_tables_scenario_witness :
    TryInvalidateSSZones 64 (scenarioLog 0) scenarioTables [0, 1, 2] [7]
      = some ⟨Status.OK, [7] ++ [0, 1, 2], scenarioTables, none⟩ :=
  three_tables_scenario (scenarioLog 0) scenarioTables 0 1 2 [7] (by decide) (by decide)
    (by decide) (by decide) (by decide)


/-- The loop returns `Corruption` at the first victim `b` that carries the
number of its predecessor, when the victims before it pass both tests. -/
theorem invalidateLoop_duplicate (zone_cap : Nat) (log : SZDCircularLog) (mock : Nat)
    (heap0 : MetaHeap) (a b : Nat) (post : List Nat) (hb : b ≠ mock)
    (hab : (heap0 a).number = (heap0 b).number) :
    ∀ (l : List Nat) (heap : MetaHeap) (prev blocks btd upto i : Nat),
      HeapSame mock heap heap0 → (heap prev).number = (heap0 prev).number → mock ∉ l →
      List.Chain (Adjacent log heap0) prev l → (prev :: l).getLast? = some a →
      (invalidateLoop zone_cap log mock (l ++ b :: post) heap prev blocks btd upto i).duplicate
        = true := by
  intro l
  induction l with
  | nil =>
    intro heap prev blocks btd upto i hs hprev _ _ hlast
    simp only [List.getLast?_singleton, Option.some.injEq] at hlast
    have h1 : (heap prev).number = (heap b).number := by
      rw [hprev, hlast, hab, (hs b).2.2 hb]
    simp only [List.nil_append, invalidateLoop, if_pos h1]
  | cons m l ih =>
    intro heap prev blocks btd upto i hs hprev hmock hchain hlast
    rw [List.chain_cons] at hchain
    obtain ⟨⟨hnum, hcont⟩, hchain⟩ := hchain
    have hm : m ≠ mock := fun h => hmock (by rw [h]; exact List.mem_cons_self _ _)
    have hmock2 : mock ∉ l := fun h => hmock (List.mem_cons_of_mem _ h)
    have hhm : heap m = heap0 m := (hs m).2.2 hm
    have h1 : ¬ (heap prev).number = (heap m).number := by rw [hprev, hhm]; exact hnum
    have h2 : ¬ log.wrapped_addr (u64 ((heap prev).L0.lba + (heap prev).lba_count))
        ≠ (heap m).L0.lba := by
      rw [(hs prev).1, (hs prev).2.1, hhm]; exact fun h => h hcont
    rw [List.getLast?_cons_cons] at hlast
    simp only [List.cons_append, invalidateLoop, if_neg h1, if_neg h2]
    split
    · refine ih _ _ _ _ _ _ (HeapSame_store_number mock heap heap0 _ hs) ?_ hmock2 hchain hlast
      simp only [MetaHeap.store, if_neg hm, hhm]
    · exact ih _ _ _ _ _ _ hs (by rw [hhm]) hmock2 hchain hlast

/-- C19 (amended): victims at the write tail (`zone_cap` not 0), of which the
victim `b` carries the number of its predecessor `a`, while every pair of
neighbours before `b` carries different numbers and is contiguous on the log,
and the object `metas[0]` does not occur again up to `b`:
`TryInvalidateSSZones` returns `Corruption`, calls no `ConsumeTail` and adds
nothing to `remaining_metas`. -/
theorem neighbour_duplicate_is_corruption (zone_cap : Nat) (log : SZDCircularLog)
    (heap : MetaHeap) (first a b : Nat) (walked post remaining_metas : List Nat)
    (hz : zone_cap ≠ 0)
    (htail : log.write_tail = (heap first).L0.lba)
    (hchain : List.Chain (Adjacent log heap) first walked)
    (hlast : (first :: walked).getLast? = some a)
    (hab : (heap a).number = (heap b).number)
    (hfirst : first ∉ walked ∧ b ≠ first) :
    ∃ r, TryInvalidateSSZones zone_cap log heap (first :: (walked ++ b :: post))
        remaining_metas = some r
      ∧ r.status = Status.Corruption ∧ r.consume_tail = none
      ∧ r.remaining_metas = remaining_metas := by
  have hd := invalidateLoop_duplicate zone_cap log first heap a b post hfirst.2 hab walked heap
    first (u64 ((heap first).L0.lba % zone_cap + (heap first).lba_count)) 0 0 1
    (HeapSame_refl _ _) rfl hfirst.1 hchain hlast
  rw [TryInvalidateSSZones_at_tail zone_cap log heap first (walked ++ b :: post)
    remaining_metas htail hz _ rfl, if_pos hd]
  exact ⟨_, rfl, rfl, rfl, rfl⟩

theorem neighbour_duplicate_is_corruption_witness :
    ∃ r, TryInvalidateSSZones 32 (scenarioLog 0)
        (fun p => ⟨if p = 2 then 2 else p + 1, ⟨16 * p, 0⟩, 16⟩) (0 :: ([1] ++ 2 :: [3])) [9]
        = some r
      ∧ r.status = Status.Corruption ∧ r.consume_tail = none ∧ r.remaining_metas = [9] :=
  neighbour_duplicate_is_corruption 32 (scenarioLog 0)
    (fun p => ⟨if p = 2 then 2 else p + 1, ⟨16 * p, 0⟩, 16⟩) 0 1 2 [1] [3] [9]
    (by decide) (by decide)
    (List.Chain.cons ⟨by decide, by decide⟩ List.Chain.nil) (by decide) (by decide)
    ⟨by decide, by decide⟩


/-! ## The reader pool -/

theorem getD_set_eq (l : List Nat) (i v : Nat) (h : i < l.length) :
    (l.set i v).getD i 0 = v := by
  induction l generalizing i with
  | nil => simp at h
  | cons a l ih =>
    cases i with
    | zero => simp
    | succ i => simpa using ih i (by simpa using h)

theorem getD_set_ne (l : List Nat) (i j v : Nat) (h : i ≠ j) :
    (l.set i v).getD j 0 = l.getD j 0 := by
  induction l generalizing i j with
  | nil => simp
  | cons a l ih =>
    cases i with
    | zero =>
      cases j with
      | zero => exact absurd rfl h
      | succ j => simp
    | succ i =>
      cases j with
      | zero => simp
      | succ j => simpa using ih i j (by omega)

theorem countP_set (l : List Nat) (i v : Nat) (h : i < l.length) :
    (l.set i v).countP (fun c => decide (c ≠ 0)) + (if l.getD i 0 ≠ 0 then 1 else 0)
      = l.countP (fun c => decide (c ≠ 0)) + (if v ≠ 0 then 1 else 0) := by
  induction l generalizing i with
  | nil => simp at h
  | cons a l ih =>
    cases i with
    | zero =>
      simp only [List.set_cons_zero, List.countP_cons, List.getD_cons_zero]
      by_cases ha : a = 0 <;> by_cases hv : v = 0 <;> simp [ha, hv]
    | succ i =>
      have := ih i (by simpa using h)
      simp only [List.set_cons_succ, List.countP_cons, List.getD_cons_succ]
      omega

theorem scanReadQueue_eq (q : List Nat) :
    scanReadQueue q
      = if q.getD 0 0 = 0 then 0 else if q.getD 1 0 = 0 then 1
        else if q.getD 2 0 = 0 then 2 else if q.getD 3 0 = 0 then 3 else 4 := by
  have hr : List.range number_of_concurrent_L0_readers = [0, 1, 2, 3] := by decide
  unfold scanReadQueue
  rw [hr]
  simp only [List.find?]
  generalize q.getD 0 0 = a
  generalize q.getD 1 0 = b
  generalize q.getD 2 0 = c
  generalize q.getD 3 0 = d
  have key : ∀ x : Nat, (x == 0) = decide (x = 0) := fun x => by
    by_cases hx : x = 0 <;> simp [hx]
  simp only [key]
  by_cases h0 : a = 0
  · simp only [h0, decide_True, if_true, Option.getD_some]
  · by_cases h1 : b = 0
    · simp only [h0, h1, decide_True, decide_False, if_true, if_false, Option.getD_some]
    · by_cases h2 : c = 0
      · simp only [h0, h1, h2, decide_True, decide_False, if_true, if_false,
          Option.getD_some]
      · by_cases h3 : d = 0
        · simp only [h0, h1, h2, h3, decide_True, decide_False, if_true, if_false,
            Option.getD_some]
        · simp only [h0, h1, h2, h3, decide_False, if_false, Option.getD_none,
            number_of_concurrent_L0_readers]

/-- The scan returns the lowest index with a zero counter, if it returns an
index at all. -/
theorem scanReadQueue_spec (q : List Nat)
    (h : scanReadQueue q < number_of_concurrent_L0_readers) :
    q.getD (scanReadQueue q) 0 = 0 ∧ ∀ j, j < scanReadQueue q → q.getD j 0 ≠ 0 := by
  rw [scanReadQueue_eq] at h ⊢
  simp only [number_of_concurrent_L0_readers] at h
  split_ifs at h ⊢ with h0 h1 h2 h3
  · exact ⟨h0, fun j hj => absurd hj (Nat.not_lt_zero _)⟩
  · refine ⟨h1, fun j hj => ?_⟩
    interval_cases j
    exact h0
  · refine ⟨h2, fun j hj => ?_⟩
    interval_cases j
    · exact h0
    · exact h1
  · refine ⟨h3, fun j hj => ?_⟩
    interval_cases j
    · exact h0
    · exact h1
    · exact h2
  · exact absurd h (by decide)

/-- When a counter of the pool is zero the scan finds an index. -/
theorem scanReadQueue_lt (q : List Nat) (i : Nat) (hi : i < number_of_concurrent_L0_readers)
    (h0 : q.getD i 0 = 0) : scanReadQueue q < number_of_concurrent_L0_readers := by
  rw [scanReadQueue_eq]
  simp only [number_of_concurrent_L0_readers] at hi ⊢
  split_ifs with g0 g1 g2 g3
  · decide
  · decide
  · decide
  · decide
  · exfalso
    interval_cases i
    · exact g0 h0
    · exact g1 h0
    · exact g2 h0
    · exact g3 h0


/-- The invariant of the reader pool that the steps keep. -/
theorem PoolReachable_inv (q held : List Nat) (h : PoolReachable q held) :
    q.length = number_of_concurrent_L0_readers ∧ held.Nodup
      ∧ (∀ r ∈ held, r < number_of_concurrent_L0_readers)
      ∧ (∀ i, i < number_of_concurrent_L0_readers → q.getD i 0 = if i ∈ held then 1 else 0)
      ∧ q.countP (fun c => decide (c ≠ 0)) = held.length := by
  induction h with
  | init =>
    refine ⟨by simp, List.nodup_nil, by simp, ?_, by decide⟩
    intro i hi
    simp only [number_of_concurrent_L0_readers] at hi
    interval_cases i <;> rfl
  | request q held r q2 _ hreq ih =>
    obtain ⟨hlen, hnd, hmem, hpt, hcnt⟩ := ih
    unfold request_read_queue at hreq
    simp only [ge_iff_le] at hreq
    split at hreq
    · exact absurd hreq (by simp)
    · rename_i hlt
      have hlt : scanReadQueue q < number_of_concurrent_L0_readers := Nat.lt_of_not_le hlt
      simp only [Option.some.injEq, Prod.mk.injEq] at hreq
      obtain ⟨hr, hq2⟩ := hreq
      have hzero := (scanReadQueue_spec q hlt).1
      rw [hr] at hlt hzero hq2
      rw [hzero] at hq2
      have hrl : r < q.length := by rw [hlen]; exact hlt
      have hnot : r ∉ held := by
        intro hin
        have := hpt r hlt
        rw [if_pos hin, hzero] at this
        exact absurd this (by decide)
      subst hq2
      refine ⟨by rw [List.length_set]; exact hlen, List.nodup_cons.mpr ⟨hnot, hnd⟩, ?_, ?_, ?_⟩
      · intro x hx
        rcases List.mem_cons.mp hx with h1 | h1
        · rw [h1]; exact hlt
        · exact hmem x h1
      · intro i hi
        by_cases hir : i = r
        · subst hir
          rw [getD_set_eq q i _ hrl, if_pos (List.mem_cons_self _ _)]
        · rw [getD_set_ne q r i _ (fun h => hir h.symm), hpt i hi]
          have : (i ∈ r :: held) ↔ i ∈ held := by
            rw [List.mem_cons]; exact ⟨fun h => h.resolve_left hir, Or.inr⟩
          simp only [this]
      · have := countP_set q r ((0 + 1) % 256) hrl
        rw [hzero, if_neg (by decide), if_pos (by decide)] at this
        simp only [List.length_cons]
        omega
  | release q held r q2 _ hin hrel ih =>
    obtain ⟨hlen, hnd, hmem, hpt, hcnt⟩ := ih
    unfold release_read_queue at hrel
    split at hrel
    · rename_i hcond
      simp only [Option.some.injEq] at hrel
      subst hrel
      have hrl : r < q.length := by rw [hlen]; exact hcond.1
      refine ⟨by rw [List.length_set]; exact hlen, hnd.erase r, ?_, ?_, ?_⟩
      · intro x hx
        exact hmem x (List.mem_of_mem_erase hx)
      · intro i hi
        by_cases hir : i = r
        · subst hir
          rw [getD_set_eq q i _ hrl, if_neg (fun h => ((hnd.mem_erase_iff).mp h).1 rfl)]
        · rw [getD_set_ne q r i _ (fun h => hir h.symm), hpt i hi]
          have : (i ∈ held.erase r) ↔ i ∈ held := by
            rw [hnd.mem_erase_iff]; exact ⟨fun h => h.2, fun h => ⟨hir, h⟩⟩
          simp only [this]
      · have := countP_set q r 0 hrl
        rw [if_pos hcond.2, if_neg (by decide)] at this
        rw [List.length_erase_of_mem hin]
        have := List.length_pos_of_mem hin
        omega
    · exact absurd hrel (by simp)

/-- C24: in every state of the reader pool reachable from the pool of zero
counters by calls of `request_read_queue` that return and calls of
`release_read_queue` by a holder: every counter is 0 or 1; no reader is held
twice; a counter is not 0 exactly when its reader is held, so the number of
counters that are not 0 is the number of acquisitions not yet released, at most
`number_of_concurrent_L0_readers`; and `request_read_queue` hands out the lowest
reader whose counter is 0. -/
theorem reader_pool_invariant (read_queue_ held : List Nat)
    (h : PoolReachable read_queue_ held) :
    (∀ c ∈ read_queue_, c = 0 ∨ c = 1)
      ∧ held.Nodup
      ∧ (∀ i, i < number_of_concurrent_L0_readers → (read_queue_.getD i 0 ≠ 0 ↔ i ∈ held))
      ∧ read_queue_.countP (fun c => decide (c ≠ 0)) = held.length
      ∧ held.length ≤ number_of_concurrent_L0_readers
      ∧ (∀ reader read_queue2, request_read_queue read_queue_ = some (reader, read_queue2) →
          read_queue_.getD reader 0 = 0 ∧ (∀ j, j < reader → read_queue_.getD j 0 ≠ 0)
            ∧ read_queue2 = read_queue_.set reader 1) := by
  obtain ⟨hlen, hnd, _, hpt, hcnt⟩ := PoolReachable_inv read_queue_ held h
  refine ⟨?_, hnd, ?_, hcnt, ?_, ?_⟩
  · intro c hc
    obtain ⟨i, hi, hget⟩ := List.mem_iff_getElem.mp hc
    have := hpt i (by rw [← hlen]; exact hi)
    rw [List.getD_eq_getElem _ _ hi, hget] at this
    rw [this]
    by_cases hm : i ∈ held
    · exact Or.inr (if_pos hm)
    · exact Or.inl (if_neg hm)
  · intro i hi
    rw [hpt i hi]
    by_cases hm : i ∈ held <;> simp [hm]
  · rw [← hcnt, ← hlen]
    exact List.countP_le_length _
  · intro reader q2 hreq
    unfold request_read_queue at hreq
    simp only [ge_iff_le] at hreq
    split at hreq
    · exact absurd hreq (by simp)
    · rename_i hlt
      have hlt : scanReadQueue read_queue_ < number_of_concurrent_L0_readers :=
        Nat.lt_of_not_le hlt
      simp only [Option.some.injEq, Prod.mk.injEq] at hreq
      obtain ⟨hr, hq2⟩ := hreq
      have hs := scanReadQueue_spec read_queue_ hlt
      rw [hr] at hs hq2
      refine ⟨hs.1, hs.2, ?_⟩
      rw [← hq2, hs.1]

theorem reader_pool_invariant_witness :
    PoolReachable [1, 0, 1, 0] [2, 0]
      ∧ request_read_queue [1, 0, 1, 0] = some (1, [1, 1, 1, 0]) := by
  have h : PoolReachable [1, 0, 1, 0] [2, 0] :=
    PoolReachable.release [1, 1, 1, 0] [2, 1, 0] 1 [1, 0, 1, 0]
      (PoolReachable.request [1, 1, 0, 0] [1, 0] 2 [1, 1, 1, 0]
        (PoolReachable.request [1, 0, 0, 0] [0] 1 [1, 1, 0, 0]
          (PoolReachable.request [0, 0, 0, 0] [] 0 [1, 0, 0, 0] PoolReachable.init
            (by decide)) (by decide)) (by decide)) (by decide) (by decide)
  have h2 := (reader_pool_invariant [1, 0, 1, 0] [2, 0] h).2.2.2.2.2 1 [1, 1, 1, 0] (by decide)
  exact ⟨h, by rw [h2.2.2]; rfl⟩


/-- C22 (failing input): zones `[0, 64)`, a meta with `lba = 64 = max_zone_head`
and one LBA: the test is `meta.L0.lba > max_zone_head_`, so the meta passes it,
a reader is taken from the pool and the device read of LBA 64 is issued.  The
meta with `lba = 65` is turned down with `Corruption` before both. -/
theorem ReadSSTable_accepts_lba_at_max_zone_head :
    ReadSSTable 0 64 512 (fun _ _ _ => (Status.OK, [])) [0, 0, 0, 0] [] ⟨7, ⟨64, 0⟩, 1⟩
        = some ⟨some Status.OK, some 0, some (64, 512, 0), [], [0, 0, 0, 0]⟩
      ∧ ReadSSTable 0 64 512 (fun _ _ _ => (Status.OK, [])) [0, 0, 0, 0] [] ⟨7, ⟨65, 0⟩, 1⟩
        = some ⟨some Status.Corruption, none, none, [], [0, 0, 0, 0]⟩ := by
  refine ⟨by decide, by decide⟩

/-- C23: when the log has room for the content, `WriteSSTable` returns the
status of the append, with `meta.L0.lba` the write head before the append,
`meta.lba_count` the number of LBAs the append reports and the rest of the meta
as it was; when the log has no room it returns `IOError`, appends nothing and
leaves the meta as it was. -/
theorem WriteSSTable_spec {σ : Type} (ops : L0LogOps σ) (log_ : σ) (content : List Byte)
    (meta : SSZoneMetaData) :
    (ops.SpaceLeft log_ content.length = true →
      WriteSSTable ops log_ content meta
        = ((ops.Append log_ content content.length).1,
           ⟨meta.number, ⟨ops.GetWriteHead log_, meta.L0.log_number⟩,
            ((ops.Append log_ content content.length).2.1).getD meta.lba_count⟩,
           (ops.Append log_ content content.length).2.2))
    ∧ (ops.SpaceLeft log_ content.length = false →
      WriteSSTable ops log_ content meta = (Status.IOError, meta, log_)) := by
  constructor
  · intro h
    simp [WriteSSTable, EnoughSpaceAvailable, h]
  · intro h
    simp [WriteSSTable, EnoughSpaceAvailable, h]

theorem WriteSSTable_spec_witness :
    (WriteSSTable (σ := Nat)
        ⟨fun head size => decide (head + (size + 15) / 16 ≤ 8), fun head => head,
          fun head _ size => (Status.OK, some ((size + 15) / 16), head + (size + 15) / 16)⟩
        5 [1, 2, 3] ⟨7, ⟨0, 2⟩, 0⟩ = (Status.OK, ⟨7, ⟨5, 2⟩, 1⟩, 6))
      ∧ (WriteSSTable (σ := Nat)
        ⟨fun head size => decide (head + (size + 15) / 16 ≤ 8), fun head => head,
          fun head _ size => (Status.OK, some ((size + 15) / 16), head + (size + 15) / 16)⟩
        8 [1, 2, 3] ⟨7, ⟨0, 2⟩, 0⟩ = (Status.IOError, ⟨7, ⟨0, 2⟩, 0⟩, 8)) :=
  ⟨(WriteSSTable_spec (σ := Nat) _ 5 [1, 2, 3] ⟨7, ⟨0, 2⟩, 0⟩).1 (by decide),
   (WriteSSTable_spec (σ := Nat) _ 8 [1, 2, 3] ⟨7, ⟨0, 2⟩, 0⟩).2 (by decide)⟩

/-- C25 (failing input): a flush on lane 3 that has produced one meta, with
`log_number` 0: the loop assigns the lane to a copy of the meta, and the meta
in the vector of the caller keeps `log_number` 0.  No vector is changed by the
loop. -/
theorem forceLogNumber_changes_nothing :
    (forceLogNumber [⟨1, ⟨0, 0⟩, 16⟩] 3).1 = [⟨1, ⟨0, 0⟩, 16⟩]
      ∧ (forceLogNumber [⟨1, ⟨0, 0⟩, 16⟩] 3).2 = [⟨1, ⟨0, 3⟩, 16⟩]
      ∧ ∀ metas parallel_number, (forceLogNumber metas parallel_number).1 = metas :=
  ⟨rfl, rfl, fun _ _ => rfl⟩


/-! ## Deferred flushes -/

theorem finishedTakes_same_worker (s t : FlushState) (takes : List Take)
    (h : t.worker = s.worker) : finishedTakes t takes = finishedTakes s takes := by
  unfold finishedTakes
  rw [h]

/-- Every state a deferred flush reaches is reached by a run. -/
theorem FlushRun_of_reachable (max : Nat) (metas : List SSZoneMetaData) (s : FlushState)
    (h : FlushReachable max metas s) : ∃ takes, FlushRun max metas s takes := by
  induction h with
  | init => exact ⟨[], FlushRun.init⟩
  | step s t _ hst ih =>
    obtain ⟨takes, hr⟩ := ih
    exact ⟨_, FlushRun.step s t takes hr hst⟩

/-- C27 (failing input): `flushing_maximum_deferred_writes = 3` and a mailbox
with 3 builders pending (`deferred_builds_.size() - index_ = 3`): the guard of
`FlushSSTable` waits only while more than 3 are pending, so the call pushes the
builder and 4 are pending; the state is reached by four calls of `FlushSSTable`
from the start of the flush.  The call waits with 4 pending. -/
theorem FlushSSTable_pushes_at_maximum :
    FlushSSTable 3 ⟨[some ⟨Status.OK, ⟨1, ⟨0, 0⟩, 16⟩⟩, some ⟨Status.OK, ⟨2, ⟨16, 0⟩, 16⟩⟩,
          some ⟨Status.OK, ⟨3, ⟨32, 0⟩, 16⟩⟩], 0, false, false, []⟩
        ⟨Status.OK, ⟨4, ⟨48, 0⟩, 16⟩⟩
      = some ⟨[some ⟨Status.OK, ⟨1, ⟨0, 0⟩, 16⟩⟩, some ⟨Status.OK, ⟨2, ⟨16, 0⟩, 16⟩⟩,
          some ⟨Status.OK, ⟨3, ⟨32, 0⟩, 16⟩⟩, some ⟨Status.OK, ⟨4, ⟨48, 0⟩, 16⟩⟩],
          0, false, false, []⟩
    ∧ FlushSSTable 3 ⟨[some ⟨Status.OK, ⟨1, ⟨0, 0⟩, 16⟩⟩, some ⟨Status.OK, ⟨2, ⟨16, 0⟩, 16⟩⟩,
          some ⟨Status.OK, ⟨3, ⟨32, 0⟩, 16⟩⟩, some ⟨Status.OK, ⟨4, ⟨48, 0⟩, 16⟩⟩],
          0, false, false, []⟩ ⟨Status.OK, ⟨5, ⟨64, 0⟩, 16⟩⟩ = none
    ∧ ∃ s, FlushReachable 3 [] s
        ∧ s.deferred_.deferred_builds_.length - s.deferred_.index_ = 4 := by
  refine ⟨by decide, by decide, _, FlushReachable.step _ _ (FlushReachable.step _ _
    (FlushReachable.step _ _ (FlushReachable.step _ _ FlushReachable.init
      (FlushStep.push _ ⟨Status.OK, ⟨1, ⟨0, 0⟩, 16⟩⟩ _ rfl))
      (FlushStep.push _ ⟨Status.OK, ⟨2, ⟨16, 0⟩, 16⟩⟩ _ rfl))
      (FlushStep.push _ ⟨Status.OK, ⟨3, ⟨32, 0⟩, 16⟩⟩ _ rfl))
      (FlushStep.push _ ⟨Status.OK, ⟨4, ⟨48, 0⟩, 16⟩⟩ _ rfl), rfl⟩

/-- C34 (failing input): a flush whose worker waits on the empty mailbox when
`FlushMemTable` sets `last_` and signals: the worker leaves its wait and reads
`deferred_builds_[index_]` with `index_ = 0 = deferred_builds_.size()`. -/
theorem worker_reads_past_the_mailbox :
    FlushReachable 3 [] ⟨⟨[], 0, true, false, []⟩, Worker.outOfBounds, true, []⟩ :=
  FlushReachable.step _ _ (FlushReachable.step _ _ (FlushReachable.step _ _
    FlushReachable.init (FlushStep.top _ rfl)) (FlushStep.last _))
    (FlushStep.wake _ rfl rfl)

namespace zns_impl

/-! ## The version edit codec: coding primitives -/

theorem getVarint_putVarint :
    ∀ (fuel v shift result : Nat) (rest : List Byte), v < 128 ^ (fuel + 1) →
      getVarint (fuel + 1) shift result (putVarint (fuel + 1) v ++ rest)
        = some (result + v * 2 ^ shift, rest) := by
  intro fuel
  induction fuel with
  | zero =>
    intro v shift result rest h
    have hv : v < 128 := by simpa using h
    simp only [putVarint, if_pos hv, List.singleton_append, getVarint,
      if_neg (Nat.not_le.mpr hv)]
  | succ fuel ih =>
    intro v shift result rest h
    unfold putVarint
    by_cases hv : v < 128
    · simp only [if_pos hv, List.singleton_append, getVarint, if_neg (Nat.not_le.mpr hv)]
    · have hb : 128 ≤ v % 128 + 128 := Nat.le_add_left _ _
      have hm : (v % 128 + 128) % 128 = v % 128 := by omega
      have hlt : v / 128 < 128 ^ (fuel + 1) := by
        rw [Nat.div_lt_iff_lt_mul (by norm_num)]
        rw [pow_succ] at h
        exact h
      simp only [if_neg hv, List.cons_append]
      rw [getVarint, if_pos hb, hm, ih (v / 128) (shift + 7) _ rest hlt]
      congr 2
      have h7 : 2 ^ (shift + 7) = 128 * 2 ^ shift := by rw [pow_add]; ring
      rw [h7]
      have := Nat.div_add_mod v 128
      calc result + v % 128 * 2 ^ shift + v / 128 * (128 * 2 ^ shift)
          = result + (128 * (v / 128) + v % 128) * 2 ^ shift := by ring
        _ = result + v * 2 ^ shift := by rw [this]

theorem GetVarint32_PutVarint32 (v : Nat) (rest : List Byte) (h : v < 2 ^ 32) :
    GetVarint32 (PutVarint32 v ++ rest) = some (v, rest) := by
  unfold GetVarint32 PutVarint32
  rw [Nat.mod_eq_of_lt h, getVarint_putVarint 4 v 0 0 rest (lt_trans h (by norm_num))]
  simp only [Option.map_some', Nat.mul_one, pow_zero, Nat.zero_add, Nat.mod_eq_of_lt h]

theorem GetVarint64_PutVarint64 (v : Nat) (rest : List Byte) (h : v < 2 ^ 64) :
    GetVarint64 (PutVarint64 v ++ rest) = some (v, rest) := by
  unfold GetVarint64 PutVarint64
  rw [Nat.mod_eq_of_lt h, getVarint_putVarint 9 v 0 0 rest (lt_trans h (by norm_num))]
  simp only [Option.map_some', Nat.mul_one, pow_zero, Nat.zero_add, Nat.mod_eq_of_lt h]

theorem GetFixed8_PutFixed8 (v : Nat) (rest : List Byte) (h : v < 256) :
    GetFixed8 (PutFixed8 v ++ rest) = some (v, rest) := by
  simp [GetFixed8, PutFixed8, Nat.mod_eq_of_lt h]

theorem GetLengthPrefixedSlice_Put (value rest : List Byte) (h : value.length < 2 ^ 32) :
    GetLengthPrefixedSlice (PutLengthPrefixedSlice value ++ rest) = some (value, rest) := by
  unfold GetLengthPrefixedSlice PutLengthPrefixedSlice
  rw [List.append_assoc, GetVarint32_PutVarint32 _ _ h]
  simp

theorem GetLevel_PutFixed8 (level : Nat) (rest : List Byte) (h : level < level_count) :
    GetLevel (PutFixed8 level ++ rest) = some (level, rest) := by
  unfold GetLevel
  rw [GetFixed8_PutFixed8 level rest (lt_trans h (by decide))]
  simp [h]

/-- What a reader leaves is a proper end of its input. -/
theorem getVarint_suffix :
    ∀ (fuel shift result : Nat) (input : List Byte) (r : Nat × List Byte),
      getVarint fuel shift result input = some r → r.2.length < input.length := by
  intro fuel
  induction fuel with
  | zero => intro shift result input r h; simp [getVarint] at h
  | succ fuel ih =>
    intro shift result input r h
    cases input with
    | nil => simp [getVarint] at h
    | cons byte input =>
      unfold getVarint at h
      split at h
      · have := ih _ _ _ _ h
        simp only [List.length_cons]
        omega
      · simp only [Option.some.injEq] at h
        rw [← h]
        simp

theorem GetVarint32_suffix (input : List Byte) (r : Nat × List Byte)
    (h : GetVarint32 input = some r) : r.2.length < input.length := by
  unfold GetVarint32 at h
  cases hg : getVarint 5 0 0 input with
  | none => rw [hg] at h; simp at h
  | some q =>
    rw [hg] at h
    simp only [Option.map_some', Option.some.injEq] at h
    rw [← h]
    exact getVarint_suffix _ _ _ _ q hg

theorem GetVarint64_suffix (input : List Byte) (r : Nat × List Byte)
    (h : GetVarint64 input = some r) : r.2.length < input.length := by
  unfold GetVarint64 at h
  cases hg : getVarint 10 0 0 input with
  | none => rw [hg] at h; simp at h
  | some q =>
    rw [hg] at h
    simp only [Option.map_some', Option.some.injEq] at h
    rw [← h]
    exact getVarint_suffix _ _ _ _ q hg

theorem GetFixed8_suffix (input : List Byte) (r : Nat × List Byte)
    (h : GetFixed8 input = some r) : r.2.length < input.length := by
  cases input with
  | nil => simp [GetFixed8] at h
  | cons b input =>
    simp only [GetFixed8, Option.some.injEq] at h
    rw [← h]; simp

theorem GetLengthPrefixedSlice_suffix (input : List Byte) (r : List Byte × List Byte)
    (h : GetLengthPrefixedSlice input = some r) : r.2.length < input.length := by
  unfold GetLengthPrefixedSlice at h
  cases hg : GetVarint32 input with
  | none => rw [hg] at h; simp at h
  | some q =>
    rw [hg] at h
    have := GetVarint32_suffix _ _ hg
    simp only at h
    split at h
    · simp only [Option.some.injEq] at h
      rw [← h]
      simp only [List.length_drop]
      omega
    · simp at h

theorem GetLevel_suffix (input : List Byte) (r : Nat × List Byte)
    (h : GetLevel input = some r) : r.2.length < input.length := by
  unfold GetLevel at h
  cases hg : GetFixed8 input with
  | none => rw [hg] at h; simp at h
  | some q =>
    rw [hg] at h
    have := GetFixed8_suffix _ _ hg
    simp only at h
    split at h
    · simp only [Option.some.injEq] at h
      rw [← h]; exact this
    · simp at h

end zns_impl
namespace zns_impl

/-! ## The version edit codec: tables -/

/-- The bytes of the regions `i .. i + count` of a table. -/
theorem range_flatten_succ (f : Nat → List Byte) (i count : Nat) :
    ((List.range' i (count + 1)).map f).flatten
      = f i ++ ((List.range' (i + 1) count).map f).flatten := by
  simp [List.range'_succ]

theorem decodeRegions_encode (orig : SSZoneMetaData) :
    ∀ (count i : Nat) (m : SSZoneMetaData) (rest : List Byte),
      i + count ≤ 8 → ArraysOk m →
      (∀ j, i ≤ j → j < i + count →
        orig.LN.lbas.getD j 0 < 2 ^ 64 ∧ orig.LN.lba_region_sizes.getD j 0 < 2 ^ 64) →
      ∃ m2, decodeRegions count i
          (((List.range' i count).map (fun j =>
              PutVarint64 (orig.LN.lbas.getD j 0)
                ++ PutVarint64 (orig.LN.lba_region_sizes.getD j 0))).flatten ++ rest) m
          = some (some (m2, rest))
        ∧ ArraysOk m2
        ∧ m2.number = m.number ∧ m2.L0 = m.L0 ∧ m2.LN.lba_regions = m.LN.lba_regions
        ∧ m2.numbers = m.numbers ∧ m2.lba_count = m.lba_count
        ∧ m2.smallest = m.smallest ∧ m2.largest = m.largest
        ∧ (∀ j, j < i → m2.LN.lbas.getD j 0 = m.LN.lbas.getD j 0
            ∧ m2.LN.lba_region_sizes.getD j 0 = m.LN.lba_region_sizes.getD j 0)
        ∧ (∀ j, i ≤ j → j < i + count → m2.LN.lbas.getD j 0 = orig.LN.lbas.getD j 0
            ∧ m2.LN.lba_region_sizes.getD j 0 = orig.LN.lba_region_sizes.getD j 0) := by
  intro count
  induction count with
  | zero =>
    intro i m rest _ hok _
    refine ⟨m, by simp [decodeRegions], hok, rfl, rfl, rfl, rfl, rfl, rfl, rfl,
      fun j _ => ⟨rfl, rfl⟩, fun j h1 h2 => by omega⟩
  | succ count ih =>
    intro i m rest hi hok hfit
    obtain ⟨hfa, hfb⟩ := hfit i (Nat.le_refl _) (by omega)
    have hl1 : i < m.LN.lbas.length := by rw [hok.1]; omega
    have hl2 : i < m.LN.lba_region_sizes.length := by rw [hok.2]; omega
    obtain ⟨m2, hdec, hok2, e1, e2, e3, e4, e5, e6, e7, hlow, hhigh⟩ :=
      ih (i + 1)
        { m with LN := { m.LN with
            lbas := m.LN.lbas.set i (orig.LN.lbas.getD i 0),
            lba_region_sizes :=
              m.LN.lba_region_sizes.set i (orig.LN.lba_region_sizes.getD i 0) } }
        rest (by omega)
        ⟨by simp only [List.length_set]; exact hok.1,
         by simp only [List.length_set]; exact hok.2⟩
        (fun j h1 h2 => hfit j (by omega) (by omega))
    refine ⟨m2, ?_, hok2, e1, e2, e3, e4, e5, e6, e7, ?_, ?_⟩
    · rw [range_flatten_succ, List.append_assoc, List.append_assoc]
      unfold decodeRegions
      rw [GetVarint64_PutVarint64 _ _ hfa]
      simp only [assignEntry, if_pos hl1]
      rw [GetVarint64_PutVarint64 _ _ hfb]
      simp only [if_pos hl2]
      exact hdec
    · intro j hj
      have := hlow j (by omega)
      simp only at this
      rw [getD_set_ne _ _ _ _ (by omega), getD_set_ne _ _ _ _ (by omega)] at this
      exact this
    · intro j h1 h2
      by_cases hji : j = i
      · subst hji
        have := hlow j (by omega)
        simp only at this
        rw [getD_set_eq _ _ _ hl1, getD_set_eq _ _ _ hl2] at this
        exact this
      · exact hhigh j (by omega) (by omega)

theorem encodeRegions_eq (m : SSZoneMetaData) :
    encodeRegions m = ((List.range' 0 m.LN.lba_regions).map (fun j =>
      PutVarint64 (m.LN.lbas.getD j 0)
        ++ PutVarint64 (m.LN.lba_region_sizes.getD j 0))).flatten := by
  unfold encodeRegions
  rw [List.range_eq_range']

/-- The decoder of a table of a level above 0 on the bytes of such a table. -/
theorem DecodeLN_encode (level : Nat) (orig m : SSZoneMetaData) (rest : List Byte)
    (hl : level ≠ 0) (hfit : TableFits level orig) (hok : ArraysOk m) :
    ∃ m2, DecodeLN (PutVarint64 orig.number ++ PutFixed8 orig.LN.lba_regions
          ++ encodeRegions orig ++ PutVarint64 orig.numbers ++ PutVarint64 orig.lba_count
          ++ PutLengthPrefixedSlice orig.smallest ++ PutLengthPrefixedSlice orig.largest
          ++ rest) m = some (some (m2, rest))
      ∧ ArraysOk m2 ∧ SameTable level m2 orig := by
  obtain ⟨f1, f2, f3, f4, f5, _, f7⟩ := hfit
  obtain ⟨hreg, hregs⟩ := f7 hl
  obtain ⟨m2, hdec, hok2, e1, e2, e3, e4, e5, e6, e7, _, hhigh⟩ :=
    decodeRegions_encode orig orig.LN.lba_regions 0
      { m with number := orig.number, LN := { m.LN with lba_regions := orig.LN.lba_regions } }
      (PutVarint64 orig.numbers ++ PutVarint64 orig.lba_count
        ++ PutLengthPrefixedSlice orig.smallest ++ PutLengthPrefixedSlice orig.largest ++ rest)
      (by omega) hok (fun j _ h2 => hregs j (by omega))
  refine ⟨{ m2 with numbers := orig.numbers, lba_count := orig.lba_count,
                    smallest := orig.smallest, largest := orig.largest }, ?_, hok2, ?_⟩
  · unfold DecodeLN
    simp only [List.append_assoc] at hdec ⊢
    rw [GetVarint64_PutVarint64 _ _ f1]
    simp only []
    rw [GetFixed8_PutFixed8 _ _ (by omega)]
    simp only [not_le, if_neg (Nat.not_lt.mpr hreg), encodeRegions_eq]
    rw [hdec]
    simp only []
    rw [GetVarint64_PutVarint64 _ _ f2]
    simp only []
    rw [GetVarint64_PutVarint64 _ _ f3]
    simp only [GetInternalKey]
    rw [GetLengthPrefixedSlice_Put _ _ f4]
    simp only []
    rw [GetLengthPrefixedSlice_Put _ _ f5]
  · refine ⟨e1, rfl, rfl, rfl, rfl, fun h => absurd h hl, fun _ => ⟨e3, ?_⟩⟩
    intro j hj
    exact hhigh j (Nat.zero_le _) (by omega)

/-- The decoder of a table of level 0 on the bytes of such a table. -/
theorem DecodeL0_encode (orig m : SSZoneMetaData) (rest : List Byte)
    (hfit : TableFits 0 orig) (hok : ArraysOk m) :
    ∃ m2, DecodeL0 (PutVarint64 orig.number ++ PutVarint64 orig.L0.lba
          ++ PutVarint64 orig.numbers ++ PutVarint64 orig.lba_count
          ++ PutLengthPrefixedSlice orig.smallest ++ PutLengthPrefixedSlice orig.largest
          ++ rest) m = some (m2, rest)
      ∧ ArraysOk m2 ∧ SameTable 0 m2 orig := by
  obtain ⟨f1, f2, f3, f4, f5, f6, _⟩ := hfit
  refine ⟨⟨orig.number, ⟨orig.L0.lba⟩, m.LN, orig.numbers, orig.lba_count, orig.smallest,
    orig.largest⟩, ?_, ?_, ?_⟩
  · unfold DecodeL0
    simp only [List.append_assoc]
    rw [GetVarint64_PutVarint64 _ _ f1]
    simp only []
    rw [GetVarint64_PutVarint64 _ _ (f6 rfl)]
    simp only []
    rw [GetVarint64_PutVarint64 _ _ f2]
    simp only []
    rw [GetVarint64_PutVarint64 _ _ f3]
    simp only [GetInternalKey]
    rw [GetLengthPrefixedSlice_Put _ _ f4]
    simp only []
    rw [GetLengthPrefixedSlice_Put _ _ f5]
  · exact hok
  · exact ⟨rfl, rfl, rfl, rfl, rfl, fun _ => rfl, fun h => absurd rfl h⟩

end zns_impl
namespace zns_impl

/-! ## The version edit codec: the loop of `DecodeFrom` on encoded fields -/

theorem versionTag_tag (tag : ZnsVersionTag → Nat) (htag : Function.Injective tag)
    (v : ZnsVersionTag) : versionTag tag (tag v) = some v := by
  cases v <;> simp [versionTag, ZnsVersionTag.all, List.find?, htag.eq_iff]

theorem putVarint_length_pos (fuel v : Nat) : 0 < (putVarint (fuel + 1) v).length := by
  unfold putVarint
  split <;> simp

theorem PutVarint32_length_pos (v : Nat) : 0 < (PutVarint32 v).length :=
  putVarint_length_pos 4 _

/-- One round of the loop on a field whose case of the `switch` succeeds. -/
theorem decodeLoop_step (tag : ZnsVersionTag → Nat) (htag : Function.Injective tag)
    (hlt : ∀ v, tag v < 2 ^ 32) (vt : ZnsVersionTag) (payload rest : List Byte)
    (st st2 : DecodeState)
    (hcase : decodeCase vt (payload ++ rest) st = some (.ok (st2, rest)))
    (fuel : Nat) (hfuel : (PutVarint32 (tag vt) ++ payload ++ rest).length < fuel) :
    ∃ fuel2, rest.length < fuel2
      ∧ decodeLoop tag fuel (PutVarint32 (tag vt) ++ payload ++ rest) st
        = decodeLoop tag fuel2 rest st2 := by
  cases fuel with
  | zero => exact absurd hfuel (Nat.not_lt_zero _)
  | succ fuel =>
    refine ⟨fuel, ?_, ?_⟩
    · have := PutVarint32_length_pos (tag vt)
      simp only [List.length_append] at hfuel
      omega
    · rw [List.append_assoc]
      rw [decodeLoop, GetVarint32_PutVarint32 _ _ (hlt vt)]
      simp only [versionTag_tag tag htag vt, hcase]

/-- The loop on a list of fields of one kind: a property `P` of the fields
decoded so far and the state, kept by each round, holds for the whole list at
the end. -/
theorem decodeLoop_fields {α : Type} (tag : ZnsVersionTag → Nat)
    (htag : Function.Injective tag) (hlt : ∀ v, tag v < 2 ^ 32) (vt : ZnsVersionTag)
    (payload : α → List Byte) (P : List α → DecodeState → Prop) (l : List α)
    (hcase : ∀ x ∈ l, ∀ pre st rest, P pre st →
      ∃ st2, decodeCase vt (payload x ++ rest) st = some (.ok (st2, rest))
        ∧ P (pre ++ [x]) st2) :
    ∀ (pre : List α) (st : DecodeState) (rest : List Byte) (fuel : Nat), P pre st →
      ((l.map (fun x => PutVarint32 (tag vt) ++ payload x)).flatten ++ rest).length < fuel →
      ∃ fuel2 st2, rest.length < fuel2
        ∧ decodeLoop tag fuel
            ((l.map (fun x => PutVarint32 (tag vt) ++ payload x)).flatten ++ rest) st
          = decodeLoop tag fuel2 rest st2
        ∧ P (pre ++ l) st2 := by
  induction l with
  | nil =>
    intro pre st rest fuel hp hfuel
    exact ⟨fuel, st, by simpa using hfuel, by simp, by simpa using hp⟩
  | cons x l ih =>
    intro pre st rest fuel hp hfuel
    obtain ⟨st1, hc, hp1⟩ := hcase x (List.mem_cons_self _ _) pre st
      ((l.map (fun x => PutVarint32 (tag vt) ++ payload x)).flatten ++ rest) hp
    have hflat : ((x :: l).map (fun x => PutVarint32 (tag vt) ++ payload x)).flatten ++ rest
        = PutVarint32 (tag vt) ++ payload x
          ++ ((l.map (fun x => PutVarint32 (tag vt) ++ payload x)).flatten ++ rest) := by
      simp [List.append_assoc]
    rw [hflat] at hfuel ⊢
    obtain ⟨fuel1, hf1, hstep⟩ := decodeLoop_step tag htag hlt vt (payload x) _ st st1 hc fuel
      hfuel
    obtain ⟨fuel2, st2, hf2, hloop, hp2⟩ :=
      ih (fun y hy => hcase y (List.mem_cons_of_mem _ hy)) (pre ++ [x]) st1 rest fuel1 hp1 hf1
    refine ⟨fuel2, st2, hf2, by rw [hstep, hloop], ?_⟩
    simpa [List.append_assoc] using hp2

/-- The loop on a field that is written when its `has_` flag is set. -/
theorem decodeLoop_optional (tag : ZnsVersionTag → Nat)
    (htag : Function.Injective tag) (hlt : ∀ v, tag v < 2 ^ 32) (vt : ZnsVersionTag)
    (payload : List Byte) (has : Bool) (st stHas : DecodeState) (rest : List Byte)
    (hcase : has = true → decodeCase vt (payload ++ rest) st = some (.ok (stHas, rest)))
    (fuel : Nat)
    (hfuel : ((if has then PutVarint32 (tag vt) ++ payload else []) ++ rest).length < fuel) :
    ∃ fuel2, rest.length < fuel2
      ∧ decodeLoop tag fuel ((if has then PutVarint32 (tag vt) ++ payload else []) ++ rest) st
        = decodeLoop tag fuel2 rest (if has then stHas else st) := by
  cases has with
  | false => exact ⟨fuel, by simpa using hfuel, by simp⟩
  | true =>
    simp only [if_true] at hfuel ⊢
    exact decodeLoop_step tag htag hlt vt payload rest st stHas (hcase rfl) fuel hfuel

end zns_impl
namespace zns_impl

/-! ## The version edit codec: the cases of the `switch` on encoded fields -/

theorem decodeCase_comparator (c rest : List Byte) (st : DecodeState)
    (h : c.length < 2 ^ 32) :
    decodeCase .kComparator (PutLengthPrefixedSlice c ++ rest) st
      = some (.ok (⟨{ st.edit with comparator_ := c, has_comparator_ := true }, st.m⟩, rest)) := by
  simp only [decodeCase, GetLengthPrefixedSlice_Put _ _ h]

theorem decodeCase_lastSequence (v : Nat) (rest : List Byte) (st : DecodeState)
    (h : v < 2 ^ 64) :
    decodeCase .kLastSequence (PutVarint64 v ++ rest) st
      = some (.ok (⟨{ st.edit with last_sequence_ := v, has_last_sequence_ := true }, st.m⟩,
          rest)) := by
  simp only [decodeCase, GetVarint64_PutVarint64 _ _ h]

theorem decodeCase_nextSSTableNumber (v : Nat) (rest : List Byte) (st : DecodeState)
    (h : v < 2 ^ 64) :
    decodeCase .kNextSSTableNumber (PutVarint64 v ++ rest) st
      = some (.ok (⟨{ st.edit with ss_number := v, has_next_ss_number := true }, st.m⟩,
          rest)) := by
  simp only [decodeCase, GetVarint64_PutVarint64 _ _ h]

theorem decodeCase_deletedRange (a b : Nat) (rest : List Byte) (st : DecodeState)
    (ha : a < 2 ^ 64) (hb : b < 2 ^ 64) :
    decodeCase .kDeletedRange ((PutVarint64 a ++ PutVarint64 b) ++ rest) st
      = some (.ok (⟨{ st.edit with deleted_range_ := (a, b), has_deleted_range_ := true },
          st.m⟩, rest)) := by
  simp only [decodeCase, List.append_assoc, GetVarint64_PutVarint64 _ _ ha,
    GetVarint64_PutVarint64 _ _ hb]

theorem decodeCase_compactPointer (level : Nat) (key rest : List Byte) (st : DecodeState)
    (hl : level < level_count) (hk : key.length < 2 ^ 32) :
    decodeCase .kCompactPointer ((PutFixed8 level ++ PutLengthPrefixedSlice key) ++ rest) st
      = some (.ok (⟨{ st.edit with
          compact_pointers_ := st.edit.compact_pointers_ ++ [(level, key)] }, st.m⟩, rest)) := by
  simp only [decodeCase, List.append_assoc, GetLevel_PutFixed8 _ _ hl, GetInternalKey,
    GetLengthPrefixedSlice_Put _ _ hk]

theorem decodeCase_fragmentedData (level : Nat) (frag rest : List Byte) (st : DecodeState)
    (hl : level < level_count) (hk : frag.length < 2 ^ 32) :
    decodeCase .kFragmentedData ((PutFixed8 level ++ PutLengthPrefixedSlice frag) ++ rest) st
      = some (.ok (⟨{ st.edit with
          fragmented_data_ := st.edit.fragmented_data_ ++ [(level, frag)] }, st.m⟩, rest)) := by
  simp only [decodeCase, List.append_assoc, GetLevel_PutFixed8 _ _ hl,
    GetLengthPrefixedSlice_Put _ _ hk]

theorem decodeCase_deletedSSTable (level : Nat) (orig : SSZoneMetaData) (rest : List Byte)
    (st : DecodeState) (hl : level < level_count) (hl0 : level ≠ 0)
    (hfit : TableFits level orig) (hok : ArraysOk st.m) :
    ∃ m2, decodeCase .kDeletedSSTable
        ((PutFixed8 level ++ (PutVarint64 orig.number ++ (PutFixed8 orig.LN.lba_regions
          ++ (encodeRegions orig ++ (PutVarint64 orig.numbers ++ (PutVarint64 orig.lba_count
          ++ (PutLengthPrefixedSlice orig.smallest
          ++ PutLengthPrefixedSlice orig.largest))))))) ++ rest) st
        = some (.ok (⟨{ st.edit with
            deleted_ss_pers_ := st.edit.deleted_ss_pers_ ++ [(level, m2)] }, m2⟩, rest))
      ∧ ArraysOk m2 ∧ SameTable level m2 orig := by
  obtain ⟨m2, hdec, hok2, hsame⟩ := DecodeLN_encode level orig st.m rest hl0 hfit hok
  refine ⟨m2, ?_, hok2, hsame⟩
  simp only [List.append_assoc] at hdec ⊢
  simp only [decodeCase, GetLevel_PutFixed8 _ _ hl, DecodeLevel, if_neg hl0, hdec]

theorem decodeCase_newSSTable (level : Nat) (orig : SSZoneMetaData) (rest : List Byte)
    (st : DecodeState) (hl : level < level_count)
    (hfit : TableFits level orig) (hok : ArraysOk st.m) :
    ∃ m2, decodeCase .kNewSSTable
        ((PutFixed8 level ++ (PutVarint64 orig.number
          ++ ((if level = 0 then PutVarint64 orig.L0.lba
                else PutFixed8 orig.LN.lba_regions ++ encodeRegions orig)
          ++ (PutVarint64 orig.numbers ++ (PutVarint64 orig.lba_count
          ++ (PutLengthPrefixedSlice orig.smallest
          ++ PutLengthPrefixedSlice orig.largest)))))) ++ rest) st
        = some (.ok (⟨{ st.edit with new_ss_ := st.edit.new_ss_ ++ [(level, m2)] }, m2⟩, rest))
      ∧ ArraysOk m2 ∧ SameTable level m2 orig := by
  by_cases hl0 : level = 0
  · subst hl0
    obtain ⟨m2, hdec, hok2, hsame⟩ := DecodeL0_encode orig st.m rest hfit hok
    refine ⟨m2, ?_, hok2, hsame⟩
    simp only [List.append_assoc] at hdec ⊢
    simp only [decodeCase, GetLevel_PutFixed8 _ _ hl, DecodeLevel, if_true, hdec]
  · obtain ⟨m2, hdec, hok2, hsame⟩ := DecodeLN_encode level orig st.m rest hl0 hfit hok
    refine ⟨m2, ?_, hok2, hsame⟩
    simp only [List.append_assoc, if_neg hl0] at hdec ⊢
    simp only [decodeCase, GetLevel_PutFixed8 _ _ hl, DecodeLevel, if_neg hl0, hdec]

end zns_impl
namespace zns_impl

theorem decodeLoop_nil (tag : ZnsVersionTag → Nat) (fuel : Nat) (st : DecodeState)
    (h : ([] : List Byte).length < fuel) :
    decodeLoop tag fuel [] st = some (none, st, []) := by
  cases fuel with
  | zero => exact absurd h (Nat.not_lt_zero _)
  | succ fuel => simp [decodeLoop, GetVarint32, getVarint]

/-- The loop of `DecodeFrom` on the bytes of a well-formed edit, followed by
`rest`: it gets to `rest` with an edit that is the encoded one up to
`deleted_ss_`. -/
theorem decodeLoop_EncodeTo (tag : ZnsVersionTag → Nat) (htag : Function.Injective tag)
    (hlt : ∀ v, tag v < 2 ^ 32) (e : ZnsVersionEdit) (hwf : WellFormed e)
    (rest : List Byte) (fuel : Nat) (hfuel : (EncodeTo tag e ++ rest).length < fuel) :
    ∃ fuel2 d m, rest.length < fuel2
      ∧ decodeLoop tag fuel (EncodeTo tag e ++ rest) ⟨Clear, SSZoneMetaData.fresh⟩
        = decodeLoop tag fuel2 rest ⟨d, m⟩
      ∧ SameEdit d e ∧ ArraysOk m := by
  obtain ⟨w1, w2, w3, w4, w5, w6, w7, w8, w9, w10, w11, w12, w13⟩ := hwf
  have hsrc : EncodeTo tag e ++ rest
      = (if e.has_comparator_ then
          PutVarint32 (tag .kComparator) ++ PutLengthPrefixedSlice e.comparator_ else [])
        ++ ((if e.has_last_sequence_ then
          PutVarint32 (tag .kLastSequence) ++ PutVarint64 e.last_sequence_ else [])
        ++ ((if e.has_next_ss_number then
          PutVarint32 (tag .kNextSSTableNumber) ++ PutVarint64 e.ss_number else [])
        ++ ((e.compact_pointers_.map (fun p => PutVarint32 (tag .kCompactPointer)
              ++ (PutFixed8 p.1 ++ PutLengthPrefixedSlice p.2))).flatten
        ++ ((if e.has_deleted_range_ then
          PutVarint32 (tag .kDeletedRange)
            ++ (PutVarint64 e.deleted_range_.1 ++ PutVarint64 e.deleted_range_.2) else [])
        ++ ((e.deleted_ss_pers_.map (fun del => PutVarint32 (tag .kDeletedSSTable)
              ++ (PutFixed8 del.1 ++ (PutVarint64 del.2.number
              ++ (PutFixed8 del.2.LN.lba_regions ++ (encodeRegions del.2
              ++ (PutVarint64 del.2.numbers ++ (PutVarint64 del.2.lba_count
              ++ (PutLengthPrefixedSlice del.2.smallest
              ++ PutLengthPrefixedSlice del.2.largest))))))))).flatten
        ++ ((e.new_ss_.map (fun n => PutVarint32 (tag .kNewSSTable)
              ++ (PutFixed8 n.1 ++ (PutVarint64 n.2.number
              ++ ((if n.1 = 0 then PutVarint64 n.2.L0.lba
                    else PutFixed8 n.2.LN.lba_regions ++ encodeRegions n.2)
              ++ (PutVarint64 n.2.numbers ++ (PutVarint64 n.2.lba_count
              ++ (PutLengthPrefixedSlice n.2.smallest
              ++ PutLengthPrefixedSlice n.2.largest)))))))).flatten
        ++ ((e.fragmented_data_.map (fun frag => PutVarint32 (tag .kFragmentedData)
              ++ (PutFixed8 frag.1 ++ PutLengthPrefixedSlice frag.2))).flatten
        ++ rest))))))) := by
    simp only [EncodeTo, List.append_assoc]
  rw [hsrc] at hfuel ⊢
  -- comparator
  obtain ⟨f1, hf1, h1⟩ := decodeLoop_optional tag htag hlt .kComparator
    (PutLengthPrefixedSlice e.comparator_) e.has_comparator_ ⟨Clear, SSZoneMetaData.fresh⟩ _ _
    (fun _ => decodeCase_comparator _ _ _ w2) fuel hfuel
  rw [h1]; clear h1 hfuel
  -- last sequence
  obtain ⟨f2, hf2, h2⟩ := decodeLoop_optional tag htag hlt .kLastSequence
    (PutVarint64 e.last_sequence_) e.has_last_sequence_ _ _ _
    (fun _ => decodeCase_lastSequence _ _ _ w4) f1 hf1
  rw [h2]; clear h2 hf1
  -- next sstable number
  obtain ⟨f3, hf3, h3⟩ := decodeLoop_optional tag htag hlt .kNextSSTableNumber
    (PutVarint64 e.ss_number) e.has_next_ss_number _ _ _
    (fun _ => decodeCase_nextSSTableNumber _ _ _ w6) f2 hf2
  rw [h3]; clear h3 hf2
  -- compact pointers
  generalize hst3 : (if e.has_next_ss_number = true then _ else _ : DecodeState) = st3
  obtain ⟨f4, st4, hf4, h4, hp4⟩ := decodeLoop_fields tag htag hlt .kCompactPointer
    (fun p : Nat × InternalKey => PutFixed8 p.1 ++ PutLengthPrefixedSlice p.2)
    (fun pre st => st = ⟨{ st3.edit with
      compact_pointers_ := st3.edit.compact_pointers_ ++ pre }, st3.m⟩)
    e.compact_pointers_
    (fun x hx pre st rest hp => by
      subst hp
      refine ⟨_, decodeCase_compactPointer x.1 x.2 rest _ (w10 x hx).1 (w10 x hx).2, ?_⟩
      simp [List.append_assoc])
    [] st3 _ f3 (by simp) hf3
  rw [h4]; clear h4 hf3
  simp only [List.nil_append] at hp4
  -- deleted range
  obtain ⟨f5, hf5, h5⟩ := decodeLoop_optional tag htag hlt .kDeletedRange
    (PutVarint64 e.deleted_range_.1 ++ PutVarint64 e.deleted_range_.2) e.has_deleted_range_
    st4 _ _ (fun _ => decodeCase_deletedRange _ _ _ _ w8 w9) f4 hf4
  rw [h5]; clear h5 hf4
  generalize hst5 : (if e.has_deleted_range_ = true then _ else _ : DecodeState) = st5
  have hok5 : ArraysOk st5.m := by
    have h4m : st4.m = st3.m := by rw [hp4]
    have h3m : st3.m = SSZoneMetaData.fresh := by
      rw [← hst3]
      cases e.has_next_ss_number <;> cases e.has_last_sequence_ <;> cases e.has_comparator_ <;> rfl
    rw [← hst5]
    cases e.has_deleted_range_
    · simp only [Bool.false_eq_true, if_false]; rw [h4m, h3m]; exact ⟨rfl, rfl⟩
    · simp only [if_true]; rw [h4m, h3m]; exact ⟨rfl, rfl⟩
  -- deleted tables
  obtain ⟨f6, st6, hf6, h6, hok6, ms6, hed6, hsame6⟩ := decodeLoop_fields tag htag hlt
    .kDeletedSSTable
    (fun del : Nat × SSZoneMetaData => PutFixed8 del.1 ++ (PutVarint64 del.2.number
      ++ (PutFixed8 del.2.LN.lba_regions ++ (encodeRegions del.2
      ++ (PutVarint64 del.2.numbers ++ (PutVarint64 del.2.lba_count
      ++ (PutLengthPrefixedSlice del.2.smallest
      ++ PutLengthPrefixedSlice del.2.largest)))))))
    (fun pre st => ArraysOk st.m ∧ ∃ ms, st.edit = { st5.edit with
      deleted_ss_pers_ := st5.edit.deleted_ss_pers_ ++ ms } ∧ SameTables ms pre)
    e.deleted_ss_pers_
    (fun x hx pre st rest hp => by
      obtain ⟨hok, ms, hed, hsame⟩ := hp
      obtain ⟨m2, hdec, hok2, hs⟩ := decodeCase_deletedSSTable x.1 x.2 rest st (w11 x hx).1
        (w11 x hx).2.1 (w11 x hx).2.2 hok
      refine ⟨_, hdec, hok2, ms ++ [(x.1, m2)], ?_, ?_⟩
      · simp only [hed, List.append_assoc]
      · exact List.rel_append hsame (List.Forall₂.cons ⟨rfl, hs⟩ List.Forall₂.nil))
    [] st5 _ f5 ⟨hok5, [], by simp, List.Forall₂.nil⟩ hf5
  rw [h6]; clear h6 hf5
  simp only [List.nil_append] at hsame6
  -- new tables
  obtain ⟨f7, st7, hf7, h7, hok7, ms7, hed7, hsame7⟩ := decodeLoop_fields tag htag hlt
    .kNewSSTable
    (fun n : Nat × SSZoneMetaData => PutFixed8 n.1 ++ (PutVarint64 n.2.number
      ++ ((if n.1 = 0 then PutVarint64 n.2.L0.lba
            else PutFixed8 n.2.LN.lba_regions ++ encodeRegions n.2)
      ++ (PutVarint64 n.2.numbers ++ (PutVarint64 n.2.lba_count
      ++ (PutLengthPrefixedSlice n.2.smallest
      ++ PutLengthPrefixedSlice n.2.largest))))))
    (fun pre st => ArraysOk st.m ∧ ∃ ms, st.edit = { st6.edit with
      new_ss_ := st6.edit.new_ss_ ++ ms } ∧ SameTables ms pre)
    e.new_ss_
    (fun x hx pre st rest hp => by
      obtain ⟨hok, ms, hed, hsame⟩ := hp
      obtain ⟨m2, hdec, hok2, hs⟩ := decodeCase_newSSTable x.1 x.2 rest st (w12 x hx).1
        (w12 x hx).2 hok
      refine ⟨_, hdec, hok2, ms ++ [(x.1, m2)], ?_, ?_⟩
      · simp only [hed, List.append_assoc]
      · exact List.rel_append hsame (List.Forall₂.cons ⟨rfl, hs⟩ List.Forall₂.nil))
    [] st6 _ f6 ⟨hok6, [], by simp, List.Forall₂.nil⟩ hf6
  rw [h7]; clear h7 hf6
  simp only [List.nil_append] at hsame7
  -- fragmented data
  obtain ⟨f8, st8, hf8, h8, hp8⟩ := decodeLoop_fields tag htag hlt .kFragmentedData
    (fun frag : Nat × List Byte => PutFixed8 frag.1 ++ PutLengthPrefixedSlice frag.2)
    (fun pre st => st = ⟨{ st7.edit with
      fragmented_data_ := st7.edit.fragmented_data_ ++ pre }, st7.m⟩)
    e.fragmented_data_
    (fun x hx pre st rest hp => by
      subst hp
      refine ⟨_, decodeCase_fragmentedData x.1 x.2 rest _ (w13 x hx).1 (w13 x hx).2, ?_⟩
      simp [List.append_assoc])
    [] st7 _ f7 (by simp) hf7
  rw [h8]; clear h8 hf7
  simp only [List.nil_append] at hp8
  have hm8 : ArraysOk st8.m := by rw [hp8]; exact hok7
  refine ⟨f8, st8.edit, st8.m, hf8, rfl, ?_, hm8⟩
  -- the fields of the decoded edit
  have e8 : st8.edit = { st7.edit with
      fragmented_data_ := st7.edit.fragmented_data_ ++ e.fragmented_data_ } := by rw [hp8]
  have e4 : st4.edit = { st3.edit with
      compact_pointers_ := st3.edit.compact_pointers_ ++ e.compact_pointers_ } := by rw [hp4]
  rw [e8, hed7, hed6, ← hst5]
  unfold SameEdit
  cases hc : e.has_comparator_ <;> cases hl : e.has_last_sequence_
    <;> cases hn : e.has_next_ss_number <;> cases hd : e.has_deleted_range_
    <;> simp only [hc, hl, hn, hd, Bool.false_eq_true, if_true, if_false] at hst3 ⊢
    <;> subst hst3
    <;> simp only [e4, Clear, List.nil_append, w1 , w3, w5, w7, hc, hl, hn, hd]
    <;> simp [hsame6, hsame7, w1, w3, w5, w7, hc, hl, hn, hd, Clear]

/-- The outcome of `DecodeFrom` from the outcome of its loop. -/
theorem DecodeFrom_of_loop (tag : ZnsVersionTag → Nat) (e : ZnsVersionEdit)
    (src : List Byte) (msg : Option String) (st : DecodeState) (input : List Byte)
    (h : decodeLoop tag (src.length + 1) src ⟨e, SSZoneMetaData.fresh⟩ = some (msg, st, input)) :
    DecodeFrom tag e src
      = if msg = none ∧ input = [] then some (Status.OK, none, st.edit)
        else some (Status.Corruption, if msg = none then some "invalid tag" else msg,
          st.edit) := by
  unfold DecodeFrom
  rw [h]
  cases msg with
  | none =>
    cases input with
    | nil => simp
    | cons b input => simp
  | some s => simp

end zns_impl
namespace zns_impl

theorem number_injective : Function.Injective ZnsVersionTag.number := by
  intro a b h
  cases a <;> cases b <;> first | rfl | (exact absurd h (by decide))

theorem number_lt (v : ZnsVersionTag) : ZnsVersionTag.number v < 2 ^ 32 := by
  cases v <;> decide

set_option maxRecDepth 100000 in
/-- C3 (counterexample): the edit that `RemoveSSDefinition(1, table)` makes of
a cleared edit holds `(1, 9)` in `deleted_ss_`; the edit decoded from its bytes
is returned with OK and holds nothing in `deleted_ss_` (and 0 for the `L0.lba`
77 of the removed table), so it is not the encoded edit.  A table removed from
level 0 leaves no byte at all. -/
theorem removed_tables_not_restored :
    (RemoveSSDefinition Clear 1 exampleTable).deleted_ss_ = [(1, 9)]
      ∧ (DecodeFrom ZnsVersionTag.number Clear
          (EncodeTo ZnsVersionTag.number (RemoveSSDefinition Clear 1 exampleTable))).map
          (fun r => (r.1, r.2.2.deleted_ss_, r.2.2.deleted_ss_pers_.map (fun d => d.2.L0.lba)))
        = some (Status.OK, [], [0])
      ∧ DecodeFrom ZnsVersionTag.number Clear
          (EncodeTo ZnsVersionTag.number (RemoveSSDefinition Clear 1 exampleTable))
        ≠ some (Status.OK, none, RemoveSSDefinition Clear 1 exampleTable)
      ∧ EncodeTo ZnsVersionTag.number (RemoveSSDefinition Clear 0 exampleTable) = [] := by
  refine ⟨by decide, by decide, by decide, by decide⟩

/-- C3 (amended): for every numbering of the tags by different numbers below
`2^32` and every well-formed edit `e`, `DecodeFrom` applied to a cleared edit on
the bytes of `e.EncodeTo` returns OK and yields the edit `e` up to its set
`deleted_ss_`, which stays empty, with every table equal to the encoded one in
the fields its level uses. -/
theorem EncodeTo_DecodeFrom (tag : ZnsVersionTag → Nat) (htag : Function.Injective tag)
    (hlt : ∀ v, tag v < 2 ^ 32) (e : ZnsVersionEdit) (hwf : WellFormed e) :
    ∃ d, DecodeFrom tag Clear (EncodeTo tag e) = some (Status.OK, none, d) ∧ SameEdit d e := by
  obtain ⟨fuel2, d, m, hf, hloop, hsame, _⟩ := decodeLoop_EncodeTo tag htag hlt e hwf []
    ((EncodeTo tag e).length + 1) (by simp)
  rw [List.append_nil, decodeLoop_nil tag fuel2 _ hf] at hloop
  refine ⟨d, ?_, hsame⟩
  rw [DecodeFrom_of_loop tag Clear _ _ _ _ hloop]
  simp

theorem exampleEdit_wellFormed : WellFormed exampleEdit := by
  unfold WellFormed
  refine ⟨by decide, by decide, by decide, by decide, by decide, by decide, by decide,
    by decide, by decide, ?_, ?_, ?_, ?_⟩
  · intro p hp
    have : p = (3, [7, 7]) := by simpa [exampleEdit, RemoveSSDefinition, AddSSDefinition, Clear] using hp
    subst this
    exact ⟨by decide, by decide⟩
  · intro d hd
    have : d = (2, exampleTable) := by
      simpa [exampleEdit, RemoveSSDefinition, AddSSDefinition, Clear] using hd
    subst this
    refine ⟨by decide, by decide, by decide, by decide, by decide, by decide, by decide,
      by decide, fun _ => ⟨by decide, ?_⟩⟩
    intro j hj
    have hj2 : j < 2 := hj
    interval_cases j <;> exact ⟨by decide, by decide⟩
  · intro n hn
    have hlist : exampleEdit.new_ss_
        = [(1, ⟨9, ⟨0⟩, ⟨2, [100, 200, 0, 0, 0, 0, 0, 0], [10, 300, 0, 0, 0, 0, 0, 0]⟩, 5, 310,
              [1, 2], [3, 4]⟩),
           (0, ⟨9, ⟨77⟩, ⟨0, [0, 0, 0, 0, 0, 0, 0, 0], [0, 0, 0, 0, 0, 0, 0, 0]⟩, 5, 310,
              [1, 2], [3, 4]⟩)] := by decide
    rw [hlist] at hn
    simp only [List.mem_cons, List.mem_singleton, List.not_mem_nil, or_false] at hn
    rcases hn with h | h
    · subst h
      refine ⟨by decide, by decide, by decide, by decide, by decide, by decide, by decide,
        fun _ => ⟨by decide, ?_⟩⟩
      intro j hj
      have hj2 : j < 2 := hj
      interval_cases j <;> exact ⟨by decide, by decide⟩
    · subst h
      exact ⟨by decide, by decide, by decide, by decide, by decide, by decide, by decide,
        fun h => absurd rfl h⟩
  · intro f hf
    have : f = (0, [1, 2, 3]) := by
      simpa [exampleEdit, RemoveSSDefinition, AddSSDefinition, Clear] using hf
    subst this
    exact ⟨by decide, by decide⟩

theorem EncodeTo_DecodeFrom_witness :
    WellFormed exampleEdit
      ∧ ∃ d, DecodeFrom ZnsVersionTag.number Clear (EncodeTo ZnsVersionTag.number exampleEdit)
          = some (Status.OK, none, d) ∧ SameEdit d exampleEdit :=
  ⟨exampleEdit_wellFormed,
    EncodeTo_DecodeFrom ZnsVersionTag.number number_injective number_lt exampleEdit
      exampleEdit_wellFormed⟩

end zns_impl
namespace zns_impl

/-! ## The version edit codec: every input -/

theorem GetInternalKey_suffix (input : List Byte) (r : InternalKey × List Byte)
    (h : GetInternalKey input = some r) : r.2.length < input.length :=
  GetLengthPrefixedSlice_suffix input r h

theorem DecodeL0_spec (input : List Byte) (m m2 : SSZoneMetaData) (rest : List Byte)
    (h : DecodeL0 input m = some (m2, rest)) :
    m2.LN = m.LN ∧ rest.length ≤ input.length := by
  unfold DecodeL0 at h
  split at h
  · exact absurd h (by simp)
  · rename_i a1 i1 h1
    split at h
    · exact absurd h (by simp)
    · rename_i a2 i2 h2
      split at h
      · exact absurd h (by simp)
      · rename_i a3 i3 h3
        split at h
        · exact absurd h (by simp)
        · rename_i a4 i4 h4
          split at h
          · exact absurd h (by simp)
          · rename_i a5 i5 h5
            split at h
            · exact absurd h (by simp)
            · rename_i a6 i6 h6
              simp only [Option.some.injEq, Prod.mk.injEq] at h
              obtain ⟨hm, hr⟩ := h
              have := GetVarint64_suffix _ _ h1
              have := GetVarint64_suffix _ _ h2
              have := GetVarint64_suffix _ _ h3
              have := GetVarint64_suffix _ _ h4
              have := GetInternalKey_suffix _ _ h5
              have := GetInternalKey_suffix _ _ h6
              subst hm hr
              refine ⟨rfl, ?_⟩
              simp only at *
              omega

theorem decodeRegions_total :
    ∀ (count i : Nat) (input : List Byte) (m : SSZoneMetaData),
      i + count ≤ 8 → ArraysOk m →
      ∃ r, decodeRegions count i input m = some r
        ∧ ∀ m2 rest, r = some (m2, rest) →
            ArraysOk m2 ∧ m2.LN.lba_regions = m.LN.lba_regions
              ∧ rest.length ≤ input.length := by
  intro count
  induction count with
  | zero =>
    intro i input m _ hok
    refine ⟨some (m, input), by simp [decodeRegions], ?_⟩
    intro m2 rest h
    simp only [Option.some.injEq, Prod.mk.injEq] at h
    rw [← h.1, ← h.2]
    exact ⟨hok, rfl, Nat.le_refl _⟩
  | succ count ih =>
    intro i input m hi hok
    have hl1 : i < m.LN.lbas.length := by rw [hok.1]; omega
    have hl2 : i < m.LN.lba_region_sizes.length := by rw [hok.2]; omega
    unfold decodeRegions
    cases h1 : GetVarint64 input with
    | none => exact ⟨none, rfl, fun m2 rest h => by simp at h⟩
    | some r1 =>
      obtain ⟨lba, input1⟩ := r1
      simp only [assignEntry, if_pos hl1]
      cases h2 : GetVarint64 input1 with
      | none => exact ⟨none, rfl, fun m2 rest h => by simp at h⟩
      | some r2 =>
        obtain ⟨size, input2⟩ := r2
        simp only [if_pos hl2]
        obtain ⟨r, hr, hspec⟩ := ih (i + 1) input2
          { m with LN := { m.LN with lbas := m.LN.lbas.set i lba,
                                     lba_region_sizes := m.LN.lba_region_sizes.set i size } }
          (by omega)
          ⟨by simp only [List.length_set]; exact hok.1,
           by simp only [List.length_set]; exact hok.2⟩
        refine ⟨r, hr, ?_⟩
        intro m2 rest h
        obtain ⟨a, b, c⟩ := hspec m2 rest h
        have := GetVarint64_suffix _ _ h1
        have := GetVarint64_suffix _ _ h2
        simp only at *
        exact ⟨a, b, by omega⟩

theorem DecodeLN_total (input : List Byte) (m : SSZoneMetaData) (hok : ArraysOk m) :
    ∃ r, DecodeLN input m = some r
      ∧ ∀ m2 rest, r = some (m2, rest) →
          ArraysOk m2 ∧ m2.LN.lba_regions ≤ 8 ∧ rest.length ≤ input.length := by
  unfold DecodeLN
  cases h1 : GetVarint64 input with
  | none => exact ⟨none, rfl, fun m2 rest h => by simp at h⟩
  | some r1 =>
    obtain ⟨number, input1⟩ := r1
    simp only []
    cases h2 : GetFixed8 input1 with
    | none => exact ⟨none, rfl, fun m2 rest h => by simp at h⟩
    | some r2 =>
      obtain ⟨lba_regions, input2⟩ := r2
      simp only []
      by_cases hreg : lba_regions ≤ 8
      · simp only [hreg, not_true_eq_false, if_false]
        obtain ⟨r, hr, hspec⟩ := decodeRegions_total lba_regions 0 input2
          { m with number := number, LN := { m.LN with lba_regions := lba_regions } }
          (by omega) hok
        rw [hr]
        cases r with
        | none => exact ⟨none, rfl, fun m2 rest h => by simp at h⟩
        | some p =>
          obtain ⟨m3, input3⟩ := p
          obtain ⟨hok3, hreg3, hlen3⟩ := hspec m3 input3 rfl
          simp only []
          cases h3 : GetVarint64 input3 with
          | none => exact ⟨none, rfl, fun m2 rest h => by simp at h⟩
          | some r3 =>
            obtain ⟨numbers, input4⟩ := r3
            simp only []
            cases h4 : GetVarint64 input4 with
            | none => exact ⟨none, rfl, fun m2 rest h => by simp at h⟩
            | some r4 =>
              obtain ⟨lba_count, input5⟩ := r4
              simp only []
              cases h5 : GetInternalKey input5 with
              | none => exact ⟨none, rfl, fun m2 rest h => by simp at h⟩
              | some r5 =>
                obtain ⟨smallest, input6⟩ := r5
                simp only []
                cases h6 : GetInternalKey input6 with
                | none => exact ⟨none, rfl, fun m2 rest h => by simp at h⟩
                | some r6 =>
                  obtain ⟨largest, input7⟩ := r6
                  refine ⟨_, rfl, ?_⟩
                  intro m2 rest h
                  simp only [Option.some.injEq, Prod.mk.injEq] at h
                  obtain ⟨hm, hrest⟩ := h
                  have := GetVarint64_suffix _ _ h1
                  have := GetFixed8_suffix _ _ h2
                  have := GetVarint64_suffix _ _ h3
                  have := GetVarint64_suffix _ _ h4
                  have := GetInternalKey_suffix _ _ h5
                  have := GetInternalKey_suffix _ _ h6
                  subst hm hrest
                  simp only at *
                  exact ⟨hok3, by rw [hreg3]; exact hreg, by omega⟩
      · simp only [hreg, not_false_eq_true, if_true]
        exact ⟨none, rfl, fun m2 rest h => by simp at h⟩

end zns_impl
namespace zns_impl

theorem DecodeLevel_total (input : List Byte) (level : Nat) (m : SSZoneMetaData)
    (hok : ArraysOk m) (hreg : m.LN.lba_regions ≤ 8) :
    ∃ r, DecodeLevel input level m = some r
      ∧ ∀ m2 rest, r = some (m2, rest) →
          ArraysOk m2 ∧ m2.LN.lba_regions ≤ 8 ∧ rest.length ≤ input.length := by
  unfold DecodeLevel
  by_cases hl : level = 0
  · simp only [if_pos hl]
    refine ⟨_, rfl, ?_⟩
    intro m2 rest h
    obtain ⟨h1, h2⟩ := DecodeL0_spec input m m2 rest h
    exact ⟨by unfold ArraysOk; rw [h1]; exact hok, by rw [h1]; exact hreg, h2⟩
  · simp only [if_neg hl]
    exact DecodeLN_total input m hok

/-- No case of the `switch` writes past an array of `m`; a case that succeeds
keeps the tables at 8 regions at most and leaves an end of its input. -/
theorem decodeCase_total (vt : ZnsVersionTag) (input : List Byte) (st : DecodeState)
    (hinv : DecodeInv st) :
    ∃ r, decodeCase vt input st = some r
      ∧ ∀ st2 rest, r = .ok (st2, rest) → DecodeInv st2 ∧ rest.length ≤ input.length := by
  obtain ⟨hok, hreg, hnew, hdel⟩ := hinv
  cases vt with
  | kComparator =>
    unfold decodeCase
    cases h : GetLengthPrefixedSlice input with
    | none => exact ⟨_, rfl, fun st2 rest h => by simp at h⟩
    | some r =>
      refine ⟨_, rfl, ?_⟩
      intro st2 rest heq
      simp only [Except.ok.injEq, Prod.mk.injEq] at heq
      have := GetLengthPrefixedSlice_suffix _ _ h
      rw [← heq.1, ← heq.2]
      exact ⟨⟨hok, hreg, hnew, hdel⟩, by omega⟩
  | kLastSequence =>
    unfold decodeCase
    cases h : GetVarint64 input with
    | none => exact ⟨_, rfl, fun st2 rest h => by simp at h⟩
    | some r =>
      refine ⟨_, rfl, ?_⟩
      intro st2 rest heq
      simp only [Except.ok.injEq, Prod.mk.injEq] at heq
      have := GetVarint64_suffix _ _ h
      rw [← heq.1, ← heq.2]
      exact ⟨⟨hok, hreg, hnew, hdel⟩, by omega⟩
  | kNextSSTableNumber =>
    unfold decodeCase
    cases h : GetVarint64 input with
    | none => exact ⟨_, rfl, fun st2 rest h => by simp at h⟩
    | some r =>
      refine ⟨_, rfl, ?_⟩
      intro st2 rest heq
      simp only [Except.ok.injEq, Prod.mk.injEq] at heq
      have := GetVarint64_suffix _ _ h
      rw [← heq.1, ← heq.2]
      exact ⟨⟨hok, hreg, hnew, hdel⟩, by omega⟩
  | kDeletedRange =>
    unfold decodeCase
    cases h : GetVarint64 input with
    | none => exact ⟨_, rfl, fun st2 rest h => by simp at h⟩
    | some r =>
      simp only []
      cases h2 : GetVarint64 r.2 with
      | none => exact ⟨_, rfl, fun st2 rest h => by simp at h⟩
      | some r2 =>
        refine ⟨_, rfl, ?_⟩
        intro st2 rest heq
        simp only [Except.ok.injEq, Prod.mk.injEq] at heq
        have := GetVarint64_suffix _ _ h
        have := GetVarint64_suffix _ _ h2
        rw [← heq.1, ← heq.2]
        exact ⟨⟨hok, hreg, hnew, hdel⟩, by omega⟩
  | kCompactPointer =>
    unfold decodeCase
    cases h : GetLevel input with
    | none => exact ⟨_, rfl, fun st2 rest h => by simp at h⟩
    | some r =>
      simp only []
      cases h2 : GetInternalKey r.2 with
      | none => exact ⟨_, rfl, fun st2 rest h => by simp at h⟩
      | some r2 =>
        refine ⟨_, rfl, ?_⟩
        intro st2 rest heq
        simp only [Except.ok.injEq, Prod.mk.injEq] at heq
        have := GetLevel_suffix _ _ h
        have := GetInternalKey_suffix _ _ h2
        rw [← heq.1, ← heq.2]
        exact ⟨⟨hok, hreg, hnew, hdel⟩, by omega⟩
  | kFragmentedData =>
    unfold decodeCase
    cases h : GetLevel input with
    | none => exact ⟨_, rfl, fun st2 rest h => by simp at h⟩
    | some r =>
      simp only []
      cases h2 : GetLengthPrefixedSlice r.2 with
      | none => exact ⟨_, rfl, fun st2 rest h => by simp at h⟩
      | some r2 =>
        refine ⟨_, rfl, ?_⟩
        intro st2 rest heq
        simp only [Except.ok.injEq, Prod.mk.injEq] at heq
        have := GetLevel_suffix _ _ h
        have := GetLengthPrefixedSlice_suffix _ _ h2
        rw [← heq.1, ← heq.2]
        exact ⟨⟨hok, hreg, hnew, hdel⟩, by omega⟩
  | kDeletedSSTable =>
    unfold decodeCase
    cases h : GetLevel input with
    | none => exact ⟨_, rfl, fun st2 rest h => by simp at h⟩
    | some r =>
      simp only []
      obtain ⟨q, hq, hspec⟩ := DecodeLevel_total r.2 r.1 st.m hok hreg
      rw [hq]
      cases q with
      | none => exact ⟨_, rfl, fun st2 rest h => by simp at h⟩
      | some p =>
        obtain ⟨hok2, hreg2, hlen2⟩ := hspec p.1 p.2 rfl
        refine ⟨_, rfl, ?_⟩
        intro st2 rest heq
        simp only [Except.ok.injEq, Prod.mk.injEq] at heq
        have := GetLevel_suffix _ _ h
        rw [← heq.1, ← heq.2]
        refine ⟨⟨hok2, hreg2, hnew, ?_⟩, by omega⟩
        intro t ht
        simp only [List.mem_append, List.mem_singleton] at ht
        rcases ht with ht | ht
        · exact hdel t ht
        · rw [ht]; exact hreg2
  | kNewSSTable =>
    unfold decodeCase
    cases h : GetLevel input with
    | none => exact ⟨_, rfl, fun st2 rest h => by simp at h⟩
    | some r =>
      simp only []
      obtain ⟨q, hq, hspec⟩ := DecodeLevel_total r.2 r.1 st.m hok hreg
      rw [hq]
      cases q with
      | none => exact ⟨_, rfl, fun st2 rest h => by simp at h⟩
      | some p =>
        obtain ⟨hok2, hreg2, hlen2⟩ := hspec p.1 p.2 rfl
        refine ⟨_, rfl, ?_⟩
        intro st2 rest heq
        simp only [Except.ok.injEq, Prod.mk.injEq] at heq
        have := GetLevel_suffix _ _ h
        rw [← heq.1, ← heq.2]
        refine ⟨⟨hok2, hreg2, ?_, hdel⟩, by omega⟩
        intro t ht
        simp only [List.mem_append, List.mem_singleton] at ht
        rcases ht with ht | ht
        · exact hnew t ht
        · rw [ht]; exact hreg2

/-- The loop ends, with a message or without, for every input shorter than the
fuel, and writes past no array of `m`. -/
theorem decodeLoop_total (tag : ZnsVersionTag → Nat) :
    ∀ (fuel : Nat) (input : List Byte) (st : DecodeState), DecodeInv st →
      input.length < fuel →
      ∃ msg st2 rest, decodeLoop tag fuel input st = some (msg, st2, rest) ∧ DecodeInv st2 := by
  intro fuel
  induction fuel with
  | zero => intro input st _ h; exact absurd h (Nat.not_lt_zero _)
  | succ fuel ih =>
    intro input st hinv hlen
    rw [decodeLoop]
    cases h1 : GetVarint32 input with
    | none => exact ⟨_, _, _, rfl, hinv⟩
    | some r1 =>
      simp only []
      cases h2 : versionTag tag r1.1 with
      | none => exact ⟨_, _, _, rfl, hinv⟩
      | some vt =>
        simp only []
        obtain ⟨q, hq, hspec⟩ := decodeCase_total vt r1.2 st hinv
        rw [hq]
        cases q with
        | error msg => exact ⟨_, _, _, rfl, hinv⟩
        | ok p =>
          obtain ⟨hinv2, hlen2⟩ := hspec p.1 p.2 rfl
          have := GetVarint32_suffix _ _ h1
          exact ih p.2 p.1 hinv2 (by omega)

end zns_impl
namespace zns_impl

theorem DecodeFrom_of_message (tag : ZnsVersionTag → Nat) (e : ZnsVersionEdit)
    (src : List Byte) (msg : String) (st : DecodeState) (input : List Byte)
    (h : decodeLoop tag (src.length + 1) src ⟨e, SSZoneMetaData.fresh⟩
      = some (some msg, st, input)) :
    DecodeFrom tag e src = some (Status.Corruption, some msg, st.edit) := by
  rw [DecodeFrom_of_loop tag e src _ _ _ h]
  simp

theorem GetLevel_too_high (level : Nat) (rest : List Byte) (h : level_count ≤ level) :
    GetLevel (level :: rest) = none := by
  simp [GetLevel, GetFixed8, Nat.not_lt.mpr h]

theorem DecodeInv_fresh (e : ZnsVersionEdit) (hn : ∀ t ∈ e.new_ss_, t.2.LN.lba_regions ≤ 8)
    (hd : ∀ t ∈ e.deleted_ss_pers_, t.2.LN.lba_regions ≤ 8) :
    DecodeInv ⟨e, SSZoneMetaData.fresh⟩ :=
  ⟨⟨rfl, rfl⟩, Nat.zero_le _, hn, hd⟩

/-- C29: for every numbering of the tags by different numbers and every input
`src`: (a) when the loop of `DecodeFrom` comes to a NewSSTable, DeletedSSTable,
CompactPointer or FragmentedData entry whose level byte is `level_count` or
more, the call returns `Corruption`; (b) so it does when the loop comes to a
NewSSTable or DeletedSSTable entry of a level from 1 on whose region-count byte
is larger than 8; (c) the call writes past no array of a meta (it has an
outcome), and no table of the edit it leaves holds more than 8 regions. -/
theorem DecodeFrom_levels_and_regions (tag : ZnsVersionTag → Nat)
    (htag : Function.Injective tag) (src : List Byte) :
    (∀ vt level input rest fuel st,
        (vt = .kNewSSTable ∨ vt = .kDeletedSSTable ∨ vt = .kCompactPointer
          ∨ vt = .kFragmentedData) →
        decodeLoop tag (src.length + 1) src ⟨Clear, SSZoneMetaData.fresh⟩
          = decodeLoop tag (fuel + 1) input st →
        GetVarint32 input = some (tag vt, level :: rest) → level_count ≤ level →
        ∃ msg, DecodeFrom tag Clear src = some (Status.Corruption, some msg, st.edit))
    ∧ (∀ vt level number regions input input2 rest fuel st,
        (vt = .kNewSSTable ∨ vt = .kDeletedSSTable) →
        decodeLoop tag (src.length + 1) src ⟨Clear, SSZoneMetaData.fresh⟩
          = decodeLoop tag (fuel + 1) input st →
        GetVarint32 input = some (tag vt, level :: input2) →
        level < level_count → level ≠ 0 →
        GetVarint64 input2 = some (number, regions :: rest) → 8 < regions →
        ∃ msg, DecodeFrom tag Clear src = some (Status.Corruption, some msg, st.edit))
    ∧ (∃ s msg d, DecodeFrom tag Clear src = some (s, msg, d)
        ∧ (∀ t ∈ d.new_ss_, t.2.LN.lba_regions ≤ 8)
        ∧ (∀ t ∈ d.deleted_ss_pers_, t.2.LN.lba_regions ≤ 8)) := by
  refine ⟨?_, ?_, ?_⟩
  · intro vt level input rest fuel st hvt hreach hget hlevel
    have hl := GetLevel_too_high level rest hlevel
    rcases hvt with h | h | h | h <;> subst h
    · refine ⟨"new sstable entry", DecodeFrom_of_message tag Clear src _ st (level :: rest) ?_⟩
      rw [hreach, decodeLoop, hget]
      simp only [versionTag_tag tag htag, decodeCase, hl]
    · refine ⟨"deleted sstable entry",
        DecodeFrom_of_message tag Clear src _ st (level :: rest) ?_⟩
      rw [hreach, decodeLoop, hget]
      simp only [versionTag_tag tag htag, decodeCase, hl]
    · refine ⟨"compaction pointer", DecodeFrom_of_message tag Clear src _ st (level :: rest) ?_⟩
      rw [hreach, decodeLoop, hget]
      simp only [versionTag_tag tag htag, decodeCase, hl]
    · refine ⟨"fragmented log", DecodeFrom_of_message tag Clear src _ st (level :: rest) ?_⟩
      rw [hreach, decodeLoop, hget]
      simp only [versionTag_tag tag htag, decodeCase, hl]
  · intro vt level number regions input input2 rest fuel st hvt hreach hget hlevel hl0 hnum hreg
    have hl : GetLevel (level :: input2) = some (level, input2) := by
      simp [GetLevel, GetFixed8, hlevel]
    have hln : DecodeLN input2 st.m = some none := by
      unfold DecodeLN
      rw [hnum]
      simp only [GetFixed8, not_le, if_pos hreg]
    rcases hvt with h | h <;> subst h
    · refine ⟨"new sstable entry",
        DecodeFrom_of_message tag Clear src _ st (level :: input2) ?_⟩
      rw [hreach, decodeLoop, hget]
      simp only [versionTag_tag tag htag, decodeCase, hl, DecodeLevel, if_neg hl0, hln]
    · refine ⟨"deleted sstable entry",
        DecodeFrom_of_message tag Clear src _ st (level :: input2) ?_⟩
      rw [hreach, decodeLoop, hget]
      simp only [versionTag_tag tag htag, decodeCase, hl, DecodeLevel, if_neg hl0, hln]
  · obtain ⟨msg, st2, rest, hloop, hinv⟩ := decodeLoop_total tag (src.length + 1) src
      ⟨Clear, SSZoneMetaData.fresh⟩
      (DecodeInv_fresh Clear (fun t ht => by simp [Clear] at ht)
        (fun t ht => by simp [Clear] at ht)) (Nat.lt_succ_self _)
    rw [DecodeFrom_of_loop tag Clear src _ _ _ hloop]
    by_cases hc : msg = none ∧ rest = []
    · rw [if_pos hc]; exact ⟨_, _, _, rfl, hinv.2.2.1, hinv.2.2.2⟩
    · rw [if_neg hc]; exact ⟨_, _, _, rfl, hinv.2.2.1, hinv.2.2.2⟩

set_option maxRecDepth 100000 in
theorem DecodeFrom_levels_and_regions_witness :
    (∃ msg, DecodeFrom ZnsVersionTag.number Clear [7, 9]
        = some (Status.Corruption, some msg, Clear))
      ∧ (∃ msg, DecodeFrom ZnsVersionTag.number Clear [6, 1, 5, 9]
        = some (Status.Corruption, some msg, Clear)) :=
  ⟨(DecodeFrom_levels_and_regions ZnsVersionTag.number number_injective [7, 9]).1
      .kNewSSTable 9 [7, 9] [] 2 ⟨Clear, SSZoneMetaData.fresh⟩ (Or.inl rfl) rfl (by decide)
      (by decide),
   (DecodeFrom_levels_and_regions ZnsVersionTag.number number_injective [6, 1, 5, 9]).2.1
      .kDeletedSSTable 1 5 9 [6, 1, 5, 9] [5, 9] [] 4 ⟨Clear, SSZoneMetaData.fresh⟩
      (Or.inr rfl) rfl (by decide) (by decide) (by decide) (by decide) (by decide)⟩

end zns_impl

set_option maxRecDepth 1000000 in
/-- C30 (failing input): a device of two blocks of 16 bytes: a CRC-valid Last
record of length 0, then the Full record with payload `[1, 2, 3]`.  The
in-memory reader drops the stray record and returns `[1, 2, 3]`.  The device
reader advances its cursor by `ceil(0 / lba_size) = 0` LBAs at the stray
record, meets it again in every iteration and returns for no number of
iterations.  With a stray Last record of one byte it returns `[1, 2, 3]`. -/
theorem stray_empty_record_stalls_device_reader :
    SeekCommitReaderString 16
        (GetCommitReaderString
          [167, 22, 32, 43, 0, 0, 0, 4, 0, 0, 0, 0, 0, 0, 0, 0,
           197, 243, 184, 2, 3, 0, 0, 1, 1, 2, 3, 0, 0, 0, 0, 0]) []
        = some (true, [1, 2, 3],
            ⟨0, 32, 32,
              [167, 22, 32, 43, 0, 0, 0, 4, 0, 0, 0, 0, 0, 0, 0, 0,
               197, 243, 184, 2, 3, 0, 0, 1, 1, 2, 3, 0, 0, 0, 0, 0], [1, 2, 3]⟩)
      ∧ (∀ fuel, SeekCommitReader 16
          ⟨[167, 22, 32, 43, 0, 0, 0, 4, 0, 0, 0, 0, 0, 0, 0, 0,
            197, 243, 184, 2, 3, 0, 0, 1, 1, 2, 3, 0, 0, 0, 0, 0], 2⟩ 16 fuel
          (GetCommitReader 1 0 0 2 ⟨0, 0, 0, 0, []⟩).2 [] = none)
      ∧ SeekCommitReader 16
          ⟨[139, 121, 8, 62, 1, 0, 0, 4, 9, 0, 0, 0, 0, 0, 0, 0,
            197, 243, 184, 2, 3, 0, 0, 1, 1, 2, 3, 0, 0, 0, 0, 0], 2⟩ 16 2
          (GetCommitReader 1 0 0 2 ⟨0, 0, 0, 0, []⟩).2 []
        = some (true, [1, 2, 3], ⟨0, 2, 2, 0, [1, 2, 3]⟩) := by
  refine ⟨by decide, ?_, by decide⟩
  have hloop : ∀ fuel, seekLoop 16
      ⟨[167, 22, 32, 43, 0, 0, 0, 4, 0, 0, 0, 0, 0, 0, 0, 0,
        197, 243, 184, 2, 3, 0, 0, 1, 1, 2, 3, 0, 0, 0, 0, 0], 2⟩ fuel ⟨0, 2, 0, 0, []⟩ false
      = none := by
    intro fuel
    induction fuel with
    | zero => rfl
    | succ fuel ih =>
      have ht : deviceType 16
          ⟨[167, 22, 32, 43, 0, 0, 0, 4, 0, 0, 0, 0, 0, 0, 0, 0,
            197, 243, 184, 2, 3, 0, 0, 1, 1, 2, 3, 0, 0, 0, 0, 0], 2⟩ ⟨0, 2, 0, 0, []⟩
          = TropoRecordType.kLastType := by decide
      have hl : deviceLength 16
          ⟨[167, 22, 32, 43, 0, 0, 0, 4, 0, 0, 0, 0, 0, 0, 0, 0,
            197, 243, 184, 2, 3, 0, 0, 1, 1, 2, 3, 0, 0, 0, 0, 0], 2⟩ ⟨0, 2, 0, 0, []⟩
          = 0 := by decide
      rw [seekLoop_succ 16 _ fuel ⟨0, 2, 0, 0, []⟩ false (by decide), ht, hl]
      exact ih
  intro fuel
  exact hloop fuel

namespace zns_impl

/-! ## The decoder against the format of the spec: the coding primitives -/

theorem getVarint_complete :
    ∀ (bytes : List Byte) (fuel w shift result : Nat) (rest : List Byte),
      leb128 bytes = some w → bytes.length ≤ fuel →
      getVarint fuel shift result (bytes ++ rest) = some (result + w * 2 ^ shift, rest) := by
  intro bytes
  induction bytes with
  | nil => intro fuel w shift result rest h; simp [leb128] at h
  | cons b bs ih =>
    intro fuel w shift result rest h hlen
    cases fuel with
    | zero => simp at hlen
    | succ fuel =>
      unfold leb128 at h
      by_cases hb : 128 ≤ b
      · rw [if_pos hb] at h
        cases hv : leb128 bs with
        | none => rw [hv] at h; simp at h
        | some v =>
          rw [hv] at h
          simp only [Option.map_some', Option.some.injEq] at h
          simp only [List.cons_append, getVarint, if_pos hb]
          show getVarint fuel (shift + 7) (result + b % 128 * 2 ^ shift) (bs ++ rest) = _
          rw [ih fuel v (shift + 7) _ rest hv (by simpa using hlen)]
          congr 2
          rw [← h, pow_add]
          ring
      · rw [if_neg hb] at h
        split at h
        · rename_i hnil
          simp only [Option.some.injEq] at h
          subst hnil
          subst h
          simp only [List.cons_append, List.nil_append, getVarint, if_neg hb]
          rfl
        · simp at h

theorem getVarint_sound :
    ∀ (fuel shift result : Nat) (input : List Byte) (r : Nat) (rest : List Byte),
      getVarint fuel shift result input = some (r, rest) →
      ∃ bytes w, input = bytes ++ rest ∧ bytes.length ≤ fuel ∧ leb128 bytes = some w
        ∧ r = result + w * 2 ^ shift := by
  intro fuel
  induction fuel with
  | zero => intro shift result input r rest h; simp [getVarint] at h
  | succ fuel ih =>
    intro shift result input r rest h
    cases input with
    | nil => simp [getVarint] at h
    | cons b bs =>
      unfold getVarint at h
      by_cases hb : 128 ≤ b
      · rw [if_pos hb] at h
        obtain ⟨bytes, w, h1, h2, h3, h4⟩ := ih _ _ _ _ _ h
        refine ⟨b :: bytes, b % 128 + 128 * w, by rw [h1]; rfl, by simpa using h2, ?_, ?_⟩
        · simp only [leb128, if_pos hb, h3, Option.map_some']
        · rw [h4, pow_add]; ring
      · rw [if_neg hb] at h
        simp only [Option.some.injEq, Prod.mk.injEq] at h
        refine ⟨[b], b, by rw [← h.2]; rfl, by simp, ?_, h.1.symm⟩
        simp only [leb128, if_neg hb, if_true]

theorem GetVarint32_iff (input : List Byte) (v : Nat) (rest : List Byte) :
    GetVarint32 input = some (v, rest) ↔ ∃ bytes, input = bytes ++ rest ∧ IsVarint32 v bytes := by
  unfold GetVarint32 IsVarint32
  constructor
  · intro h
    cases hg : getVarint 5 0 0 input with
    | none => rw [hg] at h; simp at h
    | some q =>
      rw [hg] at h
      simp only [Option.map_some', Option.some.injEq, Prod.mk.injEq] at h
      obtain ⟨bytes, w, h1, h2, h3, h4⟩ := getVarint_sound 5 0 0 input q.1 q.2 hg
      refine ⟨bytes, by rw [h1, h.2], h2, w, h3, ?_⟩
      rw [← h.1, h4]; simp
  · rintro ⟨bytes, h1, h2, w, h3, h4⟩
    rw [h1, getVarint_complete bytes 5 w 0 0 rest h3 h2]
    simp [h4]

theorem GetVarint64_sound (input : List Byte) (v : Nat) (rest : List Byte)
    (h : GetVarint64 input = some (v, rest)) :
    ∃ bytes, input = bytes ++ rest ∧ IsVarint64 bytes := by
  unfold GetVarint64 at h
  cases hg : getVarint 10 0 0 input with
  | none => rw [hg] at h; simp at h
  | some q =>
    rw [hg] at h
    simp only [Option.map_some', Option.some.injEq, Prod.mk.injEq] at h
    obtain ⟨bytes, w, h1, h2, h3, _⟩ := getVarint_sound 10 0 0 input q.1 q.2 hg
    exact ⟨bytes, by rw [h1, h.2], h2, w, h3⟩

theorem GetVarint64_complete (bytes rest : List Byte) (h : IsVarint64 bytes) :
    ∃ v, GetVarint64 (bytes ++ rest) = some (v, rest) := by
  obtain ⟨h2, w, h3⟩ := h
  unfold GetVarint64
  rw [getVarint_complete bytes 10 w 0 0 rest h3 h2]
  exact ⟨_, rfl⟩

theorem GetLengthPrefixedSlice_sound (input : List Byte) (s rest : List Byte)
    (h : GetLengthPrefixedSlice input = some (s, rest)) :
    ∃ bytes, input = bytes ++ rest ∧ IsSlice bytes := by
  unfold GetLengthPrefixedSlice at h
  cases hg : GetVarint32 input with
  | none => rw [hg] at h; simp at h
  | some q =>
    obtain ⟨len, input1⟩ := q
    rw [hg] at h
    simp only at h
    split at h
    · rename_i hle
      simp only [Option.some.injEq, Prod.mk.injEq] at h
      obtain ⟨lenb, h1, h2⟩ := (GetVarint32_iff input len input1).mp hg
      refine ⟨lenb ++ s, ?_, lenb, s, rfl, ?_⟩
      · rw [h1, List.append_assoc, ← h.1, ← h.2, List.take_append_drop]
      · rw [← h.1, List.length_take, Nat.min_eq_left hle]; exact h2
    · simp at h

theorem GetLengthPrefixedSlice_complete (bytes rest : List Byte) (h : IsSlice bytes) :
    ∃ s, GetLengthPrefixedSlice (bytes ++ rest) = some (s, rest) := by
  obtain ⟨len, body, h1, h2⟩ := h
  refine ⟨body, ?_⟩
  unfold GetLengthPrefixedSlice
  rw [h1, List.append_assoc, (GetVarint32_iff _ _ _).mpr ⟨len, rfl, h2⟩]
  simp

theorem GetLevel_sound (input : List Byte) (level : Nat) (rest : List Byte)
    (h : GetLevel input = some (level, rest)) :
    input = level :: rest ∧ level < level_count := by
  cases input with
  | nil => simp [GetLevel, GetFixed8] at h
  | cons b bs =>
    simp only [GetLevel, GetFixed8] at h
    split at h
    · rename_i hlt
      simp only [Option.some.injEq, Prod.mk.injEq] at h
      rw [← h.1, ← h.2]; exact ⟨rfl, hlt⟩
    · simp at h

theorem GetLevel_complete (level : Nat) (rest : List Byte) (h : level < level_count) :
    GetLevel (level :: rest) = some (level, rest) := by
  simp [GetLevel, GetFixed8, h]

end zns_impl
namespace zns_impl

/-! ## The decoder against the format of the spec: tables -/

theorem DecodeL0_sound (input : List Byte) (m m2 : SSZoneMetaData) (rest : List Byte)
    (h : DecodeL0 input m = some (m2, rest)) :
    ∃ bytes, input = bytes ++ rest ∧ IsL0Table bytes := by
  unfold DecodeL0 at h
  cases h1 : GetVarint64 input with
  | none => rw [h1] at h; simp at h
  | some r1 =>
    obtain ⟨a1, i1⟩ := r1
    rw [h1] at h; simp only at h
    cases h2 : GetVarint64 i1 with
    | none => rw [h2] at h; simp at h
    | some r2 =>
      obtain ⟨a2, i2⟩ := r2
      rw [h2] at h; simp only at h
      cases h3 : GetVarint64 i2 with
      | none => rw [h3] at h; simp at h
      | some r3 =>
        obtain ⟨a3, i3⟩ := r3
        rw [h3] at h; simp only at h
        cases h4 : GetVarint64 i3 with
        | none => rw [h4] at h; simp at h
        | some r4 =>
          obtain ⟨a4, i4⟩ := r4
          rw [h4] at h; simp only at h
          cases h5 : GetInternalKey i4 with
          | none => rw [h5] at h; simp at h
          | some r5 =>
            obtain ⟨a5, i5⟩ := r5
            rw [h5] at h; simp only at h
            cases h6 : GetInternalKey i5 with
            | none => rw [h6] at h; simp at h
            | some r6 =>
              obtain ⟨a6, i6⟩ := r6
              rw [h6] at h
              simp only [Option.some.injEq, Prod.mk.injEq] at h
              obtain ⟨b1, e1, g1⟩ := GetVarint64_sound _ _ _ h1
              obtain ⟨b2, e2, g2⟩ := GetVarint64_sound _ _ _ h2
              obtain ⟨b3, e3, g3⟩ := GetVarint64_sound _ _ _ h3
              obtain ⟨b4, e4, g4⟩ := GetVarint64_sound _ _ _ h4
              obtain ⟨b5, e5, g5⟩ := GetLengthPrefixedSlice_sound _ _ _ h5
              obtain ⟨b6, e6, g6⟩ := GetLengthPrefixedSlice_sound _ _ _ h6
              refine ⟨b1 ++ (b2 ++ (b3 ++ (b4 ++ (b5 ++ b6)))), ?_,
                b1, b2, b3, b4, b5, b6, rfl, g1, g2, g3, g4, g5, g6⟩
              rw [e1, e2, e3, e4, e5, e6, h.2]
              simp only [List.append_assoc]

theorem DecodeL0_complete (bytes : List Byte) (h : IsL0Table bytes) (m : SSZoneMetaData)
    (rest : List Byte) : ∃ m2, DecodeL0 (bytes ++ rest) m = some (m2, rest) := by
  obtain ⟨b1, b2, b3, b4, b5, b6, e, g1, g2, g3, g4, g5, g6⟩ := h
  subst e
  obtain ⟨v1, h1⟩ := GetVarint64_complete b1 (b2 ++ (b3 ++ (b4 ++ (b5 ++ (b6 ++ rest))))) g1
  obtain ⟨v2, h2⟩ := GetVarint64_complete b2 (b3 ++ (b4 ++ (b5 ++ (b6 ++ rest)))) g2
  obtain ⟨v3, h3⟩ := GetVarint64_complete b3 (b4 ++ (b5 ++ (b6 ++ rest))) g3
  obtain ⟨v4, h4⟩ := GetVarint64_complete b4 (b5 ++ (b6 ++ rest)) g4
  obtain ⟨v5, h5⟩ := GetLengthPrefixedSlice_complete b5 (b6 ++ rest) g5
  obtain ⟨v6, h6⟩ := GetLengthPrefixedSlice_complete b6 rest g6
  unfold DecodeL0
  simp only [List.append_assoc, h1, h2, h3, h4, GetInternalKey, h5, h6]
  exact ⟨_, rfl⟩

theorem decodeRegions_sound :
    ∀ (count i : Nat) (input : List Byte) (m m2 : SSZoneMetaData) (rest : List Byte),
      decodeRegions count i input m = some (some (m2, rest)) →
      ∃ bytes, input = bytes ++ rest ∧ IsRegions count bytes := by
  intro count
  induction count with
  | zero =>
    intro i input m m2 rest h
    simp only [decodeRegions, Option.some.injEq, Prod.mk.injEq] at h
    exact ⟨[], by rw [h.2]; rfl, rfl⟩
  | succ count ih =>
    intro i input m m2 rest h
    unfold decodeRegions at h
    cases h1 : GetVarint64 input with
    | none => rw [h1] at h; simp at h
    | some r1 =>
      obtain ⟨a1, i1⟩ := r1
      rw [h1] at h; simp only at h
      cases ha : assignEntry m.LN.lbas i a1 with
      | none => rw [ha] at h; simp at h
      | some lbas =>
        rw [ha] at h; simp only at h
        cases h2 : GetVarint64 i1 with
        | none => rw [h2] at h; simp at h
        | some r2 =>
          obtain ⟨a2, i2⟩ := r2
          rw [h2] at h; simp only at h
          cases hb : assignEntry m.LN.lba_region_sizes i a2 with
          | none => rw [hb] at h; simp at h
          | some sizes =>
            rw [hb] at h; simp only at h
            obtain ⟨bytes, e, g⟩ := ih _ _ _ _ _ h
            obtain ⟨b1, e1, g1⟩ := GetVarint64_sound _ _ _ h1
            obtain ⟨b2, e2, g2⟩ := GetVarint64_sound _ _ _ h2
            refine ⟨b1 ++ (b2 ++ bytes), ?_, b1, b2, bytes, rfl, g1, g2, g⟩
            rw [e1, e2, e]
            simp only [List.append_assoc]

theorem decodeRegions_complete :
    ∀ (count i : Nat) (bytes : List Byte) (m : SSZoneMetaData) (rest : List Byte),
      IsRegions count bytes → i + count ≤ 8 → ArraysOk m →
      ∃ m2, decodeRegions count i (bytes ++ rest) m = some (some (m2, rest))
        ∧ ArraysOk m2 := by
  intro count
  induction count with
  | zero =>
    intro i bytes m rest h _ hok
    simp only [IsRegions] at h
    subst h
    exact ⟨m, by simp [decodeRegions], hok⟩
  | succ count ih =>
    intro i bytes m rest h hi hok
    obtain ⟨b1, b2, more, e, g1, g2, g⟩ := h
    subst e
    have hl1 : i < m.LN.lbas.length := by rw [hok.1]; omega
    have hl2 : i < m.LN.lba_region_sizes.length := by rw [hok.2]; omega
    obtain ⟨v1, h1⟩ := GetVarint64_complete b1 (b2 ++ (more ++ rest)) g1
    obtain ⟨v2, h2⟩ := GetVarint64_complete b2 (more ++ rest) g2
    obtain ⟨m2, hdec, hok2⟩ := ih (i + 1) more
      { m with LN := { m.LN with lbas := m.LN.lbas.set i v1,
                                 lba_region_sizes := m.LN.lba_region_sizes.set i v2 } }
      rest g (by omega)
      ⟨by simp only [List.length_set]; exact hok.1,
       by simp only [List.length_set]; exact hok.2⟩
    refine ⟨m2, ?_, hok2⟩
    unfold decodeRegions
    simp only [List.append_assoc, h1, assignEntry, if_pos hl1, h2, if_pos hl2]
    exact hdec

theorem DecodeLN_sound (input : List Byte) (m m2 : SSZoneMetaData) (rest : List Byte)
    (h : DecodeLN input m = some (some (m2, rest))) :
    ∃ bytes, input = bytes ++ rest ∧ IsLNTable bytes := by
  unfold DecodeLN at h
  cases h1 : GetVarint64 input with
  | none => rw [h1] at h; simp at h
  | some r1 =>
    obtain ⟨a1, i1⟩ := r1
    rw [h1] at h; simp only at h
    cases i1 with
    | nil => simp [GetFixed8] at h
    | cons n i2 =>
      simp only [GetFixed8] at h
      by_cases hn : n ≤ 8
      · simp only [hn, not_true_eq_false, if_false] at h
        cases hr : decodeRegions n 0 i2
            { m with number := a1, LN := { m.LN with lba_regions := n } } with
        | none => rw [hr] at h; simp at h
        | some q =>
          cases q with
          | none => rw [hr] at h; simp at h
          | some p =>
            obtain ⟨m3, i3⟩ := p
            rw [hr] at h; simp only at h
            cases h3 : GetVarint64 i3 with
            | none => rw [h3] at h; simp at h
            | some r3 =>
              obtain ⟨a3, i4⟩ := r3
              rw [h3] at h; simp only at h
              cases h4 : GetVarint64 i4 with
              | none => rw [h4] at h; simp at h
              | some r4 =>
                obtain ⟨a4, i5⟩ := r4
                rw [h4] at h; simp only at h
                cases h5 : GetInternalKey i5 with
                | none => rw [h5] at h; simp at h
                | some r5 =>
                  obtain ⟨a5, i6⟩ := r5
                  rw [h5] at h; simp only at h
                  cases h6 : GetInternalKey i6 with
                  | none => rw [h6] at h; simp at h
                  | some r6 =>
                    obtain ⟨a6, i7⟩ := r6
                    rw [h6] at h
                    simp only [Option.some.injEq, Prod.mk.injEq] at h
                    obtain ⟨b1, e1, g1⟩ := GetVarint64_sound _ _ _ h1
                    obtain ⟨br, er, gr⟩ := decodeRegions_sound _ _ _ _ _ _ hr
                    obtain ⟨b3, e3, g3⟩ := GetVarint64_sound _ _ _ h3
                    obtain ⟨b4, e4, g4⟩ := GetVarint64_sound _ _ _ h4
                    obtain ⟨b5, e5, g5⟩ := GetLengthPrefixedSlice_sound _ _ _ h5
                    obtain ⟨b6, e6, g6⟩ := GetLengthPrefixedSlice_sound _ _ _ h6
                    refine ⟨b1 ++ (n :: (br ++ (b3 ++ (b4 ++ (b5 ++ b6))))), ?_,
                      b1, n, br, b3, b4, b5, b6, rfl, g1, hn, gr, g3, g4, g5, g6⟩
                    rw [e1, er, e3, e4, e5, e6, h.2]
                    simp only [List.append_assoc, List.cons_append]
      · simp only [hn, not_false_eq_true, if_true] at h
        simp at h

theorem DecodeLN_complete (bytes : List Byte) (h : IsLNTable bytes) (m : SSZoneMetaData)
    (hok : ArraysOk m) (rest : List Byte) :
    ∃ m2, DecodeLN (bytes ++ rest) m = some (some (m2, rest)) := by
  obtain ⟨b1, n, br, b3, b4, b5, b6, e, g1, hn, gr, g3, g4, g5, g6⟩ := h
  subst e
  obtain ⟨v1, h1⟩ := GetVarint64_complete b1
    (n :: (br ++ (b3 ++ (b4 ++ (b5 ++ (b6 ++ rest)))))) g1
  obtain ⟨m3, hr, _⟩ := decodeRegions_complete n 0 br
    { m with number := v1, LN := { m.LN with lba_regions := n } }
    (b3 ++ (b4 ++ (b5 ++ (b6 ++ rest)))) gr (by omega) hok
  obtain ⟨v3, h3⟩ := GetVarint64_complete b3 (b4 ++ (b5 ++ (b6 ++ rest))) g3
  obtain ⟨v4, h4⟩ := GetVarint64_complete b4 (b5 ++ (b6 ++ rest)) g4
  obtain ⟨v5, h5⟩ := GetLengthPrefixedSlice_complete b5 (b6 ++ rest) g5
  obtain ⟨v6, h6⟩ := GetLengthPrefixedSlice_complete b6 rest g6
  unfold DecodeLN
  simp only [List.append_assoc, List.cons_append, h1, GetFixed8, hn, not_true_eq_false,
    if_false, hr, h3, h4, GetInternalKey, h5, h6]
  exact ⟨_, rfl⟩

end zns_impl
namespace zns_impl

/-! ## The decoder against the format of the spec: fields -/

theorem decodeCase_sound (vt : ZnsVersionTag) (input : List Byte) (st st2 : DecodeState)
    (rest : List Byte) (h : decodeCase vt input st = some (.ok (st2, rest))) :
    ∃ bytes, input = bytes ++ rest ∧ IsPayload vt bytes := by
  cases vt with
  | kComparator =>
    unfold decodeCase at h
    cases h1 : GetLengthPrefixedSlice input with
    | none => rw [h1] at h; simp at h
    | some r =>
      rw [h1] at h
      simp only [Option.some.injEq, Except.ok.injEq, Prod.mk.injEq] at h
      obtain ⟨b, e, g⟩ := GetLengthPrefixedSlice_sound _ _ _ h1
      exact ⟨b, by rw [e, h.2], g⟩
  | kLastSequence =>
    unfold decodeCase at h
    cases h1 : GetVarint64 input with
    | none => rw [h1] at h; simp at h
    | some r =>
      rw [h1] at h
      simp only [Option.some.injEq, Except.ok.injEq, Prod.mk.injEq] at h
      obtain ⟨b, e, g⟩ := GetVarint64_sound _ _ _ h1
      exact ⟨b, by rw [e, h.2], g⟩
  | kNextSSTableNumber =>
    unfold decodeCase at h
    cases h1 : GetVarint64 input with
    | none => rw [h1] at h; simp at h
    | some r =>
      rw [h1] at h
      simp only [Option.some.injEq, Except.ok.injEq, Prod.mk.injEq] at h
      obtain ⟨b, e, g⟩ := GetVarint64_sound _ _ _ h1
      exact ⟨b, by rw [e, h.2], g⟩
  | kDeletedRange =>
    unfold decodeCase at h
    cases h1 : GetVarint64 input with
    | none => rw [h1] at h; simp at h
    | some r =>
      rw [h1] at h; simp only at h
      cases h2 : GetVarint64 r.2 with
      | none => rw [h2] at h; simp at h
      | some r2 =>
        rw [h2] at h
        simp only [Option.some.injEq, Except.ok.injEq, Prod.mk.injEq] at h
        obtain ⟨b1, e1, g1⟩ := GetVarint64_sound _ _ _ h1
        obtain ⟨b2, e2, g2⟩ := GetVarint64_sound _ _ _ h2
        exact ⟨b1 ++ b2, by rw [e1, e2, h.2, List.append_assoc], b1, b2, rfl, g1, g2⟩
  | kCompactPointer =>
    unfold decodeCase at h
    cases h1 : GetLevel input with
    | none => rw [h1] at h; simp at h
    | some r =>
      rw [h1] at h; simp only at h
      cases h2 : GetInternalKey r.2 with
      | none => rw [h2] at h; simp at h
      | some r2 =>
        rw [h2] at h
        simp only [Option.some.injEq, Except.ok.injEq, Prod.mk.injEq] at h
        obtain ⟨e1, g1⟩ := GetLevel_sound _ _ _ h1
        obtain ⟨b2, e2, g2⟩ := GetLengthPrefixedSlice_sound _ _ _ h2
        exact ⟨r.1 :: b2, by rw [e1, e2, h.2]; rfl, r.1, b2, rfl, g1, g2⟩
  | kFragmentedData =>
    unfold decodeCase at h
    cases h1 : GetLevel input with
    | none => rw [h1] at h; simp at h
    | some r =>
      rw [h1] at h; simp only at h
      cases h2 : GetLengthPrefixedSlice r.2 with
      | none => rw [h2] at h; simp at h
      | some r2 =>
        rw [h2] at h
        simp only [Option.some.injEq, Except.ok.injEq, Prod.mk.injEq] at h
        obtain ⟨e1, g1⟩ := GetLevel_sound _ _ _ h1
        obtain ⟨b2, e2, g2⟩ := GetLengthPrefixedSlice_sound _ _ _ h2
        exact ⟨r.1 :: b2, by rw [e1, e2, h.2]; rfl, r.1, b2, rfl, g1, g2⟩
  | kDeletedSSTable =>
    unfold decodeCase at h
    cases h1 : GetLevel input with
    | none => rw [h1] at h; simp at h
    | some r =>
      rw [h1] at h; simp only at h
      obtain ⟨e1, g1⟩ := GetLevel_sound _ _ _ h1
      cases h2 : DecodeLevel r.2 r.1 st.m with
      | none => rw [h2] at h; simp at h
      | some q =>
        cases q with
        | none => rw [h2] at h; simp at h
        | some p =>
          rw [h2] at h
          simp only [Option.some.injEq, Except.ok.injEq, Prod.mk.injEq] at h
          unfold DecodeLevel at h2
          by_cases hl : r.1 = 0
          · rw [if_pos hl] at h2
            simp only [Option.some.injEq] at h2
            obtain ⟨b2, e2, g2⟩ := DecodeL0_sound _ _ _ _ h2
            exact ⟨r.1 :: b2, by rw [e1, e2, h.2]; rfl, r.1, b2, rfl, g1, by rw [if_pos hl]; exact g2⟩
          · rw [if_neg hl] at h2
            obtain ⟨b2, e2, g2⟩ := DecodeLN_sound _ _ _ _ h2
            exact ⟨r.1 :: b2, by rw [e1, e2, h.2]; rfl, r.1, b2, rfl, g1, by rw [if_neg hl]; exact g2⟩
  | kNewSSTable =>
    unfold decodeCase at h
    cases h1 : GetLevel input with
    | none => rw [h1] at h; simp at h
    | some r =>
      rw [h1] at h; simp only at h
      obtain ⟨e1, g1⟩ := GetLevel_sound _ _ _ h1
      cases h2 : DecodeLevel r.2 r.1 st.m with
      | none => rw [h2] at h; simp at h
      | some q =>
        cases q with
        | none => rw [h2] at h; simp at h
        | some p =>
          rw [h2] at h
          simp only [Option.some.injEq, Except.ok.injEq, Prod.mk.injEq] at h
          unfold DecodeLevel at h2
          by_cases hl : r.1 = 0
          · rw [if_pos hl] at h2
            simp only [Option.some.injEq] at h2
            obtain ⟨b2, e2, g2⟩ := DecodeL0_sound _ _ _ _ h2
            exact ⟨r.1 :: b2, by rw [e1, e2, h.2]; rfl, r.1, b2, rfl, g1, by rw [if_pos hl]; exact g2⟩
          · rw [if_neg hl] at h2
            obtain ⟨b2, e2, g2⟩ := DecodeLN_sound _ _ _ _ h2
            exact ⟨r.1 :: b2, by rw [e1, e2, h.2]; rfl, r.1, b2, rfl, g1, by rw [if_neg hl]; exact g2⟩

theorem decodeCase_complete (vt : ZnsVersionTag) (bytes rest : List Byte) (st : DecodeState)
    (h : IsPayload vt bytes) (hinv : DecodeInv st) :
    ∃ st2, decodeCase vt (bytes ++ rest) st = some (.ok (st2, rest)) := by
  cases vt with
  | kComparator =>
    obtain ⟨s, hs⟩ := GetLengthPrefixedSlice_complete bytes rest h
    simp only [decodeCase, hs]
    exact ⟨_, rfl⟩
  | kLastSequence =>
    obtain ⟨s, hs⟩ := GetVarint64_complete bytes rest h
    simp only [decodeCase, hs]
    exact ⟨_, rfl⟩
  | kNextSSTableNumber =>
    obtain ⟨s, hs⟩ := GetVarint64_complete bytes rest h
    simp only [decodeCase, hs]
    exact ⟨_, rfl⟩
  | kDeletedRange =>
    obtain ⟨b1, b2, e, g1, g2⟩ := h
    subst e
    obtain ⟨v1, h1⟩ := GetVarint64_complete b1 (b2 ++ rest) g1
    obtain ⟨v2, h2⟩ := GetVarint64_complete b2 rest g2
    simp only [decodeCase, List.append_assoc, h1, h2]
    exact ⟨_, rfl⟩
  | kCompactPointer =>
    obtain ⟨level, key, e, g1, g2⟩ := h
    subst e
    obtain ⟨v2, h2⟩ := GetLengthPrefixedSlice_complete key rest g2
    simp only [decodeCase, List.cons_append, GetLevel_complete _ _ g1,
      GetInternalKey, h2]
    exact ⟨_, rfl⟩
  | kFragmentedData =>
    obtain ⟨level, key, e, g1, g2⟩ := h
    subst e
    obtain ⟨v2, h2⟩ := GetLengthPrefixedSlice_complete key rest g2
    simp only [decodeCase, List.cons_append, GetLevel_complete _ _ g1, h2]
    exact ⟨_, rfl⟩
  | kDeletedSSTable =>
    obtain ⟨level, table, e, g1, g2⟩ := h
    subst e
    by_cases hl : level = 0
    · rw [if_pos hl] at g2
      obtain ⟨m2, h2⟩ := DecodeL0_complete table g2 st.m rest
      simp only [decodeCase, List.cons_append, GetLevel_complete _ _ g1,
        DecodeLevel, if_pos hl, h2]
      exact ⟨_, rfl⟩
    · rw [if_neg hl] at g2
      obtain ⟨m2, h2⟩ := DecodeLN_complete table g2 st.m hinv.1 rest
      simp only [decodeCase, List.cons_append, GetLevel_complete _ _ g1,
        DecodeLevel, if_neg hl, h2]
      exact ⟨_, rfl⟩
  | kNewSSTable =>
    obtain ⟨level, table, e, g1, g2⟩ := h
    subst e
    by_cases hl : level = 0
    · rw [if_pos hl] at g2
      obtain ⟨m2, h2⟩ := DecodeL0_complete table g2 st.m rest
      simp only [decodeCase, List.cons_append, GetLevel_complete _ _ g1,
        DecodeLevel, if_pos hl, h2]
      exact ⟨_, rfl⟩
    · rw [if_neg hl] at g2
      obtain ⟨m2, h2⟩ := DecodeLN_complete table g2 st.m hinv.1 rest
      simp only [decodeCase, List.cons_append, GetLevel_complete _ _ g1,
        DecodeLevel, if_neg hl, h2]
      exact ⟨_, rfl⟩

end zns_impl
namespace zns_impl

/-! ## The decoder against the format of the spec: the loop -/

theorem versionTag_some (tag : ZnsVersionTag → Nat) (t : Nat) (vt : ZnsVersionTag)
    (h : versionTag tag t = some vt) : tag vt = t := by
  unfold versionTag at h
  have := List.find?_some h
  simpa using this

theorem versionTag_none (tag : ZnsVersionTag → Nat) (t : Nat) (h : ∀ vt, tag vt ≠ t) :
    versionTag tag t = none := by
  unfold versionTag
  rw [List.find?_eq_none]
  intro vt _
  simpa using h vt

theorem IsVarint32_ne_nil (v : Nat) (t : List Byte) (h : IsVarint32 v t) : 0 < t.length := by
  obtain ⟨_, w, hw, _⟩ := h
  cases t with
  | nil => simp [leb128] at hw
  | cons b bs => simp

theorem decodeLoop_complete (tag : ZnsVersionTag → Nat) (htag : Function.Injective tag)
    (pre : List Byte) (h : IsEdit tag pre) :
    ∀ (rest : List Byte) (fuel : Nat) (st : DecodeState), DecodeInv st →
      (pre ++ rest).length < fuel →
      ∃ fuel2 st2, rest.length < fuel2
        ∧ decodeLoop tag fuel (pre ++ rest) st = decodeLoop tag fuel2 rest st2
        ∧ DecodeInv st2 := by
  induction h with
  | nil =>
    intro rest fuel st hinv hfuel
    exact ⟨fuel, st, by simpa using hfuel, rfl, hinv⟩
  | cons field more hfield _ ih =>
    intro rest fuel st hinv hfuel
    obtain ⟨vt, t, payload, e, ht, hp⟩ := hfield
    subst e
    cases fuel with
    | zero => exact absurd hfuel (Nat.not_lt_zero _)
    | succ fuel =>
      obtain ⟨st1, hcase⟩ := decodeCase_complete vt payload (more ++ rest) st hp hinv
      obtain ⟨q, hq, hspec⟩ := decodeCase_total vt (payload ++ (more ++ rest)) st hinv
      rw [hcase] at hq
      simp only [Option.some.injEq] at hq
      obtain ⟨hinv1, _⟩ := hspec st1 (more ++ rest) hq.symm
      have hpos := IsVarint32_ne_nil _ _ ht
      obtain ⟨fuel2, st2, hf2, hloop, hinv2⟩ := ih rest fuel st1 hinv1 (by
        simp only [List.length_append] at hfuel ⊢
        omega)
      refine ⟨fuel2, st2, hf2, ?_, hinv2⟩
      rw [← hloop, decodeLoop]
      have hget : GetVarint32 (t ++ payload ++ more ++ rest)
          = some (tag vt, payload ++ (more ++ rest)) := by
        rw [GetVarint32_iff]
        exact ⟨t, by simp only [List.append_assoc], ht⟩
      simp only [hget, versionTag_tag tag htag vt, hcase]

theorem decodeLoop_sound (tag : ZnsVersionTag → Nat) :
    ∀ (fuel : Nat) (input : List Byte) (st st2 : DecodeState) (rest : List Byte),
      decodeLoop tag fuel input st = some (none, st2, rest) →
      GetVarint32 rest = none ∧ ∃ pre, input = pre ++ rest ∧ IsEdit tag pre := by
  intro fuel
  induction fuel with
  | zero => intro input st st2 rest h; simp [decodeLoop] at h
  | succ fuel ih =>
    intro input st st2 rest h
    rw [decodeLoop] at h
    cases h1 : GetVarint32 input with
    | none =>
      rw [h1] at h
      simp only [Option.some.injEq, Prod.mk.injEq, true_and] at h
      rw [← h.2]
      exact ⟨h1, [], rfl, IsEdit.nil⟩
    | some r1 =>
      obtain ⟨t, i1⟩ := r1
      rw [h1] at h; simp only at h
      cases h2 : versionTag tag t with
      | none => rw [h2] at h; simp at h
      | some vt =>
        rw [h2] at h; simp only at h
        cases h3 : decodeCase vt i1 st with
        | none => rw [h3] at h; simp at h
        | some q =>
          cases q with
          | error msg => rw [h3] at h; simp at h
          | ok p =>
            obtain ⟨st1, i2⟩ := p
            rw [h3] at h; simp only at h
            obtain ⟨hend, pre, e, hedit⟩ := ih _ _ _ _ h
            obtain ⟨tb, e1, g1⟩ := (GetVarint32_iff _ _ _).mp h1
            obtain ⟨pb, e2, g2⟩ := decodeCase_sound _ _ _ _ _ h3
            refine ⟨hend, (tb ++ pb) ++ pre, ?_, IsEdit.cons _ _ ⟨vt, tb, pb, rfl, ?_, g2⟩ hedit⟩
            · rw [e1, e2, e]; simp only [List.append_assoc]
            · rw [versionTag_some tag t vt h2]; exact g1

theorem DecodeInv_start : DecodeInv ⟨Clear, SSZoneMetaData.fresh⟩ :=
  DecodeInv_fresh Clear (fun t ht => by simp [Clear] at ht) (fun t ht => by simp [Clear] at ht)

/-- `DecodeFrom` returns OK exactly on the sequences of complete fields. -/
theorem DecodeFrom_OK_iff (tag : ZnsVersionTag → Nat) (htag : Function.Injective tag)
    (src : List Byte) :
    (∃ d, DecodeFrom tag Clear src = some (Status.OK, none, d)) ↔ IsEdit tag src := by
  obtain ⟨msg, st2, rest, hloop, _⟩ := decodeLoop_total tag (src.length + 1) src
    ⟨Clear, SSZoneMetaData.fresh⟩ DecodeInv_start (Nat.lt_succ_self _)
  rw [DecodeFrom_of_loop tag Clear src _ _ _ hloop]
  constructor
  · rintro ⟨d, hd⟩
    by_cases hc : msg = none ∧ rest = []
    · obtain ⟨hm, hr⟩ := hc
      subst hm hr
      obtain ⟨_, pre, e, hedit⟩ := decodeLoop_sound tag _ _ _ _ _ hloop
      rw [e, List.append_nil]; exact hedit
    · rw [if_neg hc] at hd
      simp at hd
  · intro hedit
    obtain ⟨fuel2, st3, hf2, hl, _⟩ := decodeLoop_complete tag htag src hedit [] (src.length + 1)
      ⟨Clear, SSZoneMetaData.fresh⟩ DecodeInv_start (by simp)
    rw [List.append_nil, decodeLoop_nil tag fuel2 st3 hf2, hloop] at hl
    simp only [Option.some.injEq, Prod.mk.injEq] at hl
    rw [if_pos ⟨hl.1, hl.2.2⟩]
    exact ⟨_, rfl⟩

end zns_impl
namespace zns_impl

/-- After a sequence of complete fields the loop of `DecodeFrom` stands at the
rest of the input. -/
theorem decodeLoop_after_fields (tag : ZnsVersionTag → Nat) (htag : Function.Injective tag)
    (pre input : List Byte) (h : IsEdit tag pre) :
    ∃ fuel st, input.length < fuel + 1 ∧ DecodeInv st
      ∧ decodeLoop tag ((pre ++ input).length + 1) (pre ++ input) ⟨Clear, SSZoneMetaData.fresh⟩
        = decodeLoop tag (fuel + 1) input st := by
  obtain ⟨fuel2, st2, hf2, hl, hinv⟩ := decodeLoop_complete tag htag pre h input
    ((pre ++ input).length + 1) ⟨Clear, SSZoneMetaData.fresh⟩ DecodeInv_start
    (Nat.lt_succ_self _)
  cases fuel2 with
  | zero => exact absurd hf2 (Nat.not_lt_zero _)
  | succ fuel => exact ⟨fuel, st2, hf2, hinv, hl⟩

/-- The loop fails in the round in which it meets a field that the end of the
input cuts short. -/
theorem decodeLoop_truncated (tag : ZnsVersionTag → Nat) (htag : Function.Injective tag)
    (input more : List Byte) (hfield : IsField tag (input ++ more)) (hmore : more ≠ [])
    (fuel : Nat) (st : DecodeState) (hinv : DecodeInv st) :
    decodeLoop tag (fuel + 1) input st = some (none, st, input)
      ∨ ∃ msg rest, decodeLoop tag (fuel + 1) input st = some (some msg, st, rest) := by
  rw [decodeLoop]
  cases h1 : GetVarint32 input with
  | none => exact Or.inl rfl
  | some r1 =>
    obtain ⟨t, i1⟩ := r1
    right
    simp only []
    obtain ⟨vt, tb, payload, e, ht, hp⟩ := hfield
    obtain ⟨tb2, e1, g1⟩ := (GetVarint32_iff _ _ _).mp h1
    have hA : GetVarint32 (input ++ more) = some (t, i1 ++ more) :=
      (GetVarint32_iff _ _ _).mpr ⟨tb2, by rw [e1, List.append_assoc], g1⟩
    have hB : GetVarint32 (input ++ more) = some (tag vt, payload) :=
      (GetVarint32_iff _ _ _).mpr ⟨tb, e, ht⟩
    rw [hA] at hB
    simp only [Option.some.injEq, Prod.mk.injEq] at hB
    obtain ⟨ht2, hpay⟩ := hB
    subst ht2
    rw [versionTag_tag tag htag vt]
    simp only []
    obtain ⟨q, hq, hspec⟩ := decodeCase_total vt i1 st hinv
    rw [hq]
    cases q with
    | error msg => exact ⟨msg, _, rfl⟩
    | ok p =>
      exfalso
      obtain ⟨st1, i2⟩ := p
      obtain ⟨pb, e2, g2⟩ := decodeCase_sound _ _ _ _ _ hq
      obtain ⟨s1, hc1⟩ := decodeCase_complete vt pb (i2 ++ more) st g2 hinv
      obtain ⟨s2, hc2⟩ := decodeCase_complete vt payload [] st hp hinv
      have hsame : pb ++ (i2 ++ more) = payload ++ [] := by
        rw [List.append_nil, ← hpay, e2, List.append_assoc]
      rw [hsame, hc2] at hc1
      simp only [Option.some.injEq, Except.ok.injEq, Prod.mk.injEq] at hc1
      have : i2 ++ more = [] := hc1.2.symm
      exact hmore (List.append_eq_nil.mp this).2

/-- C28: for every numbering of the tags by different numbers and every byte
string `src`: `DecodeFrom` returns OK if and only if `src` is a sequence of
complete fields, each introduced by a tag of the closed set (`IsEdit`, the
format in the words of the spec), and `Corruption` with a reason otherwise.
After any sequence of complete fields it returns `Corruption` with a reason when it
meets a varint that is no tag of the set, when bytes that do not start a tag
remain, and when the input ends inside a field. -/
theorem DecodeFrom_accepts_complete_fields (tag : ZnsVersionTag → Nat)
    (htag : Function.Injective tag) (src : List Byte) :
    ((∃ d, DecodeFrom tag Clear src = some (Status.OK, none, d)) ↔ IsEdit tag src)
    ∧ (¬ IsEdit tag src →
        ∃ reason d, DecodeFrom tag Clear src = some (Status.Corruption, some reason, d))
    ∧ (∀ pre input t rest, src = pre ++ input → IsEdit tag pre →
        GetVarint32 input = some (t, rest) → (∀ vt, tag vt ≠ t) →
        ∃ d, DecodeFrom tag Clear src
          = some (Status.Corruption, some "unknown or unsupported tag", d))
    ∧ (∀ pre input, src = pre ++ input → IsEdit tag pre → input ≠ [] →
        GetVarint32 input = none →
        ∃ d, DecodeFrom tag Clear src = some (Status.Corruption, some "invalid tag", d))
    ∧ (∀ pre input more, src = pre ++ input → IsEdit tag pre → input ≠ [] → more ≠ [] →
        IsField tag (input ++ more) →
        ∃ reason d, DecodeFrom tag Clear src
          = some (Status.Corruption, some reason, d)) := by
  refine ⟨DecodeFrom_OK_iff tag htag src, ?_, ?_, ?_, ?_⟩
  · intro hnot
    obtain ⟨msg, st2, rest, hloop, _⟩ := decodeLoop_total tag (src.length + 1) src
      ⟨Clear, SSZoneMetaData.fresh⟩ DecodeInv_start (Nat.lt_succ_self _)
    have hiff := DecodeFrom_OK_iff tag htag src
    rw [DecodeFrom_of_loop tag Clear src _ _ _ hloop] at hiff ⊢
    by_cases hc : msg = none ∧ rest = []
    · rw [if_pos hc] at hiff
      exact absurd (hiff.mp ⟨_, rfl⟩) hnot
    · rw [if_neg hc]
      cases msg with
      | none => exact ⟨"invalid tag", st2.edit, by simp⟩
      | some s => exact ⟨s, st2.edit, by simp⟩
  · intro pre input t rest hsrc hpre hget hno
    subst hsrc
    obtain ⟨fuel, st, _, _, hreach⟩ := decodeLoop_after_fields tag htag pre input hpre
    refine ⟨st.edit, DecodeFrom_of_message tag Clear _ _ st rest ?_⟩
    rw [hreach, decodeLoop, hget]
    simp only [versionTag_none tag t hno]
  · intro pre input hsrc hpre hne hget
    subst hsrc
    obtain ⟨fuel, st, _, _, hreach⟩ := decodeLoop_after_fields tag htag pre input hpre
    have hloop : decodeLoop tag ((pre ++ input).length + 1) (pre ++ input)
        ⟨Clear, SSZoneMetaData.fresh⟩ = some (none, st, input) := by
      rw [hreach, decodeLoop, hget]
    rw [DecodeFrom_of_loop tag Clear _ _ _ _ hloop]
    exact ⟨st.edit, by simp [hne]⟩
  · intro pre input more hsrc hpre hne hmore hfield
    subst hsrc
    obtain ⟨fuel, st, _, hinv, hreach⟩ := decodeLoop_after_fields tag htag pre input hpre
    rcases decodeLoop_truncated tag htag input more hfield hmore fuel st hinv with
      h | ⟨msg, rest, h⟩
    · rw [← hreach] at h
      rw [DecodeFrom_of_loop tag Clear _ _ _ _ h]
      exact ⟨"invalid tag", st.edit, by simp [hne]⟩
    · rw [← hreach] at h
      exact ⟨msg, st.edit, DecodeFrom_of_message tag Clear _ _ st rest h⟩

theorem isEdit_last_sequence : IsEdit ZnsVersionTag.number [2, 5] :=
  IsEdit.cons [2, 5] [] ⟨.kLastSequence, [2], [5], rfl, ⟨by decide, 2, by decide, by decide⟩,
    ⟨by decide, 5, by decide⟩⟩ IsEdit.nil

theorem DecodeFrom_accepts_complete_fields_witness :
    (∃ d, DecodeFrom ZnsVersionTag.number Clear [2, 5] = some (Status.OK, none, d))
      ∧ (∃ d, DecodeFrom ZnsVersionTag.number Clear [2, 5, 9]
          = some (Status.Corruption, some "unknown or unsupported tag", d))
      ∧ (∃ reason d, DecodeFrom ZnsVersionTag.number Clear [2, 5, 2, 128]
          = some (Status.Corruption, some reason, d)) :=
  ⟨(DecodeFrom_accepts_complete_fields ZnsVersionTag.number number_injective [2, 5]).1.mpr
      isEdit_last_sequence,
   (DecodeFrom_accepts_complete_fields ZnsVersionTag.number number_injective [2, 5, 9]).2.2.1
      [2, 5] [9] 9 [] rfl isEdit_last_sequence (by decide)
      (fun vt => by cases vt <;> decide),
   (DecodeFrom_accepts_complete_fields ZnsVersionTag.number number_injective
      [2, 5, 2, 128]).2.2.2.2 [2, 5] [2, 128] [1] rfl isEdit_last_sequence (by decide)
      (by decide)
      ⟨.kLastSequence, [2], [128, 1], rfl, ⟨by decide, 2, by decide, by decide⟩,
        ⟨by decide, 128, by decide⟩⟩⟩

end zns_impl

set_option maxRecDepth 1000000 in
/-- C39 (failing input): the array `type_crc_` of `kTropoRecordTypeLast + 1 = 5`
entries.  The stores at the indices 0 to 4 hold the CRC of the single byte
`i`, as `type_crc_` is read afterwards; the loop makes a sixth store, at index
5, which is the size of the array. -/
theorem InitTypeCrc_stores_past_the_array :
    (InitTypeCrcStores (kTropoRecordTypeLast + 1)).map (fun s => s.1) = [0, 1, 2, 3, 4, 5]
      ∧ InitTypeCrc.length = kTropoRecordTypeLast + 1
      ∧ ((InitTypeCrcStores (kTropoRecordTypeLast + 1)).take (kTropoRecordTypeLast + 1)).map
          (fun s => s.2) = InitTypeCrc
      ∧ (InitTypeCrcStores (kTropoRecordTypeLast + 1)).getLast?
          = some (kTropoRecordTypeLast + 1, crc32c.Value [5])
      ∧ ¬ (kTropoRecordTypeLast + 1 < InitTypeCrc.length) := by
  refine ⟨by decide, by decide, by decide, by decide, by decide⟩

set_option maxRecDepth 1000000 in
/-- C32 (failing input): `lba_size = 16` and a string of 16 bytes whose header
claims a length of 200.  The loop is entered at cursor 0, the header lies
inside the string and the record is treated as invalid (the call returns
false), yet the CRC is computed over the 201 bytes from offset 7 on: the
offsets 16 to 207 are read and lie outside the string.  On a string of 3 bytes
the header bytes at the offsets 4 to 7 lie outside the string. -/
theorem SeekCommitReaderString_reads_past_the_string :
    (GetCommitReaderString [0, 0, 0, 0, 200, 0, 0, 1, 0, 0, 0, 0, 0, 0, 0, 0]).commit_ptr
        < (GetCommitReaderString [0, 0, 0, 0, 200, 0, 0, 1, 0, 0, 0, 0, 0, 0, 0, 0]).commit_end
      ∧ headerLength [0, 0, 0, 0, 200, 0, 0, 1, 0, 0, 0, 0, 0, 0, 0, 0] = 200
      ∧ (seekStringReads
          (GetCommitReaderString [0, 0, 0, 0, 200, 0, 0, 1, 0, 0, 0, 0, 0, 0, 0, 0])).filter
            (fun k => decide (16 ≤ k)) = (List.range 192).map (fun k => 16 + k)
      ∧ (SeekCommitReaderString 16
          (GetCommitReaderString [0, 0, 0, 0, 200, 0, 0, 1, 0, 0, 0, 0, 0, 0, 0, 0]) []).map
            (fun r => (r.1, r.2.1)) = some (false, [])
      ∧ (GetCommitReaderString [1, 2, 3]).commit_ptr
          < (GetCommitReaderString [1, 2, 3]).commit_end
      ∧ (seekStringReads (GetCommitReaderString [1, 2, 3])).filter (fun k => decide (3 ≤ k))
          = [4, 5, 6, 7, 3, 7] := by
  refine ⟨by decide, by decide, by decide, by decide, by decide, by decide⟩

set_option maxRecDepth 1000000 in
/-- C31 (failing input): `lba_size = 16`, a log of one block.  After
`Commit` of the empty payload the block holds a Full record of length 0: the
seek returns true and leaves the cursor at LBA 0, where it was at entry.  When
the block holds a CRC-valid First record of length 0, every iteration leaves
the cursor at LBA 0 and goes on: the call returns for no number of
iterations. -/
theorem SeekCommitReader_cursor_stays :
    Commit 16 true ⟨List.replicate 16 0, 0⟩ []
        = some ([⟨0, .kFullType, []⟩],
            some (Status.OK, 1, ⟨[5, 43, 40, 67, 0, 0, 0, 1, 0, 0, 0, 0, 0, 0, 0, 0], 1⟩))
      ∧ GetCommitReader 1 0 0 1 ⟨0, 0, 0, 0, []⟩ = (Status.OK, ⟨0, 1, 0, 0, deadbeef⟩)
      ∧ SeekCommitReader 16 ⟨[5, 43, 40, 67, 0, 0, 0, 1, 0, 0, 0, 0, 0, 0, 0, 0], 1⟩ 16 1
          ⟨0, 1, 0, 0, deadbeef⟩ [] = some (true, [], ⟨0, 1, 0, 0, []⟩)
      ∧ deviceType 16 ⟨[100, 81, 208, 233, 0, 0, 0, 2, 0, 0, 0, 0, 0, 0, 0, 0], 1⟩
          ⟨0, 1, 0, 0, []⟩ = TropoRecordType.kFirstType
      ∧ (∀ fuel, SeekCommitReader 16
          ⟨[100, 81, 208, 233, 0, 0, 0, 2, 0, 0, 0, 0, 0, 0, 0, 0], 1⟩ 16 fuel
          ⟨0, 1, 0, 0, deadbeef⟩ [] = none) := by
  refine ⟨by decide, by decide, by decide, by decide, ?_⟩
  have hloop : ∀ fuel inf, seekLoop 16
      ⟨[100, 81, 208, 233, 0, 0, 0, 2, 0, 0, 0, 0, 0, 0, 0, 0], 1⟩ fuel ⟨0, 1, 0, 0, []⟩ inf
      = none := by
    intro fuel
    induction fuel with
    | zero => intro inf; rfl
    | succ fuel ih =>
      intro inf
      have ht : deviceType 16
          ⟨[100, 81, 208, 233, 0, 0, 0, 2, 0, 0, 0, 0, 0, 0, 0, 0], 1⟩ ⟨0, 1, 0, 0, []⟩
          = TropoRecordType.kFirstType := by decide
      have hl : deviceLength 16
          ⟨[100, 81, 208, 233, 0, 0, 0, 2, 0, 0, 0, 0, 0, 0, 0, 0], 1⟩ ⟨0, 1, 0, 0, []⟩
          = 0 := by decide
      rw [seekLoop_succ 16 _ fuel ⟨0, 1, 0, 0, []⟩ inf (by decide), ht, hl]
      exact ih true
  intro fuel
  exact hloop fuel false

namespace zns_impl

/-- C38 (failing input): a fresh factory, one `register_qpair` that succeeds
(`rc = 0`) and the `unregister_qpair` of that qpair.  The registration leaves
`qpair_count_` at 0, the unregistration takes it to -1, and the assertion of
the destructor fails.  A registration that fails (`rc = -1`) is the one that
is counted. -/
theorem qpair_count_after_register_unregister :
    (QPairFactory.create.register_qpair 0).2.qpair_count_ = 0
      ∧ (((QPairFactory.create.register_qpair 0).2).unregister_qpair 0).2.qpair_count_ = -1
      ∧ (((QPairFactory.create.register_qpair 0).2).unregister_qpair 0).2.destructorAssertion
          = false
      ∧ (QPairFactory.create.register_qpair (-1)).2.qpair_count_ = 1 := by
  refine ⟨by decide, by decide, by decide, by decide⟩

/-- C36 (failing input): the constants of `tropodb_config_default.h` and the
zones `[0, 50)`.  A manager is returned whose L0 range is `[0, 100)`, past
`max_zone`, and whose LN range is `(100, 50)`, with first above second.  On the
zones `[0, 100)` the LN range of the manager is the empty `(100, 100)`. -/
theorem NewZNSSTableManager_ranges_leave_the_zones :
    NewZNSSTableManager defaultConfig true 0 50 = some (some [(0, 100), (100, 50)])
      ∧ NewZNSSTableManager defaultConfig true 0 100 = some (some [(0, 100), (100, 100)]) := by
  refine ⟨by decide, by decide⟩

/-- C37 (failing input): one table with the keys 10, 20, 30.  `SeekToFirst`
positions the iterator on 10 and `Next` on 20; `Prev` then positions it on 30,
not on 10.  `Prev` on the first entry leaves the iterator valid, on 20.  With
the two tables 10, 20 and 30, 40: from 30, reached by `SeekToFirst` and two
calls of `Next`, `Prev` positions the iterator on 40; from 40 it positions it
on 10. -/
theorem LNIterator_Prev_moves_forward :
    (LNIterator.SeekToFirst (fun _ => [10, 20, 30])
        (LNIterator.create (LNZoneIterator.create (exampleSlist.take 1) 1))).map
          LNIterator.key = some (some 10)
      ∧ ((LNIterator.SeekToFirst (fun _ => [10, 20, 30])
          (LNIterator.create (LNZoneIterator.create (exampleSlist.take 1) 1))).bind
          (LNIterator.Next (fun _ => [10, 20, 30]))).map LNIterator.key = some (some 20)
      ∧ (((LNIterator.SeekToFirst (fun _ => [10, 20, 30])
          (LNIterator.create (LNZoneIterator.create (exampleSlist.take 1) 1))).bind
          (LNIterator.Next (fun _ => [10, 20, 30]))).bind
          (LNIterator.Prev (fun _ => [10, 20, 30]))).map LNIterator.key = some (some 30)
      ∧ ((LNIterator.SeekToFirst (fun _ => [10, 20, 30])
          (LNIterator.create (LNZoneIterator.create (exampleSlist.take 1) 1))).bind
          (LNIterator.Prev (fun _ => [10, 20, 30]))).map
            (fun it => (it.Valid, it.key)) = some (true, some 20)
      ∧ (((LNIterator.SeekToFirst exampleZoneFunction
          (LNIterator.create (LNZoneIterator.create exampleSlist 1))).bind
          (LNIterator.Next exampleZoneFunction)).bind
          (LNIterator.Next exampleZoneFunction)).map LNIterator.key = some (some 30)
      ∧ ((((LNIterator.SeekToFirst exampleZoneFunction
          (LNIterator.create (LNZoneIterator.create exampleSlist 1))).bind
          (LNIterator.Next exampleZoneFunction)).bind
          (LNIterator.Next exampleZoneFunction)).bind
          (LNIterator.Prev exampleZoneFunction)).map LNIterator.key = some (some 40)
      ∧ (((((LNIterator.SeekToFirst exampleZoneFunction
          (LNIterator.create (LNZoneIterator.create exampleSlist 1))).bind
          (LNIterator.Next exampleZoneFunction)).bind
          (LNIterator.Next exampleZoneFunction)).bind
          (LNIterator.Next exampleZoneFunction)).bind
          (LNIterator.Prev exampleZoneFunction)).map LNIterator.key = some (some 10) := by
  refine ⟨by decide, by decide, by decide, by decide, by decide, by decide, by decide⟩

end zns_impl


theorem lbaCountSum_append (heap : MetaHeap) (ps qs : List Nat) :
    lbaCountSum heap (ps ++ qs) = lbaCountSum heap ps + lbaCountSum heap qs := by
  simp [lbaCountSum]

theorem lbaCountSum_take_add_drop (heap : MetaHeap) (ps : List Nat) (k : Nat) :
    lbaCountSum heap (ps.take k) + lbaCountSum heap (ps.drop k) = lbaCountSum heap ps := by
  rw [← lbaCountSum_append, List.take_append_drop]

theorem lbaCountSum_congr (heap1 heap2 : MetaHeap) (ps : List Nat)
    (h : ∀ p ∈ ps, (heap1 p).lba_count = (heap2 p).lba_count) :
    lbaCountSum heap1 ps = lbaCountSum heap2 ps := by
  induction ps with
  | nil => rfl
  | cons p ps ih =>
    rw [lbaCountSum_cons, lbaCountSum_cons, h p (List.mem_cons_self _ _),
      ih (fun q hq => h q (List.mem_cons_of_mem _ hq))]

theorem not_mem_drop_of_nodup (first : Nat) (rest : List Nat) (k : Nat) (hk : 0 < k)
    (hnd : (first :: rest).Nodup) : first ∉ (first :: rest).drop k := by
  obtain ⟨j, rfl⟩ : ∃ j, k = j + 1 := ⟨k - 1, by omega⟩
  rw [List.drop_succ_cons]
  intro hmem
  exact (List.nodup_cons.mp hnd).1 (List.mem_of_mem_drop hmem)

/-- C33: for a call that returns OK on a log whose write tail is a multiple of
`zone_cap`, on victims that lie below LBA `2^64`: the number of LBAs handed to
`ConsumeTail`, plus the `lba_count` of the remainder meta (0 if there is none),
is the sum of the `lba_count` the deleted victims `metas[0..upto)` had at the
call; `ConsumeTail` is called from the write tail and ends at or before the end
of the last deleted victim; and, when the pointers in `metas` are distinct, the
LBAs handed to `ConsumeTail` plus the `lba_count` of the metas appended to
`remaining_metas` make up the `lba_count` of all the input victims. -/
theorem consumed_lbas_accounting (zone_cap : Nat) (log : SZDCircularLog) (heap : MetaHeap)
    (metas remaining_metas : List Nat)
    (hal : log.write_tail % zone_cap = 0)
    (hno : log.write_tail + lbaCountSum heap metas < 2 ^ 64)
    (hok : (TryInvalidateSSZones zone_cap log heap metas remaining_metas).map
      (fun r => r.status) = some Status.OK) :
    ∃ r upto rem, TryInvalidateSSZones zone_cap log heap metas remaining_metas = some r
      ∧ upto ≤ metas.length
      ∧ r.remaining_metas = remaining_metas ++ rem ++ metas.drop upto
      ∧ (rem = [] ∨ (0 < upto ∧ rem = metas.take 1))
      ∧ r.consumedLbas + lbaCountSum r.heap rem = lbaCountSum heap (metas.take upto)
      ∧ (metas.Nodup →
          r.consumedLbas + lbaCountSum r.heap (rem ++ metas.drop upto)
            = lbaCountSum heap metas)
      ∧ (∀ from_lba to_lba, r.consume_tail = some (from_lba, to_lba) →
          from_lba = log.write_tail
            ∧ to_lba ≤ log.write_tail + lbaCountSum heap (metas.take upto)) := by
  cases metas with
  | nil => simp [TryInvalidateSSZones] at hok
  | cons first rest =>
    by_cases htail : log.write_tail = (heap first).L0.lba
    · have hz : zone_cap ≠ 0 := by
        intro h0
        have hne : ¬ log.write_tail ≠ (heap first).L0.lba := fun h => h htail
        simp [TryInvalidateSSZones, hne, h0] at hok
      have hoff : (heap first).L0.lba % zone_cap = 0 := by rw [← htail]; exact hal
      obtain ⟨hup, hsum⟩ := tail_walk_sum zone_cap log heap first rest _ rfl
        (by rw [hoff]; omega)
      have hsame := invalidateLoop_heap zone_cap log first heap rest heap first
        (u64 ((heap first).L0.lba % zone_cap + (heap first).lba_count)) 0 0 1
        (HeapSame_refl _ _)
      rw [TryInvalidateSSZones_at_tail zone_cap log heap first rest remaining_metas htail hz
        _ rfl] at hok ⊢
      generalize invalidateLoop zone_cap log first rest heap first
        (u64 ((heap first).L0.lba % zone_cap + (heap first).lba_count)) 0 0 1 = walk
        at hok hup hsum hsame ⊢
      rw [hoff, Nat.zero_add] at hsum
      have hle : lbaCountSum heap ((first :: rest).take walk.upto)
          ≤ lbaCountSum heap (first :: rest) := lbaCountSum_take_le _ _ _
      have hbtd : walk.blocks_to_delete = lbaCountSum heap ((first :: rest).take walk.upto) := by
        rcases hsum with ⟨h1, h2⟩ | ⟨_, hs⟩
        · rw [h1, h2]; simp [lbaCountSum]
        · exact hs
      have hdm := Nat.div_add_mod walk.blocks_to_delete zone_cap
      have hcle : walk.blocks_to_delete / zone_cap * zone_cap ≤ walk.blocks_to_delete :=
        Nat.div_mul_le_self _ _
      have hu : u64 (log.write_tail + walk.blocks_to_delete / zone_cap * zone_cap)
          = log.write_tail + walk.blocks_to_delete / zone_cap * zone_cap :=
        u64_of_lt (by omega)
      have hdrop : lbaCountSum walk.heap ((first :: rest).drop walk.upto)
          = lbaCountSum heap ((first :: rest).drop walk.upto) :=
        lbaCountSum_congr _ _ _ (fun p _ => (hsame p).2.1)
      have htd := lbaCountSum_take_add_drop heap (first :: rest) walk.upto
      have hcons : (InvalidateResult.consumedLbas
          ⟨if 0 < walk.blocks_to_delete / zone_cap * zone_cap then
              log.ConsumeTail log.write_tail
                (u64 (log.write_tail + walk.blocks_to_delete / zone_cap * zone_cap))
            else Status.OK,
           remaining_metas
              ++ (if walk.blocks_to_delete % zone_cap ≠ 0 then [first] else [])
              ++ (first :: rest).drop walk.upto,
           if walk.blocks_to_delete % zone_cap ≠ 0 then
              walk.heap.store first
                ⟨(walk.heap first).number,
                 ⟨log.wrapped_addr
                    (u64 (log.write_tail + walk.blocks_to_delete / zone_cap * zone_cap)),
                  (walk.heap first).L0.log_number⟩,
                 walk.blocks_to_delete % zone_cap⟩
            else walk.heap,
           if 0 < walk.blocks_to_delete / zone_cap * zone_cap then
              some (log.write_tail,
                u64 (log.write_tail + walk.blocks_to_delete / zone_cap * zone_cap))
            else none⟩) = walk.blocks_to_delete / zone_cap * zone_cap := by
        unfold InvalidateResult.consumedLbas
        by_cases hpos : 0 < walk.blocks_to_delete / zone_cap * zone_cap
        · simp only [if_pos hpos, hu]; omega
        · simp only [if_neg hpos]; omega
      have hto : ∀ from_lba to_lba,
          (if 0 < walk.blocks_to_delete / zone_cap * zone_cap then
              some (log.write_tail,
                u64 (log.write_tail + walk.blocks_to_delete / zone_cap * zone_cap))
            else none) = some (from_lba, to_lba) →
          from_lba = log.write_tail
            ∧ to_lba ≤ log.write_tail
                + lbaCountSum heap ((first :: rest).take walk.upto) := by
        intro from_lba to_lba h
        by_cases hpos : 0 < walk.blocks_to_delete / zone_cap * zone_cap
        · rw [if_pos hpos, hu] at h
          simp only [Option.some.injEq, Prod.mk.injEq] at h
          refine ⟨h.1.symm, ?_⟩
          rw [← h.2]; omega
        · rw [if_neg hpos] at h; exact absurd h (by simp)
      cases hd : walk.duplicate
      · simp only [Bool.false_eq_true, if_false]
        by_cases hc : walk.blocks_to_delete % zone_cap ≠ 0
        · have hpos : 0 < walk.upto := by
            rcases hsum with ⟨_, h0⟩ | ⟨hpos, _⟩
            · rw [h0] at hc; simp at hc
            · exact hpos
          have hrem : lbaCountSum
              (walk.heap.store first
                ⟨(walk.heap first).number,
                 ⟨log.wrapped_addr
                    (u64 (log.write_tail + walk.blocks_to_delete / zone_cap * zone_cap)),
                  (walk.heap first).L0.log_number⟩,
                 walk.blocks_to_delete % zone_cap⟩) [first]
              = walk.blocks_to_delete % zone_cap := by
            simp [lbaCountSum, MetaHeap.store]
          have hdrop2 : (first :: rest).Nodup → lbaCountSum
              (walk.heap.store first
                ⟨(walk.heap first).number,
                 ⟨log.wrapped_addr
                    (u64 (log.write_tail + walk.blocks_to_delete / zone_cap * zone_cap)),
                  (walk.heap first).L0.log_number⟩,
                 walk.blocks_to_delete % zone_cap⟩) ((first :: rest).drop walk.upto)
              = lbaCountSum heap ((first :: rest).drop walk.upto) := by
            intro hnd
            refine lbaCountSum_congr _ _ _ (fun p hp => ?_)
            have hne : p ≠ first := by
              intro hpf
              rw [hpf] at hp
              exact not_mem_drop_of_nodup first rest walk.upto hpos hnd hp
            simp only [MetaHeap.store, if_neg hne]
            exact (hsame p).2.1
          refine ⟨_, walk.upto, [first], rfl, hup, ?_, Or.inr ⟨hpos, rfl⟩, ?_, ?_, ?_⟩
          · simp only [if_pos hc]
          · rw [hcons]
            simp only [if_pos hc]
            rw [hrem]
            rw [Nat.mul_comm] at hdm
            omega
          · intro hnd
            rw [hcons]
            simp only [if_pos hc]
            rw [lbaCountSum_append, hrem, hdrop2 hnd]
            rw [Nat.mul_comm] at hdm
            omega
          · exact hto
        · have hc2 : walk.blocks_to_delete % zone_cap = 0 := by
            by_contra h; exact hc h
          refine ⟨_, walk.upto, [], rfl, hup, ?_, Or.inl rfl, ?_, ?_, ?_⟩
          · simp only [if_neg hc]
          · rw [hcons]
            rw [Nat.mul_comm] at hdm
            simp only [lbaCountSum, List.map_nil, List.sum_nil]
            rw [← lbaCountSum]
            omega
          · intro _
            rw [hcons]
            simp only [if_neg hc, List.nil_append]
            rw [hdrop]
            rw [Nat.mul_comm] at hdm
            omega
          · exact hto
      · simp [hd] at hok
    · rw [TryInvalidateSSZones_off_tail zone_cap log heap first rest remaining_metas htail]
      refine ⟨_, 0, [], rfl, Nat.zero_le _, by simp, Or.inl rfl, ?_, ?_, ?_⟩
      · simp [InvalidateResult.consumedLbas, lbaCountSum]
      · simp [InvalidateResult.consumedLbas]
      · intro from_lba to_lba h
        simp at h

theorem consumed_lbas_accounting_witness :
    (scenarioLog 0).write_tail % 64 = 0
      ∧ [0, 1, 2, 3].Nodup
      ∧ (scenarioLog 0).write_tail
          + lbaCountSum (fun p => ⟨p + 1, ⟨40 * p, 0⟩, 40⟩) [0, 1, 2, 3] < 2 ^ 64
      ∧ (TryInvalidateSSZones 64 (scenarioLog 0) (fun p => ⟨p + 1, ⟨40 * p, 0⟩, 40⟩)
          [0, 1, 2, 3] [9]).map
            (fun r => (r.status, r.consume_tail, r.remaining_metas, (r.heap 0).lba_count))
          = some (Status.OK, some (0, 128), [9, 0], 32)
      ∧ ∃ r upto rem, TryInvalidateSSZones 64 (scenarioLog 0)
          (fun p => ⟨p + 1, ⟨40 * p, 0⟩, 40⟩) [0, 1, 2, 3] [9] = some r
        ∧ upto ≤ [0, 1, 2, 3].length
        ∧ r.remaining_metas = [9] ++ rem ++ [0, 1, 2, 3].drop upto
        ∧ (rem = [] ∨ (0 < upto ∧ rem = [0, 1, 2, 3].take 1))
        ∧ r.consumedLbas + lbaCountSum r.heap rem
            = lbaCountSum (fun p => ⟨p + 1, ⟨40 * p, 0⟩, 40⟩) ([0, 1, 2, 3].take upto)
        ∧ ([0, 1, 2, 3].Nodup →
            r.consumedLbas + lbaCountSum r.heap (rem ++ [0, 1, 2, 3].drop upto)
              = lbaCountSum (fun p => ⟨p + 1, ⟨40 * p, 0⟩, 40⟩) [0, 1, 2, 3])
        ∧ (∀ from_lba to_lba, r.consume_tail = some (from_lba, to_lba) →
            from_lba = (scenarioLog 0).write_tail
              ∧ to_lba ≤ (scenarioLog 0).write_tail
                  + lbaCountSum (fun p => ⟨p + 1, ⟨40 * p, 0⟩, 40⟩)
                      ([0, 1, 2, 3].take upto)) :=
  ⟨by decide, by decide, by decide, by decide,
    consumed_lbas_accounting 64 (scenarioLog 0) (fun p => ⟨p + 1, ⟨40 * p, 0⟩, 40⟩)
      [0, 1, 2, 3] [9] (by decide) (by decide) (by decide)⟩

namespace zns_impl

/-- The loop of `FindSSTableIndex` between `left` and `right`, for a test that
holds on a prefix of `ss`: it ends within `right - left + 1` iterations, on the
end of that prefix. -/
theorem findSSTableLoop_spec (cmp : List Byte → List Byte → Int) (ss : List SSZoneMetaData)
    (key : List Byte) (hsize : ss.length < 2 ^ 63)
    (hmono : ∀ (i j : Nat) (mi mj : SSZoneMetaData), i ≤ j → ss[i]? = some mi → ss[j]? = some mj →
      cmp (user_key mj.largest) (ExtractUserKey key) < 0 →
      cmp (user_key mi.largest) (ExtractUserKey key) < 0) :
    ∀ fuel left right, left ≤ right → right ≤ ss.length → right - left < fuel →
      (∀ i m, i < left → ss[i]? = some m →
        cmp (user_key m.largest) (ExtractUserKey key) < 0) →
      (∀ i m, right ≤ i → ss[i]? = some m →
        0 ≤ cmp (user_key m.largest) (ExtractUserKey key)) →
      ∃ r, findSSTableLoop cmp ss key fuel left right = some r ∧ r ≤ ss.length
        ∧ (∀ i m, i < r → ss[i]? = some m →
            cmp (user_key m.largest) (ExtractUserKey key) < 0)
        ∧ (∀ i m, r ≤ i → ss[i]? = some m →
            0 ≤ cmp (user_key m.largest) (ExtractUserKey key)) := by
  intro fuel
  induction fuel with
  | zero => intro left right _ _ h; omega
  | succ fuel ih =>
    intro left right hlr hr hfuel hlow hhigh
    rw [findSSTableLoop]
    by_cases hlt : left < right
    · rw [if_pos hlt]
      have hmid : u64 (left + right) / 2 = (left + right) / 2 := by
        rw [u64_of_lt (by omega)]
      simp only [hmid]
      have hmr : (left + right) / 2 < right := by omega
      have hlm : left ≤ (left + right) / 2 := by omega
      have hmlen : (left + right) / 2 < ss.length := by omega
      generalize (left + right) / 2 = mid at hmr hlm hmlen
      have hget : ss[mid]? = some (ss.get ⟨mid, hmlen⟩) := List.getElem?_eq_getElem hmlen
      rw [hget]
      simp only []
      by_cases hc : cmp (user_key (ss.get ⟨mid, hmlen⟩).largest) (ExtractUserKey key) < 0
      · rw [if_pos hc]
        have hf : right - (mid + 1) < fuel := by omega
        refine ih (mid + 1) right (by omega) hr hf ?_ hhigh
        intro i m hi hm
        exact hmono i mid m _ (by omega) hm hget hc
      · rw [if_neg hc]
        have hf : mid - left < fuel := by omega
        refine ih left mid hlm (by omega) hf hlow ?_
        intro i m hi hm
        by_contra hneg
        exact hc (hmono mid i _ m hi hget hm (by omega))
    · rw [if_neg hlt]
      have : left = right := by omega
      subst this
      exact ⟨left, rfl, hr, hlow, hhigh⟩

theorem pairwise_getElem? {α : Type} (R : α → α → Prop) (l : List α)
    (h : l.Pairwise R) (i j : Nat) (a b : α) (hij : i < j)
    (ha : l[i]? = some a) (hb : l[j]? = some b) : R a b := by
  rw [List.pairwise_iff_getElem] at h
  obtain ⟨hi, rfl⟩ := List.getElem?_eq_some_iff.mp ha
  obtain ⟨hj, rfl⟩ := List.getElem?_eq_some_iff.mp hb
  exact h i j hi hj hij

/-- C35: for a comparator `cmp` that is transitive and a vector `ss` of fewer
than `2^63` metas that is sorted ascending by largest user key under `cmp`,
`FindSSTableIndex` returns an index `r <= ss.size()` such that the largest user
key of every meta before `r` compares below the user key of `key` and that of
the meta at `r`, if there is one, does not: `r` is the least index `i` with
`cmp(ss[i].largest.user_key, user_key(key)) >= 0`, or `ss.size()` when there is
none. -/
theorem FindSSTableIndex_least (cmp : List Byte → List Byte → Int) (ss : List SSZoneMetaData)
    (key : List Byte) (hsize : ss.length < 2 ^ 63)
    (htrans : ∀ a b c, cmp a b ≤ 0 → cmp b c < 0 → cmp a c < 0)
    (hsorted : ss.Pairwise (fun a b => cmp (user_key a.largest) (user_key b.largest) ≤ 0)) :
    ∃ r, FindSSTableIndex cmp ss key = some r ∧ r ≤ ss.length
      ∧ (∀ i m, i < r → ss[i]? = some m →
          cmp (user_key m.largest) (ExtractUserKey key) < 0)
      ∧ (∀ m, ss[r]? = some m → 0 ≤ cmp (user_key m.largest) (ExtractUserKey key))
      ∧ (∀ i m, ss[i]? = some m → 0 ≤ cmp (user_key m.largest) (ExtractUserKey key) →
          r ≤ i) := by
  have hmono : ∀ (i j : Nat) (mi mj : SSZoneMetaData), i ≤ j → ss[i]? = some mi → ss[j]? = some mj →
      cmp (user_key mj.largest) (ExtractUserKey key) < 0 →
      cmp (user_key mi.largest) (ExtractUserKey key) < 0 := by
    intro i j mi mj hij hi hj hc
    rcases Nat.lt_or_eq_of_le hij with hlt | heq
    · exact htrans _ _ _ (pairwise_getElem? _ ss hsorted i j mi mj hlt hi hj) hc
    · subst heq
      rw [hi] at hj
      cases hj
      exact hc
  obtain ⟨r, h1, h2, h3, h4⟩ := findSSTableLoop_spec cmp ss key hsize hmono (ss.length + 1) 0
    ss.length (Nat.zero_le _) (Nat.le_refl _) (by omega)
    (fun i m hi _ => absurd hi (Nat.not_lt_zero _))
    (fun i m hi hm => by
      have := (List.getElem?_eq_some_iff.mp hm).1
      omega)
  refine ⟨r, h1, h2, h3, fun m hm => h4 r m (Nat.le_refl _) hm, ?_⟩
  intro i m hm hge
  by_contra hlt
  have := h3 i m (by omega) hm
  omega

theorem FindSSTableIndex_least_witness :
    [(⟨1, ⟨0⟩, ⟨0, [], []⟩, 1, 4, [], [10, 0, 0, 0, 0, 0, 0, 0, 0]⟩ : SSZoneMetaData),
      ⟨2, ⟨0⟩, ⟨0, [], []⟩, 1, 4, [], [20, 0, 0, 0, 0, 0, 0, 0, 0]⟩,
      ⟨3, ⟨0⟩, ⟨0, [], []⟩, 1, 4, [], [30, 0, 0, 0, 0, 0, 0, 0, 0]⟩].length < 2 ^ 63
      ∧ FindSSTableIndex (fun a b => (a.headD 0 : Int) - (b.headD 0 : Int))
          [⟨1, ⟨0⟩, ⟨0, [], []⟩, 1, 4, [], [10, 0, 0, 0, 0, 0, 0, 0, 0]⟩,
            ⟨2, ⟨0⟩, ⟨0, [], []⟩, 1, 4, [], [20, 0, 0, 0, 0, 0, 0, 0, 0]⟩,
            ⟨3, ⟨0⟩, ⟨0, [], []⟩, 1, 4, [], [30, 0, 0, 0, 0, 0, 0, 0, 0]⟩]
          [15, 0, 0, 0, 0, 0, 0, 0, 0] = some 1
      ∧ ∃ r, FindSSTableIndex (fun a b => (a.headD 0 : Int) - (b.headD 0 : Int))
          [⟨1, ⟨0⟩, ⟨0, [], []⟩, 1, 4, [], [10, 0, 0, 0, 0, 0, 0, 0, 0]⟩,
            ⟨2, ⟨0⟩, ⟨0, [], []⟩, 1, 4, [], [20, 0, 0, 0, 0, 0, 0, 0, 0]⟩,
            ⟨3, ⟨0⟩, ⟨0, [], []⟩, 1, 4, [], [30, 0, 0, 0, 0, 0, 0, 0, 0]⟩]
          [15, 0, 0, 0, 0, 0, 0, 0, 0] = some r
        ∧ r ≤ 3 :=
  ⟨by decide, by decide,
    (FindSSTableIndex_least (fun a b => (a.headD 0 : Int) - (b.headD 0 : Int))
      [⟨1, ⟨0⟩, ⟨0, [], []⟩, 1, 4, [], [10, 0, 0, 0, 0, 0, 0, 0, 0]⟩,
        ⟨2, ⟨0⟩, ⟨0, [], []⟩, 1, 4, [], [20, 0, 0, 0, 0, 0, 0, 0, 0]⟩,
        ⟨3, ⟨0⟩, ⟨0, [], []⟩, 1, 4, [], [30, 0, 0, 0, 0, 0, 0, 0, 0]⟩]
      [15, 0, 0, 0, 0, 0, 0, 0, 0] (by decide)
      (fun a b c h1 h2 => by simp only [] at h1 h2 ⊢; omega)
      (by decide)).imp (fun r h => ⟨h.1, h.2.1⟩)⟩

end zns_impl
end TropoDB
